import Mathlib

/-!
The frequency minimizer of gtfstidy.

A shallow embedding of `processors/frequencyminizer.go` (the frequency
minimizer of gtfstidy) together with theorems about its cover engine
(`getCover`), its packer (`packCovers`), the stop-time remeasurer
(`remeasureStopTimes`), the equivalence test (`isTimeIndependentEqual`) and
the per-group step of the driver (`Run`); and of
`processors/shaperemeasurer.go` (the shape remeasurer) with theorems about
`remeasure`.

Conventions of the embedding.

* Go `int` values are unbounded integers (`Int`); times of day stay far from
  the 64-bit limits.  The narrowing conversion `int8(x)` is two's-complement
  wrap-around (`toInt8`).  Go integer division truncates towards zero
  (`Int.tdiv`).
* Pointers are compared by address only.  A `*gtfs.Frequency` is a `FreqPtr`
  (address plus the flag that can be read through it), a `*gtfs.Trip` is the
  identifier of the trip record it points to.
* A Go run-time panic (index out of range, nil dereference) and an exhausted
  iteration budget are both the result `none`.
* `sort.Sort` is not stable and the iteration order of a Go map is not
  defined.  Both are inputs of the model: `getCover` receives the array as
  it stands after `sort.Sort` and a function that gives, for every execution
  of `for freq := range freqs`, the order in which the keys are visited.
-/

namespace GtfsTidy

/-! ## Data model -/

/-- Modelled from the spec: the time-of-day value type `gtfs.Time` of the feed
model (package `gtfsparser/gtfs`, not part of this repository), a record of
hour, minute and second; `getGtfsTimeFromSec` builds it field by field. -/
structure Time where
  Hour : Int
  Minute : Int
  Second : Int
deriving DecidableEq, Repr

/-- Modelled from the spec: the conversion of a time of day to seconds since
midnight offered by the feed model (`gtfs.Time.SecondsSinceMidnight`). -/
def Time.SecondsSinceMidnight (t : Time) : Int :=
  t.Hour * 3600 + t.Minute * 60 + t.Second

/-- Go conversion `int8(x)` of an `int`: keep the low eight bits, read as a
signed number. -/
def toInt8 (x : Int) : Int :=
  (x + 128) % 256 - 128

/-- Source `getGtfsTimeFromSec`: convert seconds since midnight to a GTFS
time.  `/` is Go integer division (truncation towards zero). -/
def getGtfsTimeFromSec (s : Int) : Time :=
  { Hour := s.tdiv 3600
    Minute := toInt8 ((s - (s.tdiv 3600) * 3600).tdiv 60)
    Second := toInt8 (s - (s.tdiv 60) * 60) }

/-- Modelled from the spec: a frequency entry `gtfs.Frequency` (start time, end
time, headway in seconds, exact-times flag). -/
structure Frequency where
  Exact_times : Bool
  Start_time : Time
  End_time : Time
  Headway_secs : Int
deriving DecidableEq, Repr

/-- Modelled from the spec: one stop visit `gtfs.StopTime`.  `Stop` is the
address of the stop record; the cumulative distance is an exact rational. -/
structure StopTime where
  Stop : Nat
  Headsign : String
  Pickup_type : Int
  Drop_off_type : Int
  Shape_dist_traveled : Rat
  Timepoint : Bool
  Sequence : Int
  Arrival_time : Time
  Departure_time : Time
deriving DecidableEq, Repr

/-- Modelled from the spec: a trip record `gtfs.Trip`.  `Route`, `Service` and
`Shape` are addresses of the records they point to. -/
structure Trip where
  Id : String
  Route : Nat
  Service : Nat
  Headsign : String
  Short_name : String
  Direction_id : Int
  Block_id : String
  Shape : Nat
  Wheelchair_accessible : Int
  Bikes_allowed : Int
  StopTimes : List StopTime
  Frequencies : List Frequency
deriving DecidableEq, Repr

/-- A non-nil `*gtfs.Frequency`: the address it holds and the exact-times flag
of the entry stored there. -/
structure FreqPtr where
  addr : Nat
  Exact_times : Bool
deriving DecidableEq, Repr

/-- Source `FreqCandidate`: a progression, the indices of the trip-instances it
covers (source field `matches`, a reserved word here) and its headway. -/
structure FreqCandidate where
  matched : List Nat
  headways : Int
deriving DecidableEq, Repr

/-- Source `ProgressionCover`: a list of progressions and the set of trip
records they cover (a Go map used as a set, here a duplicate-free list). -/
structure ProgressionCover where
  progressions : List FreqCandidate
  coveredTrips : List String
deriving DecidableEq, Repr

/-- Source `TripWrapper`: one trip-instance.  `Trip` is the embedded trip
pointer, `t` the start time, `sourceFreq` is `none` for the nil pointer. -/
structure TripWrapper where
  Trip : String
  t : Time
  marked : Bool
  sourceFreq : Option FreqPtr
deriving DecidableEq, Repr

/-- Source `TripWrappers`: an equivalence class. -/
structure TripWrappers where
  trips : List TripWrapper
  coveredTrips : List String
deriving DecidableEq, Repr

/-- Insertion of a key into a Go map used as a set. -/
def setInsert {α : Type} [DecidableEq α] (x : α) (s : List α) : List α :=
  if x ∈ s then s else s ++ [x]

/-- Start time, in seconds since midnight, of a trip-instance. -/
def TripWrapper.secs (tw : TripWrapper) : Int :=
  tw.t.SecondsSinceMidnight

/-- Source `TripWrappers.Less` for two instances: the order `sort.Sort` sorts
by. -/
def TripWrapper.Less (a b : TripWrapper) : Prop :=
  a.secs < b.secs

/-- The array is in the state `sort.Sort` leaves it in: no instance is `Less`
than an earlier one. -/
def TimeSorted (ts : List TripWrapper) : Prop :=
  ts.Pairwise (fun a b => a.secs ≤ b.secs)

/-! ## The cover engine (`getCover`, `getPossibleFreqs`) -/

/-- Go `a || b` where evaluating an operand may panic: `b` is evaluated only
when `a` is false. -/
def goOr (a b : Option Bool) : Option Bool :=
  match a with
  | none => none
  | some true => some true
  | some false => b

/-- Go `a && b` where evaluating an operand may panic: `b` is evaluated only
when `a` is true. -/
def goAnd (a b : Option Bool) : Option Bool :=
  match a with
  | none => none
  | some false => some false
  | some true => b

/-- Pointer comparison `p == q` of two `*gtfs.Frequency`. -/
def ptrEq (p q : Option FreqPtr) : Bool :=
  p.map FreqPtr.addr == q.map FreqPtr.addr

/-- Read `p.Exact_times` through a pointer: a nil pointer panics. -/
def derefExact (p : Option FreqPtr) : Option Bool :=
  p.map FreqPtr.Exact_times

/-- Comparison `p.Exact_times == q.Exact_times`, left operand first. -/
def exactAgree (p q : Option FreqPtr) : Option Bool :=
  match derefExact p with
  | none => none
  | some a =>
    match derefExact q with
    | none => none
    | some b => some (a == b)

/-- The exact-times compatibility test `freqEq` of `getCover` (source lines
282-283) for the start instance `ti` and the probed instance `tj`, with Go's
left-to-right short-circuit evaluation. -/
def freqEq (ti tj : TripWrapper) : Option Bool :=
  goOr
    (goOr
      (goOr (some (ptrEq tj.sourceFreq ti.sourceFreq))
        (goAnd (some tj.sourceFreq.isNone) (derefExact ti.sourceFreq)))
      (goAnd (some ti.sourceFreq.isNone) (derefExact tj.sourceFreq)))
    (goAnd (some ti.sourceFreq.isSome)
      (goAnd (some tj.sourceFreq.isSome) (exactAgree ti.sourceFreq tj.sourceFreq)))

/-- Inner loop of `getPossibleFreqs` (`for ii := i + 1; ...`): `rest` holds
the instances after `ti`, `ret` the keys collected so far. -/
def possibleFreqsFrom (ti : TripWrapper) : List TripWrapper → List Int → List Int
  | [], ret => ret
  | tii :: rest, ret =>
    let fre := tii.secs - ti.secs
    possibleFreqsFrom ti rest (if fre ≠ 0 then setInsert fre ret else ret)

/-- Outer loop of `getPossibleFreqs`. -/
def possibleFreqsLoop : List TripWrapper → List Int → List Int
  | [], ret => ret
  | ti :: rest, ret => possibleFreqsLoop rest (possibleFreqsFrom ti rest ret)

/-- Source `getPossibleFreqs`: the key set of the map of all non-zero pairwise
start-time differences, listed in order of first insertion. -/
def getPossibleFreqs (tws : TripWrappers) : List Int :=
  possibleFreqsLoop tws.trips []

/-- Source constant `MINIMUM_COVER_SIZE`. -/
def MINIMUM_COVER_SIZE : Nat := 2

/-- The loop `for i = 0; i < len+1; i++` of `getCover` that finds the first
non-marked instance: its index, or the length when every one is marked. -/
def firstUnmarked : List TripWrapper → Nat
  | [] => 0
  | tw :: rest => if tw.marked then firstUnmarked rest + 1 else 0

/-- The loop `for j := i + 1; j < len(eqs.trips); j++` of `getCover` (source
lines 273-290) for one headway `freq`.  `rest` holds the instances from
index `j` on, `nextCand` is the progression grown so far. -/
def growFrom (overlapping : Bool) (freq : Int) (startTime : Int) (ti : TripWrapper) :
    List TripWrapper → Nat → FreqCandidate → Option FreqCandidate
  | [], _, nextCand => some nextCand
  | tj :: rest, j, nextCand =>
    if tj.marked then
      if overlapping then growFrom overlapping freq startTime ti rest (j + 1) nextCand
      else some nextCand
    else
      match freqEq ti tj with
      | none => none
      | some fe =>
        if fe = true ∧ tj.secs = startTime + (nextCand.matched.length : Int) * freq then
          growFrom overlapping freq startTime ti rest (j + 1)
            { matched := nextCand.matched ++ [j], headways := freq }
        else if overlapping then growFrom overlapping freq startTime ti rest (j + 1) nextCand
        else some nextCand

/-- The loop `for freq := range freqs` of `getCover` (source lines 269-295):
`freqs` lists the keys in the order this execution visits them, `curCand` is
the best progression so far, `rest` the instances after index `i`. -/
def tryFreqs (overlapping : Bool) (startTime : Int) (ti : TripWrapper)
    (rest : List TripWrapper) (i : Nat) : List Int → FreqCandidate → Option FreqCandidate
  | [], curCand => some curCand
  | freq :: freqs, curCand =>
    match growFrom overlapping freq startTime ti rest (i + 1) { matched := [i], headways := 0 } with
    | none => none
    | some nextCand =>
      tryFreqs overlapping startTime ti rest i freqs
        (if nextCand.matched.length > curCand.matched.length ∧
            (nextCand.matched.length ≥ MINIMUM_COVER_SIZE ∨ nextCand.matched.length = 1)
         then nextCand else curCand)

/-- One round of the loop `for _, t := range curCand.matches` (source lines
301-304): mark instance `k` and record its trip as covered. -/
def markOne (st : List TripWrapper × List String) (k : Nat) :
    Option (List TripWrapper × List String) :=
  match st.1[k]? with
  | none => none
  | some tw => some (st.1.set k { tw with marked := true }, setInsert tw.Trip st.2)

/-- The loop `for _, t := range curCand.matches` (source lines 301-304). -/
def markAll : List Nat → List TripWrapper × List String →
    Option (List TripWrapper × List String)
  | [], st => some st
  | k :: ks, st =>
    match markOne st k with
    | none => none
    | some st1 => markAll ks st1

/-- Start time in seconds of the instance at index `k` of the array, if any. -/
def secsOf (ts : List TripWrapper) (k : Nat) : Option Int :=
  (ts[k]?).map TripWrapper.secs

/-- The instance with its `marked` flag cleared (source lines 236-238). -/
def unmark (tw : TripWrapper) : TripWrapper :=
  { tw with marked := false }

/-- The instance at index `k` exists and is marked. -/
def IsMarked (ts : List TripWrapper) (k : Nat) : Prop :=
  ∃ tw, ts[k]? = some tw ∧ tw.marked = true

/-- The indices covered by a list of progressions, in cover order. -/
def coveredIdx (ps : List FreqCandidate) : List Nat :=
  ps.flatMap FreqCandidate.matched

/-- The start times of the first `n` members of the arithmetic progression
that starts at `start` with step `h`. -/
def progressionTimes (start h : Int) (n : Nat) : List Int :=
  (List.range n).map (fun (k : Nat) => start + (k : Int) * h)

/-- The variables of `getCover` that its loops change: the array `eqs.trips`
(for the `marked` flags), the cover `cand` and the flag `hasUnmarked`. -/
structure CoverState where
  trips : List TripWrapper
  cand : ProgressionCover
  hasUnmarked : Bool
deriving DecidableEq, Repr

/-- Body of the loop `for minSize := len(eqs.trips); minSize > 0; minSize--`
(source lines 252-305); `freqs` is the key order of this execution of the
loop over the headways. -/
def coverStep (overlapping : Bool) (freqs : List Int) (minSize : Nat) (st : CoverState) :
    Option CoverState :=
  let i := firstUnmarked st.trips
  if i ≥ st.trips.length then some { st with hasUnmarked := false }
  else
    match st.trips[i]? with
    | none => none
    | some ti =>
      match tryFreqs overlapping ti.secs ti (st.trips.drop (i + 1)) i freqs
          { matched := [i], headways := 0 } with
      | none => none
      | some curCand =>
        if curCand.matched.length ≥ minSize then
          match markAll curCand.matched (st.trips, st.cand.coveredTrips) with
          | none => none
          | some (trips1, covered1) =>
            some { trips := trips1
                   cand := { progressions := st.cand.progressions ++ [curCand]
                             coveredTrips := covered1 }
                   hasUnmarked := st.hasUnmarked }
        else some st

/-- The loop `for minSize := len(eqs.trips); minSize > 0; minSize--`, started
at `minSize`; `order m` is the key order used in the round with threshold
`m`. -/
def minSizeLoop (overlapping : Bool) (order : Nat → List Int) : Nat → CoverState →
    Option CoverState
  | 0, st => some st
  | m + 1, st =>
    match coverStep overlapping (order (m + 1)) (m + 1) st with
    | none => none
    | some st1 => minSizeLoop overlapping order m st1

/-- The loop `for hasUnmarked` of `getCover`, with a budget of `fuel` tests of
its condition; `pass` counts the passes made so far and `order pass m` is
the key order used in pass `pass` at threshold `m`. -/
def coverLoop (overlapping : Bool) (order : Nat → Nat → List Int) :
    Nat → Nat → CoverState → Option CoverState
  | 0, _, _ => none
  | fuel + 1, pass, st =>
    if st.hasUnmarked then
      match minSizeLoop overlapping (order pass) st.trips.length st with
      | none => none
      | some st1 => coverLoop overlapping order fuel (pass + 1) st1
    else some st

/-- Source `getCover`.  `eqs.trips` is the array as `sort.Sort(eqs)` leaves
it; the keys of `getPossibleFreqs(eqs)` are visited in the orders given by
`order`.  The result is `none` when `fuel` tests of `hasUnmarked` do not
end the outer loop. -/
def getCover (fuel : Nat) (order : Nat → Nat → List Int) (eqs : TripWrappers)
    (overlapping : Bool) : Option ProgressionCover :=
  let trips0 := eqs.trips.map unmark
  (coverLoop overlapping order fuel 0
    { trips := trips0
      cand := { progressions := [], coveredTrips := [] }
      hasUnmarked := true }).map CoverState.cand

/-- Every execution of `for freq := range freqs` visits each key of
`getPossibleFreqs(eqs)` exactly once. -/
def KeyOrder (eqs : TripWrappers) (order : Nat → Nat → List Int) : Prop :=
  ∀ pass m, (order pass m).Perm (getPossibleFreqs eqs)

/-! ## The packer (`packCovers`) -/

/-- Expression `t.trips[k].t.SecondsSinceMidnight()`; an index out of range
panics. -/
def tripSecs (t : TripWrappers) (k : Nat) : Option Int :=
  (t.trips[k]?).map TripWrapper.secs

/-- Expression `t.trips[p.matches[0]].t.SecondsSinceMidnight()`. -/
def firstSecs (t : TripWrappers) (p : FreqCandidate) : Option Int :=
  match p.matched[0]? with
  | none => none
  | some k => tripSecs t k

/-- Expression `t.trips[p.matches[len(p.matches)-1]].t.SecondsSinceMidnight()`;
for an empty `matches` the index is -1 and the access panics. -/
def lastSecs (t : TripWrappers) (p : FreqCandidate) : Option Int :=
  if p.matched.length = 0 then none
  else
    match p.matched[p.matched.length - 1]? with
    | none => none
    | some k => tripSecs t k

/-- The overlap condition of `packCovers` (source line 204) for a progression
`existingProg` of a pack and the candidate `c`:
`!(first(existingProg) > last(c) || last(existingProg) < first(c))`, the
operands evaluated left to right, the right disjunct only when the left one
is false. -/
def overlapTest (t : TripWrappers) (existingProg c : FreqCandidate) : Option Bool :=
  match firstSecs t existingProg with
  | none => none
  | some ef =>
    match lastSecs t c with
    | none => none
    | some cl =>
      if ef > cl then some false
      else
        match lastSecs t existingProg with
        | none => none
        | some el =>
          match firstSecs t c with
          | none => none
          | some cf => some (!decide (el < cf))

/-- The loop `for _, existingProg := range existingCover.progressions` (source
lines 203-208): the final value of `overlap`. -/
def anyOverlap (t : TripWrappers) (c : FreqCandidate) : List FreqCandidate → Option Bool
  | [] => some false
  | existingProg :: rest =>
    match overlapTest t existingProg c with
    | none => none
    | some true => some true
    | some false => anyOverlap t c rest

/-- The loop `for i, existingCover := range ret` (source lines 201-214): the
updated `ret` and the final value of `inserted`. -/
def tryInsert (t : TripWrappers) (c : FreqCandidate) :
    List ProgressionCover → Option (List ProgressionCover × Bool)
  | [] => some ([], false)
  | existingCover :: rest =>
    match anyOverlap t c existingCover.progressions with
    | none => none
    | some false =>
      some ({ existingCover with progressions := existingCover.progressions ++ [c] } :: rest, true)
    | some true =>
      match tryInsert t c rest with
      | none => none
      | some (rest1, inserted) => some (existingCover :: rest1, inserted)

/-- The loop `for _, c := range c.progressions` of `packCovers` (source lines
189-221) on the variables `ret` and `singleTrips`. -/
def packLoop (t : TripWrappers) :
    List FreqCandidate → List ProgressionCover → List ProgressionCover →
    Option (List ProgressionCover × List ProgressionCover)
  | [], ret, singleTrips => some (ret, singleTrips)
  | c :: cs, ret, singleTrips =>
    if c.matched.length = 1 then
      packLoop t cs ret (singleTrips ++ [{ progressions := [c], coveredTrips := [] }])
    else
      match tryInsert t c ret with
      | none => none
      | some (ret1, true) => packLoop t cs ret1 singleTrips
      | some (ret1, false) =>
        packLoop t cs (ret1 ++ [{ progressions := [c], coveredTrips := [] }]) singleTrips

/-- Source `packCovers`: pack covers into non-overlapping progressions. -/
def packCovers (c : ProgressionCover) (t : TripWrappers) : Option (List ProgressionCover) :=
  match packLoop t c.progressions [{ progressions := [], coveredTrips := [] }] [] with
  | none => none
  | some (ret, singleTrips) =>
    match ret with
    | [] => none
    | r0 :: rs =>
      if (r0 :: rs).length = 1 ∧ r0.progressions.length = 0 then some singleTrips
      else some ((r0 :: rs) ++ singleTrips)

/-- The progression is a non-empty list of indices into the class `t`. -/
def ProgInRange (t : TripWrappers) (p : FreqCandidate) : Prop :=
  p.matched ≠ [] ∧ ∀ k ∈ p.matched, k < t.trips.length

/-- Every progression of the cover is a non-empty list of indices into the
class `t`. -/
def CoverInRange (c : ProgressionCover) (t : TripWrappers) : Prop :=
  ∀ p ∈ c.progressions, ProgInRange t p

/-- The time spans of two progressions do not intersect: one ends strictly
before the other begins (time of the last instance of one < time of the
first instance of the other). -/
def SpanDisjoint (t : TripWrappers) (p q : FreqCandidate) : Prop :=
  (∃ pl qf, lastSecs t p = some pl ∧ firstSecs t q = some qf ∧ pl < qf) ∨
  (∃ ql pf, lastSecs t q = some ql ∧ firstSecs t p = some pf ∧ ql < pf)

/-- All progressions of a list of packs, pack after pack. -/
def allProgressions (packs : List ProgressionCover) : List FreqCandidate :=
  packs.flatMap ProgressionCover.progressions

/-- What the loop of `packCovers` keeps true of `ret` and `singleTrips` once
the candidates `done` have been handled. -/
structure PackInv (t : TripWrappers) (done : List FreqCandidate)
    (ret singleTrips : List ProgressionCover) : Prop where
  perm : (allProgressions ret ++ allProgressions singleTrips).Perm done
  multi : ∀ p ∈ allProgressions ret, p.matched.length ≠ 1
  single : ∀ pk ∈ singleTrips, ∃ p, pk.progressions = [p] ∧ p.matched.length = 1
  shape : (ret ≠ [] ∧ ∀ pk ∈ ret, pk.progressions ≠ []) ∨
    (∃ r0, ret = [r0] ∧ r0.progressions = [])
  disj : ∀ pk ∈ ret, pk.progressions.Pairwise (SpanDisjoint t)

/-! ## The equivalence classifier -/

/-- Source `floatEquals`, on exact rationals. -/
def floatEquals (a b e : Rat) : Bool :=
  if a - b < e ∧ b - a < e then true else false

/-- The loop of `hasSameRelStopTimes` over the stop positions; `prev` holds
`aPrev` and `bPrev`, nothing before the first position. -/
def sameRelLoop : List StopTime → List StopTime → Option (StopTime × StopTime) → Bool
  | a :: as, b :: bs, prev =>
    if ¬ (a.Stop = b.Stop ∧ a.Headsign = b.Headsign ∧ a.Pickup_type = b.Pickup_type ∧
        a.Drop_off_type = b.Drop_off_type ∧
        floatEquals a.Shape_dist_traveled b.Shape_dist_traveled (1 / 100) = true ∧
        a.Timepoint = b.Timepoint) then false
    else
      match prev with
      | none => sameRelLoop as bs (some (a, b))
      | some (aPrev, bPrev) =>
        if a.Arrival_time.SecondsSinceMidnight - aPrev.Arrival_time.SecondsSinceMidnight ≠
            b.Arrival_time.SecondsSinceMidnight - bPrev.Arrival_time.SecondsSinceMidnight then
          false
        else if a.Departure_time.SecondsSinceMidnight - aPrev.Departure_time.SecondsSinceMidnight ≠
            b.Departure_time.SecondsSinceMidnight - bPrev.Departure_time.SecondsSinceMidnight then
          false
        else sameRelLoop as bs (some (a, b))
  | _, _, _ => true

/-- Source `hasSameRelStopTimes`: true if two trips share the same stops in the
same order with the same relative stop times. -/
def hasSameRelStopTimes (a b : Trip) : Bool :=
  if a.StopTimes.length ≠ b.StopTimes.length then false
  else if a.StopTimes.length = 0 ∧ b.StopTimes.length = 0 then true
  else sameRelLoop a.StopTimes b.StopTimes none

/-- Source `isTimeIndependentEqual`: check if two trips are equal without
considering absolute stop times. -/
def isTimeIndependentEqual (a b : Trip) : Bool :=
  decide (a.Route = b.Route) && decide (a.Service = b.Service) &&
  decide (a.Headsign = b.Headsign) && decide (a.Short_name = b.Short_name) &&
  decide (a.Direction_id = b.Direction_id) && decide (a.Block_id = b.Block_id) &&
  decide (a.Shape = b.Shape) &&
  decide (a.Wheelchair_accessible = b.Wheelchair_accessible) &&
  decide (a.Bikes_allowed = b.Bikes_allowed) && hasSameRelStopTimes a b

/-- The loop `for s := start; s < end; s = s + headway` that expands one
frequency entry (source line 353): the instants visited, `none` when `fuel`
tests of the condition do not end it. -/
def expandFrom : Nat → Int → Int → Int → Option (List Int)
  | 0, _, _, _ => none
  | fuel + 1, s, e, h =>
    if s < e then (expandFrom fuel (s + h) e h).map (fun l => s :: l) else some []

/-- The instants of one frequency entry. -/
def expandFrequency (fuel : Nat) (f : Frequency) : Option (List Int) :=
  expandFrom fuel f.Start_time.SecondsSinceMidnight f.End_time.SecondsSinceMidnight
    f.Headway_secs

/-- The loop `for _, f := range t.Frequencies` of the classifier: the instants
of all entries, entry after entry. -/
def expandFrequencies (fuel : Nat) : List Frequency → Option (List Int)
  | [] => some []
  | f :: fs =>
    match expandFrequency fuel f with
    | none => none
    | some l =>
      match expandFrequencies fuel fs with
      | none => none
      | some ls => some (l ++ ls)

/-- The trip-instances one matching trip contributes (source lines 345-359).
A trip without frequencies contributes its first arrival (a trip without
stop times panics there).  The instances of a frequency trip all carry the
address of the loop variable `f`, one variable for the whole loop, which
holds the last entry once the loop is over; `addr` is that address. -/
def tripInstances (fuel : Nat) (addr : Nat) (t : Trip) : Option (List TripWrapper) :=
  if t.Frequencies.length = 0 then
    match t.StopTimes[0]? with
    | none => none
    | some st =>
      some [{ Trip := t.Id, t := st.Arrival_time, marked := false, sourceFreq := none }]
  else
    match t.Frequencies.getLast? with
    | none => none
    | some fl =>
      (expandFrequencies fuel t.Frequencies).map (fun l =>
        l.map (fun s =>
          { Trip := t.Id, t := getGtfsTimeFromSec s, marked := false,
            sourceFreq := some { addr := addr, Exact_times := fl.Exact_times } }))

/-- The scan of `getTimeIndependentEquivalentTrips` over the trips from
position `i` on, the chunks taken one after the other. -/
def classifyLoop (fuel : Nat) (trip : Trip) : List Trip → Nat → TripWrappers →
    Option TripWrappers
  | [], _, ret => some ret
  | t :: rest, i, ret =>
    if t.Id = trip.Id ∨ isTimeIndependentEqual t trip = true then
      match tripInstances fuel i t with
      | none => none
      | some inst =>
        classifyLoop fuel trip rest (i + 1)
          { trips := ret.trips ++ inst
            coveredTrips := if inst = [] then ret.coveredTrips
              else setInsert t.Id ret.coveredTrips }
    else classifyLoop fuel trip rest (i + 1) ret

/-- Source `getTimeIndependentEquivalentTrips`: the trip-instances of the trips
that are equal to `trip` without considering the absolute time values.  The
parameter `processed` of the source is not read and is left out. -/
def getTimeIndependentEquivalentTrips (fuel : Nat) (trip : Trip) (trips : List Trip) :
    Option TripWrappers :=
  classifyLoop fuel trip trips 0 { trips := [], coveredTrips := [] }

/-! ## The rewrite engine (`remeasureStopTimes`, `Run`) -/

/-- The loop of `remeasureStopTimes`; `diff` is the offset of the current stop
from the first one. -/
def remeasureLoop (time : Int) : List StopTime → Int → List StopTime
  | [], _ => []
  | st :: rest, diff =>
    let curArrDepDiff :=
      st.Departure_time.SecondsSinceMidnight - st.Arrival_time.SecondsSinceMidnight
    let oldArrT := st.Arrival_time.SecondsSinceMidnight
    let st1 : StopTime :=
      { st with
        Arrival_time := getGtfsTimeFromSec (time + diff)
        Departure_time := getGtfsTimeFromSec (time + diff + curArrDepDiff) }
    match rest with
    | [] => [st1]
    | next :: _ =>
      st1 :: remeasureLoop time rest (diff + (next.Arrival_time.SecondsSinceMidnight - oldArrT))

/-- Source `remeasureStopTimes`: remeasure a trip's stop times by taking their
relative values and changing the sequence to start with `time`. -/
def remeasureStopTimes (t : Trip) (time : Time) : Trip :=
  { t with StopTimes := remeasureLoop time.SecondsSinceMidnight t.StopTimes 0 }

/-- The frequency entry `a` that `Run` builds for a progression `p` (source
lines 156-165), with the first covered instance, whose start time line 153
reads.  An empty `matches` or an index out of range panics. -/
def progFrequency (eqs : TripWrappers) (p : FreqCandidate) : Option (TripWrapper × Frequency) :=
  match p.matched[0]? with
  | none => none
  | some k0 =>
    match eqs.trips[k0]? with
    | none => none
    | some first =>
      if p.matched.length = 0 then none
      else
        match p.matched[p.matched.length - 1]? with
        | none => none
        | some kl =>
          match eqs.trips[kl]? with
          | none => none
          | some last =>
            some (first,
              { Exact_times :=
                  match first.sourceFreq with
                  | some f => f.Exact_times
                  | none => true
                Start_time := first.t
                End_time := getGtfsTimeFromSec (last.t.SecondsSinceMidnight + p.headways)
                Headway_secs := p.headways })

/-- The loop `for _, p := range indProgr.progressions` of `Run` (source lines
145-167) on `smallestStartTime` and the frequency list of the output trip. -/
def buildFrequencies (eqs : TripWrappers) :
    List FreqCandidate → Time → List Frequency → Option (Time × List Frequency)
  | [], smallestStartTime, freqs => some (smallestStartTime, freqs)
  | p :: ps, smallestStartTime, freqs =>
    if p.matched.length = 1 then buildFrequencies eqs ps smallestStartTime freqs
    else
      match progFrequency eqs p with
      | none => none
      | some (first, a) =>
        buildFrequencies eqs ps
          (if smallestStartTime.SecondsSinceMidnight > first.t.SecondsSinceMidnight
            then first.t else smallestStartTime)
          (freqs ++ [a])

/-- Source lines 142-167 of `Run` for one pack: the reference start time
`smallestStartTime` and the frequency list of the output trip. -/
def packFrequencies (eqs : TripWrappers) (indProgr : ProgressionCover) :
    Option (Time × List Frequency) :=
  match indProgr.progressions[0]? with
  | none => none
  | some p0 =>
    match p0.matched[0]? with
    | none => none
    | some k0 =>
      match eqs.trips[k0]? with
      | none => none
      | some tw0 => buildFrequencies eqs indProgr.progressions tw0.t []

/-- The departure instants of an output trip as the classifier reads them
back: the expansion of its frequency entries, or its own (remeasured) start
time when it has none. -/
def outputInstants (fuel : Nat) (out : Time × List Frequency) : Option (List Int) :=
  if out.2.length = 0 then some [out.1.SecondsSinceMidnight]
  else expandFrequencies fuel out.2

/-- The departure instants of all output trips of a packing. -/
def packingInstants (fuel : Nat) (eqs : TripWrappers) :
    List ProgressionCover → Option (List Int)
  | [] => some []
  | pk :: pks =>
    match packFrequencies eqs pk with
    | none => none
    | some out =>
      match outputInstants fuel out with
      | none => none
      | some l =>
        match packingInstants fuel eqs pks with
        | none => none
        | some ls => some (l ++ ls)

/-- The stop visit with both of its times moved by `delta` seconds and nothing
else changed. -/
def shiftStop (delta : Int) (s : StopTime) : StopTime :=
  { s with
    Arrival_time := getGtfsTimeFromSec (s.Arrival_time.SecondsSinceMidnight + delta)
    Departure_time := getGtfsTimeFromSec (s.Departure_time.SecondsSinceMidnight + delta) }

/-- The sort of `getCover` as a function of the array it is given: some
rearrangement of the array that is in time order. -/
def SortOracle (sortFn : List TripWrapper → List TripWrapper) : Prop :=
  ∀ l, (sortFn l).Perm l ∧ TimeSorted (sortFn l)

/-- What the run-time environment decides in one round of the driver: the
iteration budget of every loop, the outcome of the two executions of
`sort.Sort` and the key orders of the two calls of `getCover`. -/
structure RunOracle where
  fuel : Nat
  sort1 : List TripWrapper → List TripWrapper
  sort2 : List TripWrapper → List TripWrapper
  order1 : Nat → Nat → List Int
  order2 : Nat → Nat → List Int

/-- Source lines 88-96 of `Run`: both covers, both packings, and the choice of
the smaller packing.  The result is the chosen packing with the class as the
second `getCover` leaves it (the array `eqs.trips` is shared, so both sorts
act on it). -/
def choosePacking (o : RunOracle) (eqs : TripWrappers) :
    Option (List ProgressionCover × TripWrappers) :=
  let eqs1 : TripWrappers := { eqs with trips := o.sort1 eqs.trips }
  match getCover o.fuel o.order1 eqs1 false with
  | none => none
  | some cands =>
    match packCovers cands eqs1 with
    | none => none
    | some packed =>
      let eqs2 : TripWrappers := { eqs with trips := o.sort2 eqs1.trips }
      match getCover o.fuel o.order2 eqs2 true with
      | none => none
      | some candsOverlapping =>
        match packCovers candsOverlapping eqs2 with
        | none => none
        | some packedOverlapping =>
          some (if packed.length > packedOverlapping.length then packedOverlapping else packed,
            eqs2)

/-- The test of source line 98, negated: `Run` goes on to rewrite the group. -/
def commits (packed : List ProgressionCover) (eqs : TripWrappers) : Bool :=
  !decide (packed.length ≥ eqs.coveredTrips.length)

/-- The loop `for true` of `Run` (source lines 112-119) that looks for an
identifier not yet in the feed: the identifier and the final `suffixC`. -/
def freshId (ids : List String) (base : String) : Nat → Nat → Option (String × Nat)
  | 0, _ => none
  | fuel + 1, suffixC =>
    let newId := base ++ "_" ++ toString suffixC
    if newId ∈ ids then freshId ids base fuel (suffixC + 1) else some (newId, suffixC)

/-- The variables the loop over the packs changes: the trips of the feed, the
seed trip `t` (a record of the feed, kept apart) and `suffixC`. -/
structure RewriteState where
  others : List Trip
  t : Trip
  suffixC : Nat
deriving DecidableEq, Repr

/-- Body of the loop `for _, indProgr := range packed` of `Run` (source lines
105-169).  `others` holds every trip of the feed but the seed. -/
def rewritePack (fuel : Nat) (eqs : TripWrappers) (st : RewriteState)
    (indProgr : ProgressionCover) : Option RewriteState :=
  if st.suffixC > 1 then
    match freshId (st.t.Id :: st.others.map Trip.Id) st.t.Id fuel st.suffixC with
    | none => none
    | some (newId, suffixC1) =>
      match packFrequencies eqs indProgr with
      | none => none
      | some (smallestStartTime, freqs) =>
        let curTrip : Trip :=
          { Id := newId
            Route := st.t.Route
            Service := st.t.Service
            Headsign := st.t.Headsign
            Short_name := st.t.Short_name
            Direction_id := st.t.Direction_id
            Block_id := st.t.Block_id
            Shape := st.t.Shape
            Wheelchair_accessible := st.t.Wheelchair_accessible
            Bikes_allowed := st.t.Bikes_allowed
            StopTimes := st.t.StopTimes
            Frequencies := freqs }
        some { others := st.others ++ [remeasureStopTimes curTrip smallestStartTime]
               t := st.t
               suffixC := suffixC1 + 1 }
  else
    match packFrequencies eqs indProgr with
    | none => none
    | some (smallestStartTime, freqs) =>
      some { others := st.others
             t := remeasureStopTimes { st.t with Frequencies := freqs } smallestStartTime
             suffixC := st.suffixC + 1 }

/-- The loop `for _, indProgr := range packed` of `Run`. -/
def rewritePacks (fuel : Nat) (eqs : TripWrappers) :
    List ProgressionCover → RewriteState → Option RewriteState
  | [], st => some st
  | indProgr :: rest, st =>
    match rewritePack fuel eqs st indProgr with
    | none => none
    | some st1 => rewritePacks fuel eqs rest st1

/-- Source lines 102-177 of `Run`: rewrite the group of the seed `t`.  The feed
is the list of its trip records, each under its own identifier; the result
lists the seed first, then the other trips. -/
def rewriteGroup (fuel : Nat) (feed : List Trip) (t : Trip) (eqs : TripWrappers)
    (packed : List ProgressionCover) : Option (List Trip) :=
  match rewritePacks fuel eqs packed
      { others := feed.filter (fun x => x.Id ≠ t.Id), t := t, suffixC := 1 } with
  | none => none
  | some st =>
    some (st.t :: st.others.filter (fun x => x.Id ∉ eqs.trips.map TripWrapper.Trip))

/-- One round of the loop `for _, t := range feed.Trips` of `Run` (source lines
74-177) for a seed `t` that is not yet processed, on a feed in which every
trip is still in the slice `tripsSl`. -/
def runGroup (o : RunOracle) (feed : List Trip) (t : Trip) : Option (List Trip) :=
  match getTimeIndependentEquivalentTrips o.fuel t feed with
  | none => none
  | some eqs =>
    if eqs.trips.length < 2 then some feed
    else
      match choosePacking o eqs with
      | none => none
      | some (packed, eqs2) =>
        if commits packed eqs2 = true then rewriteGroup o.fuel feed t eqs2 packed
        else some feed

/-- One admissible outcome of `sort.Sort`: the stable insertion sort by start
time. -/
def insertionSortByTime (l : List TripWrapper) : List TripWrapper :=
  l.insertionSort (fun a b => a.secs ≤ b.secs)

/-- The run-time environment in which `sort.Sort` acts as a stable insertion
sort and every loop over the headways visits the keys in the given order. -/
def simpleOracle (fuel : Nat) (freqs : List Int) : RunOracle :=
  { fuel := fuel
    sort1 := insertionSortByTime
    sort2 := insertionSortByTime
    order1 := fun _ _ => freqs
    order2 := fun _ _ => freqs }

/-! ## Concrete inputs -/

/-- A stop visit at stop `k` with the given arrival and departure. -/
def exampleStop (k : Nat) (arr dep : Time) : StopTime :=
  { Stop := k, Headsign := "", Pickup_type := 0, Drop_off_type := 0,
    Shape_dist_traveled := 0, Timepoint := true, Sequence := k,
    Arrival_time := arr, Departure_time := dep }

/-- A trip of two stops that leaves at `h:m:00`, with the given frequencies. -/
def exampleTrip (id : String) (h m : Int) (fs : List Frequency) : Trip :=
  { Id := id, Route := 1, Service := 1, Headsign := "", Short_name := "",
    Direction_id := 0, Block_id := "", Shape := 1, Wheelchair_accessible := 0,
    Bikes_allowed := 0,
    StopTimes := [exampleStop 0 ⟨h, m, 0⟩ ⟨h, m, 30⟩, exampleStop 1 ⟨h, m + 5, 0⟩ ⟨h, m + 5, 30⟩],
    Frequencies := fs }

/-- A bare trip-instance of trip `id` at `h:m:00`. -/
def bareInstance (id : String) (h m : Int) : TripWrapper :=
  { Trip := id, t := ⟨h, m, 0⟩, marked := false, sourceFreq := none }

/-- The class of three bare trips that leave at 08:00:00, 08:10:00 and
08:20:00, in time order. -/
def threeTrips : TripWrappers :=
  { trips := [bareInstance "a" 8 0, bareInstance "b" 8 10, bareInstance "c" 8 20]
    coveredTrips := ["a", "b", "c"] }

/-- A class of three bare trip-instances at 08:00:00, 08:10:00 and 08:20:00, in
time order, of any three trips and with any `marked` flags. -/
def threeBare (a b c : String) (m1 m2 m3 : Bool) (cov : List String) : TripWrappers :=
  { trips := [{ Trip := a, t := ⟨8, 0, 0⟩, marked := m1, sourceFreq := none },
              { Trip := b, t := ⟨8, 10, 0⟩, marked := m2, sourceFreq := none },
              { Trip := c, t := ⟨8, 20, 0⟩, marked := m3, sourceFreq := none }]
    coveredTrips := cov }

/-- A feed of three trips with the same stops and the same relative stop
times, leaving at 08:00:00, 08:10:00 and 08:20:00. -/
def threeTripFeed : List Trip :=
  [exampleTrip "a" 8 0 [], exampleTrip "b" 8 10 [], exampleTrip "c" 8 20 []]

/-- A class of eight bare trip-instances, in time order: 08:00, 08:10, 08:20,
08:25, 08:30, 08:40, 08:50 and 09:10. -/
def eightTrips : TripWrappers :=
  { trips := [bareInstance "a" 8 0, bareInstance "b" 8 10, bareInstance "c" 8 20,
              bareInstance "d" 8 25, bareInstance "e" 8 30, bareInstance "f" 8 40,
              bareInstance "g" 8 50, bareInstance "h" 9 10]
    coveredTrips := ["a", "b", "c", "d", "e", "f", "g", "h"] }

/-- The cover of `eightTrips` in overlap mode: the progression of headway 600
from 08:00 to 08:50 and the progression 08:25, 09:10. -/
def eightCover : ProgressionCover :=
  { progressions := [{ matched := [0, 1, 2, 4, 5, 6], headways := 600 },
                     { matched := [3, 7], headways := 2700 }]
    coveredTrips := ["a", "b", "c", "e", "f", "g", "d", "h"] }

/-- A feed of one trip with one frequency entry from 08:10:00 to 08:40:00 every
600 seconds: three departures. -/
def oneFrequencyFeed : List Trip :=
  [exampleTrip "c" 0 0
    [{ Exact_times := true, Start_time := ⟨8, 10, 0⟩, End_time := ⟨8, 40, 0⟩,
       Headway_secs := 600 }]]

/-- The class of the trip of `oneFrequencyFeed`: three instances of one trip. -/
def oneFrequencyClass : TripWrappers :=
  { trips :=
      [{ Trip := "c", t := ⟨8, 10, 0⟩, marked := false,
         sourceFreq := some { addr := 0, Exact_times := true } },
       { Trip := "c", t := ⟨8, 20, 0⟩, marked := false,
         sourceFreq := some { addr := 0, Exact_times := true } },
       { Trip := "c", t := ⟨8, 30, 0⟩, marked := false,
         sourceFreq := some { addr := 0, Exact_times := true } }]
    coveredTrips := ["c"] }

/-- A feed of three trips with the same stops and relative stop times: two bare
trips at 08:00:00 and 08:20:00 and a trip with one frequency entry, not
exact, whose only departure is at 08:10:00. -/
def mixedFeed : List Trip :=
  [exampleTrip "a" 8 0 [],
   exampleTrip "c" 0 0
     [{ Exact_times := false, Start_time := ⟨8, 10, 0⟩, End_time := ⟨8, 20, 0⟩,
        Headway_secs := 600 }],
   exampleTrip "b" 8 20 []]

/-- The feed after one round of the driver on `mixedFeed`: the seed with one
frequency entry for 08:00:00 and 08:20:00, and a new bare trip at
08:10:00. -/
def mixedFeedOnce : List Trip :=
  [exampleTrip "a" 8 0
     [{ Exact_times := true, Start_time := ⟨8, 0, 0⟩, End_time := ⟨8, 40, 0⟩,
        Headway_secs := 1200 }],
   exampleTrip "a_2" 8 10 []]

/-- The feed after a second round: one trip with one frequency entry for all
three departures. -/
def mixedFeedTwice : List Trip :=
  [exampleTrip "a" 8 0
     [{ Exact_times := true, Start_time := ⟨8, 0, 0⟩, End_time := ⟨8, 30, 0⟩,
        Headway_secs := 600 }]]

/-! ## Invariants of the cover engine -/

/-- What the loop over `j` of `getCover` keeps true of `nextCand` while it
scans the instances below index `j` for the headway `freq`, starting
from instance `i` with start time `start`. -/
structure GrowInv (ts : List TripWrapper) (i : Nat) (start freq : Int) (j : Nat)
    (c : FreqCandidate) : Prop where
  head : ∃ js, c.matched = i :: js
  incr : c.matched.Pairwise (fun a b => a < b)
  below : ∀ k ∈ c.matched, k < j
  unmarked : ∀ k ∈ c.matched, ∃ tw, ts[k]? = some tw ∧ tw.marked = false
  times : c.matched.map (secsOf ts) = (progressionTimes start freq c.matched.length).map some
  hw : (c.matched.length = 1 ∧ c.headways = 0) ∨ (2 ≤ c.matched.length ∧ c.headways = freq)

/-- What holds of the candidate `curCand` kept for the start instance `i`
(start time `start`); `H` is a property of every headway tried. -/
structure GoodCand (H : Int → Prop) (ts : List TripWrapper) (i : Nat) (start : Int)
    (c : FreqCandidate) : Prop where
  head : ∃ js, c.matched = i :: js
  incr : c.matched.Pairwise (fun a b => a < b)
  unmarked : ∀ k ∈ c.matched, ∃ tw, ts[k]? = some tw ∧ tw.marked = false
  times : c.matched.map (secsOf ts) =
    (progressionTimes start c.headways c.matched.length).map some
  hw : (c.matched.length = 1 ∧ c.headways = 0) ∨ (2 ≤ c.matched.length ∧ H c.headways)

/-- A well-formed progression over the class `ts`: a non-empty, strictly
increasing list of indices whose start times are `start`, `start + h`,
`start + 2h`, ... for its headway `h`; the headway is 0 for a
single instance and satisfies `H` otherwise. -/
structure GoodProg (H : Int → Prop) (ts : List TripWrapper) (p : FreqCandidate) : Prop where
  nonempty : p.matched ≠ []
  incr : p.matched.Pairwise (fun a b => a < b)
  inRange : ∀ k ∈ p.matched, k < ts.length
  times : ∃ start, p.matched.map (secsOf ts) =
    (progressionTimes start p.headways p.matched.length).map some
  hw : (p.matched.length = 1 ∧ p.headways = 0) ∨ (2 ≤ p.matched.length ∧ H p.headways)

/-- The loop invariant of `getCover` over the class `ts0`. -/
structure CoverInv (H : Int → Prop) (ts0 : List TripWrapper) (st : CoverState) : Prop where
  same : st.trips.map unmark = ts0.map unmark
  good : ∀ p ∈ st.cand.progressions, GoodProg H ts0 p
  nodup : (coveredIdx st.cand.progressions).Nodup
  marks : ∀ k, k ∈ coveredIdx st.cand.progressions ↔ IsMarked st.trips k
  done : st.hasUnmarked = false → ∀ k, k < st.trips.length → IsMarked st.trips k

/-- The start times, in seconds, of the instances at the given indices. -/
def idxSecs (ts : List TripWrapper) (ks : List Nat) : List Int :=
  ks.map (fun k => (secsOf ts k).getD 0)

/-- The expansion loop of the classifier turns the frequency entry `f` into
the instants `l`: it does so within `l.length + 1` tests of its condition,
and whatever budget lets it end gives `l`. -/
def ExpandsTo (f : Frequency) (l : List Int) : Prop :=
  (∀ fuel, l.length + 1 ≤ fuel → expandFrequency fuel f = some l) ∧
  (∀ fuel l1, expandFrequency fuel f = some l1 → l1 = l)

/-- A pack as `packCovers` builds it from a cover of `getCover`: not empty,
made of well-formed progressions with positive headways, and a progression
of a single instance is alone in its pack. -/
structure PackGood (eqs : TripWrappers) (pk : ProgressionCover) : Prop where
  nonempty : pk.progressions ≠ []
  good : ∀ p ∈ pk.progressions, GoodProg (fun f => 0 < f) eqs.trips p
  alone : ∀ p ∈ pk.progressions, p.matched.length = 1 → pk.progressions = [p]

/-- The instance counts as exact: it is a bare trip, or the frequency entry it
comes from has the exact-times flag. -/
def ExactInstance (tw : TripWrapper) : Prop :=
  ∀ f, tw.sourceFreq = some f → f.Exact_times = true

/-- Every instance of the array counts as exact. -/
def AllExact (ts : List TripWrapper) : Prop :=
  ∀ tw ∈ ts, ExactInstance tw

/-- What the cover engine reads of an instance when all instances are exact:
its start time and its `marked` flag. -/
def timeKey (tw : TripWrapper) : Int × Bool :=
  (tw.secs, tw.marked)

/-- Two states of `getCover` on two classes with the same start times and
exact instances only: same marks, same progressions, same `hasUnmarked`. -/
structure CoverRel (st st1 : CoverState) : Prop where
  keys : st.trips.map timeKey = st1.trips.map timeKey
  progs : st.cand.progressions = st1.cand.progressions
  flag : st.hasUnmarked = st1.hasUnmarked
  exact : AllExact st.trips
  exact1 : AllExact st1.trips

/-- The two trips agree on every attribute that `Run` copies to a new trip and
that `isTimeIndependentEqual` compares. -/
def SameAttributes (x t : Trip) : Prop :=
  x.Route = t.Route ∧ x.Service = t.Service ∧ x.Headsign = t.Headsign ∧
  x.Short_name = t.Short_name ∧ x.Direction_id = t.Direction_id ∧
  x.Block_id = t.Block_id ∧ x.Shape = t.Shape ∧
  x.Wheelchair_accessible = t.Wheelchair_accessible ∧ x.Bikes_allowed = t.Bikes_allowed

/-- The trip `x` has the attributes of the seed `t` and its stop times are
those of `t` moved by a constant. -/
structure ShiftedCopy (t x : Trip) : Prop where
  attrs : SameAttributes x t
  stops : ∃ delta, x.StopTimes = t.StopTimes.map (shiftStop delta)

/-- The trip `x` is the output trip that `Run` makes of the pack `pk` for the
seed `t`: a shifted copy of the seed that carries the frequency list of the
pack and whose first arrival is the reference start time of the pack. -/
structure IsOutput (t : Trip) (eqs : TripWrappers) (pk : ProgressionCover) (x : Trip) :
    Prop where
  copy : ShiftedCopy t x
  out : ∃ sm s0 rest, packFrequencies eqs pk = some (sm, x.Frequencies) ∧
    x.StopTimes = s0 :: rest ∧ s0.Arrival_time = getGtfsTimeFromSec sm.SecondsSinceMidnight

/-! ## Inputs and predicates for the equivalence test -/

/-- A trip of two stops with the given arrival and departure times, the other
attributes as in `exampleTrip`. -/
def twoStopTrip (id : String) (arr0 dep0 arr1 dep1 : Time) : Trip :=
  { Id := id, Route := 1, Service := 1, Headsign := "", Short_name := "",
    Direction_id := 0, Block_id := "", Shape := 1, Wheelchair_accessible := 0,
    Bikes_allowed := 0,
    StopTimes := [exampleStop 0 arr0 dep0, exampleStop 1 arr1 dep1],
    Frequencies := [] }

/-- A trip that reaches its stops at 08:00:00 and 08:10:00 and leaves each of
them at once. -/
def noDwellTrip : Trip :=
  twoStopTrip "a" ⟨8, 0, 0⟩ ⟨8, 0, 0⟩ ⟨8, 10, 0⟩ ⟨8, 10, 0⟩

/-- A trip that reaches the same stops at 09:00:00 and 09:10:00 and waits five
minutes at each of them. -/
def dwellTrip : Trip :=
  twoStopTrip "b" ⟨9, 0, 0⟩ ⟨9, 5, 0⟩ ⟨9, 10, 0⟩ ⟨9, 15, 0⟩

/-- At every stop position the arrival and the departure of `a` are those of
`b` plus `c` seconds. -/
def CommonOffset (a b : Trip) (c : Int) : Prop :=
  ∀ (i : Nat) (x y : StopTime), a.StopTimes[i]? = some x → b.StopTimes[i]? = some y →
    x.Arrival_time.SecondsSinceMidnight = y.Arrival_time.SecondsSinceMidnight + c ∧
    x.Departure_time.SecondsSinceMidnight = y.Departure_time.SecondsSinceMidnight + c

/-- A trip with one stop visit at 08:00:00 whose cumulative distance is `d`. -/
def distTrip (id : String) (d : Rat) : Trip :=
  { Id := id, Route := 1, Service := 1, Headsign := "", Short_name := "",
    Direction_id := 0, Block_id := "", Shape := 1, Wheelchair_accessible := 0,
    Bikes_allowed := 0,
    StopTimes := [{ exampleStop 0 ⟨8, 0, 0⟩ ⟨8, 0, 0⟩ with Shape_dist_traveled := d }],
    Frequencies := [] }

/-- At every stop position the cumulative distances of the two trips pass the
comparison with tolerance 0.01. -/
def DistWithin (a c : Trip) : Prop :=
  ∀ (i : Nat) (x y : StopTime), a.StopTimes[i]? = some x → c.StopTimes[i]? = some y →
    floatEquals x.Shape_dist_traveled y.Shape_dist_traveled (1 / 100) = true

/-- The comparison of the fields of two stop visits in `hasSameRelStopTimes`
(source lines 428-431). -/
def SameStopFields (a b : StopTime) : Prop :=
  a.Stop = b.Stop ∧ a.Headsign = b.Headsign ∧ a.Pickup_type = b.Pickup_type ∧
  a.Drop_off_type = b.Drop_off_type ∧
  floatEquals a.Shape_dist_traveled b.Shape_dist_traveled (1 / 100) = true ∧
  a.Timepoint = b.Timepoint

/-- The comparison of the arrival and departure deltas of two stop visits
with the visits before them (source lines 435-440). -/
def SameDeltas (a b aPrev bPrev : StopTime) : Prop :=
  a.Arrival_time.SecondsSinceMidnight - aPrev.Arrival_time.SecondsSinceMidnight =
    b.Arrival_time.SecondsSinceMidnight - bPrev.Arrival_time.SecondsSinceMidnight ∧
  a.Departure_time.SecondsSinceMidnight - aPrev.Departure_time.SecondsSinceMidnight =
    b.Departure_time.SecondsSinceMidnight - bPrev.Departure_time.SecondsSinceMidnight

/-! ## First-fit packing, as the specification words it -/

/-- The time span of a progression: the start times of its first and of its
last covered instance. -/
def spanOf (t : TripWrappers) (p : FreqCandidate) : Option (Int × Int) :=
  match firstSecs t p, lastSecs t p with
  | some f, some l => some (f, l)
  | _, _ => none

/-- The time spans of two progressions, both ends inclusive, intersect: the
later of the two beginnings is not after the earlier of the two ends, so
that instant lies in both. -/
def spansIntersect (t : TripWrappers) (p c : FreqCandidate) : Bool :=
  match spanOf t p, spanOf t c with
  | some (pf, pl), some (cf, cl) => decide (max pf cf ≤ min pl cl)
  | _, _ => false

/-- The pack takes the candidate `c`: none of its progressions has a time
span that intersects the span of `c`. -/
def accepts (t : TripWrappers) (c : FreqCandidate) (pack : List FreqCandidate) : Bool :=
  pack.all (fun p => !spansIntersect t p c)

/-- First fit: the candidate goes into the lowest-indexed pack that takes it,
and into a new pack at the end when no pack does. -/
def firstFitPlace (t : TripWrappers) (c : FreqCandidate) :
    List (List FreqCandidate) → List (List FreqCandidate)
  | [] => [[c]]
  | pack :: rest =>
    if accepts t c pack = true then (pack ++ [c]) :: rest else pack :: firstFitPlace t c rest

/-- The packing of the specification: the multi-element candidates placed by
first fit in cover order, then one pack for each single-instance candidate,
in cover order. -/
def firstFitPacking (t : TripWrappers) (cs : List FreqCandidate) : List (List FreqCandidate) :=
  (cs.filter (fun p => decide (2 ≤ p.matched.length))).foldl
      (fun packs c => firstFitPlace t c packs) []
    ++ (cs.filter (fun p => decide (p.matched.length = 1))).map (fun p => [p])

/-- A pack as `packCovers` makes it: the progressions and an empty map of
covered trips. -/
def mkPack (ps : List FreqCandidate) : ProgressionCover :=
  { progressions := ps, coveredTrips := [] }

/-- The progression lists at least one index into the class, in increasing
order. -/
def AscendingProg (t : TripWrappers) (p : FreqCandidate) : Prop :=
  ProgInRange t p ∧ p.matched.Pairwise (fun a b => a < b)

/-- The span of the progression is defined and does not end before it
begins. -/
def ProperSpan (t : TripWrappers) (p : FreqCandidate) : Prop :=
  ∃ f l, firstSecs t p = some f ∧ lastSecs t p = some l ∧ f ≤ l

/-- How the variable `ret` of `packCovers` stands for the packs of the
specification: it holds them one by one, or it still holds its initial
empty pack while there is none. -/
def PacksRel (ret : List ProgressionCover) (packs : List (List FreqCandidate)) : Prop :=
  (ret = [mkPack []] ∧ packs = []) ∨
  (ret = packs.map mkPack ∧ packs ≠ [] ∧ ∀ pk ∈ packs, pk ≠ [])

/-! ## The candidate kept for an instance, and plain greedy covering -/

/-- Source lines 270-290 of `getCover`: the progression `nextCand` grown from
the instance `ti` at index `i` of the array `ts` with the headway `freq`. -/
def grownFrom (overlapping : Bool) (ts : List TripWrapper) (i : Nat) (ti : TripWrapper)
    (freq : Int) : Option FreqCandidate :=
  growFrom overlapping freq ti.secs ti (ts.drop (i + 1)) (i + 1) { matched := [i], headways := 0 }

/-- Source lines 266-295 of `getCover`: the candidate `curCand` kept for the
first non-marked instance of the array `ts` when the headways are tried in
the order `freqs`. -/
def keptCandidate (overlapping : Bool) (freqs : List Int) (ts : List TripWrapper) :
    Option FreqCandidate :=
  match ts[firstUnmarked ts]? with
  | none => none
  | some ti =>
    tryFreqs overlapping ti.secs ti (ts.drop (firstUnmarked ts + 1)) (firstUnmarked ts) freqs
      { matched := [firstUnmarked ts], headways := 0 }

/-- The progression `p` is the candidate that `getCover` keeps in some state
of the class `ts0` (the array with some of its instances marked) for some
execution of the loop over the headways. -/
def KeptSomewhere (overlapping : Bool) (order : Nat → Nat → List Int) (ts0 : List TripWrapper)
    (p : FreqCandidate) : Prop :=
  ∃ pass m ts, ts.map unmark = ts0.map unmark ∧
    keptCandidate overlapping (order pass m) ts = some p

/-- The effective exact-times flag of a trip-instance: a bare trip counts as
exact, an instance of a frequency entry has the flag read through its
`sourceFreq`. -/
def effectiveExact (tw : TripWrapper) : Bool :=
  match tw.sourceFreq with
  | some f => f.Exact_times
  | none => true

/-- Two pointers of the class that hold the same address read the same
flag. -/
def PtrConsistent (ts : List TripWrapper) : Prop :=
  ∀ a ∈ ts, ∀ b ∈ ts, ∀ f g, a.sourceFreq = some f → b.sourceFreq = some g →
    f.addr = g.addr → f.Exact_times = g.Exact_times

/-- The array with the instances at the given indices marked. -/
def markInstances (ts : List TripWrapper) (ks : List Nat) : List TripWrapper :=
  ks.foldl
    (fun l k =>
      match l[k]? with
      | some tw => l.set k { tw with marked := true }
      | none => l)
    ts

/-- Plain greedy covering, as the specification words it: take the first
non-marked instance, grow its longest progression (`keptCandidate`), accept
it at once, mark its instances, and go on until every instance is marked.
`fuel` bounds the number of rounds, `acc` holds the progressions accepted so
far. -/
def plainGreedy (overlapping : Bool) (freqs : List Int) :
    Nat → List TripWrapper → List FreqCandidate → Option (List FreqCandidate)
  | 0, _, _ => none
  | fuel + 1, ts, acc =>
    if firstUnmarked ts ≥ ts.length then some acc
    else
      match keptCandidate overlapping freqs ts with
      | none => none
      | some cur => plainGreedy overlapping freqs fuel (markInstances ts cur.matched) (acc ++ [cur])

/-- Plain greedy covering of a class, all marks cleared first. -/
def plainGreedyCover (overlapping : Bool) (freqs : List Int) (fuel : Nat) (eqs : TripWrappers) :
    Option (List FreqCandidate) :=
  plainGreedy overlapping freqs fuel (eqs.trips.map unmark) []

/-- The progression occupies a run of consecutive indices. -/
def ConsecutiveRun (p : FreqCandidate) : Prop :=
  ∃ a, p.matched = List.range' a p.matched.length

/-- The start times of the class are in time order and pairwise distinct. -/
def StrictlySorted (ts : List TripWrapper) : Prop :=
  ts.Pairwise (fun a b => a.secs < b.secs)

/-- A class, in time order, of a bare trip at 08:00:00 and the two departures,
08:10:00 and 08:20:00, of one frequency entry that is not exact. -/
def mixedClass : TripWrappers :=
  { trips :=
      [bareInstance "a" 8 0,
       { Trip := "c", t := ⟨8, 10, 0⟩, marked := false,
         sourceFreq := some { addr := 1, Exact_times := false } },
       { Trip := "c", t := ⟨8, 20, 0⟩, marked := false,
         sourceFreq := some { addr := 1, Exact_times := false } }]
    coveredTrips := ["a", "c"] }

/-- Plain greedy covering, started in the state `st`, ends with the list `R`
after as many rounds as `R` has progressions more than `st`. -/
def GreedyReaches (ov : Bool) (freqs : List Int) (R : List FreqCandidate) (st : CoverState) :
    Prop :=
  st.cand.progressions.length ≤ R.length ∧
    plainGreedy ov freqs (R.length - st.cand.progressions.length + 1) st.trips
      st.cand.progressions = some R

/-- A frequency entry that is not exact, from 08:10:00 to 08:20:00 every 600
seconds: one departure, at 08:10:00. -/
def nonExactEntry : Frequency :=
  { Exact_times := false, Start_time := ⟨8, 10, 0⟩, End_time := ⟨8, 20, 0⟩, Headway_secs := 600 }

/-- An exact frequency entry from 08:30:00 to 08:40:00 every 600 seconds: one
departure, at 08:30:00. -/
def exactEntry : Frequency :=
  { Exact_times := true, Start_time := ⟨8, 30, 0⟩, End_time := ⟨8, 40, 0⟩, Headway_secs := 600 }

/-- A feed of three trips with the same stops and relative stop times: a bare
trip at 08:00:00, a trip with the entries `nonExactEntry` and `exactEntry`,
in this order, and a bare trip at 08:20:00. -/
def twoFlagFeed : List Trip :=
  [exampleTrip "a" 8 0 [], exampleTrip "c" 0 0 [nonExactEntry, exactEntry],
   exampleTrip "b" 8 20 []]

/-! ## The shape remeasurer (`processors/shaperemeasurer.go`)

Distances are exact rationals: the conversions between `float32` and
`float64` of the source are the identity.  The points of a shape are
changed in place in the source; here every function returns the new list of
points.  An index out of range is the result `none`. -/

/-- Modelled from the spec: a point `gtfs.ShapePoint` of the feed model, with
its coordinates, its sequence number and its optional cumulative distance
(`Has_dist` tells whether `Dist_traveled` is known). -/
structure ShapePoint where
  Lat : Rat
  Lon : Rat
  Sequence : Int
  Dist_traveled : Rat
  Has_dist : Bool
deriving DecidableEq, Repr

/-- Modelled from the spec: a shape `gtfs.Shape` of the feed model, an
identifier and the ordered sequence of its points. -/
structure Shape where
  Id : String
  Points : List ShapePoint
deriving DecidableEq, Repr

/-- Modelled from the spec: the accessor `HasDistanceTraveled` of the feed
model, whether the point carries a known cumulative distance. -/
def ShapePoint.HasDistanceTraveled (p : ShapePoint) : Bool :=
  p.Has_dist

/-- The coordinates of a point. -/
def ShapePoint.coords (p : ShapePoint) : Rat × Rat :=
  (p.Lat, p.Lon)

/-- The point-to-point distance `distP` (a method of the shape minimizer, taken
as given) reads the coordinates of its two points only. -/
def CoordinatesOnly (distP : ShapePoint → ShapePoint → Rat) : Prop :=
  ∀ a b a1 b1 : ShapePoint, a.coords = a1.coords → b.coords = b1.coords →
    distP a b = distP a1 b1

/-- Source statement `if i > 0 { d = d + s.distP(&Points[i-1], &Points[i]) }`:
the new value of `d`. -/
def addSegment (distP : ShapePoint → ShapePoint → Rat) (pts : List ShapePoint) (i : Nat)
    (d : Rat) : Option Rat :=
  if i > 0 then
    match pts[i - 1]?, pts[i]? with
    | some a, some b => some (d + distP a b)
    | _, _ => none
  else some d

/-- The loop of `remeasureBetween` with `n` rounds left, at index `i`, with the
path length `d` summed so far. -/
def betweenLoop (distP : ShapePoint → ShapePoint → Rat) (mPUnit lastMeasure : Rat) :
    Nat → Nat → Rat → List ShapePoint → Option (List ShapePoint)
  | 0, _, _, pts => some pts
  | n + 1, i, d, pts =>
    match addSegment distP pts i d with
    | none => none
    | some d1 =>
      match pts[i]? with
      | none => none
      | some p =>
        betweenLoop distP mPUnit lastMeasure n (i + 1) d1
          (pts.set i { p with Dist_traveled := lastMeasure + d1 * mPUnit, Has_dist := true })

/-- Source `remeasureBetween`: remeasure between points `i` and `end`. -/
def remeasureBetween (distP : ShapePoint → ShapePoint → Rat) (i end_ : Nat)
    (mPUnit lastMeasure : Rat) (pts : List ShapePoint) : Option (List ShapePoint) :=
  betweenLoop distP mPUnit lastMeasure (end_ - i) i 0 pts

/-- The variables of `remasureKnown` that its loop changes, with the points of
the shape. -/
structure KnownState where
  c : Nat
  m : Rat
  lastMIndex : Int
  lastM : Rat
  hasLast : Bool
  d : Rat
  pts : List ShapePoint
deriving DecidableEq, Repr

/-- Body of the loop of `remasureKnown` (source lines 83-101) at index `i`. -/
def knownStep (distP : ShapePoint → ShapePoint → Rat) (i : Nat) (st : KnownState) :
    Option KnownState :=
  match addSegment distP st.pts i st.d with
  | none => none
  | some d =>
    match st.pts[i]? with
    | none => none
    | some p =>
      if p.HasDistanceTraveled = true then
        let inner : Option (Nat × Rat × List ShapePoint) :=
          if st.hasLast = true ∧ d > 0 then
            let localM := (p.Dist_traveled - st.lastM) / d
            let between :=
              if (i : Int) - st.lastMIndex > 1 then
                remeasureBetween distP (st.lastMIndex + 1).toNat i localM st.lastM st.pts
              else some st.pts
            match between with
            | none => none
            | some pts1 => some (st.c + 1, st.m + localM, pts1)
          else some (st.c, st.m, st.pts)
        match inner with
        | none => none
        | some (c1, m1, pts1) =>
          match pts1[i]? with
          | none => none
          | some p1 =>
            some { c := c1, m := m1, lastMIndex := i, lastM := p1.Dist_traveled,
                   hasLast := p1.HasDistanceTraveled, d := 0, pts := pts1 }
      else some { st with d := d }

/-- The loop `for i := 0; i < len(shape.Points); i++` of `remasureKnown` with
`n` rounds left, at index `i` (the number of points does not change). -/
def knownLoop (distP : ShapePoint → ShapePoint → Rat) : Nat → Nat → KnownState →
    Option KnownState
  | 0, _, st => some st
  | n + 1, i, st =>
    match knownStep distP i st with
    | none => none
    | some st1 => knownLoop distP n (i + 1) st1

/-- Source `remasureKnown`: remeasure the parts of the shape that can be
guessed from surrounding points.  The result is the average measure, the
flag `nulled` and the points. -/
def remasureKnown (distP : ShapePoint → ShapePoint → Rat) (shape : Shape) :
    Option (Rat × Bool × Shape) :=
  match knownLoop distP shape.Points.length 0
      { c := 0, m := 0, lastMIndex := -1, lastM := -1, hasLast := false, d := 0,
        pts := shape.Points } with
  | none => none
  | some st =>
    if st.c = 0 then some (0, true, { shape with Points := st.pts })
    else some (st.m / (st.c : Rat), false, { shape with Points := st.pts })

/-- The variables of `remasureUnknown` that its loop changes, with the points
of the shape. -/
structure UnknownState where
  lastUMIndex : Int
  lastM : Rat
  pts : List ShapePoint
deriving DecidableEq, Repr

/-- Body of the loop of `remasureUnknown` (source lines 56-66) at index `i`. -/
def unknownStep (distP : ShapePoint → ShapePoint → Rat) (avgMeasure : Rat) (i : Nat)
    (st : UnknownState) : Option UnknownState :=
  let cond : Option Bool :=
    if i = st.pts.length then some true
    else (st.pts[i]?).map ShapePoint.HasDistanceTraveled
  match cond with
  | none => none
  | some true =>
    let closed : Option (Int × List ShapePoint) :=
      if st.lastUMIndex > -1 then
        (remeasureBetween distP st.lastUMIndex.toNat i avgMeasure st.lastM st.pts).map
          (fun pts1 => ((-1 : Int), pts1))
      else some (st.lastUMIndex, st.pts)
    match closed with
    | none => none
    | some (um1, pts1) =>
      if i < pts1.length then
        match pts1[i]? with
        | none => none
        | some p => some { lastUMIndex := um1, lastM := p.Dist_traveled, pts := pts1 }
      else some { lastUMIndex := um1, lastM := st.lastM, pts := pts1 }
  | some false =>
    if st.lastUMIndex = -1 then some { st with lastUMIndex := i } else some st

/-- The loop `for i := 0; i <= len(shape.Points); i++` of `remasureUnknown`
with `n` rounds left, at index `i`. -/
def unknownLoop (distP : ShapePoint → ShapePoint → Rat) (avgMeasure : Rat) :
    Nat → Nat → UnknownState → Option UnknownState
  | 0, _, st => some st
  | n + 1, i, st =>
    match unknownStep distP avgMeasure i st with
    | none => none
    | some st1 => unknownLoop distP avgMeasure n (i + 1) st1

/-- Source `remasureUnknown`: remeasure the parts of the shape whose measurement
could not be guessed, by using the average measurement. -/
def remasureUnknown (distP : ShapePoint → ShapePoint → Rat) (shape : Shape)
    (avgMeasure : Rat) : Option Shape :=
  (unknownLoop distP avgMeasure (shape.Points.length + 1) 0
    { lastUMIndex := -1, lastM := 0, pts := shape.Points }).map
    (fun st => { shape with Points := st.pts })

/-- The point with its distance cleared (source lines 41-42). -/
def clearDist (p : ShapePoint) : ShapePoint :=
  { p with Dist_traveled := 0, Has_dist := false }

/-- Source `remeasure`: remeasure a single shape. -/
def remeasure (distP : ShapePoint → ShapePoint → Rat) (shape : Shape) : Option Shape :=
  match remasureKnown distP shape with
  | none => none
  | some (avgMeasure, nulled, shape1) =>
    if (!nulled) = true then remasureUnknown distP shape1 avgMeasure
    else some { shape1 with Points := shape1.Points.map clearDist }

/-- The length of the segment that ends at point `i`: the distance from point
`i - 1` to point `i`. -/
def segment (distP : ShapePoint → ShapePoint → Rat) (pts : List ShapePoint) (i : Nat) : Rat :=
  if i > 0 then
    match pts[i - 1]?, pts[i]? with
    | some a, some b => distP a b
    | _, _ => 0
  else 0

/-- The path length from point `a` to point `b`: the sum of the segments
that end at the points `a + 1`, ..., `b`. -/
def pathLength (distP : ShapePoint → ShapePoint → Rat) (pts : List ShapePoint) (a b : Nat) :
    Rat :=
  ((List.range (b - a)).map (fun k => segment distP pts (a + k + 1))).sum

/-- Point `k` of the shape has a known measurement. -/
def Measured (pts : List ShapePoint) (k : Nat) : Prop :=
  ∃ p, pts[k]? = some p ∧ p.Has_dist = true

/-- The points `p < q` are measured, no point strictly between them is, and
the path from `p` to `q` has a positive length. -/
def UsablePair (distP : ShapePoint → ShapePoint → Rat) (pts : List ShapePoint) (p q : Nat) :
    Prop :=
  p < q ∧ Measured pts p ∧ Measured pts q ∧ (∀ k, p < k → k < q → ¬ Measured pts k) ∧
    0 < pathLength distP pts p q

/-- A point on a line at position `x`, with a known distance or none. -/
def linePoint (x : Rat) (dist : Option Rat) : ShapePoint :=
  { Lat := x, Lon := 0, Sequence := 0, Dist_traveled := dist.getD 0, Has_dist := dist.isSome }

/-- The distance of two points on a line. -/
def lineDist (a b : ShapePoint) : Rat :=
  if a.Lat ≤ b.Lat then b.Lat - a.Lat else a.Lat - b.Lat

/-- What the loop of `remasureUnknown` keeps true before it handles index `i`,
for the points `pts0` it started with: the points before `i` have a known
distance or belong to the pending run that starts at `lastUMIndex`, the run
holds no point that was measured at the start, and measured points and
points from `i` on are as they were. -/
structure UnknownInv (pts0 : List ShapePoint) (i : Nat) (st : UnknownState) : Prop where
  len : st.pts.length = pts0.length
  ahead : ∀ k : Nat, i ≤ k → st.pts[k]? = pts0[k]?
  kept : ∀ (k : Nat) (p0 : ShapePoint), pts0[k]? = some p0 → p0.Has_dist = true →
    st.pts[k]? = some p0
  done : ∀ k : Nat, k < i → k < pts0.length →
    (∃ p, st.pts[k]? = some p ∧ p.Has_dist = true) ∨
      (0 ≤ st.lastUMIndex ∧ st.lastUMIndex ≤ (k : Int))
  pending : st.lastUMIndex = -1 ∨
    (0 ≤ st.lastUMIndex ∧ st.lastUMIndex < (i : Int) ∧
      ∀ k : Nat, st.lastUMIndex ≤ (k : Int) → k < i → ¬ Measured pts0 k)
  closed : i = pts0.length + 1 → st.lastUMIndex = -1

/-- What the loop of `remasureKnown` keeps true before it handles index `i`,
for the points `pts0` it started with: the coordinates, the measured points
and the points from `i` on are as they were; `lastMIndex`, `lastM` and `d`
describe the last measured point before `i` and the path length from it;
the counter `c` is positive exactly when a usable pair lies before `i`; and
the points strictly between the two points of such a pair are
interpolated. -/
structure KnownInv (distP : ShapePoint → ShapePoint → Rat) (pts0 : List ShapePoint) (i : Nat)
    (st : KnownState) : Prop where
  len : st.pts.length = pts0.length
  coords : st.pts.map ShapePoint.coords = pts0.map ShapePoint.coords
  ahead : ∀ k : Nat, i ≤ k → st.pts[k]? = pts0[k]?
  kept : ∀ (k : Nat) (p0 : ShapePoint), pts0[k]? = some p0 → p0.Has_dist = true →
    st.pts[k]? = some p0
  noLast : st.hasLast = false → ∀ k : Nat, k < i → ¬ Measured pts0 k
  last : st.hasLast = true →
    ∃ q : Nat, st.lastMIndex = (q : Int) ∧ q < i ∧ Measured pts0 q ∧
      (∀ k : Nat, q < k → k < i → ¬ Measured pts0 k) ∧
      (∃ p0, pts0[q]? = some p0 ∧ st.lastM = p0.Dist_traveled) ∧
      st.d = pathLength distP pts0 q (i - 1)
  usable : 0 < st.c ↔ ∃ p q : Nat, q < i ∧ UsablePair distP pts0 p q
  interp : ∀ p q k : Nat, q < i → UsablePair distP pts0 p q → p < k → k < q →
    ∃ pt mp mq, st.pts[k]? = some pt ∧ pt.Has_dist = true ∧
      pts0[p]? = some mp ∧ pts0[q]? = some mq ∧
      pt.Dist_traveled = mp.Dist_traveled +
        pathLength distP pts0 p k *
          ((mq.Dist_traveled - mp.Dist_traveled) / pathLength distP pts0 p q)

/-- A shape of two points on a line, one unit apart, of which only the first
has a measurement, 5. -/
def oneMeasuredShape : Shape :=
  { Id := "s", Points := [linePoint 0 (some 5), linePoint 1 none] }

/-- A shape of three points on a line at the positions 0, 4 and 10; the first
has the measurement 0, the last the measurement 100, the middle one has
none. -/
def interpolationShape : Shape :=
  { Id := "s", Points := [linePoint 0 (some 0), linePoint 4 none, linePoint 10 (some 100)] }

/-! ## Lemmas on the cover engine -/

theorem freqEq_total (ti tj : TripWrapper) : ∃ b, freqEq ti tj = some b := by
  obtain ⟨_, _, _, si⟩ := ti
  obtain ⟨_, _, _, sj⟩ := tj
  rcases si with _ | ⟨a1, e1⟩ <;> rcases sj with _ | ⟨a2, e2⟩
  · simp [freqEq, goOr, goAnd, ptrEq, derefExact, exactAgree]
  · cases e2 <;> simp [freqEq, goOr, goAnd, ptrEq, derefExact, exactAgree]
  · cases e1 <;> simp [freqEq, goOr, goAnd, ptrEq, derefExact, exactAgree]
  · simp only [freqEq, goOr, goAnd, ptrEq, derefExact, exactAgree, Option.map_some',
      Option.isNone_some, Option.isSome_some]
    generalize (some a2 == some a1) = b
    cases b <;> cases e1 <;> cases e2 <;> simp

theorem progressionTimes_succ (start h : Int) (n : Nat) :
    progressionTimes start h (n + 1) = progressionTimes start h n ++ [start + (n : Int) * h] := by
  simp [progressionTimes, List.range_succ]

theorem length_progressionTimes (start h : Int) (n : Nat) :
    (progressionTimes start h n).length = n := by
  simp [progressionTimes]

theorem drop_eq_cons {α : Type} {l : List α} {j : Nat} {a : α} {rest : List α}
    (h : l.drop j = a :: rest) : l[j]? = some a ∧ l.drop (j + 1) = rest := by
  have hj : j < l.length := by
    by_contra hcon
    rw [List.drop_eq_nil_of_le (by omega)] at h
    cases h
  rw [List.drop_eq_getElem_cons hj] at h
  simp only [List.cons.injEq] at h
  exact ⟨by rw [List.getElem?_eq_getElem hj, h.1], h.2⟩

theorem growFrom_spec (ov : Bool) (freq start : Int) (ti : TripWrapper)
    (ts : List TripWrapper) (i : Nat) :
    ∀ (rest : List TripWrapper) (j : Nat) (c : FreqCandidate),
      ts.drop j = rest → GrowInv ts i start freq j c →
      ∃ c1 j1, growFrom ov freq start ti rest j c = some c1 ∧
        GrowInv ts i start freq j1 c1 ∧ c.matched.length ≤ c1.matched.length := by
  intro rest
  induction rest with
  | nil =>
    intro j c _ hc
    exact ⟨c, j, rfl, hc, le_refl _⟩
  | cons tj rest ih =>
    intro j c hdrop hc
    obtain ⟨hget, hrest⟩ := drop_eq_cons hdrop
    have hc1 : GrowInv ts i start freq (j + 1) c :=
      { hc with below := fun k hk => Nat.lt_succ_of_lt (hc.below k hk) }
    unfold growFrom
    by_cases hm : tj.marked = true
    · simp only [hm, if_true]
      cases ov with
      | true => simpa using ih (j + 1) c hrest hc1
      | false => exact ⟨c, j, by simp, hc, le_refl _⟩
    · simp only [hm]
      obtain ⟨fe, hfe⟩ := freqEq_total ti tj
      simp only [hfe]
      by_cases hcond : fe = true ∧ tj.secs = start + (c.matched.length : Int) * freq
      · simp only [hcond, and_self, if_true]
        have hnew : GrowInv ts i start freq (j + 1)
            { matched := c.matched ++ [j], headways := freq } := by
          obtain ⟨js, hjs⟩ := hc.head
          refine ⟨⟨js ++ [j], by simp [hjs]⟩, ?_, ?_, ?_, ?_, ?_⟩
          · simp only [List.pairwise_append, List.pairwise_singleton, List.mem_singleton,
              true_and]
            exact ⟨hc.incr, fun a ha b hb => hb ▸ hc.below a ha⟩
          · intro k hk
            simp only [List.mem_append, List.mem_singleton] at hk
            rcases hk with hk | hk
            · exact Nat.lt_succ_of_lt (hc.below k hk)
            · omega
          · intro k hk
            simp only [List.mem_append, List.mem_singleton] at hk
            rcases hk with hk | hk
            · exact hc.unmarked k hk
            · subst hk
              exact ⟨tj, hget, by simpa using hm⟩
          · simp only [List.map_append, List.length_append, List.length_singleton,
              progressionTimes_succ, hc.times, List.map_cons, List.map_nil]
            simp [secsOf, hget, hcond.2]
          · right
            simp [hjs]
        obtain ⟨c1, j1, h1, h2, h3⟩ := ih (j + 1) _ hrest hnew
        refine ⟨c1, j1, h1, h2, ?_⟩
        simp only [List.length_append, List.length_singleton] at h3
        omega
      · simp only [hcond, if_false]
        cases ov with
        | true => simpa using ih (j + 1) c hrest hc1
        | false => exact ⟨c, j, by simp, hc, le_refl _⟩

theorem growInv_init (ts : List TripWrapper) (i : Nat) (tw : TripWrapper) (freq : Int)
    (hget : ts[i]? = some tw) (hm : tw.marked = false) :
    GrowInv ts i tw.secs freq (i + 1) { matched := [i], headways := 0 } := by
  refine ⟨⟨[], rfl⟩, by simp, by simp, ?_, ?_, Or.inl ⟨rfl, rfl⟩⟩
  · intro k hk
    simp only [List.mem_singleton] at hk
    subst hk
    exact ⟨tw, hget, hm⟩
  · simp [progressionTimes, secsOf, hget, List.range_succ]

theorem goodCand_init (H : Int → Prop) (ts : List TripWrapper) (i : Nat) (tw : TripWrapper)
    (hget : ts[i]? = some tw) (hm : tw.marked = false) :
    GoodCand H ts i tw.secs { matched := [i], headways := 0 } := by
  refine ⟨⟨[], rfl⟩, by simp, ?_, ?_, Or.inl ⟨rfl, rfl⟩⟩
  · intro k hk
    simp only [List.mem_singleton] at hk
    subst hk
    exact ⟨tw, hget, hm⟩
  · simp [progressionTimes, secsOf, hget, List.range_succ]

theorem tryFreqs_spec (H : Int → Prop) (ov : Bool) (ti : TripWrapper)
    (ts : List TripWrapper) (i : Nat) (tw : TripWrapper)
    (hget : ts[i]? = some tw) (hm : tw.marked = false) :
    ∀ (freqs : List Int) (cur : FreqCandidate),
      (∀ f ∈ freqs, H f) → GoodCand H ts i tw.secs cur →
      ∃ cur1, tryFreqs ov tw.secs ti (ts.drop (i + 1)) i freqs cur = some cur1 ∧
        GoodCand H ts i tw.secs cur1 ∧ cur.matched.length ≤ cur1.matched.length := by
  intro freqs
  induction freqs with
  | nil =>
    intro cur _ hcur
    exact ⟨cur, rfl, hcur, le_refl _⟩
  | cons freq freqs ih =>
    intro cur hH hcur
    obtain ⟨next, j1, hgrow, hnext, _⟩ :=
      growFrom_spec ov freq tw.secs ti ts i (ts.drop (i + 1)) (i + 1)
        { matched := [i], headways := 0 } rfl (growInv_init ts i tw freq hget hm)
    unfold tryFreqs
    simp only [hgrow]
    have hHtail : ∀ f ∈ freqs, H f := fun f hf => hH f (List.mem_cons_of_mem _ hf)
    by_cases hcond : next.matched.length > cur.matched.length ∧
        (next.matched.length ≥ MINIMUM_COVER_SIZE ∨ next.matched.length = 1)
    · simp only [hcond, and_self, if_true]
      have hlen : 2 ≤ next.matched.length := by
        obtain ⟨js, hjs⟩ := hcur.head
        have h1 := hcond.1
        simp only [hjs, List.length_cons] at h1
        omega
      have hhw : next.headways = freq := by
        rcases hnext.hw with h | h
        · omega
        · exact h.2
      have hgood : GoodCand H ts i tw.secs next :=
        ⟨hnext.head, hnext.incr, hnext.unmarked, by rw [hhw]; exact hnext.times,
          Or.inr ⟨hlen, by rw [hhw]; exact hH freq (List.mem_cons_self _ _)⟩⟩
      obtain ⟨cur1, h1, h2, h3⟩ := ih next hHtail hgood
      exact ⟨cur1, h1, h2, by omega⟩
    · simp only [hcond, if_false]
      exact ih cur hHtail hcur

theorem firstUnmarked_le (ts : List TripWrapper) : firstUnmarked ts ≤ ts.length := by
  induction ts with
  | nil => simp [firstUnmarked]
  | cons tw rest ih =>
    unfold firstUnmarked
    split <;> simp <;> omega

theorem firstUnmarked_get (ts : List TripWrapper) (h : firstUnmarked ts < ts.length) :
    ∃ tw, ts[firstUnmarked ts]? = some tw ∧ tw.marked = false := by
  induction ts with
  | nil => simp at h
  | cons tw rest ih =>
    unfold firstUnmarked at h ⊢
    by_cases hm : tw.marked = true
    · simp only [hm, if_true, List.length_cons, Nat.add_lt_add_iff_right] at h ⊢
      simpa using ih h
    · simp only [hm, if_false]
      exact ⟨tw, by simp, by simpa using hm⟩

theorem firstUnmarked_before (ts : List TripWrapper) :
    ∀ k, k < firstUnmarked ts → IsMarked ts k := by
  induction ts with
  | nil => intro k hk; simp [firstUnmarked] at hk
  | cons tw rest ih =>
    intro k hk
    unfold firstUnmarked at hk
    by_cases hm : tw.marked = true
    · simp only [hm, if_true] at hk
      cases k with
      | zero => exact ⟨tw, by simp, hm⟩
      | succ k =>
        obtain ⟨tw1, h1, h2⟩ := ih k (by omega)
        exact ⟨tw1, by simpa using h1, h2⟩
    · simp [hm] at hk

theorem firstUnmarked_all (ts : List TripWrapper) (h : firstUnmarked ts ≥ ts.length) :
    ∀ k, k < ts.length → IsMarked ts k :=
  fun k hk => firstUnmarked_before ts k (by omega)

theorem isMarked_lt {ts : List TripWrapper} {k : Nat} (h : IsMarked ts k) : k < ts.length := by
  obtain ⟨tw, h1, _⟩ := h
  by_contra hcon
  rw [List.getElem?_eq_none (by omega)] at h1
  cases h1

theorem markOne_spec (trips : List TripWrapper) (cov : List String) (k : Nat)
    (hk : k < trips.length) :
    ∃ trips1 cov1, markOne (trips, cov) k = some (trips1, cov1) ∧
      trips1.map unmark = trips.map unmark ∧
      (∀ n, IsMarked trips1 n ↔ (n = k ∨ IsMarked trips n)) := by
  have hget : trips[k]? = some trips[k] := List.getElem?_eq_getElem hk
  refine ⟨trips.set k { trips[k] with marked := true }, setInsert trips[k].Trip cov, ?_, ?_, ?_⟩
  · simp [markOne, hget]
  · apply List.ext_getElem?
    intro n
    by_cases hn : k = n
    · subst hn
      simp [List.getElem?_set, hk, unmark]
    · simp [List.getElem?_set, hn]
  · intro n
    unfold IsMarked
    by_cases hn : k = n
    · subst hn
      simp [List.getElem?_set, hk]
    · simp only [List.getElem?_set, hn, if_false]
      constructor
      · exact fun h => Or.inr h
      · rintro (h | h)
        · exact absurd h.symm hn
        · exact h

theorem markAll_spec :
    ∀ (ms : List Nat) (trips : List TripWrapper) (cov : List String),
      (∀ k ∈ ms, k < trips.length) →
      ∃ trips1 cov1, markAll ms (trips, cov) = some (trips1, cov1) ∧
        trips1.map unmark = trips.map unmark ∧
        (∀ n, IsMarked trips1 n ↔ (n ∈ ms ∨ IsMarked trips n)) := by
  intro ms
  induction ms with
  | nil =>
    intro trips cov _
    exact ⟨trips, cov, rfl, rfl, by simp⟩
  | cons k ks ih =>
    intro trips cov hr
    obtain ⟨t1, c1, h1, h2, h3⟩ := markOne_spec trips cov k (hr k (List.mem_cons_self _ _))
    have hlen : t1.length = trips.length := by
      have := congrArg List.length h2
      simpa using this
    obtain ⟨t2, c2, h4, h5, h6⟩ := ih t1 c1
      (fun n hn => by rw [hlen]; exact hr n (List.mem_cons_of_mem _ hn))
    refine ⟨t2, c2, ?_, h5.trans h2, ?_⟩
    · simp [markAll, h1, h4]
    · intro n
      rw [h6, h3]
      simp only [List.mem_cons]
      tauto

theorem secsOf_unmark (ts : List TripWrapper) (k : Nat) :
    secsOf (ts.map unmark) k = secsOf ts k := by
  simp only [secsOf, List.getElem?_map, Option.map_map]
  rfl

theorem secsOf_congr {ts1 ts2 : List TripWrapper} (h : ts1.map unmark = ts2.map unmark) :
    secsOf ts1 = secsOf ts2 := by
  funext k
  rw [← secsOf_unmark ts1, ← secsOf_unmark ts2, h]

theorem length_congr {ts1 ts2 : List TripWrapper} (h : ts1.map unmark = ts2.map unmark) :
    ts1.length = ts2.length := by
  simpa using congrArg List.length h

theorem coveredIdx_append (ps qs : List FreqCandidate) :
    coveredIdx (ps ++ qs) = coveredIdx ps ++ coveredIdx qs := by
  simp [coveredIdx, List.flatMap_append]

theorem coveredIdx_singleton (p : FreqCandidate) : coveredIdx [p] = p.matched := by
  simp [coveredIdx, List.flatMap]

theorem goodProg_of_goodCand {H : Int → Prop} {ts0 ts : List TripWrapper} {i : Nat}
    {start : Int} {c : FreqCandidate} (hsame : ts.map unmark = ts0.map unmark)
    (h : GoodCand H ts i start c) : GoodProg H ts0 c := by
  obtain ⟨js, hjs⟩ := h.head
  refine ⟨by simp [hjs], h.incr, ?_, ⟨start, ?_⟩, h.hw⟩
  · intro k hk
    obtain ⟨tw, h1, _⟩ := h.unmarked k hk
    rw [← length_congr hsame]
    by_contra hcon
    rw [List.getElem?_eq_none (by omega)] at h1
    cases h1
  · rw [← secsOf_congr hsame]
    exact h.times

theorem coverStep_spec (H : Int → Prop) (ov : Bool) (ts0 : List TripWrapper)
    (freqs : List Int) (m : Nat) (st : CoverState)
    (hinv : CoverInv H ts0 st) (hH : ∀ f ∈ freqs, H f) :
    ∃ st1, coverStep ov freqs m st = some st1 ∧ CoverInv H ts0 st1 ∧
      (coveredIdx st.cand.progressions).length ≤ (coveredIdx st1.cand.progressions).length ∧
      (st.hasUnmarked = false → st1.hasUnmarked = false) ∧
      (m ≤ 1 → (coveredIdx st.cand.progressions).length
          < (coveredIdx st1.cand.progressions).length ∨ st1.hasUnmarked = false) := by
  unfold coverStep
  by_cases hi : firstUnmarked st.trips ≥ st.trips.length
  · simp only [hi, if_true]
    refine ⟨_, rfl, ⟨hinv.same, hinv.good, hinv.nodup, hinv.marks, ?_⟩, le_refl _,
      fun _ => rfl, fun _ => Or.inr rfl⟩
    intro _
    exact firstUnmarked_all st.trips hi
  · simp only [hi, if_false]
    obtain ⟨tw, hget, hm⟩ := firstUnmarked_get st.trips (by omega)
    simp only [hget]
    obtain ⟨cur, htry, hgood, _⟩ :=
      tryFreqs_spec H ov tw st.trips (firstUnmarked st.trips) tw hget hm freqs
        { matched := [firstUnmarked st.trips], headways := 0 } hH
        (goodCand_init H st.trips _ tw hget hm)
    simp only [htry]
    have hprog : GoodProg H ts0 cur := goodProg_of_goodCand hinv.same hgood
    have hlen1 : 1 ≤ cur.matched.length := by
      obtain ⟨js, hjs⟩ := hgood.head
      simp [hjs]
    by_cases hacc : cur.matched.length ≥ m
    · simp only [hacc, if_true]
      obtain ⟨trips1, cov1, hmark, hsame1, hmarks1⟩ :=
        markAll_spec cur.matched st.trips st.cand.coveredTrips
          (fun k hk => by
            rw [length_congr hinv.same]
            exact hprog.inRange k hk)
      simp only [hmark]
      refine ⟨_, rfl, ⟨hsame1.trans hinv.same, ?_, ?_, ?_, ?_⟩, ?_, fun h => h, ?_⟩
      · intro p hp
        simp only [List.mem_append, List.mem_singleton] at hp
        rcases hp with hp | hp
        · exact hinv.good p hp
        · exact hp ▸ hprog
      · simp only [coveredIdx_append, coveredIdx_singleton]
        rw [List.nodup_append]
        refine ⟨hinv.nodup, hgood.incr.imp (fun h => Nat.ne_of_lt h), ?_⟩
        intro k hk1 hk2
        obtain ⟨tw1, h1, h2⟩ := (hinv.marks k).1 hk1
        obtain ⟨tw2, h3, h4⟩ := hgood.unmarked k hk2
        rw [h1] at h3
        cases h3
        rw [h2] at h4
        cases h4
      · intro k
        simp only [coveredIdx_append, coveredIdx_singleton, List.mem_append]
        rw [hmarks1 k, hinv.marks k]
        tauto
      · intro hdone k hk
        rw [hmarks1 k]
        right
        apply hinv.done hdone k
        rw [length_congr hinv.same, ← length_congr (hsame1.trans hinv.same)]
        exact hk
      · simp only [coveredIdx_append, coveredIdx_singleton, List.length_append]
        omega
      · intro _
        left
        simp only [coveredIdx_append, coveredIdx_singleton, List.length_append]
        omega
    · simp only [hacc, if_false]
      refine ⟨st, rfl, hinv, le_refl _, fun h => h, ?_⟩
      intro hm1
      omega

theorem minSizeLoop_spec (H : Int → Prop) (ov : Bool) (ts0 : List TripWrapper)
    (order : Nat → List Int) (hH : ∀ m, ∀ f ∈ order m, H f) :
    ∀ (m : Nat) (st : CoverState), CoverInv H ts0 st →
      ∃ st1, minSizeLoop ov order m st = some st1 ∧ CoverInv H ts0 st1 ∧
        (coveredIdx st.cand.progressions).length ≤ (coveredIdx st1.cand.progressions).length ∧
        (st.hasUnmarked = false → st1.hasUnmarked = false) ∧
        (1 ≤ m → (coveredIdx st.cand.progressions).length
            < (coveredIdx st1.cand.progressions).length ∨ st1.hasUnmarked = false) := by
  intro m
  induction m with
  | zero =>
    intro st hinv
    exact ⟨st, rfl, hinv, le_refl _, fun h => h, fun h => by omega⟩
  | succ m ih =>
    intro st hinv
    obtain ⟨st1, h1, hinv1, hle1, hhu1, hprog1⟩ :=
      coverStep_spec H ov ts0 (order (m + 1)) (m + 1) st hinv (hH (m + 1))
    obtain ⟨st2, h2, hinv2, hle2, hhu2, hprog2⟩ := ih st1 hinv1
    refine ⟨st2, by simp [minSizeLoop, h1, h2], hinv2, by omega, fun h => hhu2 (hhu1 h), ?_⟩
    intro _
    by_cases hm : m = 0
    · subst hm
      simp only [minSizeLoop] at h2
      cases h2
      exact hprog1 (by omega)
    · rcases hprog2 (by omega) with h | h
      · left; omega
      · right; exact h

theorem length_le_of_nodup_lt {l : List Nat} {n : Nat} (hn : l.Nodup) (hlt : ∀ k ∈ l, k < n) :
    l.length ≤ n := by
  have hsub : l ⊆ List.range n := fun k hk => List.mem_range.2 (hlt k hk)
  simpa using (hn.subperm hsub).length_le

theorem coverInv_length_le {H : Int → Prop} {ts0 : List TripWrapper} {st : CoverState}
    (hinv : CoverInv H ts0 st) : (coveredIdx st.cand.progressions).length ≤ ts0.length := by
  apply length_le_of_nodup_lt hinv.nodup
  intro k hk
  rw [← length_congr hinv.same]
  exact isMarked_lt ((hinv.marks k).1 hk)

theorem coverLoop_sound (H : Int → Prop) (ov : Bool) (ts0 : List TripWrapper)
    (order : Nat → Nat → List Int) (hH : ∀ pass m, ∀ f ∈ order pass m, H f) :
    ∀ (fuel pass : Nat) (st st1 : CoverState), CoverInv H ts0 st →
      coverLoop ov order fuel pass st = some st1 →
      CoverInv H ts0 st1 ∧ st1.hasUnmarked = false := by
  intro fuel
  induction fuel with
  | zero =>
    intro pass st st1 _ h
    simp [coverLoop] at h
  | succ fuel ih =>
    intro pass st st1 hinv h
    unfold coverLoop at h
    by_cases hu : st.hasUnmarked = true
    · simp only [hu, if_true] at h
      obtain ⟨st2, h2, hinv2, _⟩ :=
        minSizeLoop_spec H ov ts0 (order pass) (hH pass) st.trips.length st hinv
      simp only [h2] at h
      exact ih (pass + 1) st2 st1 hinv2 h
    · simp only [hu] at h
      cases h
      exact ⟨hinv, by simpa using hu⟩

theorem coverLoop_total (H : Int → Prop) (ov : Bool) (ts0 : List TripWrapper)
    (order : Nat → Nat → List Int) (hH : ∀ pass m, ∀ f ∈ order pass m, H f)
    (hpos : 0 < ts0.length) :
    ∀ (fuel pass : Nat) (st : CoverState), CoverInv H ts0 st →
      (if st.hasUnmarked then ts0.length - (coveredIdx st.cand.progressions).length + 2 else 1)
        ≤ fuel →
      ∃ st1, coverLoop ov order fuel pass st = some st1 := by
  intro fuel
  induction fuel with
  | zero =>
    intro pass st _ h
    split at h <;> omega
  | succ fuel ih =>
    intro pass st hinv h
    unfold coverLoop
    by_cases hu : st.hasUnmarked = true
    · simp only [hu, if_true] at h ⊢
      obtain ⟨st2, h2, hinv2, hle, _, hprog⟩ :=
        minSizeLoop_spec H ov ts0 (order pass) (hH pass) st.trips.length st hinv
      simp only [h2]
      apply ih (pass + 1) st2 hinv2
      have hb := coverInv_length_le hinv2
      have hn : 1 ≤ st.trips.length := by rw [length_congr hinv.same]; exact hpos
      by_cases hu2 : st2.hasUnmarked = true
      · simp only [hu2, if_true]
        rcases hprog hn with hlt | hfalse
        · omega
        · rw [hfalse] at hu2
          cases hu2
      · simp only [hu2]
        simp only [Bool.false_eq_true, if_false]
        omega
    · simp only [hu]
      exact ⟨st, by simp⟩

theorem unmark_unmark (tw : TripWrapper) : unmark (unmark tw) = unmark tw := rfl

theorem coverInv_init (H : Int → Prop) (ts0 : List TripWrapper) :
    CoverInv H ts0
      { trips := ts0.map unmark
        cand := { progressions := [], coveredTrips := [] }
        hasUnmarked := true } := by
  refine ⟨?_, ?_, ?_, ?_, ?_⟩
  · simp [List.map_map, Function.comp_def, unmark_unmark]
  · intro p hp
    simp at hp
  · simp [coveredIdx]
  · intro k
    simp only [coveredIdx, List.flatMap_nil, List.not_mem_nil, IsMarked, List.getElem?_map,
      false_iff, not_exists, not_and]
    intro tw htw
    cases hk : ts0[k]? with
    | none => simp [hk] at htw
    | some a =>
      simp only [hk, Option.map_some', Option.some.injEq] at htw
      subst htw
      simp [unmark]
  · intro h
    cases h

theorem getCover_sound (H : Int → Prop) (fuel : Nat) (order : Nat → Nat → List Int)
    (eqs : TripWrappers) (ov : Bool) (c : ProgressionCover)
    (hH : ∀ pass m, ∀ f ∈ order pass m, H f)
    (h : getCover fuel order eqs ov = some c) :
    (∀ p ∈ c.progressions, GoodProg H eqs.trips p) ∧
      (coveredIdx c.progressions).Perm (List.range eqs.trips.length) := by
  unfold getCover at h
  simp only [Option.map_eq_some'] at h
  obtain ⟨st1, h1, hc⟩ := h
  obtain ⟨hinv, hdone⟩ :=
    coverLoop_sound H ov eqs.trips order hH fuel 0 _ st1 (coverInv_init H eqs.trips) h1
  subst hc
  refine ⟨hinv.good, ?_⟩
  rw [List.perm_ext_iff_of_nodup hinv.nodup (List.nodup_range _)]
  intro k
  rw [hinv.marks k, List.mem_range]
  constructor
  · intro hk
    rw [← length_congr hinv.same]
    exact isMarked_lt hk
  · intro hk
    apply hinv.done hdone k
    rw [length_congr hinv.same]
    exact hk

theorem getCover_total (H : Int → Prop) (order : Nat → Nat → List Int)
    (eqs : TripWrappers) (ov : Bool)
    (hH : ∀ pass m, ∀ f ∈ order pass m, H f) (hpos : eqs.trips ≠ []) :
    ∃ c, getCover (eqs.trips.length + 2) order eqs ov = some c := by
  have hlen : 0 < eqs.trips.length := List.length_pos.2 hpos
  obtain ⟨st1, h1⟩ :=
    coverLoop_total H ov eqs.trips order hH hlen (eqs.trips.length + 2) 0 _
      (coverInv_init H eqs.trips) (by simp [coveredIdx])
  exact ⟨st1.cand, by simp [getCover, h1]⟩

theorem mem_setInsert {α : Type} [DecidableEq α] (x a : α) (s : List α) :
    x ∈ setInsert a s ↔ x = a ∨ x ∈ s := by
  unfold setInsert
  split
  · constructor
    · exact fun h => Or.inr h
    · rintro (h | h)
      · subst h; assumption
      · exact h
  · simp only [List.mem_append, List.mem_singleton]
    tauto

theorem possibleFreqsFrom_pos (ti : TripWrapper) :
    ∀ (rest : List TripWrapper) (ret : List Int),
      (∀ tii ∈ rest, ti.secs ≤ tii.secs) → (∀ f ∈ ret, 0 < f) →
      ∀ f ∈ possibleFreqsFrom ti rest ret, 0 < f := by
  intro rest
  induction rest with
  | nil => intro ret _ hret f hf; exact hret f hf
  | cons tii rest ih =>
    intro ret hle hret f hf
    simp only [possibleFreqsFrom] at hf
    refine ih _ (fun x hx => hle x (List.mem_cons_of_mem _ hx)) ?_ f hf
    intro g hg
    split at hg
    · rcases (mem_setInsert _ _ _).1 hg with h | h
      · have := hle tii (List.mem_cons_self _ _)
        omega
      · exact hret g h
    · exact hret g hg

theorem possibleFreqsLoop_pos :
    ∀ (l : List TripWrapper) (ret : List Int), TimeSorted l → (∀ f ∈ ret, 0 < f) →
      ∀ f ∈ possibleFreqsLoop l ret, 0 < f := by
  intro l
  induction l with
  | nil => intro ret _ hret f hf; exact hret f hf
  | cons ti rest ih =>
    intro ret hs hret f hf
    simp only [possibleFreqsLoop] at hf
    unfold TimeSorted at hs
    rw [List.pairwise_cons] at hs
    exact ih _ hs.2 (possibleFreqsFrom_pos ti rest ret hs.1 hret) f hf

theorem keyOrder_pos {eqs : TripWrappers} {order : Nat → Nat → List Int}
    (hs : TimeSorted eqs.trips) (ho : KeyOrder eqs order) :
    ∀ pass m, ∀ f ∈ order pass m, 0 < f := by
  intro pass m f hf
  have hmem : f ∈ getPossibleFreqs eqs := (ho pass m).subset hf
  exact possibleFreqsLoop_pos eqs.trips [] hs (by simp) f hmem

theorem progressionTimes_lt (start h : Int) (n : Nat) (hh : 0 < h ∨ n ≤ 1) :
    (progressionTimes start h n).Pairwise (fun a b => a < b) := by
  rcases hh with hh | hh
  · unfold progressionTimes
    rw [List.pairwise_map]
    refine (List.pairwise_lt_range n).imp ?_
    intro a b hab
    have : (a : Int) < (b : Int) := by exact_mod_cast hab
    nlinarith
  · interval_cases n <;> simp [progressionTimes, List.range_succ]

theorem getElem?_progressionTimes (start h : Int) (n k : Nat) (hk : k < n) :
    (progressionTimes start h n)[k]? = some (start + (k : Int) * h) := by
  simp [progressionTimes, List.getElem?_map, List.getElem?_range hk]

theorem getCover_empty (fuel : Nat) (order : Nat → Nat → List Int) (cov : List String)
    (ov : Bool) : getCover fuel order { trips := [], coveredTrips := cov } ov = none := by
  have h : ∀ (fuel pass : Nat) (c : ProgressionCover),
      coverLoop ov order fuel pass { trips := [], cand := c, hasUnmarked := true } = none := by
    intro fuel
    induction fuel with
    | zero => intro pass c; rfl
    | succ fuel ih =>
      intro pass c
      simp only [coverLoop, if_true, List.length_nil, minSizeLoop]
      exact ih (pass + 1) c
  simp [getCover, h]

/-! ## Lemmas on the packer -/

theorem spanDisjoint_symm {t : TripWrappers} {p q : FreqCandidate}
    (h : SpanDisjoint t p q) : SpanDisjoint t q p := by
  rcases h with h | h
  · exact Or.inr h
  · exact Or.inl h

theorem overlapTest_false {t : TripWrappers} {e c : FreqCandidate}
    (h : overlapTest t e c = some false) : SpanDisjoint t e c := by
  unfold overlapTest at h
  cases hef : firstSecs t e with
  | none => simp [hef] at h
  | some ef =>
    cases hcl : lastSecs t c with
    | none => simp [hef, hcl] at h
    | some cl =>
      simp only [hef, hcl] at h
      by_cases hgt : ef > cl
      · exact Or.inr ⟨cl, ef, hcl, hef, hgt⟩
      · simp only [hgt, if_false] at h
        cases hel : lastSecs t e with
        | none => simp [hel] at h
        | some el =>
          cases hcf : firstSecs t c with
          | none => simp [hel, hcf] at h
          | some cf =>
            simp only [hel, hcf, Option.some.injEq, Bool.not_eq_false', decide_eq_true_eq] at h
            exact Or.inl ⟨el, cf, hel, hcf, h⟩

theorem anyOverlap_false {t : TripWrappers} {c : FreqCandidate} :
    ∀ {progs : List FreqCandidate}, anyOverlap t c progs = some false →
      ∀ e ∈ progs, SpanDisjoint t e c := by
  intro progs
  induction progs with
  | nil => intro _ e he; simp at he
  | cons e0 rest ih =>
    intro h e he
    unfold anyOverlap at h
    cases ht : overlapTest t e0 c with
    | none => simp [ht] at h
    | some b =>
      cases b with
      | true => simp [ht] at h
      | false =>
        simp only [ht] at h
        rcases List.mem_cons.1 he with rfl | he1
        · exact overlapTest_false ht
        · exact ih h e he1

theorem anyOverlap_true {t : TripWrappers} {c : FreqCandidate} {progs : List FreqCandidate}
    (h : anyOverlap t c progs = some true) : progs ≠ [] := by
  intro hnil
  subst hnil
  simp [anyOverlap] at h

theorem tryInsert_char (t : TripWrappers) (c : FreqCandidate) :
    ∀ (ret ret1 : List ProgressionCover) (ins : Bool),
      tryInsert t c ret = some (ret1, ins) →
      (ins = false ∧ ret1 = ret ∧ ∀ pk ∈ ret, anyOverlap t c pk.progressions = some true) ∨
      (ins = true ∧ ∃ pre pk post, ret = pre ++ pk :: post ∧
        ret1 = pre ++ { pk with progressions := pk.progressions ++ [c] } :: post ∧
        anyOverlap t c pk.progressions = some false ∧
        ∀ q ∈ pre, anyOverlap t c q.progressions = some true) := by
  intro ret
  induction ret with
  | nil =>
    intro ret1 ins h
    simp only [tryInsert, Option.some.injEq, Prod.mk.injEq] at h
    exact Or.inl ⟨h.2.symm, h.1.symm, by simp⟩
  | cons pk rest ih =>
    intro ret1 ins h
    unfold tryInsert at h
    cases ho : anyOverlap t c pk.progressions with
    | none => simp [ho] at h
    | some b =>
      cases b with
      | false =>
        simp only [ho, Option.some.injEq, Prod.mk.injEq] at h
        exact Or.inr ⟨h.2.symm, [], pk, rest, rfl, by simpa using h.1.symm, ho, by simp⟩
      | true =>
        simp only [ho] at h
        cases hr : tryInsert t c rest with
        | none => simp [hr] at h
        | some res =>
          obtain ⟨rest1, ins1⟩ := res
          simp only [hr, Option.some.injEq, Prod.mk.injEq] at h
          obtain ⟨h1, h2⟩ := h
          subst h1 h2
          rcases ih rest1 ins1 hr with ⟨hi, hr1, hall⟩ | ⟨hi, pre, pk0, post, e1, e2, hf, hpre⟩
          · refine Or.inl ⟨hi, by rw [hr1], ?_⟩
            intro q hq
            rcases List.mem_cons.1 hq with rfl | hq1
            · exact ho
            · exact hall q hq1
          · refine Or.inr ⟨hi, pk :: pre, pk0, post, by simp [e1], by simp [e2], hf, ?_⟩
            intro q hq
            rcases List.mem_cons.1 hq with rfl | hq1
            · exact ho
            · exact hpre q hq1

theorem allProgressions_cons (pk : ProgressionCover) (l : List ProgressionCover) :
    allProgressions (pk :: l) = pk.progressions ++ allProgressions l := by
  simp [allProgressions]

theorem allProgressions_append (l1 l2 : List ProgressionCover) :
    allProgressions (l1 ++ l2) = allProgressions l1 ++ allProgressions l2 := by
  simp [allProgressions, List.flatMap_append]

theorem allProgressions_nil : allProgressions [] = [] := rfl

theorem mem_allProgressions {p : FreqCandidate} {l : List ProgressionCover} :
    p ∈ allProgressions l ↔ ∃ pk ∈ l, p ∈ pk.progressions := by
  simp [allProgressions, List.mem_flatMap]

theorem packInv_init (t : TripWrappers) :
    PackInv t [] [{ progressions := [], coveredTrips := [] }] [] := by
  refine ⟨by simp [allProgressions], ?_, by simp, Or.inr ⟨_, rfl, rfl⟩, ?_⟩
  · intro p hp
    simp [allProgressions] at hp
  · intro pk hpk
    simp only [List.mem_singleton] at hpk
    subst hpk
    exact List.Pairwise.nil

theorem packInv_single {t : TripWrappers} {done : List FreqCandidate}
    {ret singles : List ProgressionCover} (c : FreqCandidate)
    (hinv : PackInv t done ret singles) (hc : c.matched.length = 1) :
    PackInv t (done ++ [c]) ret (singles ++ [{ progressions := [c], coveredTrips := [] }]) := by
  refine ⟨?_, hinv.multi, ?_, hinv.shape, hinv.disj⟩
  · rw [allProgressions_append, allProgressions_cons, allProgressions_nil, List.append_nil,
      ← List.append_assoc]
    exact List.Perm.append_right _ hinv.perm
  · intro pk hpk
    simp only [List.mem_append, List.mem_singleton] at hpk
    rcases hpk with hpk | hpk
    · exact hinv.single pk hpk
    · subst hpk
      exact ⟨c, rfl, hc⟩

theorem packInv_new {t : TripWrappers} {done : List FreqCandidate}
    {ret singles : List ProgressionCover} (c : FreqCandidate)
    (hinv : PackInv t done ret singles) (hc : c.matched.length ≠ 1)
    (hall : ∀ pk ∈ ret, anyOverlap t c pk.progressions = some true) :
    PackInv t (done ++ [c]) (ret ++ [{ progressions := [c], coveredTrips := [] }]) singles := by
  refine ⟨?_, ?_, hinv.single, Or.inl ⟨by simp, ?_⟩, ?_⟩
  · rw [allProgressions_append, allProgressions_cons, allProgressions_nil, List.append_nil]
    rw [List.perm_iff_count]
    intro a
    have h := hinv.perm.count_eq a
    simp only [List.count_append] at h ⊢
    omega
  · intro p hp
    rw [allProgressions_append, allProgressions_cons, allProgressions_nil, List.append_nil,
      List.mem_append, List.mem_singleton] at hp
    rcases hp with hp | hp
    · exact hinv.multi p hp
    · exact hp ▸ hc
  · intro pk hpk
    simp only [List.mem_append, List.mem_singleton] at hpk
    rcases hpk with hpk | hpk
    · exact anyOverlap_true (hall pk hpk)
    · subst hpk
      simp
  · intro pk hpk
    simp only [List.mem_append, List.mem_singleton] at hpk
    rcases hpk with hpk | hpk
    · exact hinv.disj pk hpk
    · subst hpk
      simp

theorem packInv_insert {t : TripWrappers} {done : List FreqCandidate}
    {singles pre post : List ProgressionCover} {pk : ProgressionCover} (c : FreqCandidate)
    (hinv : PackInv t done (pre ++ pk :: post) singles) (hc : c.matched.length ≠ 1)
    (hfit : anyOverlap t c pk.progressions = some false)
    (hpre : ∀ q ∈ pre, anyOverlap t c q.progressions = some true) :
    PackInv t (done ++ [c])
      (pre ++ { pk with progressions := pk.progressions ++ [c] } :: post) singles := by
  have hperm := hinv.perm
  have hmulti := hinv.multi
  rw [allProgressions_append, allProgressions_cons] at hperm hmulti
  refine ⟨?_, ?_, hinv.single, Or.inl ⟨by simp, ?_⟩, ?_⟩
  · rw [allProgressions_append, allProgressions_cons]
    rw [List.perm_iff_count]
    intro a
    have h := hperm.count_eq a
    simp only [List.count_append] at h ⊢
    omega
  · intro p hp
    rw [allProgressions_append, allProgressions_cons] at hp
    simp only [List.mem_append, List.mem_singleton] at hp
    rcases hp with hp | (hp | hp) | hp
    · exact hmulti p (by simp [hp])
    · exact hmulti p (by simp [hp])
    · exact hp ▸ hc
    · exact hmulti p (by simp [hp])
  · intro q hq
    simp only [List.mem_append, List.mem_cons] at hq
    rcases hq with hq | rfl | hq
    · exact anyOverlap_true (hpre q hq)
    · simp
    · rcases hinv.shape with ⟨_, hne⟩ | ⟨r0, hr0, _⟩
      · exact hne q (by simp [hq])
      · have hlen := congrArg List.length hr0
        simp only [List.length_append, List.length_cons, List.length_nil] at hlen
        have hpos : 0 < post.length := List.length_pos_of_mem hq
        omega
  · intro q hq
    simp only [List.mem_append, List.mem_cons] at hq
    rcases hq with hq | rfl | hq
    · exact hinv.disj q (by simp [hq])
    · show (pk.progressions ++ [c]).Pairwise (SpanDisjoint t)
      rw [List.pairwise_append]
      refine ⟨hinv.disj pk (by simp), by simp, ?_⟩
      intro e he b hb
      simp only [List.mem_singleton] at hb
      subst hb
      exact anyOverlap_false hfit e he
    · exact hinv.disj q (by simp [hq])

theorem packLoop_sound (t : TripWrappers) :
    ∀ (cs done : List FreqCandidate) (ret singles ret1 singles1 : List ProgressionCover),
      PackInv t done ret singles → packLoop t cs ret singles = some (ret1, singles1) →
      PackInv t (done ++ cs) ret1 singles1 := by
  intro cs
  induction cs with
  | nil =>
    intro done ret singles ret1 singles1 hinv h
    simp only [packLoop, Option.some.injEq, Prod.mk.injEq] at h
    obtain ⟨h1, h2⟩ := h
    subst h1 h2
    simpa using hinv
  | cons c cs ih =>
    intro done ret singles ret1 singles1 hinv h
    have hassoc : done ++ c :: cs = (done ++ [c]) ++ cs := by simp
    rw [hassoc]
    unfold packLoop at h
    by_cases hc : c.matched.length = 1
    · simp only [hc, if_true] at h
      exact ih _ _ _ _ _ (packInv_single c hinv hc) h
    · simp only [hc, if_false] at h
      cases hins : tryInsert t c ret with
      | none => simp [hins] at h
      | some res =>
        obtain ⟨ret2, ins⟩ := res
        rcases tryInsert_char t c ret ret2 ins hins with
          ⟨hi, hr, hall⟩ | ⟨hi, pre, pk, post, e1, e2, hfit, hpre⟩
        · subst hi hr
          simp only [hins] at h
          exact ih _ _ _ _ _ (packInv_new c hinv hc hall) h
        · subst hi e1 e2
          simp only [hins] at h
          exact ih _ _ _ _ _ (packInv_insert c hinv hc hfit hpre) h

theorem tripSecs_some {t : TripWrappers} {k : Nat} (hk : k < t.trips.length) :
    ∃ x, tripSecs t k = some x := by
  simp [tripSecs, List.getElem?_eq_getElem hk]

theorem firstSecs_some {t : TripWrappers} {p : FreqCandidate} (h : ProgInRange t p) :
    ∃ x, firstSecs t p = some x := by
  obtain ⟨hne, hr⟩ := h
  cases hm : p.matched with
  | nil => exact absurd hm hne
  | cons k ks =>
    have hk : k < t.trips.length := hr k (by simp [hm])
    simpa [firstSecs, hm] using tripSecs_some hk

theorem lastSecs_some {t : TripWrappers} {p : FreqCandidate} (h : ProgInRange t p) :
    ∃ x, lastSecs t p = some x := by
  obtain ⟨hne, hr⟩ := h
  have hpos : 0 < p.matched.length := List.length_pos.2 hne
  have hlt : p.matched.length - 1 < p.matched.length := by omega
  have hk : p.matched[p.matched.length - 1] < t.trips.length :=
    hr _ (List.getElem_mem _)
  have hne0 : p.matched.length ≠ 0 := by omega
  simpa [lastSecs, hne0, List.getElem?_eq_getElem hlt] using tripSecs_some hk

theorem overlapTest_some {t : TripWrappers} {e c : FreqCandidate}
    (he : ProgInRange t e) (hc : ProgInRange t c) : ∃ b, overlapTest t e c = some b := by
  obtain ⟨ef, hef⟩ := firstSecs_some he
  obtain ⟨el, hel⟩ := lastSecs_some he
  obtain ⟨cf, hcf⟩ := firstSecs_some hc
  obtain ⟨cl, hcl⟩ := lastSecs_some hc
  unfold overlapTest
  simp only [hef, hel, hcf, hcl]
  split
  · exact ⟨_, rfl⟩
  · exact ⟨_, rfl⟩

theorem anyOverlap_some {t : TripWrappers} {c : FreqCandidate} (hc : ProgInRange t c) :
    ∀ (progs : List FreqCandidate), (∀ e ∈ progs, ProgInRange t e) →
      ∃ b, anyOverlap t c progs = some b := by
  intro progs
  induction progs with
  | nil => intro _; exact ⟨false, rfl⟩
  | cons e rest ih =>
    intro h
    obtain ⟨b, hb⟩ := overlapTest_some (h e (List.mem_cons_self _ _)) hc
    unfold anyOverlap
    cases b with
    | true => exact ⟨true, by simp [hb]⟩
    | false =>
      simp only [hb]
      exact ih (fun x hx => h x (List.mem_cons_of_mem _ hx))

theorem tryInsert_some {t : TripWrappers} {c : FreqCandidate} (hc : ProgInRange t c) :
    ∀ (ret : List ProgressionCover), (∀ p ∈ allProgressions ret, ProgInRange t p) →
      ∃ res, tryInsert t c ret = some res := by
  intro ret
  induction ret with
  | nil => intro _; exact ⟨_, rfl⟩
  | cons pk rest ih =>
    intro h
    rw [allProgressions_cons] at h
    obtain ⟨b, hb⟩ := anyOverlap_some hc pk.progressions (fun e he => h e (by simp [he]))
    unfold tryInsert
    cases b with
    | false =>
      simp only [hb]
      exact ⟨_, rfl⟩
    | true =>
      obtain ⟨res, hres⟩ := ih (fun p hp => h p (by simp [hp]))
      simp only [hb, hres]
      exact ⟨_, rfl⟩

theorem packLoop_total (t : TripWrappers) :
    ∀ (cs done : List FreqCandidate) (ret singles : List ProgressionCover),
      PackInv t done ret singles → (∀ p ∈ done, ProgInRange t p) →
      (∀ p ∈ cs, ProgInRange t p) →
      ∃ res, packLoop t cs ret singles = some res := by
  intro cs
  induction cs with
  | nil => intro done ret singles _ _ _; exact ⟨_, rfl⟩
  | cons c cs ih =>
    intro done ret singles hinv hdone hcs
    have hc : ProgInRange t c := hcs c (List.mem_cons_self _ _)
    have hdone1 : ∀ p ∈ done ++ [c], ProgInRange t p := by
      intro p hp
      simp only [List.mem_append, List.mem_singleton] at hp
      rcases hp with hp | hp
      · exact hdone p hp
      · exact hp ▸ hc
    have hcs1 : ∀ p ∈ cs, ProgInRange t p := fun p hp => hcs p (List.mem_cons_of_mem _ hp)
    unfold packLoop
    by_cases h1 : c.matched.length = 1
    · simp only [h1, if_true]
      exact ih _ _ _ (packInv_single c hinv h1) hdone1 hcs1
    · simp only [h1, if_false]
      have hret : ∀ p ∈ allProgressions ret, ProgInRange t p := by
        intro p hp
        exact hdone p (hinv.perm.subset (by simp [hp]))
      obtain ⟨⟨ret2, ins⟩, hins⟩ := tryInsert_some hc ret hret
      rcases tryInsert_char t c ret ret2 ins hins with
        ⟨hi, hr, hall⟩ | ⟨hi, pre, pk, post, e1, e2, hfit, hpre⟩
      · subst hi hr
        simp only [hins]
        exact ih _ _ _ (packInv_new c hinv h1 hall) hdone1 hcs1
      · subst hi e1 e2
        simp only [hins]
        exact ih _ _ _ (packInv_insert c hinv h1 hfit hpre) hdone1 hcs1

/-- What `packCovers` guarantees of the packs it returns. -/
theorem packCovers_sound (c : ProgressionCover) (t : TripWrappers)
    (packs : List ProgressionCover) (h : packCovers c t = some packs) :
    (allProgressions packs).Perm c.progressions ∧
      (∀ pk ∈ packs, pk.progressions ≠ []) ∧
      (∀ pk ∈ packs, ∀ p ∈ pk.progressions, p.matched.length = 1 → pk.progressions = [p]) ∧
      (∀ pk ∈ packs, pk.progressions.Pairwise (SpanDisjoint t)) := by
  unfold packCovers at h
  cases hl : packLoop t c.progressions [{ progressions := [], coveredTrips := [] }] [] with
  | none => simp [hl] at h
  | some res =>
    obtain ⟨ret, singles⟩ := res
    have hinv := packLoop_sound t c.progressions [] _ _ ret singles (packInv_init t) hl
    simp only [List.nil_append] at hinv
    have hsingle_ne : ∀ pk ∈ singles, pk.progressions ≠ [] := by
      intro pk hpk
      obtain ⟨p, hp, _⟩ := hinv.single pk hpk
      simp [hp]
    have hsingle_alone : ∀ pk ∈ singles, ∀ p ∈ pk.progressions,
        p.matched.length = 1 → pk.progressions = [p] := by
      intro pk hpk p hp _
      obtain ⟨p0, hp0, _⟩ := hinv.single pk hpk
      rw [hp0] at hp ⊢
      simp only [List.mem_singleton] at hp
      rw [hp]
    have hsingle_disj : ∀ pk ∈ singles, pk.progressions.Pairwise (SpanDisjoint t) := by
      intro pk hpk
      obtain ⟨p0, hp0, _⟩ := hinv.single pk hpk
      rw [hp0]
      simp
    simp only [hl] at h
    cases ret with
    | nil => simp at h
    | cons r0 rs =>
      simp only at h
      by_cases hcond : (r0 :: rs).length = 1 ∧ r0.progressions.length = 0
      · simp only [hcond, and_self, if_true, Option.some.injEq] at h
        subst h
        have hrs : rs = [] := by
          have := hcond.1
          simpa using this
        have hr0 : r0.progressions = [] := List.length_eq_zero.1 hcond.2
        refine ⟨?_, hsingle_ne, hsingle_alone, hsingle_disj⟩
        have hp := hinv.perm
        rw [hrs, allProgressions_cons, hr0, allProgressions_nil] at hp
        simpa using hp
      · simp only [hcond, if_false, Option.some.injEq] at h
        subst h
        have hne : ∀ pk ∈ r0 :: rs, pk.progressions ≠ [] := by
          rcases hinv.shape with ⟨_, hne⟩ | ⟨r1, hr1, he⟩
          · exact hne
          · exfalso
            apply hcond
            simp only [List.cons.injEq] at hr1
            obtain ⟨h1, h2⟩ := hr1
            subst h1 h2
            simp [he]
        refine ⟨?_, ?_, ?_, ?_⟩
        · rw [allProgressions_append]
          exact hinv.perm
        · intro pk hpk
          rcases List.mem_append.1 hpk with hpk | hpk
          · exact hne pk hpk
          · exact hsingle_ne pk hpk
        · intro pk hpk p hp h1
          rcases List.mem_append.1 hpk with hpk | hpk
          · exact absurd h1 (hinv.multi p (mem_allProgressions.2 ⟨pk, hpk, hp⟩))
          · exact hsingle_alone pk hpk p hp h1
        · intro pk hpk
          rcases List.mem_append.1 hpk with hpk | hpk
          · exact hinv.disj pk hpk
          · exact hsingle_disj pk hpk

theorem packCovers_total (c : ProgressionCover) (t : TripWrappers) (h : CoverInRange c t) :
    ∃ packs, packCovers c t = some packs := by
  obtain ⟨⟨ret, singles⟩, hl⟩ :=
    packLoop_total t c.progressions [] _ _ (packInv_init t) (by simp) h
  have hinv := packLoop_sound t c.progressions [] _ _ ret singles (packInv_init t) hl
  unfold packCovers
  simp only [hl]
  cases ret with
  | nil =>
    rcases hinv.shape with ⟨hne, _⟩ | ⟨r1, hr1, _⟩
    · exact absurd rfl hne
    · cases hr1
  | cons r0 rs =>
    simp only
    split
    · exact ⟨_, rfl⟩
    · exact ⟨_, rfl⟩

theorem length_le_length_flatMap {α β : Type} (f : α → List β) :
    ∀ (l : List α), (∀ x ∈ l, f x ≠ []) → l.length ≤ (l.flatMap f).length := by
  intro l
  induction l with
  | nil => intro _; simp
  | cons a l ih =>
    intro h
    have h1 : 0 < (f a).length := List.length_pos.2 (h a (List.mem_cons_self _ _))
    have h2 := ih (fun x hx => h x (List.mem_cons_of_mem _ hx))
    simp only [List.flatMap_cons, List.length_cons, List.length_append]
    omega

theorem packCovers_nil (cov : List String) (t : TripWrappers) :
    packCovers { progressions := [], coveredTrips := cov } t = some [] := by
  simp [packCovers, packLoop]

/-! ## Lemmas on times and on `remeasureStopTimes` -/

theorem toInt8_of_small (x : Int) (h1 : -128 ≤ x) (h2 : x < 128) : toInt8 x = x := by
  unfold toInt8
  omega

theorem tdiv_bounds_nonneg (s d : Int) (hs : 0 ≤ s) (hd : 0 < d) :
    d * s.tdiv d ≤ s ∧ s < d * s.tdiv d + d := by
  rw [Int.tdiv_eq_ediv hs (le_of_lt hd)]
  constructor
  · exact Int.mul_ediv_self_le (ne_of_gt hd)
  · exact Int.lt_mul_ediv_self_add hd

theorem tdiv_bounds_neg (s d : Int) (hs : s ≤ 0) (hd : 0 < d) :
    s ≤ d * s.tdiv d ∧ d * s.tdiv d - d < s := by
  have h := tdiv_bounds_nonneg (-s) d (by omega) hd
  rw [Int.neg_tdiv] at h
  constructor
  · nlinarith [h.1]
  · nlinarith [h.2]

/-- Converting seconds to a GTFS time and back gives the seconds again, for
every integer. -/
theorem secondsSinceMidnight_getGtfsTimeFromSec (s : Int) :
    (getGtfsTimeFromSec s).SecondsSinceMidnight = s := by
  unfold getGtfsTimeFromSec Time.SecondsSinceMidnight
  simp only
  rcases le_total 0 s with hs | hs
  · obtain ⟨a1, a2⟩ := tdiv_bounds_nonneg s 3600 hs (by norm_num)
    obtain ⟨b1, b2⟩ := tdiv_bounds_nonneg s 60 hs (by norm_num)
    have hr : 0 ≤ s - s.tdiv 3600 * 3600 := by omega
    obtain ⟨c1, c2⟩ := tdiv_bounds_nonneg (s - s.tdiv 3600 * 3600) 60 hr (by norm_num)
    rw [toInt8_of_small _ (by omega) (by omega), toInt8_of_small _ (by omega) (by omega)]
    generalize s.tdiv 3600 = H at *
    generalize s.tdiv 60 = Q at *
    generalize (s - H * 3600).tdiv 60 = M at *
    omega
  · obtain ⟨a1, a2⟩ := tdiv_bounds_neg s 3600 hs (by norm_num)
    obtain ⟨b1, b2⟩ := tdiv_bounds_neg s 60 hs (by norm_num)
    have hr : s - s.tdiv 3600 * 3600 ≤ 0 := by omega
    obtain ⟨c1, c2⟩ := tdiv_bounds_neg (s - s.tdiv 3600 * 3600) 60 hr (by norm_num)
    rw [toInt8_of_small _ (by omega) (by omega), toInt8_of_small _ (by omega) (by omega)]
    generalize s.tdiv 3600 = H at *
    generalize s.tdiv 60 = Q at *
    generalize (s - H * 3600).tdiv 60 = M at *
    omega

theorem remeasureLoop_eq_shift (time : Int) :
    ∀ (rest : List StopTime) (s0 : StopTime) (diff : Int),
      remeasureLoop time (s0 :: rest) diff =
        (s0 :: rest).map (shiftStop (time + diff - s0.Arrival_time.SecondsSinceMidnight)) := by
  intro rest
  induction rest with
  | nil =>
    intro s0 diff
    simp only [remeasureLoop, List.map_cons, List.map_nil, shiftStop, List.cons.injEq, and_true]
    congr 2 <;> omega
  | cons next rest ih =>
    intro s0 diff
    rw [remeasureLoop]
    rw [ih next]
    have hd : time + (diff + (next.Arrival_time.SecondsSinceMidnight
          - s0.Arrival_time.SecondsSinceMidnight)) - next.Arrival_time.SecondsSinceMidnight
        = time + diff - s0.Arrival_time.SecondsSinceMidnight := by omega
    rw [hd]
    simp only [List.map_cons, List.cons.injEq, and_true]
    simp only [shiftStop]
    congr 2 <;> omega

theorem remeasureStopTimes_eq_shift (t : Trip) (time : Time) (s0 : StopTime)
    (rest : List StopTime) (h : t.StopTimes = s0 :: rest) :
    (remeasureStopTimes t time).StopTimes =
      t.StopTimes.map (shiftStop
        (time.SecondsSinceMidnight - s0.Arrival_time.SecondsSinceMidnight)) := by
  simp only [remeasureStopTimes, h, remeasureLoop_eq_shift]
  have hd : time.SecondsSinceMidnight + 0 - s0.Arrival_time.SecondsSinceMidnight
      = time.SecondsSinceMidnight - s0.Arrival_time.SecondsSinceMidnight := by omega
  rw [hd]

theorem shiftStop_arrival (delta : Int) (s : StopTime) :
    (shiftStop delta s).Arrival_time.SecondsSinceMidnight
      = s.Arrival_time.SecondsSinceMidnight + delta := by
  simp [shiftStop, secondsSinceMidnight_getGtfsTimeFromSec]

theorem shiftStop_departure (delta : Int) (s : StopTime) :
    (shiftStop delta s).Departure_time.SecondsSinceMidnight
      = s.Departure_time.SecondsSinceMidnight + delta := by
  simp [shiftStop, secondsSinceMidnight_getGtfsTimeFromSec]

theorem floatEquals_self (a : Rat) : floatEquals a a (1 / 100) = true := by
  simp [floatEquals]

/-! ## Lemmas on the frequency entries of the output trips -/

theorem progressionTimes_cons (s h : Int) (n : Nat) :
    progressionTimes s h (n + 1) = s :: progressionTimes (s + h) h n := by
  simp only [progressionTimes, List.range_succ_eq_map, List.map_cons, List.map_map,
    List.cons.injEq]
  refine ⟨by simp, ?_⟩
  apply List.map_congr_left
  intro k _
  simp only [Function.comp_apply, Nat.succ_eq_add_one, Nat.cast_add, Nat.cast_one]
  ring

theorem expandFrom_progression :
    ∀ (n fuel : Nat) (s h : Int), 0 < h → n + 1 ≤ fuel →
      expandFrom fuel s (s + (n : Int) * h) h = some (progressionTimes s h n) := by
  intro n
  induction n with
  | zero =>
    intro fuel s h _ hf
    obtain ⟨f, rfl⟩ : ∃ f, fuel = f + 1 := ⟨fuel - 1, by omega⟩
    simp [expandFrom, progressionTimes]
  | succ n ih =>
    intro fuel s h hh hf
    obtain ⟨f, rfl⟩ : ∃ f, fuel = f + 1 := ⟨fuel - 1, by omega⟩
    have hlt : s < s + ((n + 1 : Nat) : Int) * h := by
      have : (0 : Int) < ((n + 1 : Nat) : Int) := by exact_mod_cast Nat.succ_pos n
      nlinarith
    have he : s + ((n + 1 : Nat) : Int) * h = (s + h) + (n : Int) * h := by
      push_cast
      ring
    rw [expandFrom]
    simp only [hlt, if_true]
    rw [he, ih f (s + h) h hh (by omega), progressionTimes_cons]
    rfl

theorem expandFrom_mono :
    ∀ (fuel : Nat) (s e h : Int) (l : List Int), expandFrom fuel s e h = some l →
      ∀ fuel1, fuel ≤ fuel1 → expandFrom fuel1 s e h = some l := by
  intro fuel
  induction fuel with
  | zero => intro s e h l hl; simp [expandFrom] at hl
  | succ f ih =>
    intro s e h l hl fuel1 hle
    obtain ⟨f1, rfl⟩ : ∃ f1, fuel1 = f1 + 1 := ⟨fuel1 - 1, by omega⟩
    rw [expandFrom] at hl ⊢
    by_cases hlt : s < e
    · simp only [hlt, if_true, Option.map_eq_some'] at hl ⊢
      obtain ⟨l0, h0, h1⟩ := hl
      exact ⟨l0, ih _ _ _ _ h0 f1 (by omega), h1⟩
    · simpa [hlt] using hl

theorem expandFrom_unique (n fuel : Nat) (s h : Int) (l : List Int) (hh : 0 < h)
    (hl : expandFrom fuel s (s + (n : Int) * h) h = some l) : l = progressionTimes s h n := by
  have h1 := expandFrom_mono fuel s _ h l hl (max fuel (n + 1)) (le_max_left _ _)
  have h2 := expandFrom_progression n (max fuel (n + 1)) s h hh (le_max_right _ _)
  rw [h1] at h2
  exact Option.some.inj h2

theorem idxSecs_of_times {ts : List TripWrapper} {ks : List Nat} {l : List Int}
    (h : ks.map (secsOf ts) = l.map some) : idxSecs ts ks = l := by
  have h1 := congrArg (List.map (fun o : Option Int => o.getD 0)) h
  simpa [idxSecs, List.map_map, Function.comp_def] using h1

theorem times_get {ts : List TripWrapper} {ks : List Nat} {start h : Int}
    (ht : ks.map (secsOf ts) = (progressionTimes start h ks.length).map some)
    (k : Nat) (hk : k < ks.length) :
    ∃ j tw, ks[k]? = some j ∧ ts[j]? = some tw ∧ tw.secs = start + (k : Int) * h := by
  have h1 := congrArg (fun l => l[k]?) ht
  simp only [List.getElem?_map, getElem?_progressionTimes start h ks.length k hk,
    List.getElem?_eq_getElem hk, Option.map_some'] at h1
  simp only [secsOf, Option.some.injEq] at h1
  cases hj : ts[ks[k]]? with
  | none => simp [hj] at h1
  | some tw =>
    simp only [hj, Option.map_some', Option.some.injEq] at h1
    exact ⟨ks[k], tw, List.getElem?_eq_getElem hk, hj, h1⟩

theorem progFrequency_spec {H : Int → Prop} (eqs : TripWrappers) {p : FreqCandidate}
    (hg : GoodProg H eqs.trips p) {start : Int}
    (ht : p.matched.map (secsOf eqs.trips) =
      (progressionTimes start p.headways p.matched.length).map some) :
    ∃ first a k0, progFrequency eqs p = some (first, a) ∧
      p.matched[0]? = some k0 ∧ eqs.trips[k0]? = some first ∧
      first.secs = start ∧ a.Start_time = first.t ∧
      a.End_time.SecondsSinceMidnight = start + (p.matched.length : Int) * p.headways ∧
      a.Headway_secs = p.headways ∧
      a.Exact_times = (match first.sourceFreq with
        | some f => f.Exact_times
        | none => true) := by
  have hpos : 0 < p.matched.length := List.length_pos.2 hg.nonempty
  obtain ⟨k0, first, h1, h2, h3⟩ := times_get ht 0 hpos
  obtain ⟨kl, last, h4, h5, h6⟩ := times_get ht (p.matched.length - 1) (by omega)
  have hne : p.matched.length ≠ 0 := by omega
  refine ⟨first,
    { Exact_times :=
        match first.sourceFreq with
        | some f => f.Exact_times
        | none => true
      Start_time := first.t
      End_time := getGtfsTimeFromSec (last.t.SecondsSinceMidnight + p.headways)
      Headway_secs := p.headways }, k0, ?_, h1, h2, by simpa using h3, rfl, ?_, rfl, rfl⟩
  · simp only [progFrequency, h1, h2, hne, if_false, h4, h5]
  · simp only [secondsSinceMidnight_getGtfsTimeFromSec]
    have h7 : last.t.SecondsSinceMidnight = last.secs := rfl
    rw [h7, h6]
    have h8 : ((p.matched.length - 1 : Nat) : Int) = (p.matched.length : Int) - 1 := by
      omega
    rw [h8]
    ring

theorem expandsTo_of_arith (a : Frequency) (start h : Int) (n : Nat) (hh : 0 < h)
    (h1 : a.Start_time.SecondsSinceMidnight = start)
    (h2 : a.End_time.SecondsSinceMidnight = start + (n : Int) * h)
    (h3 : a.Headway_secs = h) : ExpandsTo a (progressionTimes start h n) := by
  constructor
  · intro fuel hf
    rw [length_progressionTimes] at hf
    simp only [expandFrequency, h1, h2, h3]
    exact expandFrom_progression n fuel start h hh hf
  · intro fuel l1 hl
    simp only [expandFrequency, h1, h2, h3] at hl
    exact expandFrom_unique n fuel start h l1 hh hl

theorem buildFrequencies_spec (eqs : TripWrappers) :
    ∀ (ps : List FreqCandidate) (sm : Time) (freqs : List Frequency),
      (∀ p ∈ ps, GoodProg (fun f => 0 < f) eqs.trips p) →
      (∀ p ∈ ps, p.matched.length ≠ 1) →
      ∃ sm1 fs, buildFrequencies eqs ps sm freqs = some (sm1, freqs ++ fs) ∧
        List.Forall₂ (fun p f => ExpandsTo f (idxSecs eqs.trips p.matched)) ps fs := by
  intro ps
  induction ps with
  | nil =>
    intro sm freqs _ _
    exact ⟨sm, [], by simp [buildFrequencies], List.Forall₂.nil⟩
  | cons p ps ih =>
    intro sm freqs hg hm
    have hgp := hg p (List.mem_cons_self _ _)
    have hmp := hm p (List.mem_cons_self _ _)
    obtain ⟨start, ht⟩ := hgp.times
    obtain ⟨first, a, k0, hpf, _, _, hs, hst, hen, hhw, _⟩ := progFrequency_spec eqs hgp ht
    have hh : 0 < p.headways := by
      rcases hgp.hw with h | h
      · exact absurd h.1 hmp
      · exact h.2
    have hexp : ExpandsTo a (idxSecs eqs.trips p.matched) := by
      rw [idxSecs_of_times ht]
      apply expandsTo_of_arith a start p.headways p.matched.length hh _ hen hhw
      rw [hst]
      exact hs
    obtain ⟨sm1, fs, hb, hf⟩ := ih
      (if sm.SecondsSinceMidnight > first.t.SecondsSinceMidnight then first.t else sm)
      (freqs ++ [a])
      (fun q hq => hg q (List.mem_cons_of_mem _ hq))
      (fun q hq => hm q (List.mem_cons_of_mem _ hq))
    refine ⟨sm1, a :: fs, ?_, List.Forall₂.cons hexp hf⟩
    rw [buildFrequencies]
    simp only [hmp, if_false, hpf, hb]
    simp

theorem expandFrequencies_spec (g : FreqCandidate → List Int) :
    ∀ (ps : List FreqCandidate) (fs : List Frequency),
      List.Forall₂ (fun p f => ExpandsTo f (g p)) ps fs →
      (∀ fuel, (∀ p ∈ ps, (g p).length + 1 ≤ fuel) →
        expandFrequencies fuel fs = some (ps.flatMap g)) ∧
      (∀ fuel l, expandFrequencies fuel fs = some l → l = ps.flatMap g) := by
  intro ps fs h
  induction h with
  | nil =>
    exact ⟨fun _ _ => by simp [expandFrequencies], fun _ l hl => by
      simp only [expandFrequencies, Option.some.injEq] at hl
      simp [← hl]⟩
  | @cons p f ps fs hpf _ ih =>
    constructor
    · intro fuel hfuel
      have h1 := hpf.1 fuel (hfuel p (List.mem_cons_self _ _))
      have h2 := ih.1 fuel (fun q hq => hfuel q (List.mem_cons_of_mem _ hq))
      simp [expandFrequencies, h1, h2]
    · intro fuel l hl
      rw [expandFrequencies] at hl
      cases h1 : expandFrequency fuel f with
      | none => simp [h1] at hl
      | some l1 =>
        cases h2 : expandFrequencies fuel fs with
        | none => simp [h1, h2] at hl
        | some l2 =>
          simp only [h1, h2, Option.some.injEq] at hl
          rw [← hl, hpf.2 fuel l1 h1, ih.2 fuel l2 h2]
          simp

theorem idxSecs_append (ts : List TripWrapper) (a b : List Nat) :
    idxSecs ts (a ++ b) = idxSecs ts a ++ idxSecs ts b := by
  simp [idxSecs]

theorem length_idxSecs (ts : List TripWrapper) (a : List Nat) :
    (idxSecs ts a).length = a.length := by
  simp [idxSecs]

theorem idxSecs_range (ts : List TripWrapper) :
    idxSecs ts (List.range ts.length) = ts.map TripWrapper.secs := by
  apply List.ext_getElem
  · simp [idxSecs]
  · intro i h1 h2
    have hi : i < ts.length := by simpa [idxSecs] using h1
    simp [idxSecs, secsOf, List.getElem?_eq_getElem hi]

theorem idxSecs_flatMap (ts : List TripWrapper) (ps : List FreqCandidate) :
    ps.flatMap (fun p => idxSecs ts p.matched) = idxSecs ts (coveredIdx ps) := by
  induction ps with
  | nil => simp [coveredIdx, idxSecs]
  | cons p ps ih =>
    have hc : coveredIdx (p :: ps) = p.matched ++ coveredIdx ps := by simp [coveredIdx]
    rw [hc, idxSecs_append, List.flatMap_cons, ih]

theorem goodProg_length_le {H : Int → Prop} {ts : List TripWrapper} {p : FreqCandidate}
    (hg : GoodProg H ts p) : p.matched.length ≤ ts.length :=
  length_le_of_nodup_lt (hg.incr.imp (fun h => Nat.ne_of_lt h)) hg.inRange

theorem packOutput_spec (eqs : TripWrappers) (pk : ProgressionCover) (hpk : PackGood eqs pk) :
    ∃ out, packFrequencies eqs pk = some out ∧
      (∀ fuel, eqs.trips.length + 1 ≤ fuel →
        outputInstants fuel out = some (idxSecs eqs.trips (coveredIdx pk.progressions))) ∧
      (∀ fuel l, outputInstants fuel out = some l →
        l = idxSecs eqs.trips (coveredIdx pk.progressions)) := by
  cases hps : pk.progressions with
  | nil => exact absurd hps hpk.nonempty
  | cons p0 rest =>
    have hg0 : GoodProg (fun f => 0 < f) eqs.trips p0 := hpk.good p0 (by simp [hps])
    obtain ⟨start, ht⟩ := hg0.times
    obtain ⟨k0, tw0, h1, h2, h3⟩ := times_get ht 0 (List.length_pos.2 hg0.nonempty)
    by_cases hlen : p0.matched.length = 1
    · have hrest : rest = [] := by
        have := hpk.alone p0 (by simp [hps]) hlen
        rw [hps] at this
        simpa using this
      subst hrest
      have hm : p0.matched = [k0] := by
        cases hmm : p0.matched with
        | nil => simp [hmm] at hlen
        | cons a as =>
          simp only [hmm, List.length_cons, Nat.add_eq_right, List.length_eq_zero] at hlen
          subst hlen
          simp only [hmm, List.getElem?_cons_zero, Option.some.injEq] at h1
          rw [h1]
      have hout : packFrequencies eqs pk = some (tw0.t, []) := by
        simp [packFrequencies, hps, h1, h2, buildFrequencies, hlen]
      have hidx : idxSecs eqs.trips (coveredIdx [p0]) = [tw0.secs] := by
        simp [coveredIdx_singleton, hm, idxSecs, secsOf, h2]
      refine ⟨_, hout, ?_, ?_⟩
      · intro fuel _
        simp [outputInstants, hidx, TripWrapper.secs]
      · intro fuel l hl
        simp only [outputInstants, List.length_nil, if_true, Option.some.injEq] at hl
        rw [hidx, ← hl]
        rfl
    · have hmulti : ∀ p ∈ p0 :: rest, p.matched.length ≠ 1 := by
        intro p hp h1p
        have := hpk.alone p (by rw [hps]; exact hp) h1p
        rw [hps] at this
        simp only [List.cons.injEq] at this
        exact hlen (this.1 ▸ h1p)
      obtain ⟨sm1, fs, hb, hf⟩ := buildFrequencies_spec eqs (p0 :: rest) tw0.t []
        (fun p hp => hpk.good p (by rw [hps]; exact hp)) hmulti
      have hout : packFrequencies eqs pk = some (sm1, fs) := by
        simp only [packFrequencies, hps, List.getElem?_cons_zero, h1, h2, hb]
        simp
      have hfs : fs.length ≠ 0 := by
        have := hf.length_eq
        simp only [List.length_cons] at this
        omega
      obtain ⟨he1, he2⟩ := expandFrequencies_spec
        (fun p => idxSecs eqs.trips p.matched) (p0 :: rest) fs hf
      refine ⟨_, hout, ?_, ?_⟩
      · intro fuel hfuel
        simp only [outputInstants, hfs, if_false]
        rw [← idxSecs_flatMap]
        apply he1
        intro p hp
        have := goodProg_length_le (hpk.good p (by rw [hps]; exact hp))
        rw [length_idxSecs]
        omega
      · intro fuel l hl
        simp only [outputInstants, hfs, if_false] at hl
        rw [← idxSecs_flatMap]
        exact he2 fuel l hl

theorem packingInstants_spec (eqs : TripWrappers) :
    ∀ (packs : List ProgressionCover), (∀ pk ∈ packs, PackGood eqs pk) →
      (∀ fuel, eqs.trips.length + 1 ≤ fuel →
        packingInstants fuel eqs packs =
          some (idxSecs eqs.trips (coveredIdx (allProgressions packs)))) ∧
      (∀ fuel l, packingInstants fuel eqs packs = some l →
        l = idxSecs eqs.trips (coveredIdx (allProgressions packs))) := by
  intro packs
  induction packs with
  | nil =>
    intro _
    constructor
    · intro fuel _
      simp [packingInstants, allProgressions, coveredIdx, idxSecs]
    · intro fuel l hl
      simp only [packingInstants, Option.some.injEq] at hl
      simp [← hl, allProgressions, coveredIdx, idxSecs]
  | cons pk pks ih =>
    intro h
    obtain ⟨out, ho, h1, h2⟩ := packOutput_spec eqs pk (h pk (List.mem_cons_self _ _))
    obtain ⟨i1, i2⟩ := ih (fun q hq => h q (List.mem_cons_of_mem _ hq))
    have hsplit : idxSecs eqs.trips (coveredIdx (allProgressions (pk :: pks))) =
        idxSecs eqs.trips (coveredIdx pk.progressions) ++
          idxSecs eqs.trips (coveredIdx (allProgressions pks)) := by
      rw [allProgressions_cons, coveredIdx_append, idxSecs_append]
    constructor
    · intro fuel hfuel
      rw [packingInstants]
      simp only [ho, h1 fuel hfuel, i1 fuel hfuel, hsplit]
    · intro fuel l hl
      rw [packingInstants] at hl
      simp only [ho] at hl
      cases ha : outputInstants fuel out with
      | none => simp [ha] at hl
      | some la =>
        cases hb : packingInstants fuel eqs pks with
        | none => simp [ha, hb] at hl
        | some lb =>
          simp only [ha, hb, Option.some.injEq] at hl
          rw [hsplit, ← hl, h2 fuel la ha, i2 fuel lb hb]

theorem packGood_of_cover (fuel : Nat) (order : Nat → Nat → List Int) (eqs : TripWrappers)
    (ov : Bool) (c : ProgressionCover) (packs : List ProgressionCover)
    (hs : TimeSorted eqs.trips) (ho : KeyOrder eqs order)
    (hc : getCover fuel order eqs ov = some c) (hp : packCovers c eqs = some packs) :
    ∀ pk ∈ packs, PackGood eqs pk := by
  obtain ⟨hg, _⟩ := getCover_sound (fun f => 0 < f) fuel order eqs ov c (keyOrder_pos hs ho) hc
  obtain ⟨h1, h2, h3, _⟩ := packCovers_sound c eqs packs hp
  intro pk hpk
  refine ⟨h2 pk hpk, ?_, h3 pk hpk⟩
  intro p hpp
  exact hg p (h1.subset (mem_allProgressions.2 ⟨pk, hpk, hpp⟩))

theorem span_of_goodProg {H : Int → Prop} (eqs : TripWrappers) {p : FreqCandidate}
    (hg : GoodProg H eqs.trips p) {start : Int}
    (ht : p.matched.map (secsOf eqs.trips) =
      (progressionTimes start p.headways p.matched.length).map some) :
    firstSecs eqs p = some start ∧
      lastSecs eqs p = some (start + ((p.matched.length : Int) - 1) * p.headways) := by
  have hpos : 0 < p.matched.length := List.length_pos.2 hg.nonempty
  obtain ⟨k0, first, h1, h2, h3⟩ := times_get ht 0 hpos
  obtain ⟨kl, last, h4, h5, h6⟩ := times_get ht (p.matched.length - 1) (by omega)
  have hne : p.matched.length ≠ 0 := by omega
  constructor
  · simp only [firstSecs, h1, tripSecs, h2, Option.map_some', h3]
    simp
  · simp only [lastSecs, hne, if_false, h4, tripSecs, h5, Option.map_some', h6]
    have h8 : ((p.matched.length - 1 : Nat) : Int) = (p.matched.length : Int) - 1 := by
      omega
    rw [h8]

theorem expansion_within_span (eqs : TripWrappers) {p : FreqCandidate}
    (hg : GoodProg (fun f => 0 < f) eqs.trips p) (first : TripWrapper) (a : Frequency)
    (fuel : Nat) (l : List Int) (hpf : progFrequency eqs p = some (first, a))
    (hl : expandFrequency fuel a = some l) :
    ∃ pf pl, firstSecs eqs p = some pf ∧ lastSecs eqs p = some pl ∧
      ∀ x ∈ l, pf ≤ x ∧ x ≤ pl := by
  obtain ⟨start, ht⟩ := hg.times
  obtain ⟨hf, hla⟩ := span_of_goodProg eqs hg ht
  obtain ⟨first1, a1, k0, hpf1, _, _, hs, hst, hen, hhw, _⟩ := progFrequency_spec eqs hg ht
  rw [hpf] at hpf1
  simp only [Option.some.injEq, Prod.mk.injEq] at hpf1
  obtain ⟨e1, e2⟩ := hpf1
  subst e1 e2
  have hst1 : a.Start_time.SecondsSinceMidnight = start := by rw [hst]; exact hs
  refine ⟨_, _, hf, hla, ?_⟩
  rcases hg.hw with h | h
  · have hempty : l = [] := by
      simp only [expandFrequency, hst1, hen, hhw, h.1, h.2] at hl
      cases fuel with
      | zero => simp [expandFrom] at hl
      | succ f =>
        simp only [expandFrom, Nat.cast_one, mul_zero, add_zero, lt_self_iff_false,
          if_false, Option.some.injEq] at hl
        exact hl.symm
    intro x hx
    simp [hempty] at hx
  · have hx := (expandsTo_of_arith a start p.headways p.matched.length h.2 hst1 hen hhw).2
      fuel l hl
    intro x hxl
    rw [hx] at hxl
    simp only [progressionTimes, List.mem_map, List.mem_range] at hxl
    obtain ⟨k, hk, rfl⟩ := hxl
    have hk1 : (k : Int) ≤ (p.matched.length : Int) - 1 := by omega
    have hk0 : (0 : Int) ≤ (k : Int) := Int.natCast_nonneg k
    have hpos := h.2
    constructor
    · nlinarith
    · nlinarith

theorem length_setInsert_le {α : Type} [DecidableEq α] (x : α) (s : List α) :
    (setInsert x s).length ≤ s.length + 1 := by
  unfold setInsert
  split <;> simp

theorem classifyLoop_covered_le (fuel : Nat) (trip : Trip) :
    ∀ (trips : List Trip) (i : Nat) (ret eqs : TripWrappers),
      ret.coveredTrips.length ≤ ret.trips.length →
      classifyLoop fuel trip trips i ret = some eqs →
      eqs.coveredTrips.length ≤ eqs.trips.length := by
  intro trips
  induction trips with
  | nil =>
    intro i ret eqs h hc
    simp only [classifyLoop, Option.some.injEq] at hc
    exact hc ▸ h
  | cons t rest ih =>
    intro i ret eqs h hc
    rw [classifyLoop] at hc
    split at hc
    · cases hinst : tripInstances fuel i t with
      | none => simp [hinst] at hc
      | some inst =>
        simp only [hinst] at hc
        refine ih (i + 1) _ eqs ?_ hc
        simp only [List.length_append]
        by_cases he : inst = []
        · simp [he, h]
        · simp only [he, if_false]
          have h1 := length_setInsert_le t.Id ret.coveredTrips
          have h2 : 0 < inst.length := List.length_pos.2 he
          omega
    · exact ih (i + 1) ret eqs h hc

theorem choosePacking_covered (o : RunOracle) (eqs eqs2 : TripWrappers)
    (packed : List ProgressionCover) (h : choosePacking o eqs = some (packed, eqs2)) :
    eqs2.coveredTrips = eqs.coveredTrips := by
  unfold choosePacking at h
  simp only at h
  split at h
  · cases h
  · split at h
    · cases h
    · split at h
      · cases h
      · split at h
        · cases h
        · simp only [Option.some.injEq, Prod.mk.injEq] at h
          rw [← h.2]

/-! ## The cover and the packing depend on the start times only -/

theorem freqEq_exact {ti tj : TripWrapper} (hi : ExactInstance ti) (hj : ExactInstance tj) :
    freqEq ti tj = some true := by
  obtain ⟨_, _, _, si⟩ := ti
  obtain ⟨_, _, _, sj⟩ := tj
  rcases si with _ | ⟨a1, e1⟩ <;> rcases sj with _ | ⟨a2, e2⟩
  · simp [freqEq, goOr, goAnd, ptrEq, derefExact, exactAgree]
  · have h2 : e2 = true := hj ⟨a2, e2⟩ rfl
    subst h2
    simp [freqEq, goOr, goAnd, ptrEq, derefExact, exactAgree]
  · have h1 : e1 = true := hi ⟨a1, e1⟩ rfl
    subst h1
    simp [freqEq, goOr, goAnd, ptrEq, derefExact, exactAgree]
  · have h1 : e1 = true := hi ⟨a1, e1⟩ rfl
    have h2 : e2 = true := hj ⟨a2, e2⟩ rfl
    subst h1 h2
    simp only [freqEq, goOr, goAnd, ptrEq, derefExact, exactAgree, Option.map_some',
      Option.isNone_some, Option.isSome_some]
    generalize (some a2 == some a1) = b
    cases b <;> simp

theorem growFrom_congr (ov : Bool) (freq start : Int) (ti ti1 : TripWrapper)
    (hi : ExactInstance ti) (hi1 : ExactInstance ti1) :
    ∀ (rest rest1 : List TripWrapper) (j : Nat) (c : FreqCandidate),
      rest.map timeKey = rest1.map timeKey → AllExact rest → AllExact rest1 →
      growFrom ov freq start ti rest j c = growFrom ov freq start ti1 rest1 j c := by
  intro rest
  induction rest with
  | nil =>
    intro rest1 j c hk _ _
    cases rest1 with
    | nil => rfl
    | cons a as => simp at hk
  | cons tj rest ih =>
    intro rest1 j c hk he he1
    cases rest1 with
    | nil => simp at hk
    | cons tj1 rest1 =>
      simp only [List.map_cons, List.cons.injEq, timeKey, Prod.mk.injEq] at hk
      obtain ⟨⟨hs, hm⟩, hrest⟩ := hk
      have her : AllExact rest := fun x hx => he x (List.mem_cons_of_mem _ hx)
      have her1 : AllExact rest1 := fun x hx => he1 x (List.mem_cons_of_mem _ hx)
      have hfe := freqEq_exact hi (he tj (List.mem_cons_self _ _))
      have hfe1 := freqEq_exact hi1 (he1 tj1 (List.mem_cons_self _ _))
      rw [growFrom, growFrom]
      simp only [hfe, hfe1, hm, hs]
      rw [ih rest1 (j + 1) c hrest her her1,
        ih rest1 (j + 1) { matched := c.matched ++ [j], headways := freq } hrest her her1]

theorem tryFreqs_congr (ov : Bool) (start : Int) (ti ti1 : TripWrapper)
    (hi : ExactInstance ti) (hi1 : ExactInstance ti1) (rest rest1 : List TripWrapper)
    (i : Nat) (hk : rest.map timeKey = rest1.map timeKey) (he : AllExact rest)
    (he1 : AllExact rest1) :
    ∀ (freqs : List Int) (cur : FreqCandidate),
      tryFreqs ov start ti rest i freqs cur = tryFreqs ov start ti1 rest1 i freqs cur := by
  intro freqs
  induction freqs with
  | nil => intro cur; rfl
  | cons freq freqs ih =>
    intro cur
    rw [tryFreqs, tryFreqs, growFrom_congr ov freq start ti ti1 hi hi1 rest rest1 (i + 1) _
      hk he he1]
    cases growFrom ov freq start ti1 rest1 (i + 1) { matched := [i], headways := 0 } with
    | none => rfl
    | some next => simp only [ih]

theorem firstUnmarked_congr :
    ∀ (ts ts1 : List TripWrapper), ts.map timeKey = ts1.map timeKey →
      firstUnmarked ts = firstUnmarked ts1 := by
  intro ts
  induction ts with
  | nil =>
    intro ts1 h
    cases ts1 with
    | nil => rfl
    | cons a as => simp at h
  | cons tw rest ih =>
    intro ts1 h
    cases ts1 with
    | nil => simp at h
    | cons tw1 rest1 =>
      simp only [List.map_cons, List.cons.injEq, timeKey, Prod.mk.injEq] at h
      simp only [firstUnmarked, h.1.2, ih rest1 h.2]

theorem allExact_set {ts : List TripWrapper} (h : AllExact ts) (k : Nat) (tw : TripWrapper)
    (htw : ExactInstance tw) : AllExact (ts.set k tw) := by
  intro x hx
  rcases List.mem_or_eq_of_mem_set hx with h1 | h1
  · exact h x h1
  · exact h1 ▸ htw

theorem markOne_congr (trips trips1 : List TripWrapper) (cov cov1 : List String) (k : Nat)
    (hk : trips.map timeKey = trips1.map timeKey) (he : AllExact trips)
    (he1 : AllExact trips1) (r : List TripWrapper × List String)
    (h : markOne (trips, cov) k = some r) :
    ∃ r1, markOne (trips1, cov1) k = some r1 ∧ r.1.map timeKey = r1.1.map timeKey ∧
      AllExact r.1 ∧ AllExact r1.1 := by
  unfold markOne at h ⊢
  simp only at h ⊢
  cases hg : trips[k]? with
  | none => simp [hg] at h
  | some tw =>
    have hk1 := congrArg (fun l => l[k]?) hk
    simp only [List.getElem?_map, hg, Option.map_some'] at hk1
    cases hg1 : trips1[k]? with
    | none => simp [hg1] at hk1
    | some tw1 =>
      simp only [hg1, Option.map_some', Option.some.injEq, timeKey, Prod.mk.injEq] at hk1
      simp only [hg, Option.some.injEq] at h
      subst h
      refine ⟨_, rfl, ?_, ?_, ?_⟩
      · simp only [List.map_set, hk, timeKey, TripWrapper.secs]
        have hs : tw.t.SecondsSinceMidnight = tw1.t.SecondsSinceMidnight := hk1.1
        rw [hs]
      · exact allExact_set he k _ (he tw (List.getElem?_mem hg))
      · exact allExact_set he1 k _ (he1 tw1 (List.getElem?_mem hg1))

theorem markAll_congr :
    ∀ (ms : List Nat) (trips trips1 : List TripWrapper) (cov cov1 : List String),
      trips.map timeKey = trips1.map timeKey → AllExact trips → AllExact trips1 →
      ∀ r, markAll ms (trips, cov) = some r →
        ∃ r1, markAll ms (trips1, cov1) = some r1 ∧ r.1.map timeKey = r1.1.map timeKey ∧
          AllExact r.1 ∧ AllExact r1.1 := by
  intro ms
  induction ms with
  | nil =>
    intro trips trips1 cov cov1 hk he he1 r h
    simp only [markAll, Option.some.injEq] at h
    subst h
    exact ⟨_, rfl, hk, he, he1⟩
  | cons k ks ih =>
    intro trips trips1 cov cov1 hk he he1 r h
    rw [markAll] at h
    cases hm : markOne (trips, cov) k with
    | none => simp [hm] at h
    | some r0 =>
      simp only [hm] at h
      obtain ⟨r01, hm1, hk0, he0, he01⟩ := markOne_congr trips trips1 cov cov1 k hk he he1 r0 hm
      obtain ⟨r1, h1, h2, h3, h4⟩ := ih r0.1 r01.1 r0.2 r01.2 hk0 he0 he01 r h
      refine ⟨r1, ?_, h2, h3, h4⟩
      rw [markAll, hm1]
      exact h1

theorem coverStep_congr (ov : Bool) (freqs : List Int) (m : Nat) (st st1 : CoverState)
    (hrel : CoverRel st st1) (r : CoverState) (h : coverStep ov freqs m st = some r) :
    ∃ r1, coverStep ov freqs m st1 = some r1 ∧ CoverRel r r1 := by
  have hlen : st.trips.length = st1.trips.length := by
    simpa using congrArg List.length hrel.keys
  have hfu := firstUnmarked_congr st.trips st1.trips hrel.keys
  unfold coverStep at h ⊢
  simp only at h ⊢
  rw [← hfu, ← hlen]
  by_cases hi : firstUnmarked st.trips ≥ st.trips.length
  · simp only [hi, if_true, Option.some.injEq] at h ⊢
    subst h
    exact ⟨_, rfl, ⟨hrel.keys, hrel.progs, rfl, hrel.exact, hrel.exact1⟩⟩
  · simp only [hi, if_false] at h ⊢
    cases hg : st.trips[firstUnmarked st.trips]? with
    | none => simp [hg] at h
    | some ti =>
      have hk1 := congrArg (fun l => l[firstUnmarked st.trips]?) hrel.keys
      simp only [List.getElem?_map, hg, Option.map_some'] at hk1
      cases hg1 : st1.trips[firstUnmarked st.trips]? with
      | none => simp [hg1] at hk1
      | some ti1 =>
        simp only [hg1, Option.map_some', Option.some.injEq, timeKey, Prod.mk.injEq] at hk1
        have hdrop : (st.trips.drop (firstUnmarked st.trips + 1)).map timeKey =
            (st1.trips.drop (firstUnmarked st.trips + 1)).map timeKey := by
          rw [List.map_drop, List.map_drop, hrel.keys]
        have hed : AllExact (st.trips.drop (firstUnmarked st.trips + 1)) :=
          fun x hx => hrel.exact x (List.mem_of_mem_drop hx)
        have hed1 : AllExact (st1.trips.drop (firstUnmarked st.trips + 1)) :=
          fun x hx => hrel.exact1 x (List.mem_of_mem_drop hx)
        have htry := tryFreqs_congr ov ti.secs ti ti1
          (hrel.exact ti (List.getElem?_mem hg)) (hrel.exact1 ti1 (List.getElem?_mem hg1))
          _ _ (firstUnmarked st.trips) hdrop hed hed1 freqs
          { matched := [firstUnmarked st.trips], headways := 0 }
        simp only [hg] at h
        simp only [← hk1.1, ← htry]
        cases hc : tryFreqs ov ti.secs ti (st.trips.drop (firstUnmarked st.trips + 1))
            (firstUnmarked st.trips) freqs
            { matched := [firstUnmarked st.trips], headways := 0 } with
        | none => simp [hc] at h
        | some cur =>
          simp only [hc] at h ⊢
          by_cases hacc : cur.matched.length ≥ m
          · simp only [hacc, if_true] at h ⊢
            cases hm : markAll cur.matched (st.trips, st.cand.coveredTrips) with
            | none => simp [hm] at h
            | some res =>
              obtain ⟨res1, hm1, hk2, he2, he3⟩ := markAll_congr cur.matched st.trips st1.trips
                st.cand.coveredTrips st1.cand.coveredTrips hrel.keys hrel.exact hrel.exact1
                res hm
              obtain ⟨t1, c1⟩ := res
              obtain ⟨t2, c2⟩ := res1
              simp only [hm, Option.some.injEq] at h
              subst h
              simp only [hm1]
              exact ⟨_, rfl, ⟨hk2, by simp [hrel.progs], hrel.flag, he2, he3⟩⟩
          · simp only [hacc, if_false, Option.some.injEq] at h ⊢
            subst h
            exact ⟨st1, rfl, hrel⟩

theorem minSizeLoop_congr (ov : Bool) (order : Nat → List Int) :
    ∀ (m : Nat) (st st1 r : CoverState), CoverRel st st1 →
      minSizeLoop ov order m st = some r →
      ∃ r1, minSizeLoop ov order m st1 = some r1 ∧ CoverRel r r1 := by
  intro m
  induction m with
  | zero =>
    intro st st1 r hrel h
    simp only [minSizeLoop, Option.some.injEq] at h
    subst h
    exact ⟨st1, rfl, hrel⟩
  | succ m ih =>
    intro st st1 r hrel h
    rw [minSizeLoop] at h
    cases hs : coverStep ov (order (m + 1)) (m + 1) st with
    | none => simp [hs] at h
    | some st2 =>
      simp only [hs] at h
      obtain ⟨st3, hs1, hrel1⟩ := coverStep_congr ov _ _ st st1 hrel st2 hs
      obtain ⟨r1, h1, h2⟩ := ih st2 st3 r hrel1 h
      exact ⟨r1, by rw [minSizeLoop, hs1]; exact h1, h2⟩

theorem coverLoop_congr (ov : Bool) (order : Nat → Nat → List Int) :
    ∀ (fuel pass : Nat) (st st1 r : CoverState), CoverRel st st1 →
      coverLoop ov order fuel pass st = some r →
      ∃ r1, coverLoop ov order fuel pass st1 = some r1 ∧ CoverRel r r1 := by
  intro fuel
  induction fuel with
  | zero =>
    intro pass st st1 r _ h
    simp [coverLoop] at h
  | succ fuel ih =>
    intro pass st st1 r hrel h
    have hlen : st.trips.length = st1.trips.length := by
      simpa using congrArg List.length hrel.keys
    rw [coverLoop] at h ⊢
    rw [← hrel.flag, ← hlen]
    by_cases hu : st.hasUnmarked = true
    · simp only [hu, if_true] at h ⊢
      cases hs : minSizeLoop ov (order pass) st.trips.length st with
      | none => simp [hs] at h
      | some st2 =>
        simp only [hs] at h
        obtain ⟨st3, hs1, hrel1⟩ := minSizeLoop_congr ov _ _ st st1 st2 hrel hs
        simp only [hs1]
        exact ih (pass + 1) st2 st3 r hrel1 h
    · simp only [hu] at h ⊢
      simp only [Bool.false_eq_true, if_false, Option.some.injEq] at h ⊢
      subst h
      exact ⟨st1, rfl, hrel⟩

theorem timeKey_unmark (ts ts1 : List TripWrapper)
    (h : ts.map TripWrapper.secs = ts1.map TripWrapper.secs) :
    (ts.map unmark).map timeKey = (ts1.map unmark).map timeKey := by
  have h1 : ∀ l : List TripWrapper,
      (l.map unmark).map timeKey = (l.map TripWrapper.secs).map (fun s => (s, false)) := by
    intro l
    simp [List.map_map, Function.comp_def, timeKey, unmark, TripWrapper.secs]
  rw [h1, h1, h]

theorem allExact_unmark {ts : List TripWrapper} (h : AllExact ts) : AllExact (ts.map unmark) := by
  intro x hx
  obtain ⟨y, hy, rfl⟩ := List.mem_map.1 hx
  exact h y hy

/-- On two classes with the same start times and exact instances only,
`getCover` finds the same progressions. -/
theorem getCover_congr (fuel : Nat) (order : Nat → Nat → List Int) (eqs eqs1 : TripWrappers)
    (ov : Bool) (hs : eqs.trips.map TripWrapper.secs = eqs1.trips.map TripWrapper.secs)
    (he : AllExact eqs.trips) (he1 : AllExact eqs1.trips) (c : ProgressionCover)
    (h : getCover fuel order eqs ov = some c) :
    ∃ c1, getCover fuel order eqs1 ov = some c1 ∧ c1.progressions = c.progressions := by
  unfold getCover at h ⊢
  simp only [Option.map_eq_some'] at h ⊢
  obtain ⟨r, hr, hc⟩ := h
  obtain ⟨r1, hr1, hrel⟩ := coverLoop_congr ov order fuel 0
    { trips := eqs.trips.map unmark
      cand := { progressions := [], coveredTrips := [] }
      hasUnmarked := true }
    { trips := eqs1.trips.map unmark
      cand := { progressions := [], coveredTrips := [] }
      hasUnmarked := true } r
    ⟨timeKey_unmark _ _ hs, rfl, rfl, allExact_unmark he, allExact_unmark he1⟩ hr
  exact ⟨r1.cand, ⟨r1, hr1, rfl⟩, by rw [← hc, hrel.progs]⟩

theorem secsOf_eq_of_secs {ts ts1 : List TripWrapper}
    (h : ts.map TripWrapper.secs = ts1.map TripWrapper.secs) : secsOf ts = secsOf ts1 := by
  funext k
  have h1 := congrArg (fun l => l[k]?) h
  simpa [secsOf, List.getElem?_map] using h1

theorem tripSecs_congr {t t1 : TripWrappers}
    (h : t.trips.map TripWrapper.secs = t1.trips.map TripWrapper.secs) :
    tripSecs t = tripSecs t1 := by
  funext k
  exact congrFun (secsOf_eq_of_secs h) k

theorem firstSecs_congr {t t1 : TripWrappers}
    (h : t.trips.map TripWrapper.secs = t1.trips.map TripWrapper.secs) :
    firstSecs t = firstSecs t1 := by
  funext p
  simp only [firstSecs, tripSecs_congr h]

theorem lastSecs_congr {t t1 : TripWrappers}
    (h : t.trips.map TripWrapper.secs = t1.trips.map TripWrapper.secs) :
    lastSecs t = lastSecs t1 := by
  funext p
  simp only [lastSecs, tripSecs_congr h]

theorem overlapTest_congr {t t1 : TripWrappers}
    (h : t.trips.map TripWrapper.secs = t1.trips.map TripWrapper.secs) :
    overlapTest t = overlapTest t1 := by
  funext e c
  simp only [overlapTest, firstSecs_congr h, lastSecs_congr h]

theorem anyOverlap_congr {t t1 : TripWrappers}
    (h : t.trips.map TripWrapper.secs = t1.trips.map TripWrapper.secs) (c : FreqCandidate) :
    ∀ progs, anyOverlap t c progs = anyOverlap t1 c progs := by
  intro progs
  induction progs with
  | nil => rfl
  | cons e rest ih => simp only [anyOverlap, overlapTest_congr h, ih]

theorem tryInsert_congr {t t1 : TripWrappers}
    (h : t.trips.map TripWrapper.secs = t1.trips.map TripWrapper.secs) (c : FreqCandidate) :
    ∀ ret, tryInsert t c ret = tryInsert t1 c ret := by
  intro ret
  induction ret with
  | nil => rfl
  | cons pk rest ih => simp only [tryInsert, anyOverlap_congr h, ih]

theorem packLoop_congr {t t1 : TripWrappers}
    (h : t.trips.map TripWrapper.secs = t1.trips.map TripWrapper.secs) :
    ∀ cs ret singles, packLoop t cs ret singles = packLoop t1 cs ret singles := by
  intro cs
  induction cs with
  | nil => intro ret singles; rfl
  | cons c cs ih =>
    intro ret singles
    simp only [packLoop, tryInsert_congr h, ih]

/-- The packing depends on the progressions of the cover and on the start
times of the class only. -/
theorem packCovers_congr {t t1 : TripWrappers} {c c1 : ProgressionCover}
    (h : t.trips.map TripWrapper.secs = t1.trips.map TripWrapper.secs)
    (hc : c.progressions = c1.progressions) : packCovers c t = packCovers c1 t1 := by
  simp only [packCovers, packLoop_congr h, hc]

theorem goodProg_congr {H : Int → Prop} {ts ts1 : List TripWrapper} {p : FreqCandidate}
    (h : ts.map TripWrapper.secs = ts1.map TripWrapper.secs) (hg : GoodProg H ts p) :
    GoodProg H ts1 p := by
  have hlen : ts.length = ts1.length := by simpa using congrArg List.length h
  refine ⟨hg.nonempty, hg.incr, ?_, ?_, hg.hw⟩
  · intro k hk
    rw [← hlen]
    exact hg.inRange k hk
  · rw [← secsOf_eq_of_secs h]
    exact hg.times

theorem sorted_secs_eq {l l1 : List TripWrapper} (hs : TimeSorted l) (hs1 : TimeSorted l1)
    (hp : (l.map TripWrapper.secs).Perm (l1.map TripWrapper.secs)) :
    l.map TripWrapper.secs = l1.map TripWrapper.secs := by
  apply List.eq_of_perm_of_sorted hp (r := fun a b : Int => a ≤ b)
  · exact List.pairwise_map.2 hs
  · exact List.pairwise_map.2 hs1

/-! ## The output trips of a rewrite -/

theorem shiftStop_shiftStop (a b : Int) (s : StopTime) :
    shiftStop b (shiftStop a s) = shiftStop (a + b) s := by
  simp only [shiftStop, secondsSinceMidnight_getGtfsTimeFromSec]
  congr 2 <;> omega

theorem freshId_spec (ids : List String) (base : String) :
    ∀ (fuel s : Nat) (r : String × Nat), freshId ids base fuel s = some r →
      r.1 ∉ ids ∧ s ≤ r.2 := by
  intro fuel
  induction fuel with
  | zero => intro s r h; simp [freshId] at h
  | succ fuel ih =>
    intro s r h
    rw [freshId] at h
    split at h
    · obtain ⟨h1, h2⟩ := ih (s + 1) r h
      exact ⟨h1, by omega⟩
    · rename_i hn
      simp only [Option.some.injEq] at h
      rw [← h]
      exact ⟨hn, le_refl _⟩

theorem remeasure_first (x : Trip) (sm : Time) (s0 : StopTime) (rest : List StopTime)
    (h : x.StopTimes = s0 :: rest) :
    ∃ s1 rest1, (remeasureStopTimes x sm).StopTimes = s1 :: rest1 ∧
      s1.Arrival_time = getGtfsTimeFromSec sm.SecondsSinceMidnight := by
  rw [remeasureStopTimes_eq_shift x sm s0 rest h, h]
  refine ⟨_, _, rfl, ?_⟩
  simp only [shiftStop]
  congr 1
  omega

theorem isOutput_of_remeasure (t : Trip) (eqs : TripWrappers) (pk : ProgressionCover)
    (x : Trip) (sm : Time) (freqs : List Frequency) (hx : ShiftedCopy t x ∨ x.StopTimes = t.StopTimes)
    (hattr : SameAttributes x t) (hne : t.StopTimes ≠ [])
    (hfreq : x.Frequencies = freqs) (hp : packFrequencies eqs pk = some (sm, freqs)) :
    IsOutput t eqs pk (remeasureStopTimes x sm) := by
  obtain ⟨s0, rest, hs⟩ : ∃ s0 rest, x.StopTimes = s0 :: rest := by
    rcases hx with hx | hx
    · obtain ⟨d, hd⟩ := hx.stops
      cases ht : t.StopTimes with
      | nil => exact absurd ht hne
      | cons a as => exact ⟨_, _, by rw [hd, ht]; rfl⟩
    · cases ht : t.StopTimes with
      | nil => exact absurd ht hne
      | cons a as => exact ⟨a, as, by rw [hx, ht]⟩
  obtain ⟨s1, rest1, h1, h2⟩ := remeasure_first x sm s0 rest hs
  refine ⟨⟨hattr, ?_⟩, ⟨sm, s1, rest1, by simpa [remeasureStopTimes, hfreq] using hp, h1, h2⟩⟩
  rw [remeasureStopTimes_eq_shift x sm s0 rest hs]
  rcases hx with hx | hx
  · obtain ⟨d, hd⟩ := hx.stops
    refine ⟨d + (sm.SecondsSinceMidnight - s0.Arrival_time.SecondsSinceMidnight), ?_⟩
    rw [hd, List.map_map]
    apply List.map_congr_left
    intro s _
    exact shiftStop_shiftStop _ _ s
  · exact ⟨_, by rw [hx]⟩

theorem rewritePacks_clones (fuel : Nat) (t : Trip) (eqs : TripWrappers)
    (hne : t.StopTimes ≠ []) :
    ∀ (packs : List ProgressionCover) (st st1 : RewriteState),
      rewritePacks fuel eqs packs st = some st1 →
      1 < st.suffixC → ShiftedCopy t st.t →
      st1.t = st.t ∧ ∃ clones, st1.others = st.others ++ clones ∧
        List.Forall₂ (IsOutput t eqs) packs clones ∧ (clones.map Trip.Id).Nodup ∧
        ∀ c ∈ clones, c.Id ∉ st.t.Id :: st.others.map Trip.Id := by
  intro packs
  induction packs with
  | nil =>
    intro st st1 h _ _
    simp only [rewritePacks, Option.some.injEq] at h
    subst h
    exact ⟨rfl, [], by simp, List.Forall₂.nil, by simp, by simp⟩
  | cons pk rest ih =>
    intro st st1 h hs hcopy
    rw [rewritePacks] at h
    cases hp : rewritePack fuel eqs st pk with
    | none => simp [hp] at h
    | some st2 =>
      simp only [hp] at h
      unfold rewritePack at hp
      simp only [hs, if_true] at hp
      cases hf : freshId (st.t.Id :: st.others.map Trip.Id) st.t.Id fuel st.suffixC with
      | none => simp [hf] at hp
      | some r =>
        obtain ⟨newId, s1⟩ := r
        obtain ⟨hfresh, hle⟩ := freshId_spec _ _ fuel st.suffixC (newId, s1) hf
        simp only at hfresh hle
        simp only [hf] at hp
        cases hpf : packFrequencies eqs pk with
        | none => simp [hpf] at hp
        | some out =>
          obtain ⟨sm, freqs⟩ := out
          simp only [hpf, Option.some.injEq] at hp
          subst hp
          obtain ⟨ht2, clones, ho, hfa, hnd, hnot⟩ := ih _ st1 h (by simp only; omega) hcopy
          simp only at ht2 ho hnot
          refine ⟨ht2, _ :: clones, by rw [ho, List.append_assoc]; rfl,
            List.Forall₂.cons ?_ hfa, ?_, ?_⟩
          · refine isOutput_of_remeasure t eqs pk _ sm freqs ?_ ?_ hne ?_ hpf
            · exact Or.inl ⟨hcopy.attrs, hcopy.stops⟩
            · exact hcopy.attrs
            · rfl
          · simp only [List.map_cons, List.nodup_cons]
            refine ⟨?_, hnd⟩
            intro hmem
            obtain ⟨c, hc, hcid⟩ := List.mem_map.1 hmem
            apply hnot c hc
            rw [hcid]
            simp [remeasureStopTimes]
          · intro c hc
            rcases List.mem_cons.1 hc with rfl | hc1
            · simpa [remeasureStopTimes] using hfresh
            · intro hmem
              apply hnot c hc1
              simp only [List.mem_cons, List.map_append, List.mem_append] at hmem ⊢
              tauto

theorem sameAttributes_refl (t : Trip) : SameAttributes t t :=
  ⟨rfl, rfl, rfl, rfl, rfl, rfl, rfl, rfl, rfl⟩

/-- The feed that a rewrite leaves, when every trip of the feed has
an instance in the class: one output trip for each pack, with distinct
identifiers. -/
theorem rewriteGroup_outputs (fuel : Nat) (feed feed2 : List Trip) (t : Trip)
    (eqs : TripWrappers) (packed : List ProgressionCover)
    (hne : t.StopTimes ≠ []) (hpk : packed ≠ [])
    (hinst : ∀ x ∈ feed, x.Id ∈ eqs.trips.map TripWrapper.Trip)
    (hsub : ∀ tw ∈ eqs.trips, tw.Trip ∈ feed.map Trip.Id)
    (h : rewriteGroup fuel feed t eqs packed = some feed2) :
    List.Forall₂ (IsOutput t eqs) packed feed2 ∧ (feed2.map Trip.Id).Nodup := by
  cases packed with
  | nil => exact absurd rfl hpk
  | cons pk1 rest =>
    unfold rewriteGroup at h
    rw [rewritePacks] at h
    cases hp : rewritePack fuel eqs
        { others := feed.filter (fun x => x.Id ≠ t.Id), t := t, suffixC := 1 } pk1 with
    | none => rw [hp] at h; cases h
    | some st1 =>
      simp only [hp] at h
      unfold rewritePack at hp
      simp only [gt_iff_lt, lt_self_iff_false, if_false] at hp
      cases hpf : packFrequencies eqs pk1 with
      | none => rw [hpf] at hp; cases hp
      | some out =>
        obtain ⟨sm, freqs⟩ := out
        simp only [hpf, Option.some.injEq] at hp
        subst hp
        have hseed : IsOutput t eqs pk1
            (remeasureStopTimes { t with Frequencies := freqs } sm) :=
          isOutput_of_remeasure t eqs pk1 { t with Frequencies := freqs } sm freqs
            (Or.inr rfl) (sameAttributes_refl t) hne rfl hpf
        cases hr : rewritePacks fuel eqs rest
            { others := feed.filter (fun x => x.Id ≠ t.Id),
              t := remeasureStopTimes { t with Frequencies := freqs } sm,
              suffixC := 1 + 1 } with
        | none => rw [hr] at h; cases h
        | some st2 =>
          simp only [hr, Option.some.injEq] at h
          obtain ⟨ht2, clones, ho, hfa, hnd, hnot⟩ :=
            rewritePacks_clones fuel t eqs hne rest _ st2 hr (by simp) hseed.copy
          simp only at ht2 ho hnot
          have hidseed : (remeasureStopTimes { t with Frequencies := freqs } sm).Id = t.Id := rfl
          have hfeedids : ∀ x ∈ feed, x.Id ∈
              t.Id :: (feed.filter (fun x => x.Id ≠ t.Id)).map Trip.Id := by
            intro x hx
            by_cases hxt : x.Id = t.Id
            · simp [hxt]
            · right
              exact List.mem_map.2 ⟨x, List.mem_filter.2 ⟨hx, by simpa using hxt⟩, rfl⟩
          have hf1 : (feed.filter (fun x => x.Id ≠ t.Id)).filter
              (fun x => x.Id ∉ eqs.trips.map TripWrapper.Trip) = [] := by
            rw [List.filter_eq_nil_iff]
            intro x hx
            have hxf : x ∈ feed := (List.mem_filter.1 hx).1
            simpa using hinst x hxf
          have hf2 : clones.filter (fun x => x.Id ∉ eqs.trips.map TripWrapper.Trip) = clones := by
            rw [List.filter_eq_self]
            intro c hc
            have hcn := hnot c hc
            rw [hidseed] at hcn
            simp only [decide_eq_true_eq]
            intro hmem
            obtain ⟨tw, htw, htwid⟩ := List.mem_map.1 hmem
            obtain ⟨x, hx, hxid⟩ := List.mem_map.1 (hsub tw htw)
            apply hcn
            rw [← htwid, ← hxid]
            exact hfeedids x hx
          rw [← h, ht2, ho, List.filter_append, hf1, hf2, List.nil_append]
          refine ⟨List.Forall₂.cons hseed hfa, ?_⟩
          simp only [List.map_cons, List.nodup_cons]
          refine ⟨?_, hnd⟩
          intro hmem
          obtain ⟨c, hc, hcid⟩ := List.mem_map.1 hmem
          apply hnot c hc
          rw [hcid]
          simp

theorem sameRelLoop_shift (a b : Int) :
    ∀ (S : List StopTime) (prev : Option (StopTime × StopTime)),
      (prev = none ∨ ∃ p, prev = some (shiftStop a p, shiftStop b p)) →
      sameRelLoop (S.map (shiftStop a)) (S.map (shiftStop b)) prev = true := by
  intro S
  induction S with
  | nil => intro prev _; simp [sameRelLoop]
  | cons s rest ih =>
    intro prev hprev
    simp only [List.map_cons]
    have hfields : (shiftStop a s).Stop = (shiftStop b s).Stop ∧
        (shiftStop a s).Headsign = (shiftStop b s).Headsign ∧
        (shiftStop a s).Pickup_type = (shiftStop b s).Pickup_type ∧
        (shiftStop a s).Drop_off_type = (shiftStop b s).Drop_off_type ∧
        floatEquals (shiftStop a s).Shape_dist_traveled (shiftStop b s).Shape_dist_traveled
          (1 / 100) = true ∧
        (shiftStop a s).Timepoint = (shiftStop b s).Timepoint :=
      ⟨rfl, rfl, rfl, rfl, floatEquals_self _, rfl⟩
    rcases hprev with hprev | ⟨p, hprev⟩
    · subst hprev
      simp only [sameRelLoop, hfields, and_self, not_true_eq_false, if_false]
      exact ih _ (Or.inr ⟨s, rfl⟩)
    · subst hprev
      simp only [sameRelLoop, hfields, and_self, not_true_eq_false, if_false,
        shiftStop_arrival, shiftStop_departure]
      have h1 : ¬ (s.Arrival_time.SecondsSinceMidnight + a
          - (p.Arrival_time.SecondsSinceMidnight + a) ≠
          s.Arrival_time.SecondsSinceMidnight + b
          - (p.Arrival_time.SecondsSinceMidnight + b)) := by
        intro hcon
        apply hcon
        omega
      have h2 : ¬ (s.Departure_time.SecondsSinceMidnight + a
          - (p.Departure_time.SecondsSinceMidnight + a) ≠
          s.Departure_time.SecondsSinceMidnight + b
          - (p.Departure_time.SecondsSinceMidnight + b)) := by
        intro hcon
        apply hcon
        omega
      simp only [h1, h2, if_false]
      exact ih _ (Or.inr ⟨s, rfl⟩)

/-- Two shifted copies of one seed with at least one stop are equal without
considering absolute stop times. -/
theorem isTimeIndependentEqual_copies (t x y : Trip) (hx : ShiftedCopy t x)
    (hy : ShiftedCopy t y) : isTimeIndependentEqual x y = true := by
  obtain ⟨a, ha⟩ := hx.stops
  obtain ⟨b, hb⟩ := hy.stops
  obtain ⟨x1, x2, x3, x4, x5, x6, x7, x8, x9⟩ := hx.attrs
  obtain ⟨y1, y2, y3, y4, y5, y6, y7, y8, y9⟩ := hy.attrs
  have hrel : hasSameRelStopTimes x y = true := by
    unfold hasSameRelStopTimes
    rw [ha, hb]
    simp only [List.length_map, ne_eq, not_true_eq_false, if_false, and_self]
    split
    · rfl
    · exact sameRelLoop_shift a b t.StopTimes none (Or.inl rfl)
  simp [isTimeIndependentEqual, x1, x2, x3, x4, x5, x6, x7, x8, x9, y1, y2, y3, y4, y5, y6, y7,
    y8, y9, hrel]

theorem progFrequency_exact (eqs : TripWrappers) (he : AllExact eqs.trips) (p : FreqCandidate)
    (first : TripWrapper) (a : Frequency) (h : progFrequency eqs p = some (first, a)) :
    a.Exact_times = true := by
  unfold progFrequency at h
  cases h0 : p.matched[0]? with
  | none => rw [h0] at h; cases h
  | some k0 =>
    cases h1 : eqs.trips[k0]? with
    | none => simp only [h0, h1] at h; cases h
    | some f1 =>
      simp only [h0, h1] at h
      split at h
      · cases h
      · cases h2 : p.matched[p.matched.length - 1]? with
        | none => rw [h2] at h; cases h
        | some kl =>
          cases h3 : eqs.trips[kl]? with
          | none => simp only [h2, h3] at h; cases h
          | some l1 =>
            simp only [h2, h3, Option.some.injEq, Prod.mk.injEq] at h
            obtain ⟨e1, e2⟩ := h
            subst e1
            rw [← e2]
            have hex := he f1 (List.getElem?_mem h1)
            cases hs : f1.sourceFreq with
            | none => rfl
            | some f => exact hex f hs

theorem buildFrequencies_exact (eqs : TripWrappers) (he : AllExact eqs.trips) :
    ∀ (ps : List FreqCandidate) (sm sm1 : Time) (freqs out : List Frequency),
      (∀ f ∈ freqs, f.Exact_times = true) →
      buildFrequencies eqs ps sm freqs = some (sm1, out) →
      ∀ f ∈ out, f.Exact_times = true := by
  intro ps
  induction ps with
  | nil =>
    intro sm sm1 freqs out hf h
    simp only [buildFrequencies, Option.some.injEq, Prod.mk.injEq] at h
    rw [← h.2]
    exact hf
  | cons p ps ih =>
    intro sm sm1 freqs out hf h
    rw [buildFrequencies] at h
    split at h
    · exact ih _ _ _ _ hf h
    · cases hp : progFrequency eqs p with
      | none => rw [hp] at h; cases h
      | some r =>
        obtain ⟨first, a⟩ := r
        simp only [hp] at h
        refine ih _ _ _ _ ?_ h
        intro f hfm
        rcases List.mem_append.1 hfm with h1 | h1
        · exact hf f h1
        · simp only [List.mem_singleton] at h1
          rw [h1]
          exact progFrequency_exact eqs he p first a hp

theorem packFrequencies_exact (eqs : TripWrappers) (he : AllExact eqs.trips)
    (pk : ProgressionCover) (sm : Time) (freqs : List Frequency)
    (h : packFrequencies eqs pk = some (sm, freqs)) : ∀ f ∈ freqs, f.Exact_times = true := by
  unfold packFrequencies at h
  split at h
  · cases h
  · split at h
    · cases h
    · split at h
      · cases h
      · exact buildFrequencies_exact eqs he _ _ _ _ _ (by simp) h

theorem coveredIdx_ne_nil {eqs : TripWrappers} {pk : ProgressionCover} (hg : PackGood eqs pk) :
    coveredIdx pk.progressions ≠ [] := by
  intro hnil
  have h1 := length_le_length_flatMap FreqCandidate.matched pk.progressions
    (fun p hp => (hg.good p hp).nonempty)
  have h2 : 0 < pk.progressions.length := List.length_pos.2 hg.nonempty
  have h3 : (coveredIdx pk.progressions).length = 0 := by rw [hnil]; rfl
  unfold coveredIdx at h3
  omega

/-- The classifier reads an output trip back as the instants of its pack, all
of them exact. -/
theorem tripInstances_output (t : Trip) (eqs : TripWrappers) (pk : ProgressionCover)
    (x : Trip) (fuel i : Nat) (hx : IsOutput t eqs pk x) (hg : PackGood eqs pk)
    (he : AllExact eqs.trips) (hfuel : eqs.trips.length + 1 ≤ fuel) :
    ∃ inst, tripInstances fuel i x = some inst ∧
      inst.map TripWrapper.secs = idxSecs eqs.trips (coveredIdx pk.progressions) ∧
      inst ≠ [] ∧ AllExact inst := by
  obtain ⟨sm, s0, rest, hpf, hst, harr⟩ := hx.out
  obtain ⟨out, ho, h1, _⟩ := packOutput_spec eqs pk hg
  rw [hpf] at ho
  simp only [Option.some.injEq] at ho
  subst ho
  have hL := h1 fuel hfuel
  have hLne : idxSecs eqs.trips (coveredIdx pk.progressions) ≠ [] := by
    intro hnil
    have := congrArg List.length hnil
    rw [length_idxSecs] at this
    exact coveredIdx_ne_nil hg (List.length_eq_zero.1 this)
  unfold tripInstances
  by_cases hz : x.Frequencies.length = 0
  · simp only [outputInstants, hz, if_true, Option.some.injEq] at hL
    simp only [hz, if_true, hst, List.getElem?_cons_zero]
    refine ⟨_, rfl, ?_, by simp, ?_⟩
    · rw [← hL]
      simp [TripWrapper.secs, harr, secondsSinceMidnight_getGtfsTimeFromSec]
    · intro tw htw
      simp only [List.mem_singleton] at htw
      subst htw
      intro f hf
      cases hf
  · simp only [outputInstants, hz, if_false] at hL
    have hne : x.Frequencies ≠ [] := fun h => hz (by rw [h]; rfl)
    obtain ⟨fl, hfl⟩ : ∃ fl, x.Frequencies.getLast? = some fl :=
      ⟨_, List.getLast?_eq_getLast _ hne⟩
    have hflex : fl.Exact_times = true :=
      packFrequencies_exact eqs he pk sm x.Frequencies hpf fl (List.mem_of_mem_getLast? hfl)
    simp only [hz, if_false, hfl, hL, Option.map_some']
    refine ⟨_, rfl, ?_, ?_, ?_⟩
    · simp [List.map_map, Function.comp_def, TripWrapper.secs,
        secondsSinceMidnight_getGtfsTimeFromSec]
    · simpa using hLne
    · intro tw htw
      obtain ⟨s, _, rfl⟩ := List.mem_map.1 htw
      intro f hf
      simp only [Option.some.injEq] at hf
      rw [← hf]
      exact hflex

theorem setInsert_of_not_mem {α : Type} [DecidableEq α] (x : α) (s : List α) (h : x ∉ s) :
    setInsert x s = s ++ [x] := by
  simp [setInsert, h]

/-- The classifier on a feed of output trips: every trip is taken, and the class
is the list of the instants of the packs, with one covered trip for each
output trip. -/
theorem classifyLoop_outputs (t t2 : Trip) (eqs : TripWrappers) (fuel : Nat)
    (ht2 : ShiftedCopy t t2) (he : AllExact eqs.trips) (hfuel : eqs.trips.length + 1 ≤ fuel) :
    ∀ (packs : List ProgressionCover) (outs : List Trip) (i : Nat) (ret : TripWrappers),
      List.Forall₂ (IsOutput t eqs) packs outs → (∀ pk ∈ packs, PackGood eqs pk) →
      (ret.coveredTrips ++ outs.map Trip.Id).Nodup →
      ∃ insts, classifyLoop fuel t2 outs i ret =
          some { trips := ret.trips ++ insts
                 coveredTrips := ret.coveredTrips ++ outs.map Trip.Id } ∧
        insts.map TripWrapper.secs = idxSecs eqs.trips (coveredIdx (allProgressions packs)) ∧
        AllExact insts := by
  intro packs outs i ret hfa
  induction hfa generalizing i ret with
  | nil =>
    intro _ _
    refine ⟨[], by simp [classifyLoop], by simp [allProgressions, coveredIdx, idxSecs], ?_⟩
    intro tw htw
    simp at htw
  | @cons pk x packs outs hx _ ih =>
    intro hg hnd
    have htest : isTimeIndependentEqual x t2 = true :=
      isTimeIndependentEqual_copies t x t2 hx.copy ht2
    obtain ⟨inst, hinst, hsecs, hne, hex⟩ := tripInstances_output t eqs pk x fuel i hx
      (hg pk (List.mem_cons_self _ _)) he hfuel
    have hxnot : x.Id ∉ ret.coveredTrips := by
      intro hmem
      have := List.nodup_append.1 hnd
      exact this.2.2 hmem (by simp)
    have hnd1 : ((ret.coveredTrips ++ [x.Id]) ++ outs.map Trip.Id).Nodup := by
      simpa [List.append_assoc] using hnd
    obtain ⟨insts, hcl, hs2, hex2⟩ := ih (i + 1)
      { trips := ret.trips ++ inst, coveredTrips := ret.coveredTrips ++ [x.Id] }
      (fun q hq => hg q (List.mem_cons_of_mem _ hq)) hnd1
    refine ⟨inst ++ insts, ?_, ?_, ?_⟩
    · rw [classifyLoop]
      simp only [htest, or_true, if_true, hinst, hne, if_false,
        setInsert_of_not_mem x.Id ret.coveredTrips hxnot, hcl]
      simp
    · rw [List.map_append, hsecs, hs2, allProgressions_cons, coveredIdx_append, idxSecs_append]
    · intro tw htw
      rcases List.mem_append.1 htw with h | h
      · exact hex tw h
      · exact hex2 tw h

/-! ## A second round on the output of a rewrite -/

theorem allExact_perm {l l1 : List TripWrapper} (hp : l.Perm l1) (h : AllExact l) :
    AllExact l1 :=
  fun tw htw => h tw (hp.symm.subset htw)

/-- With the same key orders and the same budget, the driver chooses the same
packing for two classes that have the same start times and exact instances
only, whatever the two sorts do to instances of equal start time. -/
theorem choosePacking_congr (o o2 : RunOracle) (eqs cls : TripWrappers)
    (packed : List ProgressionCover) (e2 : TripWrappers)
    (hs1 : SortOracle o.sort1) (hs2 : SortOracle o.sort2)
    (ht1 : SortOracle o2.sort1) (ht2 : SortOracle o2.sort2)
    (ho1 : o2.order1 = o.order1) (ho2 : o2.order2 = o.order2) (hf : o2.fuel = o.fuel)
    (hperm : (cls.trips.map TripWrapper.secs).Perm (eqs.trips.map TripWrapper.secs))
    (he : AllExact eqs.trips) (hc : AllExact cls.trips)
    (h : choosePacking o eqs = some (packed, e2)) :
    ∃ c2, choosePacking o2 cls = some (packed, c2) ∧ c2.coveredTrips = cls.coveredTrips := by
  have hA1 : ((o2.sort1 cls.trips).map TripWrapper.secs)
      = (o.sort1 eqs.trips).map TripWrapper.secs := by
    apply sorted_secs_eq (ht1 cls.trips).2 (hs1 eqs.trips).2
    exact (((ht1 cls.trips).1.map _).trans hperm).trans ((hs1 eqs.trips).1.map _).symm
  have hA2 : ((o2.sort2 (o2.sort1 cls.trips)).map TripWrapper.secs)
      = (o.sort2 (o.sort1 eqs.trips)).map TripWrapper.secs := by
    apply sorted_secs_eq (ht2 _).2 (hs2 _).2
    have h1 : ((o2.sort2 (o2.sort1 cls.trips)).map TripWrapper.secs).Perm
        ((o2.sort1 cls.trips).map TripWrapper.secs) := (ht2 _).1.map _
    have h2 : ((o.sort2 (o.sort1 eqs.trips)).map TripWrapper.secs).Perm
        ((o.sort1 eqs.trips).map TripWrapper.secs) := (hs2 _).1.map _
    rw [hA1] at h1
    exact h1.trans h2.symm
  have heE1 : AllExact (o.sort1 eqs.trips) := allExact_perm (hs1 _).1.symm he
  have heE2 : AllExact (o.sort2 (o.sort1 eqs.trips)) := allExact_perm (hs2 _).1.symm heE1
  have heA1 : AllExact (o2.sort1 cls.trips) := allExact_perm (ht1 _).1.symm hc
  have heA2 : AllExact (o2.sort2 (o2.sort1 cls.trips)) := allExact_perm (ht2 _).1.symm heA1
  unfold choosePacking at h ⊢
  simp only at h ⊢
  rw [ho1, ho2, hf]
  cases hc1 : getCover o.fuel o.order1 { eqs with trips := o.sort1 eqs.trips } false with
  | none => rw [hc1] at h; cases h
  | some c1 =>
    rw [hc1] at h
    simp only at h
    cases hp1 : packCovers c1 { eqs with trips := o.sort1 eqs.trips } with
    | none => rw [hp1] at h; cases h
    | some p1 =>
      rw [hp1] at h
      simp only at h
      cases hc2 : getCover o.fuel o.order2
          { eqs with trips := o.sort2 (o.sort1 eqs.trips) } true with
      | none => rw [hc2] at h; cases h
      | some c2 =>
        rw [hc2] at h
        simp only at h
        cases hp2 : packCovers c2 { eqs with trips := o.sort2 (o.sort1 eqs.trips) } with
        | none => rw [hp2] at h; cases h
        | some p2 =>
          rw [hp2] at h
          simp only [Option.some.injEq, Prod.mk.injEq] at h
          obtain ⟨d1, hd1, hd1p⟩ := getCover_congr o.fuel o.order1
            { eqs with trips := o.sort1 eqs.trips } { cls with trips := o2.sort1 cls.trips }
            false hA1.symm heE1 heA1 c1 hc1
          obtain ⟨d2, hd2, hd2p⟩ := getCover_congr o.fuel o.order2
            { eqs with trips := o.sort2 (o.sort1 eqs.trips) }
            { cls with trips := o2.sort2 (o2.sort1 cls.trips) }
            true hA2.symm heE2 heA2 c2 hc2
          have hq1 : packCovers d1 { cls with trips := o2.sort1 cls.trips } = some p1 := by
            rw [← hp1]
            exact packCovers_congr hA1 hd1p
          have hq2 : packCovers d2 { cls with trips := o2.sort2 (o2.sort1 cls.trips) }
              = some p2 := by
            rw [← hp2]
            exact packCovers_congr hA2 hd2p
          rw [hd1]
          simp only
          rw [hq1]
          simp only
          rw [hd2]
          simp only
          rw [hq2]
          exact ⟨{ cls with trips := o2.sort2 (o2.sort1 cls.trips) }, by rw [← h.1], rfl⟩

theorem packGood_congr {eqs eqs1 : TripWrappers} {pk : ProgressionCover}
    (h : eqs.trips.map TripWrapper.secs = eqs1.trips.map TripWrapper.secs)
    (hg : PackGood eqs pk) : PackGood eqs1 pk :=
  ⟨hg.nonempty, fun p hp => goodProg_congr h (hg.good p hp), hg.alone⟩

/-- The packing that the driver chooses, for sorts that sort and key orders
that list the keys: the class it leaves is the class in time order, every
pack is well formed over it, and the packs cover every index once. -/
theorem choosePacking_good (o : RunOracle) (eqs e2 : TripWrappers)
    (packed : List ProgressionCover)
    (hs1 : SortOracle o.sort1) (hs2 : SortOracle o.sort2)
    (hk1 : KeyOrder { eqs with trips := o.sort1 eqs.trips } o.order1)
    (hk2 : KeyOrder { eqs with trips := o.sort2 (o.sort1 eqs.trips) } o.order2)
    (h : choosePacking o eqs = some (packed, e2)) :
    e2.trips.Perm eqs.trips ∧ TimeSorted e2.trips ∧ e2.coveredTrips = eqs.coveredTrips ∧
      (∀ pk ∈ packed, PackGood e2 pk) ∧
      (coveredIdx (allProgressions packed)).Perm (List.range e2.trips.length) := by
  have hsecs : (o.sort1 eqs.trips).map TripWrapper.secs
      = (o.sort2 (o.sort1 eqs.trips)).map TripWrapper.secs :=
    sorted_secs_eq (hs1 _).2 (hs2 _).2 ((hs2 _).1.map _).symm
  have hlen : (o.sort1 eqs.trips).length = (o.sort2 (o.sort1 eqs.trips)).length :=
    (hs2 _).1.length_eq.symm
  unfold choosePacking at h
  simp only at h
  cases hc1 : getCover o.fuel o.order1 { eqs with trips := o.sort1 eqs.trips } false with
  | none => rw [hc1] at h; cases h
  | some c1 =>
    rw [hc1] at h
    simp only at h
    cases hp1 : packCovers c1 { eqs with trips := o.sort1 eqs.trips } with
    | none => rw [hp1] at h; cases h
    | some p1 =>
      rw [hp1] at h
      simp only at h
      cases hc2 : getCover o.fuel o.order2
          { eqs with trips := o.sort2 (o.sort1 eqs.trips) } true with
      | none => rw [hc2] at h; cases h
      | some c2 =>
        rw [hc2] at h
        simp only at h
        cases hp2 : packCovers c2 { eqs with trips := o.sort2 (o.sort1 eqs.trips) } with
        | none => rw [hp2] at h; cases h
        | some p2 =>
          rw [hp2] at h
          simp only [Option.some.injEq, Prod.mk.injEq] at h
          obtain ⟨hpk, he2⟩ := h
          subst he2
          have hg1 := packGood_of_cover o.fuel o.order1 _ false c1 p1 (hs1 _).2 hk1 hc1 hp1
          have hg2 := packGood_of_cover o.fuel o.order2 _ true c2 p2 (hs2 _).2 hk2 hc2 hp2
          have hr1 := ((packCovers_sound c1 _ p1 hp1).1.flatMap_right
            FreqCandidate.matched).trans
            (getCover_sound (fun _ => True) o.fuel o.order1 _ false c1
              (fun _ _ _ _ => trivial) hc1).2
          have hr2 := ((packCovers_sound c2 _ p2 hp2).1.flatMap_right
            FreqCandidate.matched).trans
            (getCover_sound (fun _ => True) o.fuel o.order2 _ true c2
              (fun _ _ _ _ => trivial) hc2).2
          refine ⟨(hs2 _).1.trans (hs1 _).1, (hs2 _).2, rfl, ?_, ?_⟩
          · intro pk hmem
            rw [← hpk] at hmem
            split at hmem
            · exact hg2 pk hmem
            · exact packGood_congr hsecs (hg1 pk hmem)
          · rw [← hpk]
            split
            · exact hr2
            · simp only at hr1 ⊢
              rw [← hlen]
              exact hr1

theorem classifyLoop_ids (fuel : Nat) (trip : Trip) :
    ∀ (trips : List Trip) (i : Nat) (ret eqs : TripWrappers) (ids : List String),
      (∀ tw ∈ ret.trips, tw.Trip ∈ ids) → (∀ x ∈ trips, x.Id ∈ ids) →
      classifyLoop fuel trip trips i ret = some eqs → ∀ tw ∈ eqs.trips, tw.Trip ∈ ids := by
  intro trips
  induction trips with
  | nil =>
    intro i ret eqs ids hret _ h
    simp only [classifyLoop, Option.some.injEq] at h
    exact h ▸ hret
  | cons x rest ih =>
    intro i ret eqs ids hret hx h
    rw [classifyLoop] at h
    have hrest : ∀ y ∈ rest, y.Id ∈ ids := fun y hy => hx y (List.mem_cons_of_mem _ hy)
    split at h
    · cases hi : tripInstances fuel i x with
      | none => rw [hi] at h; cases h
      | some inst =>
        rw [hi] at h
        refine ih (i + 1) _ eqs ids ?_ hrest h
        intro tw htw
        rcases List.mem_append.1 htw with h1 | h1
        · exact hret tw h1
        · have hid : tw.Trip = x.Id := by
            unfold tripInstances at hi
            split at hi
            · split at hi
              · cases hi
              · simp only [Option.some.injEq] at hi
                rw [← hi] at h1
                simp only [List.mem_singleton] at h1
                rw [h1]
            · split at hi
              · cases hi
              · simp only [Option.map_eq_some'] at hi
                obtain ⟨l, _, hl⟩ := hi
                rw [← hl] at h1
                obtain ⟨s, _, hs⟩ := List.mem_map.1 h1
                rw [← hs]
          rw [hid]
          exact hx x (List.mem_cons_self _ _)
    · exact ih (i + 1) ret eqs ids hret hrest h

theorem forall₂_mem_right {α β : Type} {R : α → β → Prop} {l1 : List α} {l2 : List β}
    (h : List.Forall₂ R l1 l2) : ∀ y ∈ l2, ∃ x ∈ l1, R x y := by
  induction h with
  | nil => intro y hy; simp at hy
  | cons hr _ ih =>
    intro y hy
    rcases List.mem_cons.1 hy with rfl | hy1
    · exact ⟨_, List.mem_cons_self _ _, hr⟩
    · obtain ⟨x, hx, hxy⟩ := ih y hy1
      exact ⟨x, List.mem_cons_of_mem _ hx, hxy⟩

/-! ## Lemmas on the concrete inputs -/

theorem perm_pair (l : List Int) (h : l.Perm [600, 1200]) :
    l = [600, 1200] ∨ l = [1200, 600] := by
  have hlen := h.length_eq
  match l, hlen with
  | [x, y], _ =>
    have ha := h.subset (List.mem_cons_self x _)
    have hb := h.subset (show y ∈ [x, y] by simp)
    have hn := h.nodup_iff.2 (by decide)
    simp at ha hb hn
    rcases ha with rfl | rfl <;> rcases hb with rfl | rfl <;> simp_all

theorem getPossibleFreqs_threeBare (a b c : String) (m1 m2 m3 : Bool) (cov : List String) :
    getPossibleFreqs (threeBare a b c m1 m2 m3 cov) = [600, 1200] := by
  simp [getPossibleFreqs, threeBare, possibleFreqsLoop, possibleFreqsFrom, TripWrapper.secs,
    Time.SecondsSinceMidnight, setInsert]

theorem getCover_threeBare (a b c : String) (m1 m2 m3 : Bool) (cov : List String) (ov : Bool)
    (order : Nat → Nat → List Int) (ho : KeyOrder (threeBare a b c m1 m2 m3 cov) order) :
    (getCover 5 order (threeBare a b c m1 m2 m3 cov) ov).map ProgressionCover.progressions
      = some [{ matched := [0, 1, 2], headways := 600 }] := by
  have h03 := ho 0 3
  rw [getPossibleFreqs_threeBare] at h03
  rcases perm_pair _ h03 with h | h <;> cases ov <;>
    simp [getCover, coverLoop, minSizeLoop, coverStep, h, firstUnmarked, tryFreqs, growFrom,
      freqEq, goOr, goAnd, ptrEq, derefExact, exactAgree, markAll, markOne, unmark, threeBare,
      TripWrapper.secs, Time.SecondsSinceMidnight, MINIMUM_COVER_SIZE]

theorem isTimeIndependentEqual_exampleTrip (ida idb : String) (h1 m1 h2 m2 : Int)
    (f1 f2 : List Frequency) :
    isTimeIndependentEqual (exampleTrip ida h1 m1 f1) (exampleTrip idb h2 m2 f2) = true := by
  simp only [isTimeIndependentEqual, hasSameRelStopTimes, sameRelLoop, exampleTrip, exampleStop,
    Time.SecondsSinceMidnight, floatEquals_self]
  simp
  ring

theorem classify_threeTripFeed :
    getTimeIndependentEquivalentTrips 5 (exampleTrip "a" 8 0 []) threeTripFeed
      = some threeTrips := by
  simp only [getTimeIndependentEquivalentTrips, threeTripFeed, classifyLoop,
    isTimeIndependentEqual_exampleTrip, or_true, if_true]
  decide

theorem runGroup_threeTripFeed (freqs : List Int) (h : freqs.Perm [600, 1200]) :
    runGroup (simpleOracle 5 freqs) threeTripFeed (exampleTrip "a" 8 0 [])
      = some [exampleTrip "a" 8 0 [⟨true, ⟨8, 0, 0⟩, ⟨8, 30, 0⟩, 600⟩]] := by
  rcases perm_pair _ h with h | h <;> subst h <;>
  · simp only [runGroup, simpleOracle, classify_threeTripFeed]
    decide

theorem insertionSortByTime_oracle : SortOracle insertionSortByTime := by
  intro l
  haveI : IsTotal TripWrapper (fun a b => a.secs ≤ b.secs) := ⟨fun a b => le_total _ _⟩
  haveI : IsTrans TripWrapper (fun a b => a.secs ≤ b.secs) :=
    ⟨fun a b c hab hbc => le_trans hab hbc⟩
  constructor
  · exact List.perm_insertionSort _ l
  · exact List.sorted_insertionSort (fun a b : TripWrapper => a.secs ≤ b.secs) l

theorem classify_mixedFeed :
    getTimeIndependentEquivalentTrips 5 (exampleTrip "a" 8 0 []) mixedFeed
      = some
        { trips := [bareInstance "a" 8 0,
                    { Trip := "c", t := ⟨8, 10, 0⟩, marked := false,
                      sourceFreq := some { addr := 1, Exact_times := false } },
                    bareInstance "b" 8 20]
          coveredTrips := ["a", "c", "b"] } := by
  simp only [getTimeIndependentEquivalentTrips, mixedFeed, classifyLoop,
    isTimeIndependentEqual_exampleTrip, or_true, if_true]
  decide

theorem classify_mixedFeedOnce :
    getTimeIndependentEquivalentTrips 5
        (exampleTrip "a" 8 0
          [{ Exact_times := true, Start_time := ⟨8, 0, 0⟩, End_time := ⟨8, 40, 0⟩,
             Headway_secs := 1200 }]) mixedFeedOnce
      = some
        { trips := [{ Trip := "a", t := ⟨8, 0, 0⟩, marked := false,
                      sourceFreq := some { addr := 0, Exact_times := true } },
                    { Trip := "a", t := ⟨8, 20, 0⟩, marked := false,
                      sourceFreq := some { addr := 0, Exact_times := true } },
                    bareInstance "a_2" 8 10]
          coveredTrips := ["a", "a_2"] } := by
  simp only [getTimeIndependentEquivalentTrips, mixedFeedOnce, classifyLoop,
    isTimeIndependentEqual_exampleTrip, or_true, if_true]
  decide

theorem allExact_threeTrips : AllExact threeTrips.trips := by
  intro tw htw f hf
  simp only [threeTrips, bareInstance, List.mem_cons, List.mem_singleton, List.not_mem_nil,
    or_false] at htw
  rcases htw with rfl | rfl | rfl <;> cases hf

/-! ## The equivalence test -/

theorem floatEquals_comm (a b e : Rat) : floatEquals a b e = floatEquals b a e := by
  simp only [floatEquals, and_comm]

theorem sameStopFields_symm {a b : StopTime} (h : SameStopFields a b) : SameStopFields b a := by
  obtain ⟨h1, h2, h3, h4, h5, h6⟩ := h
  exact ⟨h1.symm, h2.symm, h3.symm, h4.symm, by rw [floatEquals_comm]; exact h5, h6.symm⟩

theorem sameRelLoop_nil_left (bs : List StopTime) (prev : Option (StopTime × StopTime)) :
    sameRelLoop [] bs prev = true := by
  simp [sameRelLoop]

theorem sameRelLoop_nil_right (as : List StopTime) (prev : Option (StopTime × StopTime)) :
    sameRelLoop as [] prev = true := by
  cases as <;> simp [sameRelLoop]

theorem sameRelLoop_cons (a b : StopTime) (as bs : List StopTime)
    (prev : Option (StopTime × StopTime)) :
    sameRelLoop (a :: as) (b :: bs) prev = true ↔
      SameStopFields a b ∧ (∀ p ∈ prev, SameDeltas a b p.1 p.2) ∧
        sameRelLoop as bs (some (a, b)) = true := by
  simp only [sameRelLoop, SameStopFields, SameDeltas]
  by_cases hf : (a.Stop = b.Stop ∧ a.Headsign = b.Headsign ∧ a.Pickup_type = b.Pickup_type ∧
      a.Drop_off_type = b.Drop_off_type ∧
      floatEquals a.Shape_dist_traveled b.Shape_dist_traveled (1 / 100) = true ∧
      a.Timepoint = b.Timepoint)
  · rw [if_neg (not_not.2 hf)]
    cases prev with
    | none =>
      exact ⟨fun h => ⟨hf, fun p hp => (by cases hp), h⟩, fun h => h.2.2⟩
    | some p =>
      obtain ⟨aPrev, bPrev⟩ := p
      show (if _ then false else if _ then false else _) = true ↔ _
      by_cases h1 : a.Arrival_time.SecondsSinceMidnight - aPrev.Arrival_time.SecondsSinceMidnight =
          b.Arrival_time.SecondsSinceMidnight - bPrev.Arrival_time.SecondsSinceMidnight
      · rw [if_neg (not_not.2 h1)]
        by_cases h2 : a.Departure_time.SecondsSinceMidnight -
            aPrev.Departure_time.SecondsSinceMidnight =
            b.Departure_time.SecondsSinceMidnight - bPrev.Departure_time.SecondsSinceMidnight
        · rw [if_neg (not_not.2 h2)]
          refine ⟨fun h => ⟨hf, fun p hp => ?_, h⟩, fun h => h.2.2⟩
          cases hp
          exact ⟨h1, h2⟩
        · rw [if_pos h2]
          refine ⟨fun h => (by cases h), fun h => ?_⟩
          exact absurd (h.2.1 (aPrev, bPrev) rfl).2 h2
      · rw [if_pos h1]
        refine ⟨fun h => (by cases h), fun h => ?_⟩
        exact absurd (h.2.1 (aPrev, bPrev) rfl).1 h1
  · rw [if_pos hf]
    exact ⟨fun h => (by cases h), fun h => absurd h.1 hf⟩

theorem sameRelLoop_symm :
    ∀ (as bs : List StopTime) (prev : Option (StopTime × StopTime)),
      sameRelLoop as bs prev = true → sameRelLoop bs as (prev.map Prod.swap) = true := by
  intro as
  induction as with
  | nil => intro bs prev _; exact sameRelLoop_nil_right bs _
  | cons a as ih =>
    intro bs prev h
    cases bs with
    | nil => exact sameRelLoop_nil_left _ _
    | cons b bs =>
      rw [sameRelLoop_cons] at h ⊢
      obtain ⟨hf, hd, hr⟩ := h
      refine ⟨sameStopFields_symm hf, ?_, ih bs (some (a, b)) hr⟩
      intro p hp
      cases prev with
      | none => cases hp
      | some q =>
        cases hp
        obtain ⟨h1, h2⟩ := hd q rfl
        exact ⟨h1.symm, h2.symm⟩

theorem hasSameRelStopTimes_symm (a b : Trip) (h : hasSameRelStopTimes a b = true) :
    hasSameRelStopTimes b a = true := by
  unfold hasSameRelStopTimes at h ⊢
  by_cases hl : a.StopTimes.length = b.StopTimes.length
  · rw [if_neg (not_not.2 hl)] at h
    rw [if_neg (not_not.2 hl.symm)]
    by_cases h0 : a.StopTimes.length = 0 ∧ b.StopTimes.length = 0
    · rw [if_pos ⟨h0.2, h0.1⟩]
    · rw [if_neg h0] at h
      rw [if_neg (fun hc => h0 ⟨hc.2, hc.1⟩)]
      exact sameRelLoop_symm _ _ none h
  · rw [if_pos hl] at h
    cases h

theorem isTimeIndependentEqual_iff (a b : Trip) :
    isTimeIndependentEqual a b = true ↔ SameAttributes a b ∧ hasSameRelStopTimes a b = true := by
  simp only [isTimeIndependentEqual, SameAttributes, Bool.and_eq_true, decide_eq_true_eq,
    and_assoc]

theorem sameAttributes_symm {a b : Trip} (h : SameAttributes a b) : SameAttributes b a := by
  obtain ⟨h1, h2, h3, h4, h5, h6, h7, h8, h9⟩ := h
  exact ⟨h1.symm, h2.symm, h3.symm, h4.symm, h5.symm, h6.symm, h7.symm, h8.symm, h9.symm⟩

theorem sameAttributes_trans {a b c : Trip} (h : SameAttributes a b) (g : SameAttributes b c) :
    SameAttributes a c := by
  obtain ⟨h1, h2, h3, h4, h5, h6, h7, h8, h9⟩ := h
  obtain ⟨g1, g2, g3, g4, g5, g6, g7, g8, g9⟩ := g
  exact ⟨h1.trans g1, h2.trans g2, h3.trans g3, h4.trans g4, h5.trans g5, h6.trans g6,
    h7.trans g7, h8.trans g8, h9.trans g9⟩

theorem isTimeIndependentEqual_symm_imp (a b : Trip) (h : isTimeIndependentEqual a b = true) :
    isTimeIndependentEqual b a = true := by
  rw [isTimeIndependentEqual_iff] at h ⊢
  exact ⟨sameAttributes_symm h.1, hasSameRelStopTimes_symm a b h.2⟩

theorem sameRelLoop_trans :
    ∀ (as bs cs : List StopTime) (p1 p2 p3 : Option (StopTime × StopTime)),
      as.length = bs.length → bs.length = cs.length →
      ((p1 = none ∧ p2 = none ∧ p3 = none) ∨
        ∃ x y z, p1 = some (x, y) ∧ p2 = some (y, z) ∧ p3 = some (x, z)) →
      (∀ (i : Nat) (x y : StopTime), as[i]? = some x → cs[i]? = some y →
        floatEquals x.Shape_dist_traveled y.Shape_dist_traveled (1 / 100) = true) →
      sameRelLoop as bs p1 = true → sameRelLoop bs cs p2 = true →
      sameRelLoop as cs p3 = true := by
  intro as
  induction as with
  | nil => intro bs cs p1 p2 p3 _ _ _ _ _ _; exact sameRelLoop_nil_left _ _
  | cons a as ih =>
    intro bs cs p1 p2 p3 hl1 hl2 hp hd h1 h2
    cases bs with
    | nil => cases hl1
    | cons b bs =>
      cases cs with
      | nil => cases hl2
      | cons c cs =>
        rw [sameRelLoop_cons] at h1 h2 ⊢
        obtain ⟨⟨f1, f2, f3, f4, _, f6⟩, d1, r1⟩ := h1
        obtain ⟨⟨g1, g2, g3, g4, _, g6⟩, d2, r2⟩ := h2
        refine ⟨⟨f1.trans g1, f2.trans g2, f3.trans g3, f4.trans g4, hd 0 a c (by simp) (by simp),
          f6.trans g6⟩, ?_, ?_⟩
        · intro p hp3
          rcases hp with ⟨_, _, h3⟩ | ⟨x, y, z, e1, e2, e3⟩
          · rw [h3] at hp3; cases hp3
          · rw [e3] at hp3
            cases hp3
            obtain ⟨a1, a2⟩ := d1 (x, y) (by rw [e1]; rfl)
            obtain ⟨b1, b2⟩ := d2 (y, z) (by rw [e2]; rfl)
            exact ⟨a1.trans b1, a2.trans b2⟩
        · refine ih bs cs (some (a, b)) (some (b, c)) (some (a, c))
            (by simpa using hl1) (by simpa using hl2) (Or.inr ⟨a, b, c, rfl, rfl, rfl⟩) ?_ r1 r2
          intro i x y hx hy
          exact hd (i + 1) x y (by simpa using hx) (by simpa using hy)

theorem hasSameRelStopTimes_trans (a b c : Trip) (hd : DistWithin a c)
    (h1 : hasSameRelStopTimes a b = true) (h2 : hasSameRelStopTimes b c = true) :
    hasSameRelStopTimes a c = true := by
  unfold hasSameRelStopTimes at h1 h2 ⊢
  by_cases hl1 : a.StopTimes.length = b.StopTimes.length
  · by_cases hl2 : b.StopTimes.length = c.StopTimes.length
    · rw [if_neg (not_not.2 hl1)] at h1
      rw [if_neg (not_not.2 hl2)] at h2
      rw [if_neg (not_not.2 (hl1.trans hl2))]
      by_cases h0 : a.StopTimes.length = 0 ∧ c.StopTimes.length = 0
      · rw [if_pos h0]
      · rw [if_neg h0]
        have ha : ¬ (a.StopTimes.length = 0 ∧ b.StopTimes.length = 0) := by
          intro hc; exact h0 ⟨hc.1, by omega⟩
        have hb : ¬ (b.StopTimes.length = 0 ∧ c.StopTimes.length = 0) := by
          intro hc; exact h0 ⟨by omega, hc.2⟩
        rw [if_neg ha] at h1
        rw [if_neg hb] at h2
        exact sameRelLoop_trans _ _ _ none none none hl1 hl2 (Or.inl ⟨rfl, rfl, rfl⟩) hd h1 h2
    · rw [if_pos hl2] at h2; cases h2
  · rw [if_pos hl1] at h1; cases h1

/-! ## `packCovers` is first fit -/

theorem timeSorted_le {ts : List TripWrapper} (hs : TimeSorted ts) {i j : Nat} {a b : TripWrapper}
    (hij : i ≤ j) (ha : ts[i]? = some a) (hb : ts[j]? = some b) : a.secs ≤ b.secs := by
  rcases Nat.lt_or_eq_of_le hij with hlt | heq
  · obtain ⟨hi, hai⟩ := List.getElem?_eq_some_iff.1 ha
    obtain ⟨hj, hbj⟩ := List.getElem?_eq_some_iff.1 hb
    have := (List.pairwise_iff_getElem.1 hs) i j hi hj hlt
    rw [hai, hbj] at this
    exact this
  · subst heq
    rw [ha] at hb
    cases hb
    exact le_refl _

theorem properSpan_of_ascending {t : TripWrappers} {p : FreqCandidate}
    (hs : TimeSorted t.trips) (hp : AscendingProg t p) : ProperSpan t p := by
  obtain ⟨⟨hne, hr⟩, hinc⟩ := hp
  have hpos : 0 < p.matched.length := List.length_pos.2 hne
  have h0 : p.matched[0]? = some p.matched[0] := List.getElem?_eq_getElem hpos
  have hl : p.matched[p.matched.length - 1]? = some p.matched[p.matched.length - 1] :=
    List.getElem?_eq_getElem (by omega)
  have hk0 : p.matched[0] < t.trips.length := hr _ (List.getElem_mem _)
  have hkl : p.matched[p.matched.length - 1] < t.trips.length := hr _ (List.getElem_mem _)
  have hle : p.matched[0] ≤ p.matched[p.matched.length - 1] := by
    by_cases h1 : p.matched.length - 1 = 0
    · simp only [h1]; exact le_refl _
    · exact Nat.le_of_lt
        ((List.pairwise_iff_getElem.1 hinc) 0 (p.matched.length - 1) hpos (by omega) (by omega))
  have ha := List.getElem?_eq_getElem hk0
  have hb := List.getElem?_eq_getElem hkl
  refine ⟨t.trips[p.matched[0]].secs, t.trips[p.matched[p.matched.length - 1]].secs, ?_, ?_,
    timeSorted_le hs hle ha hb⟩
  · simp only [firstSecs, h0, tripSecs, ha, Option.map_some']
  · simp only [lastSecs, hl, tripSecs, hb, Option.map_some']
    rw [if_neg (by omega)]

theorem overlapTest_eq_spansIntersect {t : TripWrappers} {e c : FreqCandidate}
    (he : ProperSpan t e) (hc : ProperSpan t c) :
    overlapTest t e c = some (spansIntersect t e c) := by
  obtain ⟨ef, el, h1, h2, h3⟩ := he
  obtain ⟨cf, cl, h4, h5, h6⟩ := hc
  simp only [overlapTest, spansIntersect, spanOf, h1, h2, h4, h5]
  by_cases hgt : ef > cl
  · rw [if_pos hgt]
    congr 1
    symm
    rw [decide_eq_false_iff_not]
    intro hle
    have := le_trans (le_max_left ef cf) (le_trans hle (min_le_right el cl))
    omega
  · rw [if_neg hgt]
    congr 1
    by_cases hlt : el < cf
    · simp only [hlt, decide_True, Bool.not_true]
      symm
      rw [decide_eq_false_iff_not]
      intro hle
      have := le_trans (le_max_right ef cf) (le_trans hle (min_le_left el cl))
      omega
    · simp only [hlt, decide_False, Bool.not_false]
      symm
      rw [decide_eq_true_iff]
      exact max_le (le_min h3 (by omega)) (le_min (by omega) h6)

theorem anyOverlap_eq_not_accepts {t : TripWrappers} {c : FreqCandidate} (hc : ProperSpan t c) :
    ∀ (progs : List FreqCandidate), (∀ e ∈ progs, ProperSpan t e) →
      anyOverlap t c progs = some (!accepts t c progs) := by
  intro progs
  induction progs with
  | nil => intro _; rfl
  | cons e rest ih =>
    intro h
    have he := overlapTest_eq_spansIntersect (h e (List.mem_cons_self _ _)) hc
    have hr := ih (fun x hx => h x (List.mem_cons_of_mem _ hx))
    simp only [anyOverlap, he, accepts, List.all_cons]
    cases hsi : spansIntersect t e c with
    | true => simp
    | false =>
      simp only [Bool.not_false, Bool.true_and]
      exact hr

theorem tryInsert_eq_firstFit {t : TripWrappers} {c : FreqCandidate} (hc : ProperSpan t c) :
    ∀ (packs : List (List FreqCandidate)), (∀ pk ∈ packs, ∀ e ∈ pk, ProperSpan t e) →
      (∃ ins, tryInsert t c (packs.map mkPack) =
          some (if ins then (firstFitPlace t c packs).map mkPack else packs.map mkPack, ins) ∧
        (ins = false → firstFitPlace t c packs = packs ++ [[c]])) := by
  intro packs
  induction packs with
  | nil => intro _; exact ⟨false, rfl, fun _ => rfl⟩
  | cons pk rest ih =>
    intro h
    have ha := anyOverlap_eq_not_accepts hc pk (h pk (List.mem_cons_self _ _))
    obtain ⟨ins, h1, h2⟩ := ih (fun q hq => h q (List.mem_cons_of_mem _ hq))
    cases hacc : accepts t c pk with
    | true =>
      refine ⟨true, ?_, fun hf => by cases hf⟩
      simp only [List.map_cons, tryInsert, mkPack, ha, hacc, Bool.not_true, firstFitPlace,
        if_true]
    | false =>
      refine ⟨ins, ?_, ?_⟩
      · simp only [List.map_cons, tryInsert, mkPack, ha, hacc, Bool.not_false, firstFitPlace]
        rw [h1]
        cases ins <;> simp [mkPack]
      · intro hi
        simp only [firstFitPlace, hacc, h2 hi, List.cons_append]
        rfl

theorem firstFitPlace_forall (t : TripWrappers) (c : FreqCandidate)
    (P : List FreqCandidate → Prop) (h1 : P [c]) (h2 : ∀ pk, P pk → P (pk ++ [c])) :
    ∀ (packs : List (List FreqCandidate)), (∀ pk ∈ packs, P pk) →
      ∀ pk ∈ firstFitPlace t c packs, P pk := by
  intro packs
  induction packs with
  | nil =>
    intro _ pk h
    simp only [firstFitPlace, List.mem_singleton] at h
    subst h
    exact h1
  | cons pk0 rest ih =>
    intro hall pk h
    simp only [firstFitPlace] at h
    by_cases hacc : accepts t c pk0 = true
    · rw [if_pos hacc] at h
      rcases List.mem_cons.1 h with h3 | h3
      · subst h3
        exact h2 pk0 (hall pk0 (List.mem_cons_self _ _))
      · exact hall pk (List.mem_cons_of_mem _ h3)
    · rw [if_neg hacc] at h
      rcases List.mem_cons.1 h with h3 | h3
      · subst h3
        exact hall _ (List.mem_cons_self _ _)
      · exact ih (fun q hq => hall q (List.mem_cons_of_mem _ hq)) pk h3

theorem firstFitPlace_ne_nil (t : TripWrappers) (c : FreqCandidate)
    (packs : List (List FreqCandidate)) : firstFitPlace t c packs ≠ [] := by
  cases packs with
  | nil => simp [firstFitPlace]
  | cons pk rest =>
    simp only [firstFitPlace]
    split <;> simp

theorem packLoop_eq_firstFit (t : TripWrappers) :
    ∀ (cs : List FreqCandidate) (ret singles : List ProgressionCover)
      (packs : List (List FreqCandidate)),
      (∀ p ∈ cs, ProperSpan t p ∧ p.matched ≠ []) →
      (∀ pk ∈ packs, ∀ e ∈ pk, ProperSpan t e) → PacksRel ret packs →
      ∃ ret1, packLoop t cs ret singles =
          some (ret1, singles ++
            (cs.filter (fun p => decide (p.matched.length = 1))).map (fun p => mkPack [p])) ∧
        PacksRel ret1 ((cs.filter (fun p => decide (2 ≤ p.matched.length))).foldl
          (fun packs c => firstFitPlace t c packs) packs) := by
  intro cs
  induction cs with
  | nil =>
    intro ret singles packs _ _ hrel
    exact ⟨ret, by simp [packLoop], by simpa using hrel⟩
  | cons c cs ih =>
    intro ret singles packs hcs hpacks hrel
    obtain ⟨hcp, hcne⟩ := hcs c (List.mem_cons_self _ _)
    have hcs1 : ∀ p ∈ cs, ProperSpan t p ∧ p.matched ≠ [] :=
      fun p hp => hcs p (List.mem_cons_of_mem _ hp)
    have hpos : 0 < c.matched.length := List.length_pos.2 hcne
    by_cases h1 : c.matched.length = 1
    · obtain ⟨ret1, hr1, hr2⟩ := ih ret (singles ++ [mkPack [c]]) packs hcs1 hpacks hrel
      refine ⟨ret1, ?_, ?_⟩
      · simp only [packLoop, h1, if_true]
        rw [show ({ progressions := [c], coveredTrips := [] } : ProgressionCover) = mkPack [c]
          from rfl, hr1]
        simp [List.filter_cons, h1]
      · simpa [List.filter_cons, h1] using hr2
    · have h2 : 2 ≤ c.matched.length := by omega
      have hnew : ∀ pk ∈ firstFitPlace t c packs, ∀ e ∈ pk, ProperSpan t e :=
        firstFitPlace_forall t c (fun pk => ∀ e ∈ pk, ProperSpan t e)
          (fun e he => by rw [List.mem_singleton.1 he]; exact hcp)
          (fun pk hpk e he => by
            rcases List.mem_append.1 he with h3 | h3
            · exact hpk e h3
            · rw [List.mem_singleton.1 h3]; exact hcp)
          packs hpacks
      have hrel1 : ∃ ret2, (∃ res, tryInsert t c ret = some res ∧
          ((res.2 = true ∧ ret2 = res.1) ∨
            (res.2 = false ∧ ret2 = res.1 ++ [mkPack [c]]))) ∧
          PacksRel ret2 (firstFitPlace t c packs) := by
        rcases hrel with ⟨hr, hp⟩ | ⟨hr, hp, hne⟩
        · subst hr; subst hp
          refine ⟨[mkPack [c]], ⟨([mkPack [c]], true), ?_, Or.inl ⟨rfl, rfl⟩⟩, ?_⟩
          · simp [tryInsert, anyOverlap, mkPack]
          · exact Or.inr ⟨rfl, by simp [firstFitPlace], by simp [firstFitPlace]⟩
        · subst hr
          obtain ⟨ins, hi1, hi2⟩ := tryInsert_eq_firstFit hcp packs hpacks
          have hne1 : ∀ pk ∈ firstFitPlace t c packs, pk ≠ [] :=
            firstFitPlace_forall t c (fun pk => pk ≠ []) (by simp) (fun pk _ => by simp)
              packs hne
          cases ins with
          | true =>
            exact ⟨(firstFitPlace t c packs).map mkPack, ⟨_, hi1, Or.inl ⟨rfl, rfl⟩⟩,
              Or.inr ⟨rfl, firstFitPlace_ne_nil t c packs, hne1⟩⟩
          | false =>
            refine ⟨packs.map mkPack ++ [mkPack [c]], ⟨_, hi1, Or.inr ⟨rfl, rfl⟩⟩,
              Or.inr ⟨?_, firstFitPlace_ne_nil t c packs, hne1⟩⟩
            rw [hi2 rfl]
            simp
      obtain ⟨ret2, ⟨res, hres, hcase⟩, hrel2⟩ := hrel1
      obtain ⟨ret1, hr1, hr2⟩ := ih ret2 singles (firstFitPlace t c packs) hcs1 hnew hrel2
      refine ⟨ret1, ?_, ?_⟩
      · obtain ⟨r1, ins⟩ := res
        simp only [packLoop, h1, if_false, hres]
        rcases hcase with ⟨hins, hr⟩ | ⟨hins, hr⟩
        · simp only at hins hr
          subst hins; subst hr
          simp only [hr1]
          simp [List.filter_cons, h1]
        · simp only at hins hr
          subst hins; subst hr
          rw [show ({ progressions := [c], coveredTrips := [] } : ProgressionCover) = mkPack [c]
            from rfl]
          simp only [hr1]
          simp [List.filter_cons, h1]
      · simpa [List.filter_cons, h2] using hr2

theorem packCovers_eq_firstFit (c : ProgressionCover) (t : TripWrappers)
    (hc : ∀ p ∈ c.progressions, ProperSpan t p ∧ p.matched ≠ []) :
    packCovers c t = some ((firstFitPacking t c.progressions).map mkPack) := by
  obtain ⟨ret1, h1, h2⟩ := packLoop_eq_firstFit t c.progressions [mkPack []] [] [] hc
    (fun _ h => by cases h) (Or.inl ⟨rfl, rfl⟩)
  unfold packCovers
  rw [show ({ progressions := [], coveredTrips := [] } : ProgressionCover) = mkPack [] from rfl,
    h1]
  rcases h2 with ⟨hr, hp⟩ | ⟨hr, hp, hne⟩
  · subst hr
    simp only [firstFitPacking, hp, mkPack, List.length_singleton, List.length_nil, and_self,
      if_true, List.nil_append, List.map_nil, List.map_map]
    rfl
  · cases hf : (c.progressions.filter (fun p => decide (2 ≤ p.matched.length))).foldl
        (fun packs c => firstFitPlace t c packs) [] with
    | nil => exact absurd hf hp
    | cons pk rest =>
      rw [hf] at hr hne
      subst hr
      have hpk : pk ≠ [] := hne pk (List.mem_cons_self _ _)
      have hlen : ¬ (mkPack pk).progressions.length = 0 := by
        simp only [mkPack]
        exact fun h0 => hpk (List.length_eq_zero.1 h0)
      simp only [List.map_cons, firstFitPacking, hf, List.map_append, List.map_map]
      rw [if_neg (fun h => hlen h.2)]
      rfl

/-! ## One round of the cover engine -/

theorem growFrom_total (ov : Bool) (freq start : Int) (ti : TripWrapper) :
    ∀ (rest : List TripWrapper) (j : Nat) (c : FreqCandidate),
      ∃ c1, growFrom ov freq start ti rest j c = some c1 ∧
        c.matched.length ≤ c1.matched.length := by
  intro rest
  induction rest with
  | nil => intro j c; exact ⟨c, rfl, le_refl _⟩
  | cons tj rest ih =>
    intro j c
    obtain ⟨fe, hfe⟩ := freqEq_total ti tj
    simp only [growFrom, hfe]
    split
    · split
      · exact ih _ _
      · exact ⟨c, rfl, le_refl _⟩
    · split
      · obtain ⟨c1, h1, h2⟩ := ih (j + 1) { matched := c.matched ++ [j], headways := freq }
        refine ⟨c1, h1, ?_⟩
        simp only [List.length_append, List.length_singleton] at h2
        omega
      · split
        · exact ih _ _
        · exact ⟨c, rfl, le_refl _⟩

theorem grownFrom_total (ov : Bool) (ts : List TripWrapper) (i : Nat) (ti : TripWrapper)
    (freq : Int) : ∃ c1, grownFrom ov ts i ti freq = some c1 ∧ 1 ≤ c1.matched.length := by
  obtain ⟨c1, h1, h2⟩ := growFrom_total ov freq ti.secs ti (ts.drop (i + 1)) (i + 1)
    { matched := [i], headways := 0 }
  exact ⟨c1, h1, by simpa using h2⟩

/-- What the loop over the headways keeps: the longest grown progression, the
first one in the order of evaluation among those of that length. -/
theorem tryFreqs_longest (ov : Bool) (ts : List TripWrapper) (i : Nat) (ti : TripWrapper) :
    ∀ (freqs : List Int) (cur : FreqCandidate),
      ∃ cur1, tryFreqs ov ti.secs ti (ts.drop (i + 1)) i freqs cur = some cur1 ∧
        cur.matched.length ≤ cur1.matched.length ∧
        (∀ f ∈ freqs, ∀ nx, grownFrom ov ts i ti f = some nx →
          nx.matched.length ≤ cur1.matched.length) ∧
        (cur1 = cur ∨
          ∃ (n : Nat) (f : Int), freqs[n]? = some f ∧ grownFrom ov ts i ti f = some cur1 ∧
            cur.matched.length < cur1.matched.length ∧
            ∀ (k : Nat) (g : Int) (nx : FreqCandidate), k < n → freqs[k]? = some g → grownFrom ov ts i ti g = some nx →
              nx.matched.length < cur1.matched.length) := by
  intro freqs
  induction freqs with
  | nil =>
    intro cur
    exact ⟨cur, rfl, le_refl _, fun f hf => (by cases hf), Or.inl rfl⟩
  | cons f fs ih =>
    intro cur
    obtain ⟨nx, hnx, hnx1⟩ := grownFrom_total ov ts i ti f
    have hnx0 : growFrom ov f ti.secs ti (ts.drop (i + 1)) (i + 1)
        { matched := [i], headways := 0 } = some nx := hnx
    simp only [tryFreqs, hnx0]
    by_cases hgt : nx.matched.length > cur.matched.length
    · have hcond : nx.matched.length > cur.matched.length ∧
          (nx.matched.length ≥ MINIMUM_COVER_SIZE ∨ nx.matched.length = 1) := by
        refine ⟨hgt, ?_⟩
        unfold MINIMUM_COVER_SIZE
        omega
      rw [if_pos hcond]
      obtain ⟨cur1, h1, h2, h3, h4⟩ := ih nx
      refine ⟨cur1, h1, by omega, ?_, Or.inr ?_⟩
      · intro g hg nx1 hnx1
        rcases List.mem_cons.1 hg with hg | hg
        · subst hg
          rw [hnx] at hnx1
          cases hnx1
          exact h2
        · exact h3 g hg nx1 hnx1
      · rcases h4 with h4 | ⟨n, g, hn, hg, hlt, hbefore⟩
        · subst h4
          refine ⟨0, f, by simp, hnx, hgt, ?_⟩
          intro k g nx1 hk
          omega
        · refine ⟨n + 1, g, by simpa using hn, hg, by omega, ?_⟩
          intro k g1 nx1 hk hg1 hnx1
          cases k with
          | zero =>
            simp only [List.getElem?_cons_zero, Option.some.injEq] at hg1
            subst hg1
            rw [hnx] at hnx1
            cases hnx1
            omega
          | succ k =>
            exact hbefore k g1 nx1 (by omega) (by simpa using hg1) hnx1
    · have hcond : ¬ (nx.matched.length > cur.matched.length ∧
          (nx.matched.length ≥ MINIMUM_COVER_SIZE ∨ nx.matched.length = 1)) :=
        fun h => hgt h.1
      rw [if_neg hcond]
      obtain ⟨cur1, h1, h2, h3, h4⟩ := ih cur
      refine ⟨cur1, h1, h2, ?_, ?_⟩
      · intro g hg nx1 hnx1
        rcases List.mem_cons.1 hg with hg | hg
        · subst hg
          rw [hnx] at hnx1
          cases hnx1
          omega
        · exact h3 g hg nx1 hnx1
      · rcases h4 with h4 | ⟨n, g, hn, hg, hlt, hbefore⟩
        · exact Or.inl h4
        · refine Or.inr ⟨n + 1, g, by simpa using hn, hg, hlt, ?_⟩
          intro k g1 nx1 hk hg1 hnx1
          cases k with
          | zero =>
            simp only [List.getElem?_cons_zero, Option.some.injEq] at hg1
            subst hg1
            rw [hnx] at hnx1
            cases hnx1
            omega
          | succ k =>
            exact hbefore k g1 nx1 (by omega) (by simpa using hg1) hnx1

theorem possibleFreqsFrom_mem (ti : TripWrapper) (f : Int) :
    ∀ (rest : List TripWrapper) (ret : List Int),
      f ∈ possibleFreqsFrom ti rest ret ↔
        f ∈ ret ∨ ∃ tii ∈ rest, f = tii.secs - ti.secs ∧ f ≠ 0 := by
  intro rest
  induction rest with
  | nil => intro ret; simp [possibleFreqsFrom]
  | cons tii rest ih =>
    intro ret
    simp only [possibleFreqsFrom]
    rw [ih]
    by_cases h0 : tii.secs - ti.secs ≠ 0
    · rw [if_pos h0, mem_setInsert]
      constructor
      · rintro ((h | h) | ⟨x, hx, h1, h2⟩)
        · exact Or.inr ⟨tii, List.mem_cons_self _ _, h, h ▸ h0⟩
        · exact Or.inl h
        · exact Or.inr ⟨x, List.mem_cons_of_mem _ hx, h1, h2⟩
      · rintro (h | ⟨x, hx, h1, h2⟩)
        · exact Or.inl (Or.inr h)
        · rcases List.mem_cons.1 hx with hx | hx
          · subst hx; exact Or.inl (Or.inl h1)
          · exact Or.inr ⟨x, hx, h1, h2⟩
    · rw [if_neg h0]
      constructor
      · rintro (h | ⟨x, hx, h1, h2⟩)
        · exact Or.inl h
        · exact Or.inr ⟨x, List.mem_cons_of_mem _ hx, h1, h2⟩
      · rintro (h | ⟨x, hx, h1, h2⟩)
        · exact Or.inl h
        · rcases List.mem_cons.1 hx with hx | hx
          · subst hx; exact absurd (h1 ▸ h2) h0
          · exact Or.inr ⟨x, hx, h1, h2⟩

theorem possibleFreqsLoop_mem (f : Int) :
    ∀ (l : List TripWrapper) (ret : List Int), TimeSorted l →
      (f ∈ possibleFreqsLoop l ret ↔
        f ∈ ret ∨ (0 < f ∧ ∃ a ∈ l, ∃ b ∈ l, f = b.secs - a.secs)) := by
  intro l
  induction l with
  | nil => intro ret _; simp [possibleFreqsLoop]
  | cons ti rest ih =>
    intro ret hs
    have hs1 : TimeSorted rest := (List.pairwise_cons.1 hs).2
    have hle : ∀ x ∈ rest, ti.secs ≤ x.secs := (List.pairwise_cons.1 hs).1
    simp only [possibleFreqsLoop]
    rw [ih _ hs1, possibleFreqsFrom_mem]
    constructor
    · rintro ((h | ⟨x, hx, h1, h2⟩) | ⟨hpos, a, ha, b, hb, h⟩)
      · exact Or.inl h
      · refine Or.inr ⟨?_, ti, List.mem_cons_self _ _, x, List.mem_cons_of_mem _ hx, h1⟩
        have := hle x hx
        omega
      · exact Or.inr ⟨hpos, a, List.mem_cons_of_mem _ ha, b, List.mem_cons_of_mem _ hb, h⟩
    · rintro (h | ⟨hpos, a, ha, b, hb, h⟩)
      · exact Or.inl (Or.inl h)
      · rcases List.mem_cons.1 ha with ha1 | ha1
        · rcases List.mem_cons.1 hb with hb1 | hb1
          · rw [ha1, hb1] at h; omega
          · exact Or.inl (Or.inr ⟨b, hb1, by rw [h, ha1], by omega⟩)
        · rcases List.mem_cons.1 hb with hb1 | hb1
          · have := hle a ha1
            rw [hb1] at h
            omega
          · exact Or.inr ⟨hpos, a, ha1, b, hb1, h⟩

theorem getPossibleFreqs_mem (eqs : TripWrappers) (hs : TimeSorted eqs.trips) (f : Int) :
    f ∈ getPossibleFreqs eqs ↔
      0 < f ∧ ∃ a ∈ eqs.trips, ∃ b ∈ eqs.trips, f = b.secs - a.secs := by
  unfold getPossibleFreqs
  rw [possibleFreqsLoop_mem f eqs.trips [] hs]
  simp

theorem markOne_markInstances (ts : List TripWrapper) (cov : List String) (k : Nat)
    (ts1 : List TripWrapper) (cov1 : List String)
    (h : markOne (ts, cov) k = some (ts1, cov1)) :
    ts1 = markInstances ts [k] ∧ ts1.map unmark = ts.map unmark := by
  simp only [markOne] at h
  cases hk : ts[k]? with
  | none => rw [hk] at h; cases h
  | some tw =>
    rw [hk] at h
    simp only [Option.some.injEq, Prod.mk.injEq] at h
    obtain ⟨h1, _⟩ := h
    subst h1
    refine ⟨by simp [markInstances, hk], ?_⟩
    apply List.ext_getElem?
    intro n
    simp only [List.getElem?_map, List.getElem?_set]
    by_cases hn : k = n
    · subst hn
      have hlt : k < ts.length := (List.getElem?_eq_some_iff.1 hk).1
      simp [hlt, hk, unmark]
    · simp [hn]

theorem markInstances_cons (ts : List TripWrapper) (k : Nat) (ks : List Nat) :
    markInstances ts (k :: ks) = markInstances (markInstances ts [k]) ks := by
  simp [markInstances]

theorem markAll_markInstances :
    ∀ (ms : List Nat) (ts : List TripWrapper) (cov : List String) (ts1 : List TripWrapper)
      (cov1 : List String), markAll ms (ts, cov) = some (ts1, cov1) →
      ts1 = markInstances ts ms ∧ ts1.map unmark = ts.map unmark := by
  intro ms
  induction ms with
  | nil =>
    intro ts cov ts1 cov1 h
    simp only [markAll, Option.some.injEq, Prod.mk.injEq] at h
    obtain ⟨h1, _⟩ := h
    subst h1
    exact ⟨rfl, rfl⟩
  | cons k ks ih =>
    intro ts cov ts1 cov1 h
    simp only [markAll] at h
    cases hk : markOne (ts, cov) k with
    | none => rw [hk] at h; cases h
    | some st2 =>
      obtain ⟨ts2, cov2⟩ := st2
      rw [hk] at h
      obtain ⟨h1, h2⟩ := markOne_markInstances ts cov k ts2 cov2 hk
      obtain ⟨h3, h4⟩ := ih ts2 cov2 ts1 cov1 h
      refine ⟨?_, h4.trans h2⟩
      rw [markInstances_cons, ← h1, h3]

/-- The outcomes of one round of the loop over the thresholds. -/
theorem coverStep_cases (ov : Bool) (freqs : List Int) (m : Nat) (st st1 : CoverState)
    (h : coverStep ov freqs m st = some st1) :
    (firstUnmarked st.trips ≥ st.trips.length ∧ st1 = { st with hasUnmarked := false }) ∨
    (∃ cur, firstUnmarked st.trips < st.trips.length ∧
      keptCandidate ov freqs st.trips = some cur ∧
      ((cur.matched.length < m ∧ st1 = st) ∨
       (m ≤ cur.matched.length ∧ ∃ cov1,
          markAll cur.matched (st.trips, st.cand.coveredTrips) =
            some (markInstances st.trips cur.matched, cov1) ∧
          (markInstances st.trips cur.matched).map unmark = st.trips.map unmark ∧
          st1 = { trips := markInstances st.trips cur.matched
                  cand := { progressions := st.cand.progressions ++ [cur]
                            coveredTrips := cov1 }
                  hasUnmarked := st.hasUnmarked }))) := by
  unfold coverStep at h
  by_cases hi : firstUnmarked st.trips ≥ st.trips.length
  · simp only [hi, if_true, Option.some.injEq] at h
    exact Or.inl ⟨hi, h.symm⟩
  · simp only [hi, if_false] at h
    right
    cases hget : st.trips[firstUnmarked st.trips]? with
    | none => rw [hget] at h; cases h
    | some ti =>
      simp only [hget] at h
      cases htry : tryFreqs ov ti.secs ti (st.trips.drop (firstUnmarked st.trips + 1))
          (firstUnmarked st.trips) freqs { matched := [firstUnmarked st.trips], headways := 0 } with
      | none => rw [htry] at h; cases h
      | some cur =>
        simp only [htry] at h
        refine ⟨cur, by omega, by simp only [keptCandidate, hget, htry], ?_⟩
        by_cases hacc : cur.matched.length ≥ m
        · simp only [hacc, if_true] at h
          right
          cases hmark : markAll cur.matched (st.trips, st.cand.coveredTrips) with
          | none => rw [hmark] at h; cases h
          | some res =>
            obtain ⟨trips1, cov1⟩ := res
            simp only [hmark, Option.some.injEq] at h
            obtain ⟨h1, h2⟩ := markAll_markInstances _ _ _ _ _ hmark
            subst h1
            exact ⟨hacc, cov1, rfl, h2, h.symm⟩
        · simp only [hacc, if_false, Option.some.injEq] at h
          exact Or.inl ⟨by omega, h.symm⟩

/-- A property of the state that every round of the loop over the thresholds
keeps holds when `getCover` has run its loops. -/
theorem coverLoop_preserves (ov : Bool) (order : Nat → Nat → List Int)
    (J : CoverState → Prop)
    (hstep : ∀ pass m st st1, J st → coverStep ov (order pass m) m st = some st1 → J st1) :
    ∀ (fuel pass : Nat) (st st1 : CoverState), J st →
      coverLoop ov order fuel pass st = some st1 → J st1 := by
  have hmin : ∀ (pass m : Nat) (st st1 : CoverState), J st →
      minSizeLoop ov (order pass) m st = some st1 → J st1 := by
    intro pass m
    induction m with
    | zero =>
      intro st st1 hj h
      simp only [minSizeLoop, Option.some.injEq] at h
      exact h ▸ hj
    | succ m ih =>
      intro st st1 hj h
      simp only [minSizeLoop] at h
      cases hs : coverStep ov (order pass (m + 1)) (m + 1) st with
      | none => rw [hs] at h; cases h
      | some st2 =>
        rw [hs] at h
        exact ih st2 st1 (hstep pass (m + 1) st st2 hj hs) h
  intro fuel
  induction fuel with
  | zero => intro pass st st1 _ h; cases h
  | succ fuel ih =>
    intro pass st st1 hj h
    simp only [coverLoop] at h
    by_cases hu : st.hasUnmarked = true
    · simp only [hu, if_true] at h
      cases hm : minSizeLoop ov (order pass) st.trips.length st with
      | none => rw [hm] at h; cases h
      | some st2 =>
        rw [hm] at h
        exact ih (pass + 1) st2 st1 (hmin pass _ st st2 hj hm) h
    · have hu1 : st.hasUnmarked = false := by simpa using hu
      simp only [hu1, Bool.false_eq_true, if_false, Option.some.injEq] at h
      exact h ▸ hj

theorem getCover_preserves (ov : Bool) (order : Nat → Nat → List Int) (eqs : TripWrappers)
    (J : CoverState → Prop)
    (hinit : J { trips := eqs.trips.map unmark
                 cand := { progressions := [], coveredTrips := [] }
                 hasUnmarked := true })
    (hstep : ∀ pass m st st1, J st → coverStep ov (order pass m) m st = some st1 → J st1)
    (fuel : Nat) (c : ProgressionCover) (h : getCover fuel order eqs ov = some c) :
    ∃ st, J st ∧ st.cand = c := by
  unfold getCover at h
  cases hl : coverLoop ov order fuel 0
      { trips := eqs.trips.map unmark
        cand := { progressions := [], coveredTrips := [] }
        hasUnmarked := true } with
  | none => simp only [hl, Option.map_none'] at h; cases h
  | some st =>
    simp only [hl, Option.map_some', Option.some.injEq] at h
    exact ⟨st, coverLoop_preserves ov order J hstep fuel 0 _ st hinit hl, h⟩

/-- Every progression of a cover of `getCover` is the candidate kept in some
state of the class. -/
theorem getCover_kept (ov : Bool) (order : Nat → Nat → List Int) (eqs : TripWrappers)
    (fuel : Nat) (c : ProgressionCover) (h : getCover fuel order eqs ov = some c) :
    ∀ p ∈ c.progressions, KeptSomewhere ov order eqs.trips p := by
  obtain ⟨st, ⟨_, hj⟩, hc⟩ := getCover_preserves ov order eqs
    (fun st => st.trips.map unmark = eqs.trips.map unmark ∧
      ∀ p ∈ st.cand.progressions, KeptSomewhere ov order eqs.trips p)
    ⟨by simp [unmark], fun p hp => by cases hp⟩
    (by
      intro pass m st st1 ⟨hs, hk⟩ hstep
      rcases coverStep_cases ov _ m st st1 hstep with ⟨_, h1⟩ | ⟨cur, _, hkept, h1⟩
      · subst h1; exact ⟨hs, hk⟩
      · rcases h1 with ⟨_, h1⟩ | ⟨_, cov1, _, hun, h1⟩
        · subst h1; exact ⟨hs, hk⟩
        · subst h1
          refine ⟨hun.trans hs, ?_⟩
          intro p hp
          rcases List.mem_append.1 hp with hp | hp
          · exact hk p hp
          · rw [List.mem_singleton.1 hp]
            exact ⟨pass, m, st.trips, hs, hkept⟩)
    fuel c h
  rw [← hc]
  exact hj

/-! ## Exact-times flags along a progression -/

theorem freqEq_self (ti : TripWrapper) : freqEq ti ti = some true := by
  simp [freqEq, goOr, ptrEq]

theorem freqEq_bare_bare (ti tj : TripWrapper) (hi : ti.sourceFreq = none)
    (hj : tj.sourceFreq = none) : freqEq ti tj = some true := by
  simp [freqEq, hi, hj, goOr, goAnd, ptrEq]

theorem freqEq_bare_freq (ti tj : TripWrapper) (f : FreqPtr) (hi : ti.sourceFreq = none)
    (hj : tj.sourceFreq = some f) : freqEq ti tj = some f.Exact_times := by
  cases hf : f.Exact_times <;>
    simp [freqEq, hi, hj, goOr, goAnd, ptrEq, derefExact, exactAgree, hf]

theorem freqEq_freq_bare (ti tj : TripWrapper) (f : FreqPtr) (hi : ti.sourceFreq = some f)
    (hj : tj.sourceFreq = none) : freqEq ti tj = some f.Exact_times := by
  cases hf : f.Exact_times <;>
    simp [freqEq, hi, hj, goOr, goAnd, ptrEq, derefExact, exactAgree, hf]

theorem freqEq_freq_freq (ti tj : TripWrapper) (f g : FreqPtr) (hi : ti.sourceFreq = some f)
    (hj : tj.sourceFreq = some g) :
    freqEq ti tj = some (g.addr == f.addr || f.Exact_times == g.Exact_times) := by
  cases hf : f.Exact_times <;> cases hg : g.Exact_times <;>
    cases ha : (g.addr == f.addr) <;>
    simp [freqEq, hi, hj, goOr, goAnd, ptrEq, derefExact, exactAgree, hf, hg, ha]

theorem freqEq_effective {ti tj : TripWrapper} (h : freqEq ti tj = some true)
    (hc : ∀ f g, ti.sourceFreq = some f → tj.sourceFreq = some g → f.addr = g.addr →
      f.Exact_times = g.Exact_times) :
    effectiveExact tj = effectiveExact ti := by
  cases hi : ti.sourceFreq with
  | none =>
    cases hj : tj.sourceFreq with
    | none => simp [effectiveExact, hi, hj]
    | some g =>
      rw [freqEq_bare_freq ti tj g hi hj] at h
      simp only [Option.some.injEq] at h
      simp [effectiveExact, hi, hj, h]
  | some f =>
    cases hj : tj.sourceFreq with
    | none =>
      rw [freqEq_freq_bare ti tj f hi hj] at h
      simp only [Option.some.injEq] at h
      simp [effectiveExact, hi, hj, h]
    | some g =>
      rw [freqEq_freq_freq ti tj f g hi hj] at h
      simp only [Option.some.injEq, Bool.or_eq_true, beq_iff_eq] at h
      simp only [effectiveExact, hi, hj]
      rcases h with h | h
      · exact (hc f g hi hj h.symm).symm
      · exact h.symm

theorem growFrom_flags (ov : Bool) (freq start : Int) (ti : TripWrapper)
    (ts : List TripWrapper) (i : Nat) :
    ∀ (rest : List TripWrapper) (j : Nat) (c c1 : FreqCandidate),
      ts.drop j = rest →
      (∀ k ∈ c.matched, ∃ tj, ts[k]? = some tj ∧ freqEq ti tj = some true) →
      (∃ js, c.matched = i :: js) →
      growFrom ov freq start ti rest j c = some c1 →
      (∀ k ∈ c1.matched, ∃ tj, ts[k]? = some tj ∧ freqEq ti tj = some true) ∧
        ∃ js, c1.matched = i :: js := by
  intro rest
  induction rest with
  | nil =>
    intro j c c1 _ hq hh h
    simp only [growFrom, Option.some.injEq] at h
    subst h
    exact ⟨hq, hh⟩
  | cons tj rest ih =>
    intro j c c1 hdrop hq hh h
    obtain ⟨hj, hrest⟩ := drop_eq_cons hdrop
    obtain ⟨fe, hfe⟩ := freqEq_total ti tj
    simp only [growFrom, hfe] at h
    split at h
    · split at h
      · exact ih (j + 1) c c1 hrest hq hh h
      · simp only [Option.some.injEq] at h
        subst h
        exact ⟨hq, hh⟩
    · split at h
      · rename_i hcond
        refine ih (j + 1) _ c1 hrest ?_ ?_ h
        · intro k hk
          rcases List.mem_append.1 hk with hk | hk
          · exact hq k hk
          · rw [List.mem_singleton.1 hk]
            exact ⟨tj, hj, by rw [hfe, hcond.1]⟩
        · obtain ⟨js, hjs⟩ := hh
          exact ⟨js ++ [j], by simp [hjs]⟩
      · split at h
        · exact ih (j + 1) c c1 hrest hq hh h
        · simp only [Option.some.injEq] at h
          subst h
          exact ⟨hq, hh⟩

theorem tryFreqs_flags (ov : Bool) (ti : TripWrapper) (ts : List TripWrapper) (i : Nat)
    (hget : ts[i]? = some ti) :
    ∀ (freqs : List Int) (cur cur1 : FreqCandidate),
      (∀ k ∈ cur.matched, ∃ tj, ts[k]? = some tj ∧ freqEq ti tj = some true) →
      (∃ js, cur.matched = i :: js) →
      tryFreqs ov ti.secs ti (ts.drop (i + 1)) i freqs cur = some cur1 →
      (∀ k ∈ cur1.matched, ∃ tj, ts[k]? = some tj ∧ freqEq ti tj = some true) ∧
        ∃ js, cur1.matched = i :: js := by
  intro freqs
  induction freqs with
  | nil =>
    intro cur cur1 hq hh h
    simp only [tryFreqs, Option.some.injEq] at h
    subst h
    exact ⟨hq, hh⟩
  | cons f fs ih =>
    intro cur cur1 hq hh h
    simp only [tryFreqs] at h
    cases hg : growFrom ov f ti.secs ti (ts.drop (i + 1)) (i + 1)
        { matched := [i], headways := 0 } with
    | none => rw [hg] at h; cases h
    | some nx =>
      rw [hg] at h
      obtain ⟨hnq, hnh⟩ := growFrom_flags ov f ti.secs ti ts i (ts.drop (i + 1)) (i + 1)
        { matched := [i], headways := 0 } nx rfl
        (fun k hk => by
          rw [List.mem_singleton.1 hk]
          exact ⟨ti, hget, freqEq_self ti⟩)
        ⟨[], rfl⟩ hg
      simp only at h
      split at h
      · exact ih nx cur1 hnq hnh h
      · exact ih cur cur1 hq hh h

theorem keptCandidate_flags (ov : Bool) (freqs : List Int) (ts : List TripWrapper)
    (p : FreqCandidate) (h : keptCandidate ov freqs ts = some p) :
    ∃ ti, ts[firstUnmarked ts]? = some ti ∧
      (∀ k ∈ p.matched, ∃ tj, ts[k]? = some tj ∧ freqEq ti tj = some true) ∧
      p.matched[0]? = some (firstUnmarked ts) := by
  unfold keptCandidate at h
  cases hget : ts[firstUnmarked ts]? with
  | none => rw [hget] at h; cases h
  | some ti =>
    simp only [hget] at h
    obtain ⟨h1, js, h2⟩ := tryFreqs_flags ov ti ts (firstUnmarked ts) hget freqs _ p
      (fun k hk => by
        rw [List.mem_singleton.1 hk]
        exact ⟨ti, hget, freqEq_self ti⟩)
      ⟨[], rfl⟩ h
    exact ⟨ti, rfl, h1, by simp [h2]⟩

theorem getElem?_of_unmark_eq {ts ts0 : List TripWrapper} (h : ts.map unmark = ts0.map unmark)
    {k : Nat} {tj : TripWrapper} (hk : ts[k]? = some tj) :
    ∃ tw, ts0[k]? = some tw ∧ tw.sourceFreq = tj.sourceFreq := by
  have h1 := congrArg (fun l => l[k]?) h
  simp only [List.getElem?_map, hk, Option.map_some'] at h1
  cases h0 : ts0[k]? with
  | none => rw [h0] at h1; cases h1
  | some tw =>
    rw [h0] at h1
    simp only [Option.map_some', Option.some.injEq] at h1
    refine ⟨tw, rfl, ?_⟩
    have := congrArg TripWrapper.sourceFreq h1
    simpa [unmark] using this.symm

/-- The flag that `Run` writes for a progression of a cover of `getCover` is
the effective flag of each of its instances. -/
theorem cover_flags_agree (order : Nat → Nat → List Int) (eqs : TripWrappers) (ov : Bool)
    (hcons : PtrConsistent eqs.trips) (fuel : Nat) (c : ProgressionCover)
    (hc : getCover fuel order eqs ov = some c) (p : FreqCandidate) (hp : p ∈ c.progressions) :
    ∃ first a, progFrequency eqs p = some (first, a) ∧
      ∀ k ∈ p.matched, ∃ tw, eqs.trips[k]? = some tw ∧ effectiveExact tw = a.Exact_times := by
  obtain ⟨pass, m, ts, hts, hkept⟩ := getCover_kept ov order eqs fuel c hc p hp
  obtain ⟨ti, hti, hq, hhead⟩ := keptCandidate_flags ov _ ts p hkept
  have hgood := (getCover_sound (fun _ => True) fuel order eqs ov c
    (fun _ _ _ _ => trivial) hc).1 p hp
  obtain ⟨start, htimes⟩ := hgood.times
  obtain ⟨first, a, k0, hpf, hk0, hfirst, _, _, _, _, hflag⟩ :=
    progFrequency_spec eqs hgood htimes
  rw [hhead] at hk0
  cases hk0
  obtain ⟨tw0, htw0, hsf0⟩ := getElem?_of_unmark_eq hts hti
  rw [hfirst] at htw0
  cases htw0
  refine ⟨first, a, hpf, ?_⟩
  intro k hk
  obtain ⟨tj, htj, hfe⟩ := hq k hk
  obtain ⟨tw, htw, hsf⟩ := getElem?_of_unmark_eq hts htj
  refine ⟨tw, htw, ?_⟩
  have hfe1 : freqEq first tw = some true := by
    have : freqEq first tw = freqEq ti tj := by
      simp only [freqEq, hsf0, hsf]
    rw [this]
    exact hfe
  have := freqEq_effective hfe1
    (fun f g hf hg hfg =>
      hcons first (List.getElem?_mem hfirst) tw (List.getElem?_mem htw) f g hf hg hfg)
  rw [this, hflag]
  rfl

theorem tripInstances_ptr (fuel addr : Nat) (t : Trip) (inst : List TripWrapper)
    (h : tripInstances fuel addr t = some inst) :
    ∃ flag : Bool, ∀ tw ∈ inst, ∀ f, tw.sourceFreq = some f →
      f.addr = addr ∧ f.Exact_times = flag := by
  unfold tripInstances at h
  by_cases h0 : t.Frequencies.length = 0
  · rw [if_pos h0] at h
    cases hs : t.StopTimes[0]? with
    | none => rw [hs] at h; cases h
    | some st =>
      rw [hs] at h
      simp only [Option.some.injEq] at h
      subst h
      refine ⟨true, ?_⟩
      intro tw htw f hf
      rw [List.mem_singleton.1 htw] at hf
      cases hf
  · rw [if_neg h0] at h
    cases hl : t.Frequencies.getLast? with
    | none => rw [hl] at h; cases h
    | some fl =>
      rw [hl] at h
      cases he : expandFrequencies fuel t.Frequencies with
      | none => rw [he] at h; cases h
      | some l =>
        rw [he] at h
        simp only [Option.map_some', Option.some.injEq] at h
        subst h
        refine ⟨fl.Exact_times, ?_⟩
        intro tw htw f hf
        obtain ⟨s, _, hs⟩ := List.mem_map.1 htw
        subst hs
        simp only [Option.some.injEq] at hf
        subst hf
        exact ⟨rfl, rfl⟩

/-- The classes that the classifier builds have consistent pointers. -/
theorem classifyLoop_ptrConsistent (fuel : Nat) (trip : Trip) :
    ∀ (trips : List Trip) (i : Nat) (ret cls : TripWrappers),
      PtrConsistent ret.trips →
      (∀ tw ∈ ret.trips, ∀ f, tw.sourceFreq = some f → f.addr < i) →
      classifyLoop fuel trip trips i ret = some cls → PtrConsistent cls.trips := by
  intro trips
  induction trips with
  | nil =>
    intro i ret cls hc _ h
    simp only [classifyLoop, Option.some.injEq] at h
    subst h
    exact hc
  | cons t rest ih =>
    intro i ret cls hc hlt h
    simp only [classifyLoop] at h
    split at h
    · cases hi : tripInstances fuel i t with
      | none => rw [hi] at h; cases h
      | some inst =>
        rw [hi] at h
        obtain ⟨flag, hflag⟩ := tripInstances_ptr fuel i t inst hi
        refine ih (i + 1) _ cls ?_ ?_ h
        · intro a ha b hb f g hf hg hfg
          simp only [List.mem_append] at ha hb
          rcases ha with ha | ha <;> rcases hb with hb | hb
          · exact hc a ha b hb f g hf hg hfg
          · have h1 := hlt a ha f hf
            have h2 := (hflag b hb g hg).1
            omega
          · have h1 := hlt b hb g hg
            have h2 := (hflag a ha f hf).1
            omega
          · rw [(hflag a ha f hf).2, (hflag b hb g hg).2]
        · intro tw htw f hf
          simp only [List.mem_append] at htw
          rcases htw with htw | htw
          · have := hlt tw htw f hf
            omega
          · have := (hflag tw htw f hf).1
            omega
    · exact ih (i + 1) ret cls hc (fun tw htw f hf => by
        have := hlt tw htw f hf
        omega) h

theorem classifier_ptrConsistent (fuel : Nat) (trip : Trip) (trips : List Trip)
    (cls : TripWrappers) (h : getTimeIndependentEquivalentTrips fuel trip trips = some cls)
    (sorted : List TripWrapper) (hp : sorted.Perm cls.trips) : PtrConsistent sorted := by
  have hc := classifyLoop_ptrConsistent fuel trip trips 0 { trips := [], coveredTrips := [] }
    cls (fun a ha => by cases ha) (fun tw htw => by cases htw) h
  intro a ha b hb f g hf hg hfg
  exact hc a (hp.mem_iff.1 ha) b (hp.mem_iff.1 hb) f g hf hg hfg

/-! ## The claims -/

/-- C1: for a class in time order, in either mode and for every order in which
the headways are tried: whenever `getCover`, `packCovers` and the expansion
of the output return, the instants of the output (every frequency entry
that `Run` builds expanded as `start, start + headway, ... < end`, and the
start time of every output trip without frequency entry) are a rearrangement
of the start times of the class, also as the classifier listed them before
the sort: none is lost and none is duplicated.  They do return, within
`n + 2` rounds, whenever the class is not empty. -/
theorem output_instants_eq_class (order : Nat → Nat → List Int) (eqs : TripWrappers)
    (overlapping : Bool) (hs : TimeSorted eqs.trips) (ho : KeyOrder eqs order) :
    (∀ fuel c packs fuel2 inst, getCover fuel order eqs overlapping = some c →
      packCovers c eqs = some packs → packingInstants fuel2 eqs packs = some inst →
      inst.Perm (eqs.trips.map TripWrapper.secs) ∧
      ∀ orig : List TripWrapper, eqs.trips.Perm orig →
        inst.Perm (orig.map TripWrapper.secs)) ∧
    (eqs.trips ≠ [] →
      ∃ c packs inst, getCover (eqs.trips.length + 2) order eqs overlapping = some c ∧
        packCovers c eqs = some packs ∧
        packingInstants (eqs.trips.length + 2) eqs packs = some inst) := by
  constructor
  · intro fuel c packs fuel2 inst hc hp hi
    have hgood := packGood_of_cover fuel order eqs overlapping c packs hs ho hc hp
    have hinst := (packingInstants_spec eqs packs hgood).2 fuel2 inst hi
    obtain ⟨_, hperm⟩ := getCover_sound (fun f => 0 < f) fuel order eqs overlapping c
      (keyOrder_pos hs ho) hc
    obtain ⟨h1, _⟩ := packCovers_sound c eqs packs hp
    have h2 : (coveredIdx (allProgressions packs)).Perm (List.range eqs.trips.length) :=
      (List.Perm.flatMap_right FreqCandidate.matched h1).trans hperm
    have h3 : inst.Perm (eqs.trips.map TripWrapper.secs) := by
      rw [hinst, ← idxSecs_range]
      exact List.Perm.map _ h2
    exact ⟨h3, fun orig ho1 => h3.trans (List.Perm.map _ ho1)⟩
  · intro hne
    obtain ⟨c, hc⟩ := getCover_total (fun f => 0 < f) order eqs overlapping
      (keyOrder_pos hs ho) hne
    have hr : CoverInRange c eqs := by
      intro p hp
      have hg := (getCover_sound (fun f => 0 < f) _ order eqs overlapping c
        (keyOrder_pos hs ho) hc).1 p hp
      exact ⟨hg.nonempty, hg.inRange⟩
    obtain ⟨packs, hp⟩ := packCovers_total c eqs hr
    have hgood := packGood_of_cover _ order eqs overlapping c packs hs ho hc hp
    exact ⟨c, packs, _, hc, hp,
      (packingInstants_spec eqs packs hgood).1 (eqs.trips.length + 2) (by omega)⟩

/-- Witness of C1: the three trips at 08:00, 08:10 and 08:20 become one
frequency entry whose expansion gives back 28800, 29400 and 30000. -/
theorem output_instants_eq_class_witness :
    TimeSorted threeTrips.trips ∧
    KeyOrder threeTrips (fun _ _ => getPossibleFreqs threeTrips) ∧
    ((getCover 5 (fun _ _ => getPossibleFreqs threeTrips) threeTrips false).bind
      (fun c => (packCovers c threeTrips).bind
        (fun packs => packingInstants 5 threeTrips packs))) = some [28800, 29400, 30000] ∧
    ([28800, 29400, 30000] : List Int).Perm (threeTrips.trips.map TripWrapper.secs) :=
  ⟨by unfold TimeSorted; decide, fun _ _ => List.Perm.refl _, by decide,
    ((output_instants_eq_class (fun _ _ => getPossibleFreqs threeTrips) threeTrips false
      (by unfold TimeSorted; decide) (fun _ _ => List.Perm.refl _)).1 5
      { progressions := [{ matched := [0, 1, 2], headways := 600 }],
        coveredTrips := ["a", "b", "c"] }
      [{ progressions := [{ matched := [0, 1, 2], headways := 600 }], coveredTrips := [] }]
      5 [28800, 29400, 30000] (by decide) (by decide) (by decide)).1⟩

/-- C6: for a trip with at least one stop and any reference time,
`remeasureStopTimes` keeps the number of stops, makes the first arrival
equal to the reference time (as seconds since midnight, and as the time
`getGtfsTimeFromSec` builds from them), keeps every dwell
`departure[i] - arrival[i]`, keeps every gap `arrival[i+1] - arrival[i]` and
`departure[i+1] - departure[i]`, changes no field of a stop other than its
two times, and changes no other field of the trip. -/
theorem remeasureStopTimes_preserves_deltas (t : Trip) (time : Time)
    (hne : t.StopTimes ≠ []) :
    (remeasureStopTimes t time).StopTimes.length = t.StopTimes.length ∧
    (∃ s, (remeasureStopTimes t time).StopTimes[0]? = some s ∧
      s.Arrival_time.SecondsSinceMidnight = time.SecondsSinceMidnight ∧
      s.Arrival_time = getGtfsTimeFromSec time.SecondsSinceMidnight) ∧
    (∀ (i : Nat) (old new : StopTime), t.StopTimes[i]? = some old →
      (remeasureStopTimes t time).StopTimes[i]? = some new →
      new.Departure_time.SecondsSinceMidnight - new.Arrival_time.SecondsSinceMidnight
        = old.Departure_time.SecondsSinceMidnight - old.Arrival_time.SecondsSinceMidnight ∧
      new = { old with Arrival_time := new.Arrival_time,
                       Departure_time := new.Departure_time }) ∧
    (∀ (i : Nat) (old oldNext new newNext : StopTime), t.StopTimes[i]? = some old →
      t.StopTimes[i + 1]? = some oldNext →
      (remeasureStopTimes t time).StopTimes[i]? = some new →
      (remeasureStopTimes t time).StopTimes[i + 1]? = some newNext →
      newNext.Arrival_time.SecondsSinceMidnight - new.Arrival_time.SecondsSinceMidnight
        = oldNext.Arrival_time.SecondsSinceMidnight - old.Arrival_time.SecondsSinceMidnight ∧
      newNext.Departure_time.SecondsSinceMidnight - new.Departure_time.SecondsSinceMidnight
        = oldNext.Departure_time.SecondsSinceMidnight
          - old.Departure_time.SecondsSinceMidnight) ∧
    { remeasureStopTimes t time with StopTimes := t.StopTimes } = t := by
  obtain ⟨s0, rest, hst⟩ : ∃ s0 rest, t.StopTimes = s0 :: rest := by
    cases h : t.StopTimes with
    | nil => exact absurd h hne
    | cons s0 rest => exact ⟨s0, rest, rfl⟩
  have heq := remeasureStopTimes_eq_shift t time s0 rest hst
  have hget : ∀ (i : Nat) (old new : StopTime), t.StopTimes[i]? = some old →
      (remeasureStopTimes t time).StopTimes[i]? = some new →
      new = shiftStop (time.SecondsSinceMidnight - s0.Arrival_time.SecondsSinceMidnight) old := by
    intro i old new h1 h2
    rw [heq, List.getElem?_map, h1] at h2
    simpa using h2.symm
  refine ⟨by rw [heq, List.length_map], ?_, ?_, ?_, rfl⟩
  · refine ⟨shiftStop (time.SecondsSinceMidnight - s0.Arrival_time.SecondsSinceMidnight) s0,
      by rw [heq, hst]; simp, ?_, ?_⟩
    · rw [shiftStop_arrival]
      omega
    · simp only [shiftStop]
      congr 1
      omega
  · intro i old new h1 h2
    rw [hget i old new h1 h2]
    refine ⟨?_, rfl⟩
    rw [shiftStop_arrival, shiftStop_departure]
    omega
  · intro i old oldNext new newNext h1 h2 h3 h4
    rw [hget i old new h1 h3, hget (i + 1) oldNext newNext h2 h4]
    simp only [shiftStop_arrival, shiftStop_departure]
    constructor <;> omega

/-- Witness of C6: a trip of two stops that leaves at 07:00:00, remeasured to
09:15:00. -/
theorem remeasureStopTimes_preserves_deltas_witness :
    (exampleTrip "a" 7 0 []).StopTimes ≠ [] ∧
    (remeasureStopTimes (exampleTrip "a" 7 0 []) ⟨9, 15, 0⟩).StopTimes =
      [exampleStop 0 ⟨9, 15, 0⟩ ⟨9, 15, 30⟩, exampleStop 1 ⟨9, 20, 0⟩ ⟨9, 20, 30⟩] ∧
    (remeasureStopTimes (exampleTrip "a" 7 0 []) ⟨9, 15, 0⟩).StopTimes.length =
      (exampleTrip "a" 7 0 []).StopTimes.length :=
  ⟨by simp [exampleTrip], by decide,
    (remeasureStopTimes_preserves_deltas (exampleTrip "a" 7 0 []) ⟨9, 15, 0⟩
      (by simp [exampleTrip])).1⟩

/-- C8: whenever `getCover` returns, in either mode and for every order in
which the headways are tried, the progressions it returns partition the
index set of the class: their index lists, put one after the other, are a
rearrangement of `0, ..., n-1`, so every index occurs in exactly one
progression and exactly once there.  It does return, within `n + 2` tests
of `hasUnmarked`, whenever the class is not empty. -/
theorem getCover_partitions_indices (order : Nat → Nat → List Int) (eqs : TripWrappers)
    (overlapping : Bool) :
    (∀ fuel c, getCover fuel order eqs overlapping = some c →
      (coveredIdx c.progressions).Perm (List.range eqs.trips.length)) ∧
    (eqs.trips ≠ [] →
      ∃ c, getCover (eqs.trips.length + 2) order eqs overlapping = some c) := by
  constructor
  · intro fuel c h
    exact (getCover_sound (fun _ => True) fuel order eqs overlapping c
      (fun _ _ _ _ => trivial) h).2
  · intro hne
    exact getCover_total (fun _ => True) order eqs overlapping (fun _ _ _ _ => trivial) hne

/-- Witness of C8: the cover of the class 08:00, 08:10, 08:20 in overlap
mode. -/
theorem getCover_partitions_indices_witness :
    getCover 5 (fun _ _ => [600, 1200]) threeTrips true
      = some { progressions := [{ matched := [0, 1, 2], headways := 600 }],
               coveredTrips := ["a", "b", "c"] } ∧
    (coveredIdx [{ matched := [0, 1, 2], headways := 600 }]).Perm (List.range 3) :=
  ⟨by decide,
    (getCover_partitions_indices (fun _ _ => [600, 1200]) threeTrips true).1 5
      { progressions := [{ matched := [0, 1, 2], headways := 600 }],
        coveredTrips := ["a", "b", "c"] } (by decide)⟩

/-- C9: for a class in time order, in either mode and for every order in which
the headways are tried, every progression `getCover` returns is a non-empty
list of strictly increasing indices; the start times at these indices are
`start`, `start + h`, `start + 2h`, ... for the start time `start` of its
first instance and its headway `h`, and they are strictly increasing; `h`
is strictly positive when the progression has two instances or more and 0
when it has one. -/
theorem getCover_progression_arithmetic (fuel : Nat) (order : Nat → Nat → List Int)
    (eqs : TripWrappers) (overlapping : Bool) (c : ProgressionCover) (p : FreqCandidate)
    (hs : TimeSorted eqs.trips) (ho : KeyOrder eqs order)
    (hc : getCover fuel order eqs overlapping = some c) (hp : p ∈ c.progressions) :
    p.matched ≠ [] ∧
    p.matched.Pairwise (fun a b => a < b) ∧
    (∃ start, p.matched.map (secsOf eqs.trips) =
        (progressionTimes start p.headways p.matched.length).map some ∧
      (progressionTimes start p.headways p.matched.length).Pairwise (fun a b => a < b)) ∧
    (2 ≤ p.matched.length → 0 < p.headways) ∧
    (p.matched.length = 1 → p.headways = 0) := by
  have hg := (getCover_sound (fun f => 0 < f) fuel order eqs overlapping c
    (keyOrder_pos hs ho) hc).1 p hp
  obtain ⟨start, hstart⟩ := hg.times
  refine ⟨hg.nonempty, hg.incr, ⟨start, hstart, ?_⟩, ?_, ?_⟩
  · apply progressionTimes_lt
    rcases hg.hw with h | h
    · right; omega
    · left; exact h.2
  · intro h2
    rcases hg.hw with h | h
    · omega
    · exact h.2
  · intro h1
    rcases hg.hw with h | h
    · exact h.2
    · omega

/-- Witness of C9: the progression found for the class 08:00, 08:10, 08:20 in
disjoint mode. -/
theorem getCover_progression_arithmetic_witness :
    TimeSorted threeTrips.trips ∧
    KeyOrder threeTrips (fun _ _ => getPossibleFreqs threeTrips) ∧
    getCover 5 (fun _ _ => getPossibleFreqs threeTrips) threeTrips false
      = some { progressions := [{ matched := [0, 1, 2], headways := 600 }],
               coveredTrips := ["a", "b", "c"] } ∧
    (2 ≤ [0, 1, 2].length → (0 : Int) < 600) :=
  ⟨by unfold TimeSorted; decide, fun _ _ => List.Perm.refl _, by decide,
    (getCover_progression_arithmetic 5 (fun _ _ => getPossibleFreqs threeTrips) threeTrips
      false _ { matched := [0, 1, 2], headways := 600 }
      (by unfold TimeSorted; decide) (fun _ _ => List.Perm.refl _)
      (show getCover 5 (fun _ _ => getPossibleFreqs threeTrips) threeTrips false
        = some { progressions := [{ matched := [0, 1, 2], headways := 600 }],
                 coveredTrips := ["a", "b", "c"] } by decide)
      (by simp)).2.2.2.1⟩

/-- C10: whenever `packCovers` returns, the packs partition the candidates of
the cover (the progressions of all packs are a rearrangement of the input
candidates, so their number is the number of candidates), a candidate of
length 1 is the only progression of its pack, and no pack is empty, so that
the first progression of every pack exists.  It does return for every cover
whose progressions are non-empty lists of indices into the class, and an
empty cover gives an empty list of packs. -/
theorem packCovers_partitions_cover (c : ProgressionCover) (t : TripWrappers) :
    (∀ packs, packCovers c t = some packs →
      (allProgressions packs).Perm c.progressions ∧
      (allProgressions packs).length = c.progressions.length ∧
      (∀ pk ∈ packs, ∀ p ∈ pk.progressions, p.matched.length = 1 → pk.progressions = [p]) ∧
      (∀ pk ∈ packs, pk.progressions ≠ [] ∧ ∃ p0, pk.progressions[0]? = some p0)) ∧
    (CoverInRange c t → ∃ packs, packCovers c t = some packs) ∧
    (c.progressions = [] → packCovers c t = some []) := by
  refine ⟨?_, packCovers_total c t, ?_⟩
  · intro packs h
    obtain ⟨h1, h2, h3, _⟩ := packCovers_sound c t packs h
    refine ⟨h1, h1.length_eq, h3, ?_⟩
    intro pk hpk
    refine ⟨h2 pk hpk, ?_⟩
    cases hp : pk.progressions with
    | nil => exact absurd hp (h2 pk hpk)
    | cons p0 ps => exact ⟨p0, by simp⟩
  · intro h
    obtain ⟨ps, cov⟩ := c
    simp only at h
    subst h
    exact packCovers_nil cov t

/-- Witness of C10: a cover of the class 08:00, 08:10, 08:20 with one
progression of two instances and one single instance; the single instance
gets a pack of its own. -/
theorem packCovers_partitions_cover_witness :
    packCovers
      { progressions := [{ matched := [0, 1], headways := 600 }, { matched := [2], headways := 0 }],
        coveredTrips := [] } threeTrips
      = some [{ progressions := [{ matched := [0, 1], headways := 600 }], coveredTrips := [] },
              { progressions := [{ matched := [2], headways := 0 }], coveredTrips := [] }] ∧
    (allProgressions
      [{ progressions := [{ matched := [0, 1], headways := 600 }], coveredTrips := [] },
       { progressions := [{ matched := [2], headways := 0 }], coveredTrips := [] }]).length = 2 :=
  ⟨by decide,
    ((packCovers_partitions_cover
      { progressions := [{ matched := [0, 1], headways := 600 }, { matched := [2], headways := 0 }],
        coveredTrips := [] } threeTrips).1 _ (by decide)).2.1⟩

/-- C4: whenever `getCover` and then `packCovers` return, in either mode, the
number of packs is at most the number of trip-instances of the class; both
do return whenever the class is not empty. -/
theorem packCount_le_instances (order : Nat → Nat → List Int) (eqs : TripWrappers)
    (overlapping : Bool) :
    (∀ fuel c packs, getCover fuel order eqs overlapping = some c →
      packCovers c eqs = some packs → packs.length ≤ eqs.trips.length) ∧
    (eqs.trips ≠ [] →
      ∃ c packs, getCover (eqs.trips.length + 2) order eqs overlapping = some c ∧
        packCovers c eqs = some packs) := by
  have hgood : ∀ fuel c, getCover fuel order eqs overlapping = some c →
      CoverInRange c eqs := by
    intro fuel c hc p hp
    have hg := (getCover_sound (fun _ => True) fuel order eqs overlapping c
      (fun _ _ _ _ => trivial) hc).1 p hp
    exact ⟨hg.nonempty, hg.inRange⟩
  constructor
  · intro fuel c packs hc hpk
    obtain ⟨hgp, hperm⟩ := getCover_sound (fun _ => True) fuel order eqs overlapping c
      (fun _ _ _ _ => trivial) hc
    obtain ⟨h1, h2, _, _⟩ := packCovers_sound c eqs packs hpk
    have ha : packs.length ≤ (allProgressions packs).length :=
      length_le_length_flatMap _ packs h2
    have hb : c.progressions.length ≤ (coveredIdx c.progressions).length :=
      length_le_length_flatMap _ c.progressions (fun p hp => (hgp p hp).nonempty)
    have hc1 := h1.length_eq
    have hd := hperm.length_eq
    simp only [List.length_range] at hd
    omega
  · intro hne
    obtain ⟨c, hc⟩ := getCover_total (fun _ => True) order eqs overlapping
      (fun _ _ _ _ => trivial) hne
    obtain ⟨packs, hpk⟩ := packCovers_total c eqs (hgood _ c hc)
    exact ⟨c, packs, hc, hpk⟩

/-- Witness of C4: one pack for the three instances 08:00, 08:10, 08:20. -/
theorem packCount_le_instances_witness :
    (getCover 5 (fun _ _ => [600, 1200]) threeTrips false).bind
        (fun c => packCovers c threeTrips)
      = some [{ progressions := [{ matched := [0, 1, 2], headways := 600 }],
                coveredTrips := [] }] ∧
    [({ progressions := [{ matched := [0, 1, 2], headways := 600 }],
        coveredTrips := [] } : ProgressionCover)].length ≤ threeTrips.trips.length :=
  ⟨by decide,
    (packCount_le_instances (fun _ _ => [600, 1200]) threeTrips false).1 5
      { progressions := [{ matched := [0, 1, 2], headways := 600 }],
        coveredTrips := ["a", "b", "c"] }
      [{ progressions := [{ matched := [0, 1, 2], headways := 600 }], coveredTrips := [] }]
      (by decide) (by decide)⟩

/-- C3: for every cover whose progressions are non-empty lists of indices into
the class, `packCovers` returns, and any two progressions at different
places of one returned pack have non-intersecting time spans: the
last instance of one lies strictly before the first instance of the other.
Hence, when the cover is one that `getCover` returned for the class (in time
order), the instants expanded from the frequency entries that `Run` builds
for two progressions of one pack never coincide. -/
theorem packCovers_spans_disjoint (c : ProgressionCover) (t : TripWrappers)
    (hr : CoverInRange c t) :
    ∃ packs, packCovers c t = some packs ∧
      (∀ pk ∈ packs, pk.progressions.Pairwise (fun p q =>
        ∃ pf pl qf ql, firstSecs t p = some pf ∧ lastSecs t p = some pl ∧
          firstSecs t q = some qf ∧ lastSecs t q = some ql ∧ (pl < qf ∨ ql < pf))) ∧
      (∀ fuel order overlapping, TimeSorted t.trips → KeyOrder t order →
        getCover fuel order t overlapping = some c →
        ∀ pk ∈ packs, pk.progressions.Pairwise (fun p q =>
          ∀ (fp fq : TripWrapper × Frequency) (fuel1 fuel2 : Nat) (lp lq : List Int),
            progFrequency t p = some fp → progFrequency t q = some fq →
            expandFrequency fuel1 fp.2 = some lp → expandFrequency fuel2 fq.2 = some lq →
            ∀ x ∈ lp, x ∉ lq)) := by
  obtain ⟨packs, hp⟩ := packCovers_total c t hr
  obtain ⟨h1, _, _, h4⟩ := packCovers_sound c t packs hp
  have hmem : ∀ pk ∈ packs, ∀ p ∈ pk.progressions, p ∈ c.progressions :=
    fun pk hpk p hpp => h1.subset (mem_allProgressions.2 ⟨pk, hpk, hpp⟩)
  refine ⟨packs, hp, ?_, ?_⟩
  · intro pk hpk
    refine (h4 pk hpk).imp_of_mem ?_
    intro p q hpp hqq hd
    obtain ⟨pf, hpf⟩ := firstSecs_some (hr p (hmem pk hpk p hpp))
    obtain ⟨pl, hpl⟩ := lastSecs_some (hr p (hmem pk hpk p hpp))
    obtain ⟨qf, hqf⟩ := firstSecs_some (hr q (hmem pk hpk q hqq))
    obtain ⟨ql, hql⟩ := lastSecs_some (hr q (hmem pk hpk q hqq))
    refine ⟨pf, pl, qf, ql, hpf, hpl, hqf, hql, ?_⟩
    rcases hd with ⟨a, b, ha, hb, hab⟩ | ⟨a, b, ha, hb, hab⟩
    · rw [hpl] at ha
      rw [hqf] at hb
      cases ha
      cases hb
      exact Or.inl hab
    · rw [hql] at ha
      rw [hpf] at hb
      cases ha
      cases hb
      exact Or.inr hab
  · intro fuel order overlapping hs ho hc pk hpk
    obtain ⟨hg, _⟩ := getCover_sound (fun f => 0 < f) fuel order t overlapping c
      (keyOrder_pos hs ho) hc
    refine (h4 pk hpk).imp_of_mem ?_
    intro p q hpp hqq hd fp fq fuel1 fuel2 lp lq hfp hfq hlp hlq x hxp hxq
    obtain ⟨pf, pl, hpf, hpl, hpx⟩ := expansion_within_span t
      (hg p (hmem pk hpk p hpp)) fp.1 fp.2 fuel1 lp hfp hlp
    obtain ⟨qf, ql, hqf, hql, hqx⟩ := expansion_within_span t
      (hg q (hmem pk hpk q hqq)) fq.1 fq.2 fuel2 lq hfq hlq
    have hx1 := hpx x hxp
    have hx2 := hqx x hxq
    rcases hd with ⟨a, b, ha, hb, hab⟩ | ⟨a, b, ha, hb, hab⟩
    · rw [hpl] at ha
      rw [hqf] at hb
      cases ha
      cases hb
      omega
    · rw [hql] at ha
      rw [hpf] at hb
      cases ha
      cases hb
      omega

/-- C2: for every class of three bare trip-instances at 08:00:00, 08:10:00 and
08:20:00 (28800, 29400, 30000 seconds), of three trips, in both modes and
for every order in which the headways 600 and 1200 are tried, `getCover`
returns the single progression `[0, 1, 2]` with headway 600, `packCovers`
returns exactly one pack, the commit condition of `Run` holds, and the
frequency list built for the output trip is the one entry with start
08:00:00, end 08:30:00 and headway 600; for the feed of three such trips the
round of the driver leaves one trip with this one entry. -/
theorem three_trips_one_frequency (a b c : String) (m1 m2 m3 : Bool) (cov : List String)
    (overlapping : Bool) (order : Nat → Nat → List Int)
    (ho : KeyOrder (threeBare a b c m1 m2 m3 cov) order) (hcov : cov.length = 3) :
    (∃ cover, getCover 5 order (threeBare a b c m1 m2 m3 cov) overlapping = some cover ∧
      cover.progressions = [{ matched := [0, 1, 2], headways := 600 }] ∧
      packCovers cover (threeBare a b c m1 m2 m3 cov) =
        some [{ progressions := [{ matched := [0, 1, 2], headways := 600 }],
                coveredTrips := [] }]) ∧
    commits [{ progressions := [{ matched := [0, 1, 2], headways := 600 }], coveredTrips := [] }]
      (threeBare a b c m1 m2 m3 cov) = true ∧
    packFrequencies (threeBare a b c m1 m2 m3 cov)
        { progressions := [{ matched := [0, 1, 2], headways := 600 }], coveredTrips := [] }
      = some (⟨8, 0, 0⟩,
          [{ Exact_times := true, Start_time := ⟨8, 0, 0⟩, End_time := ⟨8, 30, 0⟩,
             Headway_secs := 600 }]) ∧
    (∀ freqs : List Int, freqs.Perm [600, 1200] →
      runGroup (simpleOracle 5 freqs) threeTripFeed (exampleTrip "a" 8 0 [])
        = some [exampleTrip "a" 8 0
            [{ Exact_times := true, Start_time := ⟨8, 0, 0⟩, End_time := ⟨8, 30, 0⟩,
               Headway_secs := 600 }]]) := by
  refine ⟨?_, ?_, ?_, runGroup_threeTripFeed⟩
  · have h := getCover_threeBare a b c m1 m2 m3 cov overlapping order ho
    simp only [Option.map_eq_some'] at h
    obtain ⟨cover, h1, h2⟩ := h
    refine ⟨cover, h1, h2, ?_⟩
    obtain ⟨ps, cv⟩ := cover
    simp only at h2
    subst h2
    simp [packCovers, packLoop, tryInsert, anyOverlap]
  · simp [commits, threeBare, hcov]
  · have hend : getGtfsTimeFromSec 30600 = ⟨8, 30, 0⟩ := by decide
    simp [packFrequencies, threeBare, buildFrequencies, progFrequency,
      Time.SecondsSinceMidnight, hend]

/-- Witness of C2: the class of the trips `a`, `b`, `c` in overlap mode, the
headway 1200 tried before the headway 600. -/
theorem three_trips_one_frequency_witness :
    KeyOrder (threeBare "a" "b" "c" false false false ["a", "b", "c"])
      (fun _ _ => [1200, 600]) ∧
    (getCover 5 (fun _ _ => [1200, 600])
        (threeBare "a" "b" "c" false false false ["a", "b", "c"]) true).map
      ProgressionCover.progressions = some [{ matched := [0, 1, 2], headways := 600 }] ∧
    commits [{ progressions := [{ matched := [0, 1, 2], headways := 600 }], coveredTrips := [] }]
      (threeBare "a" "b" "c" false false false ["a", "b", "c"]) = true :=
  ⟨fun _ _ => by rw [getPossibleFreqs_threeBare]; exact List.Perm.swap _ _ _,
    by decide,
    (three_trips_one_frequency "a" "b" "c" false false false ["a", "b", "c"] true
      (fun _ _ => [1200, 600])
      (fun _ _ => by rw [getPossibleFreqs_threeBare]; exact List.Perm.swap _ _ _) rfl).2.1⟩

/-- Witness of C3: the two progressions of the overlap cover of eight trips
have intersecting spans and go to two packs. -/
theorem packCovers_spans_disjoint_witness :
    CoverInRange eightCover eightTrips ∧
    getCover 10 (fun _ _ => getPossibleFreqs eightTrips) eightTrips true = some eightCover ∧
    packCovers eightCover eightTrips
      = some [{ progressions := [{ matched := [0, 1, 2, 4, 5, 6], headways := 600 }],
                coveredTrips := [] },
              { progressions := [{ matched := [3, 7], headways := 2700 }],
                coveredTrips := [] }] ∧
    ∃ packs, packCovers eightCover eightTrips = some packs ∧
      ∀ pk ∈ packs, pk.progressions.Pairwise (fun p q =>
        ∃ pf pl qf ql, firstSecs eightTrips p = some pf ∧ lastSecs eightTrips p = some pl ∧
          firstSecs eightTrips q = some qf ∧ lastSecs eightTrips q = some ql ∧
          (pl < qf ∨ ql < pf)) :=
  ⟨by simp [CoverInRange, ProgInRange, eightCover, eightTrips], by decide, by decide,
    (packCovers_spans_disjoint eightCover eightTrips
      (by simp [CoverInRange, ProgInRange, eightCover, eightTrips])).imp
      (fun _ h => ⟨h.1, h.2.1⟩)⟩

/-- Counterexample to C5: for the class of one trip with one frequency entry of
three departures, the chosen packing has one pack, fewer than the three
trip-instances, and yet `Run` does not commit: the test of line 98 compares
with the one trip record of the class, and the feed is left as it is. -/
theorem commit_not_by_instances :
    getTimeIndependentEquivalentTrips 5
        (exampleTrip "c" 0 0
          [{ Exact_times := true, Start_time := ⟨8, 10, 0⟩, End_time := ⟨8, 40, 0⟩,
             Headway_secs := 600 }]) oneFrequencyFeed = some oneFrequencyClass ∧
    2 ≤ oneFrequencyClass.trips.length ∧
    KeyOrder oneFrequencyClass (fun _ _ => [600, 1200]) ∧
    choosePacking (simpleOracle 5 [600, 1200]) oneFrequencyClass
      = some ([{ progressions := [{ matched := [0, 1, 2], headways := 600 }],
                 coveredTrips := [] }], oneFrequencyClass) ∧
    [({ progressions := [{ matched := [0, 1, 2], headways := 600 }],
        coveredTrips := [] } : ProgressionCover)].length < oneFrequencyClass.trips.length ∧
    commits [{ progressions := [{ matched := [0, 1, 2], headways := 600 }], coveredTrips := [] }]
      oneFrequencyClass = false ∧
    runGroup (simpleOracle 5 [600, 1200]) oneFrequencyFeed
        (exampleTrip "c" 0 0
          [{ Exact_times := true, Start_time := ⟨8, 10, 0⟩, End_time := ⟨8, 40, 0⟩,
             Headway_secs := 600 }]) = some oneFrequencyFeed :=
  ⟨by decide, by decide, fun _ _ => (by decide : ([600, 1200] : List Int).Perm
      (getPossibleFreqs oneFrequencyClass)), by decide, by decide, by decide, by decide⟩

/-- C5, amended: for every class of size at least 2 for which a packing is
chosen, `Run` commits the rewrite of the group exactly when the number of
packs is strictly smaller than the number of trip records that contribute
an instance to the class (`len(eqs.coveredTrips)`), a number that is at
most the number of trip-instances; when it commits, the round is the
rewrite of the group, and when it does not, the feed is returned as it
is. -/
theorem run_commits_iff_fewer_packs_than_trips (o : RunOracle) (feed : List Trip) (t : Trip)
    (eqs eqs2 : TripWrappers) (packed : List ProgressionCover)
    (hc : getTimeIndependentEquivalentTrips o.fuel t feed = some eqs)
    (hn : 2 ≤ eqs.trips.length)
    (hp : choosePacking o eqs = some (packed, eqs2)) :
    (commits packed eqs2 = true ↔ packed.length < eqs.coveredTrips.length) ∧
    eqs.coveredTrips.length ≤ eqs.trips.length ∧
    (packed.length < eqs.coveredTrips.length →
      runGroup o feed t = rewriteGroup o.fuel feed t eqs2 packed) ∧
    (¬ packed.length < eqs.coveredTrips.length → runGroup o feed t = some feed) := by
  have hcov := choosePacking_covered o eqs eqs2 packed hp
  have hiff : commits packed eqs2 = true ↔ packed.length < eqs.coveredTrips.length := by
    simp [commits, hcov]
  have hlt : ¬ eqs.trips.length < 2 := by omega
  refine ⟨hiff, ?_, ?_, ?_⟩
  · exact classifyLoop_covered_le o.fuel t feed 0 _ eqs (by simp) hc
  · intro h
    simp only [runGroup, hc, hlt, if_false, hp, hiff.2 h, if_true]
  · intro h
    have hf : ¬ commits packed eqs2 = true := fun hcm => h (hiff.1 hcm)
    simp [runGroup, hc, hlt, hp, hf]

/-- Witness of C5: the feed of three trips at 08:00:00, 08:10:00 and 08:20:00,
where one pack is fewer than three trips and the group is rewritten. -/
theorem run_commits_iff_fewer_packs_than_trips_witness :
    getTimeIndependentEquivalentTrips (simpleOracle 5 [600, 1200]).fuel
        (exampleTrip "a" 8 0 []) threeTripFeed = some threeTrips ∧
    2 ≤ threeTrips.trips.length ∧
    choosePacking (simpleOracle 5 [600, 1200]) threeTrips
      = some ([{ progressions := [{ matched := [0, 1, 2], headways := 600 }],
                 coveredTrips := [] }], threeTrips) ∧
    (commits [{ progressions := [{ matched := [0, 1, 2], headways := 600 }], coveredTrips := [] }]
        threeTrips = true ↔
      [({ progressions := [{ matched := [0, 1, 2], headways := 600 }],
          coveredTrips := [] } : ProgressionCover)].length < threeTrips.coveredTrips.length) :=
  ⟨classify_threeTripFeed, by decide, by decide,
    (run_commits_iff_fewer_packs_than_trips (simpleOracle 5 [600, 1200]) threeTripFeed
      (exampleTrip "a" 8 0 []) threeTrips threeTrips
      [{ progressions := [{ matched := [0, 1, 2], headways := 600 }], coveredTrips := [] }]
      classify_threeTripFeed (by decide) (by decide)).1⟩

/-- Counterexample to C7: on the feed of two bare trips at 08:00:00 and
08:20:00 and a trip whose one frequency entry, not exact, departs at
08:10:00, the first round of the driver leaves two trips (the non-exact
departure cannot join the bare ones and becomes a bare trip of its own); on
that feed a second round commits again and leaves a single trip, so the
second run changes the feed. -/
theorem second_run_changes_feed :
    runGroup (simpleOracle 5 [600, 1200]) mixedFeed (exampleTrip "a" 8 0 [])
      = some mixedFeedOnce ∧
    runGroup (simpleOracle 5 [600, 1200]) mixedFeedOnce
        (exampleTrip "a" 8 0
          [{ Exact_times := true, Start_time := ⟨8, 0, 0⟩, End_time := ⟨8, 40, 0⟩,
             Headway_secs := 1200 }]) = some mixedFeedTwice ∧
    mixedFeedTwice ≠ mixedFeedOnce ∧
    mixedFeedTwice.length < mixedFeedOnce.length := by
  refine ⟨?_, ?_, by decide, by decide⟩
  · simp only [runGroup, simpleOracle, classify_mixedFeed]
    decide
  · simp only [runGroup, simpleOracle, classify_mixedFeedOnce]
    decide

/-- C7, amended: a second run can commit a further rewrite of a group, so the
minimizer is not idempotent in general.  What holds: take a group whose
trip-instances are all exact (bare trips and instances of exact frequency
entries), whose seed has a stop, and in which every trip has a departure;
when a round of the driver rewrites the group, then a second round on the
rewritten group, from any of its trips as seed, with the same orders of the
headways and the same budget, whatever the sorts do with equal start times,
finds a packing that is not smaller than the number of output trips and
returns the feed unchanged. -/
theorem second_round_keeps_exact_group (o o2 : RunOracle) (feed feed2 : List Trip) (t : Trip)
    (eqs eqs2 : TripWrappers) (packed : List ProgressionCover)
    (hs1 : SortOracle o.sort1) (hs2 : SortOracle o.sort2)
    (ht1 : SortOracle o2.sort1) (ht2 : SortOracle o2.sort2)
    (ho1 : o2.order1 = o.order1) (ho2 : o2.order2 = o.order2) (hf : o2.fuel = o.fuel)
    (hk1 : KeyOrder { eqs with trips := o.sort1 eqs.trips } o.order1)
    (hk2 : KeyOrder { eqs with trips := o.sort2 (o.sort1 eqs.trips) } o.order2)
    (hfuel : eqs.trips.length + 2 ≤ o.fuel)
    (hclass : getTimeIndependentEquivalentTrips o.fuel t feed = some eqs)
    (hn : 2 ≤ eqs.trips.length)
    (hinst : ∀ x ∈ feed, x.Id ∈ eqs.trips.map TripWrapper.Trip)
    (hexact : AllExact eqs.trips)
    (hstops : t.StopTimes ≠ [])
    (hchoose : choosePacking o eqs = some (packed, eqs2))
    (hcommit : commits packed eqs2 = true)
    (hrw : rewriteGroup o.fuel feed t eqs2 packed = some feed2) :
    runGroup o feed t = some feed2 ∧
    ∀ t2 ∈ feed2, runGroup o2 feed2 t2 = some feed2 := by
  have hlt : ¬ eqs.trips.length < 2 := by omega
  refine ⟨by simp only [runGroup, hclass, hlt, if_false, hchoose, hcommit, if_true, hrw], ?_⟩
  obtain ⟨hperm, _, _, hgood, hcovidx⟩ := choosePacking_good o eqs eqs2 packed hs1 hs2 hk1 hk2
    hchoose
  have hlen2 : eqs2.trips.length = eqs.trips.length := hperm.length_eq
  have hpne : packed ≠ [] := by
    intro hnil
    have := hcovidx.length_eq
    rw [hnil] at this
    simp only [allProgressions, coveredIdx, List.flatMap_nil, List.length_nil,
      List.length_range] at this
    omega
  have hexact2 : AllExact eqs2.trips := allExact_perm hperm.symm hexact
  have hinst2 : ∀ x ∈ feed, x.Id ∈ eqs2.trips.map TripWrapper.Trip :=
    fun x hx => (hperm.map TripWrapper.Trip).symm.subset (hinst x hx)
  have hsub : ∀ tw ∈ eqs2.trips, tw.Trip ∈ feed.map Trip.Id := by
    intro tw htw
    exact classifyLoop_ids o.fuel t feed 0 _ eqs (feed.map Trip.Id) (by simp)
      (fun x hx => List.mem_map.2 ⟨x, hx, rfl⟩) hclass tw (hperm.subset htw)
  obtain ⟨hfa, hnd⟩ := rewriteGroup_outputs o.fuel feed feed2 t eqs2 packed hstops hpne
    hinst2 hsub hrw
  intro t2 ht2mem
  obtain ⟨pk, _, hout⟩ := forall₂_mem_right hfa t2 ht2mem
  obtain ⟨insts, hcl, hsecs, hex⟩ := classifyLoop_outputs t t2 eqs2 o2.fuel hout.copy hexact2
    (by rw [hf, hlen2]; omega) packed feed2 0 { trips := [], coveredTrips := [] } hfa hgood
    (by simpa using hnd)
  simp only [List.nil_append] at hcl
  have hperm2 : (insts.map TripWrapper.secs).Perm (eqs.trips.map TripWrapper.secs) := by
    rw [hsecs]
    have h1 : (idxSecs eqs2.trips (coveredIdx (allProgressions packed))).Perm
        (idxSecs eqs2.trips (List.range eqs2.trips.length)) := List.Perm.map _ hcovidx
    rw [idxSecs_range] at h1
    exact h1.trans (hperm.map _)
  unfold runGroup
  rw [getTimeIndependentEquivalentTrips, hcl]
  simp only
  split
  · rfl
  · obtain ⟨c2, hc2, hcov2⟩ := choosePacking_congr o o2 eqs
      { trips := insts, coveredTrips := feed2.map Trip.Id } packed eqs2 hs1 hs2 ht1 ht2 ho1 ho2
      hf hperm2 hexact hex hchoose
    rw [hc2]
    simp only at hcov2 ⊢
    have hno : commits packed c2 = false := by
      have hl := hfa.length_eq
      simp [commits, hcov2, hl]
    simp [hno]

/-- Witness of C7: the feed of three bare trips at 08:00:00, 08:10:00 and
08:20:00 is rewritten into one trip by the first round and is left as it is
by the second round. -/
theorem second_round_keeps_exact_group_witness :
    getTimeIndependentEquivalentTrips (simpleOracle 5 [600, 1200]).fuel
        (exampleTrip "a" 8 0 []) threeTripFeed = some threeTrips ∧
    choosePacking (simpleOracle 5 [600, 1200]) threeTrips
      = some ([{ progressions := [{ matched := [0, 1, 2], headways := 600 }],
                 coveredTrips := [] }], threeTrips) ∧
    rewriteGroup 5 threeTripFeed (exampleTrip "a" 8 0 []) threeTrips
        [{ progressions := [{ matched := [0, 1, 2], headways := 600 }], coveredTrips := [] }]
      = some [exampleTrip "a" 8 0
          [{ Exact_times := true, Start_time := ⟨8, 0, 0⟩, End_time := ⟨8, 30, 0⟩,
             Headway_secs := 600 }]] ∧
    ∀ t2 ∈ [exampleTrip "a" 8 0
        [{ Exact_times := true, Start_time := ⟨8, 0, 0⟩, End_time := ⟨8, 30, 0⟩,
           Headway_secs := 600 }]],
      runGroup (simpleOracle 5 [600, 1200])
          [exampleTrip "a" 8 0
            [{ Exact_times := true, Start_time := ⟨8, 0, 0⟩, End_time := ⟨8, 30, 0⟩,
               Headway_secs := 600 }]] t2
        = some [exampleTrip "a" 8 0
            [{ Exact_times := true, Start_time := ⟨8, 0, 0⟩, End_time := ⟨8, 30, 0⟩,
               Headway_secs := 600 }]] :=
  ⟨classify_threeTripFeed, by decide, by decide,
    (second_round_keeps_exact_group (simpleOracle 5 [600, 1200]) (simpleOracle 5 [600, 1200])
      threeTripFeed _ (exampleTrip "a" 8 0 []) threeTrips threeTrips
      [{ progressions := [{ matched := [0, 1, 2], headways := 600 }], coveredTrips := [] }]
      insertionSortByTime_oracle insertionSortByTime_oracle insertionSortByTime_oracle
      insertionSortByTime_oracle rfl rfl rfl
      (fun _ _ => (by decide : ([600, 1200] : List Int).Perm
        (getPossibleFreqs { threeTrips with trips := insertionSortByTime threeTrips.trips })))
      (fun _ _ => (by decide : ([600, 1200] : List Int).Perm
        (getPossibleFreqs { threeTrips with
          trips := insertionSortByTime (insertionSortByTime threeTrips.trips) })))
      (by decide) classify_threeTripFeed (by decide) (by decide) allExact_threeTrips
      (by simp [exampleTrip]) (by decide) (by decide) (by decide)).2⟩

/-- C11, evaluated on two trips: `noDwellTrip` (08:00 and 08:10, no wait) and
`dwellTrip` (09:00 and 09:10, five minutes of wait at each stop) pass
`isTimeIndependentEqual`, since their arrival deltas agree and their
departure deltas agree, but no single offset maps the arrivals and the
departures of one to those of the other: the arrivals are 3600 seconds
apart and the departures 3900.  One round of `Run` on the feed of these two
trips then keeps `noDwellTrip` alone, with one frequency entry for 08:00
and 09:00, and the five minutes of wait of the second trip are gone. -/
theorem equal_trips_without_common_offset :
    isTimeIndependentEqual noDwellTrip dwellTrip = true ∧
    (¬ ∃ c : Int, CommonOffset noDwellTrip dwellTrip c) ∧
    runGroup (simpleOracle 5 [3600]) [noDwellTrip, dwellTrip] noDwellTrip =
      some [{ noDwellTrip with
                Frequencies := [{ Exact_times := true, Start_time := ⟨8, 0, 0⟩,
                                  End_time := ⟨10, 0, 0⟩, Headway_secs := 3600 }] }] := by
  have heq : isTimeIndependentEqual noDwellTrip dwellTrip = true := by
    rw [isTimeIndependentEqual_iff]
    refine ⟨⟨rfl, rfl, rfl, rfl, rfl, rfl, rfl, rfl, rfl⟩, ?_⟩
    simp only [hasSameRelStopTimes, noDwellTrip, dwellTrip, twoStopTrip, exampleStop]
    simp only [List.length_cons, List.length_nil, ne_eq, not_true_eq_false, if_false]
    rw [if_neg (by decide)]
    rw [sameRelLoop_cons]
    refine ⟨⟨rfl, rfl, rfl, rfl, floatEquals_self _, rfl⟩, fun p hp => (by cases hp), ?_⟩
    rw [sameRelLoop_cons]
    exact ⟨⟨rfl, rfl, rfl, rfl, floatEquals_self _, rfl⟩,
      fun p hp => (by cases hp; exact ⟨by decide, by decide⟩), sameRelLoop_nil_left _ _⟩
  refine ⟨heq, ?_, ?_⟩
  · rintro ⟨c, hc⟩
    have h0 := hc 0 (exampleStop 0 ⟨8, 0, 0⟩ ⟨8, 0, 0⟩) (exampleStop 0 ⟨9, 0, 0⟩ ⟨9, 5, 0⟩)
      rfl rfl
    simp only [exampleStop, Time.SecondsSinceMidnight] at h0
    omega
  · have hself : isTimeIndependentEqual noDwellTrip noDwellTrip = true := by
      rw [isTimeIndependentEqual_iff]
      refine ⟨⟨rfl, rfl, rfl, rfl, rfl, rfl, rfl, rfl, rfl⟩, ?_⟩
      simp only [hasSameRelStopTimes, noDwellTrip, twoStopTrip, exampleStop]
      simp only [List.length_cons, List.length_nil, ne_eq, not_true_eq_false, if_false]
      rw [if_neg (by decide)]
      rw [sameRelLoop_cons]
      refine ⟨⟨rfl, rfl, rfl, rfl, floatEquals_self _, rfl⟩, fun p hp => (by cases hp), ?_⟩
      rw [sameRelLoop_cons]
      exact ⟨⟨rfl, rfl, rfl, rfl, floatEquals_self _, rfl⟩,
        fun p hp => (by cases hp; exact ⟨by decide, by decide⟩), sameRelLoop_nil_left _ _⟩
    have hsym := isTimeIndependentEqual_symm_imp _ _ heq
    have hcl : getTimeIndependentEquivalentTrips 5 noDwellTrip [noDwellTrip, dwellTrip] =
        some { trips := [bareInstance "a" 8 0, bareInstance "b" 9 0]
               coveredTrips := ["a", "b"] } := by
      simp only [getTimeIndependentEquivalentTrips, classifyLoop, hsym, or_true, true_or,
        if_true]
      decide
    simp only [runGroup, simpleOracle, hcl]
    decide

/-- C17, the claim fails at: three trips of one stop that differ in the
cumulative distance only, 0, 0.006 and 0.012.  The first and the second
pass `isTimeIndependentEqual`, the second and the third pass it, the first
and the third do not. -/
theorem isTimeIndependentEqual_not_transitive :
    isTimeIndependentEqual (distTrip "a" 0) (distTrip "b" (3 / 500)) = true ∧
    isTimeIndependentEqual (distTrip "b" (3 / 500)) (distTrip "c" (3 / 250)) = true ∧
    isTimeIndependentEqual (distTrip "a" 0) (distTrip "c" (3 / 250)) = false := by
  have key : ∀ (i j : String) (d e : Rat),
      isTimeIndependentEqual (distTrip i d) (distTrip j e) = floatEquals d e (1 / 100) := by
    intro i j d e
    cases hfe : floatEquals d e (1 / 100) with
    | true =>
      rw [isTimeIndependentEqual_iff]
      refine ⟨⟨rfl, rfl, rfl, rfl, rfl, rfl, rfl, rfl, rfl⟩, ?_⟩
      simp only [hasSameRelStopTimes, distTrip, exampleStop]
      simp only [List.length_cons, List.length_nil, ne_eq, not_true_eq_false, if_false]
      rw [if_neg (by decide)]
      rw [sameRelLoop_cons]
      exact ⟨⟨rfl, rfl, rfl, rfl, hfe, rfl⟩, fun p hp => (by cases hp),
        sameRelLoop_nil_left _ _⟩
    | false =>
      cases hc : isTimeIndependentEqual (distTrip i d) (distTrip j e) with
      | false => rfl
      | true =>
        rw [isTimeIndependentEqual_iff] at hc
        have h2 := hc.2
        simp only [hasSameRelStopTimes, distTrip, exampleStop] at h2
        simp only [List.length_cons, List.length_nil, ne_eq, not_true_eq_false, if_false] at h2
        rw [if_neg (by decide)] at h2
        rw [sameRelLoop_cons] at h2
        have h3 := h2.1.2.2.2.2.1
        simp only at h3
        rw [hfe] at h3
        cases h3
  rw [key, key, key]
  refine ⟨?_, ?_, ?_⟩ <;> simp only [floatEquals] <;> norm_num

/-- C17, amended: `isTimeIndependentEqual` is symmetric, and it carries over
from the pairs (a, b) and (b, c) to the pair (a, c) whenever the cumulative
distances of a and c themselves pass the comparison with tolerance 0.01 at
every stop position. -/
theorem isTimeIndependentEqual_symm_and_trans_within :
    (∀ a b : Trip, isTimeIndependentEqual a b = isTimeIndependentEqual b a) ∧
    (∀ a b c : Trip, isTimeIndependentEqual a b = true → isTimeIndependentEqual b c = true →
      DistWithin a c → isTimeIndependentEqual a c = true) := by
  constructor
  · intro a b
    cases h1 : isTimeIndependentEqual a b with
    | true => exact (isTimeIndependentEqual_symm_imp a b h1).symm
    | false =>
      cases h2 : isTimeIndependentEqual b a with
      | false => rfl
      | true =>
        rw [isTimeIndependentEqual_symm_imp b a h2] at h1
        cases h1
  · intro a b c h1 h2 hd
    rw [isTimeIndependentEqual_iff] at h1 h2 ⊢
    exact ⟨sameAttributes_trans h1.1 h2.1, hasSameRelStopTimes_trans a b c hd h1.2 h2.2⟩

/-- Witness of C17: trips with the distances 0, 0.004 and 0.008. -/
theorem isTimeIndependentEqual_symm_and_trans_within_witness :
    isTimeIndependentEqual (distTrip "a" 0) (distTrip "c" (1 / 125)) = true :=
  isTimeIndependentEqual_symm_and_trans_within.2 (distTrip "a" 0) (distTrip "b" (1 / 250))
    (distTrip "c" (1 / 125))
    (by
      rw [isTimeIndependentEqual_iff]
      refine ⟨⟨rfl, rfl, rfl, rfl, rfl, rfl, rfl, rfl, rfl⟩, ?_⟩
      simp only [hasSameRelStopTimes, distTrip, exampleStop]
      simp only [List.length_cons, List.length_nil, ne_eq, not_true_eq_false, if_false]
      rw [if_neg (by decide)]
      rw [sameRelLoop_cons]
      exact ⟨⟨rfl, rfl, rfl, rfl, by simp only [floatEquals]; norm_num, rfl⟩,
        fun p hp => (by cases hp), sameRelLoop_nil_left _ _⟩)
    (by
      rw [isTimeIndependentEqual_iff]
      refine ⟨⟨rfl, rfl, rfl, rfl, rfl, rfl, rfl, rfl, rfl⟩, ?_⟩
      simp only [hasSameRelStopTimes, distTrip, exampleStop]
      simp only [List.length_cons, List.length_nil, ne_eq, not_true_eq_false, if_false]
      rw [if_neg (by decide)]
      rw [sameRelLoop_cons]
      exact ⟨⟨rfl, rfl, rfl, rfl, by simp only [floatEquals]; norm_num, rfl⟩,
        fun p hp => (by cases hp), sameRelLoop_nil_left _ _⟩)
    (by
      intro i x y hx hy
      cases i with
      | zero =>
        simp only [distTrip, exampleStop, List.getElem?_cons_zero, Option.some.injEq] at hx hy
        subst hx; subst hy
        simp only [floatEquals]; norm_num
      | succ n => simp [distTrip] at hx)

/-- C20: the test `freqEq` of `getCover` gives a value for every pair of
trip-instances, whichever of the two source frequencies is absent: it never
reads the flag of an absent one.  So `getCover` returns a cover for every
class that is not empty, in either mode and for every order of the
headways, within `n + 2` rounds of its outer loop. -/
theorem freqEq_defined_getCover_returns :
    (∀ ti tj : TripWrapper, ∃ b, freqEq ti tj = some b) ∧
    (∀ (ti tj : TripWrapper), ti.sourceFreq = none → tj.sourceFreq = none →
      freqEq ti tj = some true) ∧
    (∀ (ti tj : TripWrapper) (f : FreqPtr), ti.sourceFreq = none → tj.sourceFreq = some f →
      freqEq ti tj = some f.Exact_times) ∧
    (∀ (ti tj : TripWrapper) (f : FreqPtr), ti.sourceFreq = some f → tj.sourceFreq = none →
      freqEq ti tj = some f.Exact_times) ∧
    (∀ (ti tj : TripWrapper) (f g : FreqPtr), ti.sourceFreq = some f → tj.sourceFreq = some g →
      freqEq ti tj = some (g.addr == f.addr || f.Exact_times == g.Exact_times)) ∧
    (∀ (order : Nat → Nat → List Int) (eqs : TripWrappers) (overlapping : Bool),
      eqs.trips ≠ [] →
      ∃ c, getCover (eqs.trips.length + 2) order eqs overlapping = some c) := by
  refine ⟨freqEq_total, ?_, ?_, ?_, ?_, ?_⟩
  · intro ti tj hi hj
    simp [freqEq, hi, hj, goOr, goAnd, ptrEq]
  · intro ti tj f hi hj
    cases hf : f.Exact_times <;>
      simp [freqEq, hi, hj, goOr, goAnd, ptrEq, derefExact, exactAgree, hf]
  · intro ti tj f hi hj
    cases hf : f.Exact_times <;>
      simp [freqEq, hi, hj, goOr, goAnd, ptrEq, derefExact, exactAgree, hf]
  · intro ti tj f g hi hj
    cases hf : f.Exact_times <;> cases hg : g.Exact_times <;>
      cases ha : (g.addr == f.addr) <;>
      simp [freqEq, hi, hj, goOr, goAnd, ptrEq, derefExact, exactAgree, hf, hg, ha]
  · intro order eqs ov hne
    exact getCover_total (fun _ => True) order eqs ov (fun _ _ _ _ => trivial) hne

/-- C15: for a class in time order and a cover whose progressions list
their instances in increasing order (as `getCover` makes them),
`packCovers` returns the first-fit packing: the candidates of two or more instances are
taken in cover order, each goes into the lowest-indexed pack none of whose
progressions has a time span (first to last covered instant, both ends
inclusive) that intersects its own, a new pack is opened only when no pack
takes it, and the single-instance candidates follow after all these packs,
one pack each, in cover order. -/
theorem packCovers_is_first_fit (c : ProgressionCover) (t : TripWrappers)
    (hs : TimeSorted t.trips) (hc : ∀ p ∈ c.progressions, AscendingProg t p) :
    packCovers c t = some ((firstFitPacking t c.progressions).map mkPack) :=
  packCovers_eq_firstFit c t
    (fun p hp => ⟨properSpan_of_ascending hs (hc p hp), (hc p hp).1.1⟩)

/-- Witness of C15: the two progressions of `eightCover` overlap in time
(08:00 to 08:50 and 08:25 to 09:10), so first fit opens a second pack. -/
theorem packCovers_is_first_fit_witness :
    TimeSorted eightTrips.trips ∧ (∀ p ∈ eightCover.progressions, AscendingProg eightTrips p) ∧
    packCovers eightCover eightTrips =
      some [mkPack [{ matched := [0, 1, 2, 4, 5, 6], headways := 600 }],
            mkPack [{ matched := [3, 7], headways := 2700 }]] :=
  ⟨by unfold TimeSorted; decide,
    by unfold AscendingProg ProgInRange; decide,
    (packCovers_is_first_fit eightCover eightTrips (by unfold TimeSorted; decide)
      (by unfold AscendingProg ProgInRange; decide)).trans (by decide)⟩

/-- C16: for a class in time order, either mode and every order of the
headways.  (1) The candidate headways are exactly the positive differences
of two start times of the class.  (2) In every state of the class (the
array with some instances marked) with first non-marked instance `i`, the
candidate kept for `i` is at least as long as the progression grown from
`i` with any candidate headway; when it has two or more instances it is the
progression of the first headway, in the order of evaluation, that reaches
this length; and when it has fewer it is the candidate `[i]` with headway 0
and every headway grows one instance only.  (3) Every progression of a
cover of `getCover` is the candidate kept in such a state. -/
theorem kept_candidate_is_longest (order : Nat → Nat → List Int) (eqs : TripWrappers)
    (overlapping : Bool) (hs : TimeSorted eqs.trips) (ho : KeyOrder eqs order) :
    (∀ f, f ∈ getPossibleFreqs eqs ↔
      0 < f ∧ ∃ a ∈ eqs.trips, ∃ b ∈ eqs.trips, f = b.secs - a.secs) ∧
    (∀ (pass m : Nat) (ts : List TripWrapper) (ti : TripWrapper),
      ts.map unmark = eqs.trips.map unmark → ts[firstUnmarked ts]? = some ti →
      ∃ cur, keptCandidate overlapping (order pass m) ts = some cur ∧
        (∀ f ∈ getPossibleFreqs eqs,
          ∃ nx, grownFrom overlapping ts (firstUnmarked ts) ti f = some nx ∧
            nx.matched.length ≤ cur.matched.length) ∧
        (2 ≤ cur.matched.length →
          ∃ (n : Nat) (f : Int), (order pass m)[n]? = some f ∧
            grownFrom overlapping ts (firstUnmarked ts) ti f = some cur ∧
            ∀ (k : Nat) (g : Int), k < n → (order pass m)[k]? = some g →
              ∃ nx, grownFrom overlapping ts (firstUnmarked ts) ti g = some nx ∧
                nx.matched.length < cur.matched.length) ∧
        (cur.matched.length < 2 →
          cur = { matched := [firstUnmarked ts], headways := 0 } ∧
          ∀ f ∈ getPossibleFreqs eqs,
            ∃ nx, grownFrom overlapping ts (firstUnmarked ts) ti f = some nx ∧
              nx.matched.length = 1)) ∧
    (∀ fuel c, getCover fuel order eqs overlapping = some c →
      ∀ p ∈ c.progressions, KeptSomewhere overlapping order eqs.trips p) := by
  refine ⟨getPossibleFreqs_mem eqs hs, ?_, fun fuel c h => getCover_kept overlapping order eqs fuel c h⟩
  intro pass m ts ti _ hti
  obtain ⟨cur, h1, h2, h3, h4⟩ := tryFreqs_longest overlapping ts (firstUnmarked ts) ti
    (order pass m) { matched := [firstUnmarked ts], headways := 0 }
  have hmax : ∀ f ∈ getPossibleFreqs eqs,
      ∃ nx, grownFrom overlapping ts (firstUnmarked ts) ti f = some nx ∧
        nx.matched.length ≤ cur.matched.length := by
    intro f hf
    obtain ⟨nx, hnx, _⟩ := grownFrom_total overlapping ts (firstUnmarked ts) ti f
    exact ⟨nx, hnx, h3 f ((ho pass m).mem_iff.2 hf) nx hnx⟩
  refine ⟨cur, by simp only [keptCandidate, hti, h1], hmax, ?_, ?_⟩
  · intro h2le
    rcases h4 with h4 | ⟨n, f, hn, hf, _, hbefore⟩
    · rw [h4] at h2le
      simp at h2le
    · refine ⟨n, f, hn, hf, ?_⟩
      intro k g hk hg
      obtain ⟨nx, hnx, _⟩ := grownFrom_total overlapping ts (firstUnmarked ts) ti g
      exact ⟨nx, hnx, hbefore k g nx hk hg hnx⟩
  · intro hlt
    have hcur : cur = { matched := [firstUnmarked ts], headways := 0 } := by
      rcases h4 with h4 | ⟨n, f, _, _, hgt, _⟩
      · exact h4
      · simp only [List.length_singleton] at hgt
        omega
    refine ⟨hcur, ?_⟩
    intro f hf
    obtain ⟨nx, hnx, hle⟩ := hmax f hf
    obtain ⟨nx1, hnx1, hpos⟩ := grownFrom_total overlapping ts (firstUnmarked ts) ti f
    rw [hnx] at hnx1
    cases hnx1
    exact ⟨nx, hnx, by omega⟩

/-- Witness of C16: in the class of three trips at 08:00, 08:10 and 08:20 the
headways are tried in the order 600, 1200; the candidate kept for instance 0
is the progression of all three instances with headway 600. -/
theorem kept_candidate_is_longest_witness :
    TimeSorted threeTrips.trips ∧
    KeyOrder threeTrips (fun _ _ => getPossibleFreqs threeTrips) ∧
    getPossibleFreqs threeTrips = [600, 1200] ∧
    keptCandidate false (getPossibleFreqs threeTrips) threeTrips.trips =
      some { matched := [0, 1, 2], headways := 600 } ∧
    grownFrom false threeTrips.trips 0 (bareInstance "a" 8 0) 1200 =
      some { matched := [0], headways := 0 } ∧
    KeptSomewhere false (fun _ _ => getPossibleFreqs threeTrips) threeTrips.trips
      { matched := [0, 1, 2], headways := 600 } :=
  ⟨by unfold TimeSorted; decide, fun _ _ => List.Perm.refl _, by decide, by decide, by decide,
    (kept_candidate_is_longest (fun _ _ => getPossibleFreqs threeTrips) threeTrips false
      (by unfold TimeSorted; decide) (fun _ _ => List.Perm.refl _)).2.2 5
      { progressions := [{ matched := [0, 1, 2], headways := 600 }],
        coveredTrips := ["a", "b", "c"] }
      (by decide) { matched := [0, 1, 2], headways := 600 } (List.mem_singleton.2 rfl)⟩

/-- The flags as the cover engine reads them.  For a class in which two
source-frequency pointers with the same address read the same flag, in
either mode and for every order of the headways: for every progression of
two or more instances of a cover of `getCover`, `Run` builds a frequency
entry, and the exact-times flag it writes (the flag read through the source
frequency of the first covered instance, exact when that instance is a bare
trip) is the flag read for every instance the progression covers (exact for
a bare trip, the flag read through its source frequency otherwise).
`getCover` returns such a cover for every class that is not empty. -/
theorem flag_read_agrees_with_every_instance (order : Nat → Nat → List Int)
    (eqs : TripWrappers) (overlapping : Bool) (hcons : PtrConsistent eqs.trips) :
    (∀ fuel c, getCover fuel order eqs overlapping = some c →
      ∀ p ∈ c.progressions, 2 ≤ p.matched.length →
        ∃ first a, progFrequency eqs p = some (first, a) ∧
          ∀ k ∈ p.matched, ∃ tw, eqs.trips[k]? = some tw ∧
            effectiveExact tw = a.Exact_times) ∧
    (eqs.trips ≠ [] →
      ∃ c, getCover (eqs.trips.length + 2) order eqs overlapping = some c) :=
  ⟨fun fuel c hc p hp _ => cover_flags_agree order eqs overlapping hcons fuel c hc p hp,
    fun hne => getCover_total (fun _ => True) order eqs overlapping
      (fun _ _ _ _ => trivial) hne⟩

/-- An instance of it: in `mixedClass` the bare trip at 08:00 is not merged with
the departures of the entry that is not exact; these two form a progression
whose frequency entry is written as not exact. -/
theorem flag_read_agrees_on_mixedClass :
    PtrConsistent mixedClass.trips ∧
    getCover 5 (fun _ _ => [600, 1200]) mixedClass false =
      some { progressions := [{ matched := [0], headways := 0 },
                              { matched := [1, 2], headways := 600 }],
             coveredTrips := ["a", "c"] } ∧
    (progFrequency mixedClass { matched := [1, 2], headways := 600 }).map
      (fun r => r.2.Exact_times) = some false ∧
    (∃ first a, progFrequency mixedClass { matched := [1, 2], headways := 600 } =
        some (first, a) ∧
      ∀ k ∈ [1, 2], ∃ tw, mixedClass.trips[k]? = some tw ∧
        effectiveExact tw = a.Exact_times) :=
  ⟨by
      intro a ha b hb f g hf hg _
      simp only [mixedClass, bareInstance, List.mem_cons, List.mem_singleton,
        List.not_mem_nil, or_false] at ha hb
      rcases ha with rfl | rfl | rfl <;> rcases hb with rfl | rfl | rfl <;> simp_all,
    by decide, by decide,
    (flag_read_agrees_with_every_instance (fun _ _ => [600, 1200]) mixedClass false
      (by
        intro a ha b hb f g hf hg _
        simp only [mixedClass, bareInstance, List.mem_cons, List.mem_singleton,
          List.not_mem_nil, or_false] at ha hb
        rcases ha with rfl | rfl | rfl <;> rcases hb with rfl | rfl | rfl <;> simp_all)).1 5
      { progressions := [{ matched := [0], headways := 0 },
                         { matched := [1, 2], headways := 600 }],
        coveredTrips := ["a", "c"] }
      (by decide) { matched := [1, 2], headways := 600 } (by simp) (by decide)⟩

/-- C12, evaluated on `twoFlagFeed`: a bare trip at 08:00, a trip with the
entries `nonExactEntry` (its one departure is 08:10) and `exactEntry` (its
one departure is 08:30), and a bare trip at 08:20.  The classifier gives
both instances of the frequency trip the same source-frequency pointer, the
address of its loop variable, through which the flag of the last entry is
read: the instance of 08:10 reads exact although its entry is not.  One
round of `Run` then merges the four departures into one progression and
writes one exact frequency entry from 08:00 to 08:40 every 600 seconds, so
the departure of the entry that is not exact is written as exact. -/
theorem non_exact_departure_written_exact :
    nonExactEntry.Exact_times = false ∧
    expandFrequency 6 nonExactEntry = some [29400] ∧
    getTimeIndependentEquivalentTrips 6 (exampleTrip "a" 8 0 []) twoFlagFeed =
      some { trips := [bareInstance "a" 8 0,
                       { Trip := "c", t := ⟨8, 10, 0⟩, marked := false,
                         sourceFreq := some { addr := 1, Exact_times := true } },
                       { Trip := "c", t := ⟨8, 30, 0⟩, marked := false,
                         sourceFreq := some { addr := 1, Exact_times := true } },
                       bareInstance "b" 8 20]
             coveredTrips := ["a", "c", "b"] } ∧
    getCover 6 (fun _ _ => [600, 1200, 1800])
        { trips := [bareInstance "a" 8 0,
                    { Trip := "c", t := ⟨8, 10, 0⟩, marked := false,
                      sourceFreq := some { addr := 1, Exact_times := true } },
                    bareInstance "b" 8 20,
                    { Trip := "c", t := ⟨8, 30, 0⟩, marked := false,
                      sourceFreq := some { addr := 1, Exact_times := true } }]
          coveredTrips := ["a", "c", "b"] } false =
      some { progressions := [{ matched := [0, 1, 2, 3], headways := 600 }],
             coveredTrips := ["a", "c", "b"] } ∧
    runGroup (simpleOracle 6 [600, 1200, 1800]) twoFlagFeed (exampleTrip "a" 8 0 []) =
      some [exampleTrip "a" 8 0
        [{ Exact_times := true, Start_time := ⟨8, 0, 0⟩, End_time := ⟨8, 40, 0⟩,
           Headway_secs := 600 }]] := by
  have hcl : getTimeIndependentEquivalentTrips 6 (exampleTrip "a" 8 0 []) twoFlagFeed =
      some { trips := [bareInstance "a" 8 0,
                       { Trip := "c", t := ⟨8, 10, 0⟩, marked := false,
                         sourceFreq := some { addr := 1, Exact_times := true } },
                       { Trip := "c", t := ⟨8, 30, 0⟩, marked := false,
                         sourceFreq := some { addr := 1, Exact_times := true } },
                       bareInstance "b" 8 20]
             coveredTrips := ["a", "c", "b"] } := by
    simp only [getTimeIndependentEquivalentTrips, twoFlagFeed, classifyLoop,
      isTimeIndependentEqual_exampleTrip, or_true, if_true]
    decide
  refine ⟨rfl, by decide, hcl, by decide, ?_⟩
  simp only [runGroup, simpleOracle, hcl]
  decide

/-! ## The thresholds of `getCover` and plain greedy covering -/

theorem plainGreedy_succ (ov : Bool) (freqs : List Int) :
    ∀ (fuel : Nat) (ts : List TripWrapper) (acc R : List FreqCandidate),
      plainGreedy ov freqs fuel ts acc = some R →
      plainGreedy ov freqs (fuel + 1) ts acc = some R := by
  intro fuel
  induction fuel with
  | zero => intro ts acc R h; cases h
  | succ fuel ih =>
    intro ts acc R h
    rw [plainGreedy] at h ⊢
    by_cases hi : firstUnmarked ts ≥ ts.length
    · rw [if_pos hi] at h ⊢
      exact h
    · rw [if_neg hi] at h ⊢
      cases hk : keptCandidate ov freqs ts with
      | none => rw [hk] at h; cases h
      | some cur =>
        rw [hk] at h
        exact ih _ _ _ h

theorem plainGreedy_mono (ov : Bool) (freqs : List Int) (ts : List TripWrapper)
    (acc R : List FreqCandidate) (fuel fuel2 : Nat) (hle : fuel ≤ fuel2)
    (h : plainGreedy ov freqs fuel ts acc = some R) :
    plainGreedy ov freqs fuel2 ts acc = some R := by
  induction hle with
  | refl => exact h
  | step _ ih => exact plainGreedy_succ ov freqs _ ts acc R ih

theorem greedyReaches_step (ov : Bool) (freqs : List Int) (m : Nat) (st st1 : CoverState)
    (R : List FreqCandidate) (h : coverStep ov freqs m st = some st1)
    (hg : GreedyReaches ov freqs R st1) : GreedyReaches ov freqs R st := by
  rcases coverStep_cases ov freqs m st st1 h with ⟨_, h1⟩ | ⟨cur, hlt, hkept, h1⟩
  · subst h1; exact hg
  · rcases h1 with ⟨_, h1⟩ | ⟨_, cov1, _, _, h1⟩
    · subst h1; exact hg
    · subst h1
      obtain ⟨hlen, hpg⟩ := hg
      simp only [List.length_append, List.length_singleton] at hlen hpg
      refine ⟨by omega, ?_⟩
      have hfuel : R.length - st.cand.progressions.length + 1 =
          (R.length - (st.cand.progressions.length + 1) + 1) + 1 := by omega
      rw [hfuel, plainGreedy, if_neg (by omega), hkept]
      exact hpg

theorem greedyReaches_minSizeLoop (ov : Bool) (freqs : List Int) (R : List FreqCandidate) :
    ∀ (m : Nat) (st st1 : CoverState), minSizeLoop ov (fun _ => freqs) m st = some st1 →
      GreedyReaches ov freqs R st1 → GreedyReaches ov freqs R st := by
  intro m
  induction m with
  | zero =>
    intro st st1 h hg
    simp only [minSizeLoop, Option.some.injEq] at h
    exact h ▸ hg
  | succ m ih =>
    intro st st1 h hg
    simp only [minSizeLoop] at h
    cases hs : coverStep ov freqs (m + 1) st with
    | none => rw [hs] at h; cases h
    | some st2 =>
      rw [hs] at h
      exact greedyReaches_step ov freqs (m + 1) st st2 R hs (ih st2 st1 h hg)

theorem greedyReaches_coverLoop (ov : Bool) (freqs : List Int) (R : List FreqCandidate) :
    ∀ (fuel pass : Nat) (st st1 : CoverState),
      coverLoop ov (fun _ _ => freqs) fuel pass st = some st1 →
      GreedyReaches ov freqs R st1 → GreedyReaches ov freqs R st := by
  intro fuel
  induction fuel with
  | zero => intro pass st st1 h _; cases h
  | succ fuel ih =>
    intro pass st st1 h hg
    simp only [coverLoop] at h
    by_cases hu : st.hasUnmarked = true
    · simp only [hu, if_true] at h
      cases hm : minSizeLoop ov (fun _ => freqs) st.trips.length st with
      | none => rw [hm] at h; cases h
      | some st2 =>
        rw [hm] at h
        exact greedyReaches_minSizeLoop ov freqs R _ st st2 hm (ih (pass + 1) st2 st1 h hg)
    · have hu1 : st.hasUnmarked = false := by simpa using hu
      simp only [hu1, Bool.false_eq_true, if_false, Option.some.injEq] at h
      exact h ▸ hg

theorem firstUnmarked_ge_of_all {ts : List TripWrapper}
    (h : ∀ k, k < ts.length → IsMarked ts k) : firstUnmarked ts ≥ ts.length := by
  by_contra hcon
  obtain ⟨tw, hget, hm⟩ := firstUnmarked_get ts (by omega)
  obtain ⟨tw1, hget1, hm1⟩ := h _ (by omega : firstUnmarked ts < ts.length)
  rw [hget] at hget1
  cases hget1
  rw [hm] at hm1
  cases hm1

/-- With one order of the headways for all rounds, the progressions of a cover
of `getCover` are those of plain greedy covering. -/
theorem getCover_eq_plainGreedy (freqs : List Int) (eqs : TripWrappers) (ov : Bool)
    (fuel : Nat) (c : ProgressionCover)
    (h : getCover fuel (fun _ _ => freqs) eqs ov = some c) :
    plainGreedyCover ov freqs (c.progressions.length + 1) eqs = some c.progressions := by
  unfold getCover at h
  cases hl : coverLoop ov (fun _ _ => freqs) fuel 0
      { trips := eqs.trips.map unmark
        cand := { progressions := [], coveredTrips := [] }
        hasUnmarked := true } with
  | none => simp only [hl, Option.map_none'] at h; cases h
  | some st =>
    simp only [hl, Option.map_some', Option.some.injEq] at h
    subst h
    obtain ⟨hinv, hdone⟩ := coverLoop_sound (fun _ => True) ov eqs.trips (fun _ _ => freqs)
      (fun _ _ _ _ => trivial) fuel 0 _ st (coverInv_init _ eqs.trips) hl
    have hend : GreedyReaches ov freqs st.cand.progressions st := by
      refine ⟨le_refl _, ?_⟩
      rw [Nat.sub_self, plainGreedy,
        if_pos (firstUnmarked_ge_of_all (hinv.done hdone))]
    have hstart := greedyReaches_coverLoop ov freqs st.cand.progressions fuel 0 _ st hl hend
    obtain ⟨_, hpg⟩ := hstart
    simpa [plainGreedyCover] using hpg

/-- C18: with one order `freqs` of the headways for all rounds, in either
mode: whenever `getCover` returns, plain greedy covering (take the first
non-marked instance, grow its longest progression, accept it at once)
returns the same list of progressions, in the same order, as soon as it is
given one round more than there are progressions, and it never returns
another list.  Both return for every class that is not empty, `getCover`
within `n + 2` rounds of its outer loop and plain greedy covering within
`n + 1` rounds. -/
theorem thresholds_do_not_change_cover (freqs : List Int) (eqs : TripWrappers)
    (overlapping : Bool) :
    (∀ fuel c, getCover fuel (fun _ _ => freqs) eqs overlapping = some c →
      (∀ fuel2, c.progressions.length + 1 ≤ fuel2 →
        plainGreedyCover overlapping freqs fuel2 eqs = some c.progressions) ∧
      (∀ fuel2 R, plainGreedyCover overlapping freqs fuel2 eqs = some R →
        R = c.progressions)) ∧
    (eqs.trips ≠ [] →
      ∃ c, getCover (eqs.trips.length + 2) (fun _ _ => freqs) eqs overlapping = some c ∧
        plainGreedyCover overlapping freqs (eqs.trips.length + 1) eqs = some c.progressions) := by
  have hup : ∀ fuel c, getCover fuel (fun _ _ => freqs) eqs overlapping = some c →
      ∀ fuel2, c.progressions.length + 1 ≤ fuel2 →
        plainGreedyCover overlapping freqs fuel2 eqs = some c.progressions := by
    intro fuel c hc fuel2 hle
    exact plainGreedy_mono overlapping freqs _ _ _ _ fuel2 hle
      (getCover_eq_plainGreedy freqs eqs overlapping fuel c hc)
  constructor
  · intro fuel c hc
    refine ⟨hup fuel c hc, ?_⟩
    intro fuel2 R hR
    have h1 := hup fuel c hc (max fuel2 (c.progressions.length + 1)) (le_max_right _ _)
    have h2 := plainGreedy_mono overlapping freqs _ _ _ _
      (max fuel2 (c.progressions.length + 1)) (le_max_left _ _) hR
    unfold plainGreedyCover at h1
    rw [h1] at h2
    exact (Option.some.inj h2).symm
  · intro hne
    obtain ⟨c, hc⟩ := getCover_total (fun _ => True) (fun _ _ => freqs) eqs overlapping
      (fun _ _ _ _ => trivial) hne
    refine ⟨c, hc, hup _ c hc _ ?_⟩
    obtain ⟨hgood, hperm⟩ := getCover_sound (fun _ => True) _ (fun _ _ => freqs) eqs
      overlapping c (fun _ _ _ _ => trivial) hc
    have h1 := length_le_length_flatMap FreqCandidate.matched c.progressions
      (fun p hp => (hgood p hp).nonempty)
    have h2 := hperm.length_eq
    simp only [List.length_range] at h2
    unfold coveredIdx at h2
    omega

/-- Witness of C18: on the class of eight trips, in overlap mode, `getCover`
and plain greedy covering both give the progression of headway 600 from
08:00 to 08:50 and then the progression 08:25, 09:10. -/
theorem thresholds_do_not_change_cover_witness :
    getCover 10 (fun _ _ => getPossibleFreqs eightTrips) eightTrips true = some eightCover ∧
    plainGreedyCover true (getPossibleFreqs eightTrips) 3 eightTrips =
      some [{ matched := [0, 1, 2, 4, 5, 6], headways := 600 },
            { matched := [3, 7], headways := 2700 }] :=
  ⟨by decide,
    ((thresholds_do_not_change_cover (getPossibleFreqs eightTrips) eightTrips true).1 10
      eightCover (by decide)).1 3 (by decide)⟩

/-! ## Disjoint mode: runs of consecutive indices -/

theorem growFrom_disjoint_run (freq start : Int) (ti : TripWrapper) (i : Nat) :
    ∀ (rest : List TripWrapper) (j : Nat) (c c1 : FreqCandidate),
      c.matched = List.range' i (j - i) → i < j →
      growFrom false freq start ti rest j c = some c1 →
      c1.matched = List.range' i c1.matched.length := by
  intro rest
  induction rest with
  | nil =>
    intro j c c1 hc _ h
    simp only [growFrom, Option.some.injEq] at h
    subst h
    rw [hc, List.length_range']
  | cons tj rest ih =>
    intro j c c1 hc hij h
    have hstop : c.matched = List.range' i c.matched.length := by
      rw [hc, List.length_range']
    obtain ⟨fe, hfe⟩ := freqEq_total ti tj
    simp only [growFrom, hfe, Bool.false_eq_true, if_false] at h
    split at h
    · simp only [Option.some.injEq] at h
      subst h
      exact hstop
    · split at h
      · refine ih (j + 1) _ c1 ?_ (by omega) h
        simp only [hc]
        have hj : j + 1 - i = (j - i) + 1 := by omega
        rw [hj, List.range'_concat]
        congr 2
        omega
      · simp only [Option.some.injEq] at h
        subst h
        exact hstop

theorem tryFreqs_disjoint_run (ti : TripWrapper) (rest : List TripWrapper) (i : Nat) :
    ∀ (freqs : List Int) (cur cur1 : FreqCandidate),
      cur.matched = List.range' i cur.matched.length →
      tryFreqs false ti.secs ti rest i freqs cur = some cur1 →
      cur1.matched = List.range' i cur1.matched.length := by
  intro freqs
  induction freqs with
  | nil =>
    intro cur cur1 hc h
    simp only [tryFreqs, Option.some.injEq] at h
    subst h
    exact hc
  | cons f fs ih =>
    intro cur cur1 hc h
    simp only [tryFreqs] at h
    cases hg : growFrom false f ti.secs ti rest (i + 1) { matched := [i], headways := 0 } with
    | none => rw [hg] at h; cases h
    | some nx =>
      rw [hg] at h
      have hnx := growFrom_disjoint_run f ti.secs ti i rest (i + 1)
        { matched := [i], headways := 0 } nx (by simp) (by omega) hg
      simp only at h
      split at h
      · exact ih nx cur1 hnx h
      · exact ih cur cur1 hc h

theorem keptCandidate_disjoint_run (freqs : List Int) (ts : List TripWrapper)
    (p : FreqCandidate) (h : keptCandidate false freqs ts = some p) :
    p.matched = List.range' (firstUnmarked ts) p.matched.length := by
  unfold keptCandidate at h
  cases hget : ts[firstUnmarked ts]? with
  | none => rw [hget] at h; cases h
  | some ti =>
    simp only [hget] at h
    exact tryFreqs_disjoint_run ti _ _ freqs _ p (by simp) h

theorem firstUnmarked_eq_of_marked_below {ts : List TripWrapper} {k : Nat}
    (hlt : firstUnmarked ts < ts.length) (hm : ∀ a, IsMarked ts a ↔ a < k) :
    firstUnmarked ts = k := by
  obtain ⟨tw, hget, hun⟩ := firstUnmarked_get ts hlt
  apply le_antisymm
  · by_contra hcon
    have h1 := firstUnmarked_before ts k (by omega)
    exact absurd ((hm k).1 h1) (by omega)
  · by_contra hcon
    obtain ⟨tw1, hget1, hm1⟩ := (hm (firstUnmarked ts)).2 (by omega)
    rw [hget] at hget1
    cases hget1
    rw [hun] at hm1
    cases hm1

theorem range_append_range' (L M : List Nat) (hL : L = List.range L.length)
    (hM : M = List.range' L.length M.length) : L ++ M = List.range (L.length + M.length) := by
  conv_lhs => rw [hL, hM]
  rw [List.range_eq_range', List.range_eq_range']
  have := List.range'_append 0 L.length M.length 1
  simp only [Nat.zero_add, Nat.one_mul] at this
  rw [this]
  congr 1
  omega

/-- What `getCover` keeps true in disjoint mode: the covered indices are
`0, 1, ..., k - 1` in cover order, and every progression is a run of
consecutive indices. -/
theorem coverStep_disjoint (ts0 : List TripWrapper) (freqs : List Int) (m : Nat)
    (st st1 : CoverState)
    (hj : CoverInv (fun _ => True) ts0 st ∧
      coveredIdx st.cand.progressions = List.range (coveredIdx st.cand.progressions).length ∧
      ∀ p ∈ st.cand.progressions, ConsecutiveRun p)
    (h : coverStep false freqs m st = some st1) :
    CoverInv (fun _ => True) ts0 st1 ∧
      coveredIdx st1.cand.progressions = List.range (coveredIdx st1.cand.progressions).length ∧
      ∀ p ∈ st1.cand.progressions, ConsecutiveRun p := by
  obtain ⟨hinv, hrange, hruns⟩ := hj
  obtain ⟨st2, hs2, hinv2, _⟩ := coverStep_spec (fun _ => True) false ts0 freqs m st hinv
    (fun _ _ => trivial)
  rw [h] at hs2
  cases hs2
  refine ⟨hinv2, ?_⟩
  rcases coverStep_cases false freqs m st st1 h with ⟨_, h1⟩ | ⟨cur, hlt, hkept, h1⟩
  · subst h1; exact ⟨hrange, hruns⟩
  · rcases h1 with ⟨_, h1⟩ | ⟨_, cov1, _, _, h1⟩
    · subst h1; exact ⟨hrange, hruns⟩
    · subst h1
      have hrun := keptCandidate_disjoint_run freqs st.trips cur hkept
      have hmarks : ∀ a, IsMarked st.trips a ↔ a < (coveredIdx st.cand.progressions).length := by
        intro a
        rw [← hinv.marks a, hrange, List.mem_range, List.length_range]
      have hfu := firstUnmarked_eq_of_marked_below hlt hmarks
      rw [hfu] at hrun
      refine ⟨?_, ?_⟩
      · simp only [coveredIdx_append, coveredIdx_singleton, List.length_append]
        exact range_append_range' _ _ hrange hrun
      · intro p hp
        rcases List.mem_append.1 hp with hp | hp
        · exact hruns p hp
        · rw [List.mem_singleton.1 hp]
          exact ⟨_, hrun⟩

theorem getCover_disjoint_runs (order : Nat → Nat → List Int) (eqs : TripWrappers)
    (fuel : Nat) (c : ProgressionCover) (h : getCover fuel order eqs false = some c) :
    coveredIdx c.progressions = List.range eqs.trips.length ∧
      ∀ p ∈ c.progressions, ConsecutiveRun p := by
  obtain ⟨st, ⟨_, hrange, hruns⟩, hc⟩ := getCover_preserves false order eqs
    (fun st => CoverInv (fun _ => True) eqs.trips st ∧
      coveredIdx st.cand.progressions = List.range (coveredIdx st.cand.progressions).length ∧
      ∀ p ∈ st.cand.progressions, ConsecutiveRun p)
    ⟨coverInv_init _ eqs.trips, by simp [coveredIdx], fun p hp => by cases hp⟩
    (fun pass m st st1 hj hs => coverStep_disjoint eqs.trips _ m st st1 hj hs)
    fuel c h
  subst hc
  obtain ⟨_, hperm⟩ := getCover_sound (fun _ => True) fuel order eqs false st.cand
    (fun _ _ _ _ => trivial) h
  have hlen := hperm.length_eq
  simp only [List.length_range] at hlen
  rw [hlen] at hrange
  exact ⟨hrange, hruns⟩

theorem strictlySorted_lt {ts : List TripWrapper} (hs : StrictlySorted ts) {i j : Nat}
    {a b : TripWrapper} (hij : i < j) (ha : ts[i]? = some a) (hb : ts[j]? = some b) :
    a.secs < b.secs := by
  obtain ⟨hi, hai⟩ := List.getElem?_eq_some_iff.1 ha
  obtain ⟨hj, hbj⟩ := List.getElem?_eq_some_iff.1 hb
  have := (List.pairwise_iff_getElem.1 hs) i j hi hj hij
  rw [hai, hbj] at this
  exact this

theorem timeSorted_of_strictlySorted {ts : List TripWrapper} (hs : StrictlySorted ts) :
    TimeSorted ts :=
  List.Pairwise.imp (fun h => le_of_lt h) hs

theorem ascending_of_goodProg {H : Int → Prop} {t : TripWrappers} {p : FreqCandidate}
    (h : GoodProg H t.trips p) : AscendingProg t p :=
  ⟨⟨h.nonempty, h.inRange⟩, h.incr⟩

theorem span_ends {t : TripWrappers} {p : FreqCandidate} (hp : AscendingProg t p) :
    ∃ kf kl tf tl, kf ∈ p.matched ∧ kl ∈ p.matched ∧ t.trips[kf]? = some tf ∧
      t.trips[kl]? = some tl ∧ firstSecs t p = some tf.secs ∧ lastSecs t p = some tl.secs := by
  obtain ⟨⟨hne, hr⟩, _⟩ := hp
  have hpos : 0 < p.matched.length := List.length_pos.2 hne
  have h0 : p.matched[0]? = some p.matched[0] := List.getElem?_eq_getElem hpos
  have hl : p.matched[p.matched.length - 1]? = some p.matched[p.matched.length - 1] :=
    List.getElem?_eq_getElem (by omega)
  have hk0 : p.matched[0] < t.trips.length := hr _ (List.getElem_mem _)
  have hkl : p.matched[p.matched.length - 1] < t.trips.length := hr _ (List.getElem_mem _)
  have ha := List.getElem?_eq_getElem hk0
  have hb := List.getElem?_eq_getElem hkl
  refine ⟨_, _, _, _, List.getElem_mem _, List.getElem_mem _, ha, hb, ?_, ?_⟩
  · simp only [firstSecs, h0, tripSecs, ha, Option.map_some']
  · simp only [lastSecs, hl, tripSecs, hb, Option.map_some']
    rw [if_neg (by omega)]

theorem spansIntersect_false_of_before {t : TripWrappers} {e q : FreqCandidate}
    (hs : StrictlySorted t.trips) (he : AscendingProg t e) (hq : AscendingProg t q)
    (hlt : ∀ a ∈ e.matched, ∀ b ∈ q.matched, a < b) : spansIntersect t e q = false := by
  obtain ⟨_, el, _, tel, _, hel, _, htel, hef, hell⟩ := span_ends he
  obtain ⟨qf, _, tqf, _, hqf, _, htqf, _, hqff, hqll⟩ := span_ends hq
  have h1 := strictlySorted_lt hs (hlt el hel qf hqf) htel htqf
  simp only [spansIntersect, spanOf, hef, hell, hqff, hqll]
  rw [decide_eq_false_iff_not]
  intro hle
  have := le_trans (le_max_right _ _) (le_trans hle (min_le_left _ _))
  omega

theorem foldl_firstFit_one_pack (t : TripWrappers) :
    ∀ (ms pk0 : List FreqCandidate),
      (∀ q ∈ ms, ∀ e ∈ pk0, spansIntersect t e q = false) →
      ms.Pairwise (fun e q => spansIntersect t e q = false) →
      ms.foldl (fun packs c => firstFitPlace t c packs) [pk0] = [pk0 ++ ms] := by
  intro ms
  induction ms with
  | nil => intro pk0 _ _; simp
  | cons q rest ih =>
    intro pk0 h0 hp
    have hacc : accepts t q pk0 = true := by
      simp only [accepts, List.all_eq_true, Bool.not_eq_true']
      exact fun e he => h0 q (List.mem_cons_self _ _) e he
    simp only [List.foldl_cons, firstFitPlace, hacc, if_true]
    rw [ih (pk0 ++ [q])]
    · simp
    · intro r hr e he
      rcases List.mem_append.1 he with he | he
      · exact h0 r (List.mem_cons_of_mem _ hr) e he
      · rw [List.mem_singleton.1 he]
        exact (List.pairwise_cons.1 hp).1 r hr
    · exact (List.pairwise_cons.1 hp).2

theorem foldl_firstFit_from_nil (t : TripWrappers) (ms : List FreqCandidate)
    (hp : ms.Pairwise (fun e q => spansIntersect t e q = false)) :
    ms.foldl (fun packs c => firstFitPlace t c packs) [] = if ms = [] then [] else [ms] := by
  cases ms with
  | nil => simp
  | cons q rest =>
    simp only [List.foldl_cons, firstFitPlace]
    rw [foldl_firstFit_one_pack t rest [q]
      (fun r hr e he => by
        rw [List.mem_singleton.1 he]
        exact (List.pairwise_cons.1 hp).1 r hr)
      (List.pairwise_cons.1 hp).2]
    simp

/-- In disjoint mode, on a class with pairwise distinct start times, the packs
of `packCovers` are one pack with all progressions of two or
more instances, if there is any, and one pack for each single instance. -/
theorem packCovers_disjoint (order : Nat → Nat → List Int) (eqs : TripWrappers)
    (fuel : Nat) (c : ProgressionCover) (h : getCover fuel order eqs false = some c)
    (hs : StrictlySorted eqs.trips) :
    packCovers c eqs = some
      (((if c.progressions.filter (fun p => decide (2 ≤ p.matched.length)) = [] then []
          else [c.progressions.filter (fun p => decide (2 ≤ p.matched.length))]) ++
        (c.progressions.filter (fun p => decide (p.matched.length = 1))).map
          (fun p => [p])).map mkPack) := by
  obtain ⟨hgood, _⟩ := getCover_sound (fun _ => True) fuel order eqs false c
    (fun _ _ _ _ => trivial) h
  obtain ⟨hrange, _⟩ := getCover_disjoint_runs order eqs fuel c h
  have hasc : ∀ p ∈ c.progressions, AscendingProg eqs p :=
    fun p hp => ascending_of_goodProg (hgood p hp)
  rw [packCovers_eq_firstFit c eqs
    (fun p hp => ⟨properSpan_of_ascending (timeSorted_of_strictlySorted hs) (hasc p hp),
      (hasc p hp).1.1⟩)]
  have hpw : (coveredIdx c.progressions).Pairwise (fun a b => a < b) := by
    rw [hrange]
    exact List.pairwise_lt_range _
  unfold coveredIdx at hpw
  have hpw2 := (List.pairwise_flatMap.1 hpw).2
  have hpw3 : c.progressions.Pairwise (fun e q => spansIntersect eqs e q = false) := by
    refine List.Pairwise.imp_of_mem ?_ hpw2
    intro e q he hq hlt
    exact spansIntersect_false_of_before hs (hasc e he) (hasc q hq) hlt
  have hpw4 := List.Pairwise.filter (fun p => decide (2 ≤ p.matched.length)) hpw3
  simp only [firstFitPacking, foldl_firstFit_from_nil eqs _ hpw4]

/-- C19: in disjoint mode, for every order of the headways: every progression
of a cover of `getCover` is a run of consecutive indices of the class; and
when the start times of the class are in time order and pairwise distinct,
`packCovers` returns, the number of its packs is 1 if some progression has
two or more instances (0 otherwise) plus the number of single-instance
progressions, and every progression of two or more instances is in the
first pack.  `getCover` returns for every class that is not empty. -/
theorem disjoint_cover_runs_one_pack (order : Nat → Nat → List Int) (eqs : TripWrappers) :
    (∀ fuel c, getCover fuel order eqs false = some c →
      (∀ p ∈ c.progressions, ConsecutiveRun p) ∧
      (StrictlySorted eqs.trips →
        ∃ packs, packCovers c eqs = some packs ∧
          packs.length =
            (if c.progressions.any (fun p => decide (2 ≤ p.matched.length)) = true
              then 1 else 0) +
            (c.progressions.filter (fun p => decide (p.matched.length = 1))).length ∧
          ∀ p ∈ c.progressions, 2 ≤ p.matched.length →
            ∃ pk, packs[0]? = some pk ∧ p ∈ pk.progressions)) ∧
    (eqs.trips ≠ [] → ∃ c, getCover (eqs.trips.length + 2) order eqs false = some c) := by
  refine ⟨?_, fun hne => getCover_total (fun _ => True) order eqs false
    (fun _ _ _ _ => trivial) hne⟩
  intro fuel c hc
  refine ⟨(getCover_disjoint_runs order eqs fuel c hc).2, ?_⟩
  intro hs
  refine ⟨_, packCovers_disjoint order eqs fuel c hc hs, ?_, ?_⟩
  · by_cases hnil : c.progressions.filter (fun p => decide (2 ≤ p.matched.length)) = []
    · have hany : ¬ (c.progressions.any (fun p => decide (2 ≤ p.matched.length)) = true) := by
        rw [List.any_eq_true]
        rintro ⟨p, hp, h2⟩
        exact (List.filter_eq_nil_iff.1 hnil) p hp h2
      rw [if_pos hnil, if_neg hany]
      simp
    · have hany : c.progressions.any (fun p => decide (2 ≤ p.matched.length)) = true := by
        rw [List.any_eq_true]
        by_contra hcon
        apply hnil
        rw [List.filter_eq_nil_iff]
        intro p hp h2
        exact hcon ⟨p, hp, h2⟩
      rw [if_neg hnil, if_pos hany]
      simp
      omega
  · intro p hp h2
    have hmem : p ∈ c.progressions.filter (fun p => decide (2 ≤ p.matched.length)) :=
      List.mem_filter.2 ⟨hp, by simpa using h2⟩
    have hnil : c.progressions.filter (fun p => decide (2 ≤ p.matched.length)) ≠ [] :=
      List.ne_nil_of_mem hmem
    rw [if_neg hnil]
    exact ⟨mkPack (c.progressions.filter (fun p => decide (2 ≤ p.matched.length))),
      by simp, hmem⟩

/-- Witness of C19: the class of eight trips in disjoint mode.  The cover has
the runs 0-2, 3-4, 5-6 and the single instance 7; the three runs share one
pack and the single instance has its own. -/
theorem disjoint_cover_runs_one_pack_witness :
    StrictlySorted eightTrips.trips ∧
    getCover 10 (fun _ _ => getPossibleFreqs eightTrips) eightTrips false =
      some { progressions := [{ matched := [0, 1, 2], headways := 600 },
                              { matched := [3, 4], headways := 300 },
                              { matched := [5, 6], headways := 600 },
                              { matched := [7], headways := 0 }],
             coveredTrips := ["a", "b", "c", "d", "e", "f", "g", "h"] } ∧
    (∃ packs, packCovers
        { progressions := [{ matched := [0, 1, 2], headways := 600 },
                           { matched := [3, 4], headways := 300 },
                           { matched := [5, 6], headways := 600 },
                           { matched := [7], headways := 0 }],
          coveredTrips := ["a", "b", "c", "d", "e", "f", "g", "h"] } eightTrips = some packs ∧
      packs.length = 1 + 1) :=
  ⟨by unfold StrictlySorted; decide, by decide,
    (((disjoint_cover_runs_one_pack (fun _ _ => getPossibleFreqs eightTrips) eightTrips).1 10
      { progressions := [{ matched := [0, 1, 2], headways := 600 },
                         { matched := [3, 4], headways := 300 },
                         { matched := [5, 6], headways := 600 },
                         { matched := [7], headways := 0 }],
        coveredTrips := ["a", "b", "c", "d", "e", "f", "g", "h"] } (by decide)).2
      (by unfold StrictlySorted; decide)).imp (fun packs h => ⟨h.1, h.2.1⟩)⟩

/-! ## The shape remeasurer -/

theorem segment_congr {distP : ShapePoint → ShapePoint → Rat} (hd : CoordinatesOnly distP)
    {l pts : List ShapePoint} (h : l.map ShapePoint.coords = pts.map ShapePoint.coords)
    (i : Nat) : segment distP l i = segment distP pts i := by
  have hget : ∀ k : Nat, (l[k]?).map ShapePoint.coords = (pts[k]?).map ShapePoint.coords := by
    intro k
    have := congrArg (fun x : List (Rat × Rat) => x[k]?) h
    simpa [List.getElem?_map] using this
  unfold segment
  by_cases hi : i > 0
  · simp only [hi, if_true]
    have h1 := hget (i - 1)
    have h2 := hget i
    cases ha : l[i - 1]? with
    | none =>
      rw [ha] at h1
      cases hb : pts[i - 1]? with
      | none => rfl
      | some b => rw [hb] at h1; cases h1
    | some a =>
      rw [ha] at h1
      cases hb : pts[i - 1]? with
      | none => rw [hb] at h1; cases h1
      | some b =>
        rw [hb] at h1
        simp only [Option.map_some', Option.some.injEq] at h1
        cases hc : l[i]? with
        | none =>
          rw [hc] at h2
          cases he : pts[i]? with
          | none => rfl
          | some e => rw [he] at h2; cases h2
        | some c =>
          rw [hc] at h2
          cases he : pts[i]? with
          | none => rw [he] at h2; cases h2
          | some e =>
            rw [he] at h2
            simp only [Option.map_some', Option.some.injEq] at h2
            exact hd a c b e h1 h2
  · simp only [hi, if_false]

theorem pathLength_congr {distP : ShapePoint → ShapePoint → Rat} (hd : CoordinatesOnly distP)
    {l pts : List ShapePoint} (h : l.map ShapePoint.coords = pts.map ShapePoint.coords)
    (a b : Nat) : pathLength distP l a b = pathLength distP pts a b := by
  unfold pathLength
  congr 1
  apply List.map_congr_left
  intro k _
  exact segment_congr hd h _

theorem pathLength_self (distP : ShapePoint → ShapePoint → Rat) (pts : List ShapePoint)
    (a : Nat) : pathLength distP pts a a = 0 := by
  simp [pathLength]

theorem pathLength_succ_right (distP : ShapePoint → ShapePoint → Rat) (pts : List ShapePoint)
    (a b : Nat) (hab : a ≤ b) :
    pathLength distP pts a (b + 1) = pathLength distP pts a b + segment distP pts (b + 1) := by
  unfold pathLength
  have h1 : b + 1 - a = (b - a) + 1 := by omega
  rw [h1, List.range_succ, List.map_append, List.sum_append]
  simp only [List.map_cons, List.map_nil, List.sum_cons, List.sum_nil, add_zero]
  have h2 : a + (b - a) + 1 = b + 1 := by omega
  rw [h2]

theorem pathLength_succ_left (distP : ShapePoint → ShapePoint → Rat) (pts : List ShapePoint)
    (a b : Nat) (hab : a < b) :
    pathLength distP pts a b = segment distP pts (a + 1) + pathLength distP pts (a + 1) b := by
  unfold pathLength
  have h1 : b - a = (b - (a + 1)) + 1 := by omega
  rw [h1, List.range_succ_eq_map]
  simp only [List.map_cons, List.sum_cons, List.map_map, Nat.add_zero]
  congr 2
  apply List.map_congr_left
  intro k _
  simp only [Function.comp]
  congr 1
  omega

theorem addSegment_eq (distP : ShapePoint → ShapePoint → Rat) (pts : List ShapePoint)
    (i : Nat) (d : Rat) (hi : i < pts.length) :
    addSegment distP pts i d = some (d + segment distP pts i) := by
  unfold addSegment segment
  by_cases h0 : i > 0
  · simp only [h0, if_true]
    rw [List.getElem?_eq_getElem (by omega : i - 1 < pts.length), List.getElem?_eq_getElem hi]
  · simp only [h0, if_false, add_zero]

theorem coords_set (pts : List ShapePoint) (i : Nat) (p q : ShapePoint)
    (hp : pts[i]? = some p) (hq : q.coords = p.coords) :
    (pts.set i q).map ShapePoint.coords = pts.map ShapePoint.coords := by
  apply List.ext_getElem?
  intro n
  simp only [List.getElem?_map, List.getElem?_set]
  by_cases hn : i = n
  · subst hn
    have hlt : i < pts.length := (List.getElem?_eq_some_iff.1 hp).1
    simp [hlt, hp, hq]
  · simp [hn]

/-- What `remeasureBetween` does to the points: those from `i` on, `n` of them,
get a known distance, the others are not touched. -/
theorem betweenLoop_spec (distP : ShapePoint → ShapePoint → Rat) (mPUnit lastMeasure : Rat) :
    ∀ (n i : Nat) (d : Rat) (pts : List ShapePoint), i + n ≤ pts.length →
      ∃ out, betweenLoop distP mPUnit lastMeasure n i d pts = some out ∧
        out.length = pts.length ∧
        out.map ShapePoint.coords = pts.map ShapePoint.coords ∧
        (∀ k : Nat, k < i ∨ i + n ≤ k → out[k]? = pts[k]?) ∧
        (∀ k : Nat, i ≤ k → k < i + n → ∃ p, out[k]? = some p ∧ p.Has_dist = true) := by
  intro n
  induction n with
  | zero =>
    intro i d pts _
    exact ⟨pts, rfl, rfl, rfl, fun _ _ => rfl, fun k h1 h2 => by omega⟩
  | succ n ih =>
    intro i d pts hle
    have hi : i < pts.length := by omega
    have hget := List.getElem?_eq_getElem hi
    simp only [betweenLoop, addSegment_eq distP pts i d hi, hget]
    obtain ⟨out, h1, h2, h3, h4, h5⟩ := ih (i + 1) (d + segment distP pts i)
      (pts.set i { pts[i] with
        Dist_traveled := lastMeasure + (d + segment distP pts i) * mPUnit, Has_dist := true })
      (by rw [List.length_set]; omega)
    refine ⟨out, h1, by rw [h2, List.length_set], ?_, ?_, ?_⟩
    · rw [h3]
      exact coords_set pts i _ _ hget rfl
    · intro k hk
      rw [h4 k (by omega), List.getElem?_set]
      rw [if_neg (by omega)]
    · intro k hk1 hk2
      by_cases hki : k = i
      · subst hki
        rw [h4 k (by omega), List.getElem?_set]
        simp only [if_true, hi]
        exact ⟨_, rfl, rfl⟩
      · exact h5 k (by omega) (by omega)

theorem betweenLoop_values {distP : ShapePoint → ShapePoint → Rat} (hd : CoordinatesOnly distP)
    (mPUnit lastMeasure : Rat) :
    ∀ (n i : Nat) (d : Rat) (pts out : List ShapePoint), 0 < i → i + n ≤ pts.length →
      betweenLoop distP mPUnit lastMeasure n i d pts = some out →
      ∀ k : Nat, i ≤ k → k < i + n →
        ∃ p, out[k]? = some p ∧
          p.Dist_traveled = lastMeasure + (d + pathLength distP pts (i - 1) k) * mPUnit := by
  intro n
  induction n with
  | zero => intro i d pts out _ _ _ k h1 h2; omega
  | succ n ih =>
    intro i d pts out hpos hle h k hk1 hk2
    have hi : i < pts.length := by omega
    have hget := List.getElem?_eq_getElem hi
    simp only [betweenLoop, addSegment_eq distP pts i d hi, hget] at h
    have hlen1 : i + 1 + n ≤ (pts.set i { pts[i] with
        Dist_traveled := lastMeasure + (d + segment distP pts i) * mPUnit,
        Has_dist := true }).length := by
      rw [List.length_set]; omega
    have hcoords := coords_set pts i pts[i] { pts[i] with
        Dist_traveled := lastMeasure + (d + segment distP pts i) * mPUnit,
        Has_dist := true } hget rfl
    by_cases hki : k = i
    · subst hki
      obtain ⟨out1, h1, _, _, h4, _⟩ := betweenLoop_spec distP mPUnit lastMeasure n (k + 1)
        (d + segment distP pts k) _ hlen1
      rw [h] at h1
      cases h1
      rw [h4 k (by omega), List.getElem?_set]
      simp only [if_true, hi]
      refine ⟨_, rfl, ?_⟩
      have hk : k - 1 + 1 = k := by omega
      have := pathLength_succ_right distP pts (k - 1) (k - 1) (le_refl _)
      rw [hk, pathLength_self, zero_add] at this
      simp only [this]
    · obtain ⟨p, hp1, hp2⟩ := ih (i + 1) _ _ out (by omega) hlen1 h k (by omega) (by omega)
      refine ⟨p, hp1, ?_⟩
      rw [hp2, pathLength_congr hd hcoords]
      have hi1 : i - 1 + 1 = i := by omega
      have := pathLength_succ_left distP pts (i - 1) k (by omega)
      rw [hi1] at this
      simp only [Nat.add_sub_cancel]
      rw [this]
      ring

theorem remeasureBetween_spec (distP : ShapePoint → ShapePoint → Rat) (i end_ : Nat)
    (mPUnit lastMeasure : Rat) (pts : List ShapePoint) (hle : end_ ≤ pts.length) :
    ∃ out, remeasureBetween distP i end_ mPUnit lastMeasure pts = some out ∧
      out.length = pts.length ∧
      out.map ShapePoint.coords = pts.map ShapePoint.coords ∧
      (∀ k : Nat, k < i ∨ end_ ≤ k → out[k]? = pts[k]?) ∧
      (∀ k : Nat, i ≤ k → k < end_ → ∃ p, out[k]? = some p ∧ p.Has_dist = true) := by
  unfold remeasureBetween
  by_cases hie : i ≤ end_
  · obtain ⟨out, h1, h2, h3, h4, h5⟩ := betweenLoop_spec distP mPUnit lastMeasure (end_ - i) i 0
      pts (by omega)
    refine ⟨out, h1, h2, h3, ?_, ?_⟩
    · intro k hk
      exact h4 k (by omega)
    · intro k hk1 hk2
      exact h5 k hk1 (by omega)
  · have h0 : end_ - i = 0 := by omega
    rw [h0]
    exact ⟨pts, rfl, rfl, rfl, fun _ _ => rfl, fun k h1 h2 => by omega⟩

theorem remeasureBetween_values {distP : ShapePoint → ShapePoint → Rat}
    (hd : CoordinatesOnly distP) (i end_ : Nat) (mPUnit lastMeasure : Rat)
    (pts out : List ShapePoint) (hpos : 0 < i) (hle : end_ ≤ pts.length)
    (h : remeasureBetween distP i end_ mPUnit lastMeasure pts = some out) :
    ∀ k : Nat, i ≤ k → k < end_ →
      ∃ p, out[k]? = some p ∧
        p.Dist_traveled = lastMeasure + pathLength distP pts (i - 1) k * mPUnit := by
  intro k hk1 hk2
  unfold remeasureBetween at h
  obtain ⟨p, hp1, hp2⟩ := betweenLoop_values hd mPUnit lastMeasure (end_ - i) i 0 pts out hpos
    (by omega) h k hk1 (by omega)
  exact ⟨p, hp1, by rw [hp2, zero_add]⟩

theorem unknownStep_spec (distP : ShapePoint → ShapePoint → Rat) (avgMeasure : Rat)
    (pts0 : List ShapePoint) (i : Nat) (st : UnknownState) (hi : i ≤ pts0.length)
    (hinv : UnknownInv pts0 i st) :
    ∃ st1, unknownStep distP avgMeasure i st = some st1 ∧ UnknownInv pts0 (i + 1) st1 := by
  have hlen := hinv.len
  have hcond : ∃ b, (if i = st.pts.length then some true
      else (st.pts[i]?).map ShapePoint.HasDistanceTraveled) = some b ∧
      (b = true → i = pts0.length ∨ Measured pts0 i) ∧
      (b = false → i < pts0.length ∧ ¬ Measured pts0 i) := by
    by_cases he : i = st.pts.length
    · rw [if_pos he]
      exact ⟨true, rfl, fun _ => Or.inl (by omega), fun h => by cases h⟩
    · rw [if_neg he]
      have hlt : i < pts0.length := by omega
      rw [hinv.ahead i (le_refl _), List.getElem?_eq_getElem hlt]
      refine ⟨pts0[i].Has_dist, rfl, ?_, ?_⟩
      · intro hb
        exact Or.inr ⟨pts0[i], List.getElem?_eq_getElem hlt, hb⟩
      · intro hb
        refine ⟨hlt, ?_⟩
        rintro ⟨p, hp, hm⟩
        rw [List.getElem?_eq_getElem hlt] at hp
        cases hp
        rw [hb] at hm
        cases hm
  obtain ⟨b, hb, hbt, hbf⟩ := hcond
  unfold unknownStep
  simp only [hb]
  cases b with
  | true =>
    simp only
    have hmeas := hbt rfl
    by_cases hum : st.lastUMIndex > -1
    · simp only [hum, if_true]
      have hpend : 0 ≤ st.lastUMIndex ∧ st.lastUMIndex < (i : Int) ∧
          ∀ k : Nat, st.lastUMIndex ≤ (k : Int) → k < i → ¬ Measured pts0 k := by
        rcases hinv.pending with h | h
        · omega
        · exact h
      obtain ⟨out, h1, h2, _, h4, h5⟩ := remeasureBetween_spec distP st.lastUMIndex.toNat i
        avgMeasure st.lastM st.pts (by omega)
      simp only [h1, Option.map_some']
      have hinv1 : ∀ lm, UnknownInv pts0 (i + 1) { lastUMIndex := -1, lastM := lm, pts := out } := by
        intro lm
        refine ⟨by rw [h2, hlen], ?_, ?_, ?_, Or.inl rfl, fun _ => rfl⟩
        · intro k hk
          show out[k]? = pts0[k]?
          rw [h4 k (Or.inr (by omega))]
          exact hinv.ahead k (by omega)
        · intro k p0 hk hp0
          show out[k]? = some p0
          by_cases hin : st.lastUMIndex ≤ (k : Int) ∧ k < i
          · exact absurd ⟨p0, hk, hp0⟩ (hpend.2.2 k hin.1 hin.2)
          · rw [h4 k (by omega)]
            exact hinv.kept k p0 hk hp0
        · intro k hk hkl
          left
          show ∃ p, out[k]? = some p ∧ p.Has_dist = true
          by_cases hku : k < st.lastUMIndex.toNat
          · rw [h4 k (Or.inl hku)]
            rcases hinv.done k (by omega) hkl with h | h
            · exact h
            · omega
          · by_cases hki : k < i
            · exact h5 k (by omega) hki
            · have hki1 : k = i := by omega
              subst hki1
              rw [h4 k (Or.inr (le_refl _))]
              rcases hmeas with h | ⟨p, hp, hm⟩
              · omega
              · exact ⟨p, by rw [hinv.ahead k (le_refl _)]; exact hp, hm⟩
      by_cases hil : i < out.length
      · simp only [hil, if_true, List.getElem?_eq_getElem hil]
        exact ⟨_, rfl, hinv1 _⟩
      · simp only [hil, if_false]
        exact ⟨_, rfl, hinv1 _⟩
    · simp only [hum, if_false]
      have hneg : st.lastUMIndex = -1 := by
        rcases hinv.pending with h | h
        · exact h
        · omega
      have hinv1 : ∀ lm, UnknownInv pts0 (i + 1)
          { lastUMIndex := st.lastUMIndex, lastM := lm, pts := st.pts } := by
        intro lm
        refine ⟨hlen, fun k hk => hinv.ahead k (by omega), hinv.kept, ?_, Or.inl hneg,
          fun _ => hneg⟩
        intro k hk hkl
        left
        by_cases hki : k < i
        · rcases hinv.done k hki hkl with h | h
          · exact h
          · omega
        · have hki1 : k = i := by omega
          subst hki1
          rcases hmeas with h | ⟨p, hp, hm⟩
          · omega
          · exact ⟨p, by rw [hinv.ahead k (le_refl _)]; exact hp, hm⟩
      by_cases hil : i < st.pts.length
      · simp only [hil, if_true, List.getElem?_eq_getElem hil]
        exact ⟨_, rfl, hinv1 _⟩
      · simp only [hil, if_false]
        exact ⟨_, rfl, hinv1 _⟩
  | false =>
    simp only
    obtain ⟨hlt, hnm⟩ := hbf rfl
    by_cases hum : st.lastUMIndex = -1
    · simp only [hum, if_true]
      refine ⟨_, rfl, hlen, fun k hk => hinv.ahead k (by omega), hinv.kept, ?_, ?_,
        fun h => by omega⟩
      · intro k hk hkl
        by_cases hki : k < i
        · rcases hinv.done k hki hkl with h | h
          · exact Or.inl h
          · omega
        · right
          simp only
          omega
      · right
        refine ⟨by simp, by simp, ?_⟩
        intro k hk1 hk2
        simp only at hk1
        have : k = i := by omega
        subst this
        exact hnm
    · simp only [hum, if_false]
      have hpend : 0 ≤ st.lastUMIndex ∧ st.lastUMIndex < (i : Int) ∧
          ∀ k : Nat, st.lastUMIndex ≤ (k : Int) → k < i → ¬ Measured pts0 k := by
        rcases hinv.pending with h | h
        · exact absurd h hum
        · exact h
      refine ⟨_, rfl, hlen, fun k hk => hinv.ahead k (by omega), hinv.kept, ?_, ?_,
        fun h => by omega⟩
      · intro k hk hkl
        by_cases hki : k < i
        · exact hinv.done k hki hkl
        · right
          omega
      · right
        refine ⟨hpend.1, by omega, ?_⟩
        intro k hk1 hk2
        by_cases hki : k < i
        · exact hpend.2.2 k hk1 hki
        · have : k = i := by omega
          subst this
          exact hnm

theorem unknownLoop_spec (distP : ShapePoint → ShapePoint → Rat) (avgMeasure : Rat)
    (pts0 : List ShapePoint) :
    ∀ (n i : Nat) (st : UnknownState), i + n = pts0.length + 1 → UnknownInv pts0 i st →
      ∃ st1, unknownLoop distP avgMeasure n i st = some st1 ∧
        UnknownInv pts0 (pts0.length + 1) st1 := by
  intro n
  induction n with
  | zero =>
    intro i st hi hinv
    have : i = pts0.length + 1 := by omega
    subst this
    exact ⟨st, rfl, hinv⟩
  | succ n ih =>
    intro i st hi hinv
    obtain ⟨st1, h1, h2⟩ := unknownStep_spec distP avgMeasure pts0 i st (by omega) hinv
    obtain ⟨st2, h3, h4⟩ := ih (i + 1) st1 (by omega) h2
    exact ⟨st2, by simp only [unknownLoop, h1, h3], h4⟩

/-- After `remasureUnknown` every point has a known distance, and the points
that had one before are as they were. -/
theorem remasureUnknown_spec (distP : ShapePoint → ShapePoint → Rat) (shape : Shape)
    (avgMeasure : Rat) :
    ∃ out, remasureUnknown distP shape avgMeasure = some out ∧
      out.Id = shape.Id ∧ out.Points.length = shape.Points.length ∧
      (∀ p ∈ out.Points, p.Has_dist = true) ∧
      (∀ (k : Nat) (p0 : ShapePoint), shape.Points[k]? = some p0 → p0.Has_dist = true →
        out.Points[k]? = some p0) := by
  have hinit : UnknownInv shape.Points 0
      { lastUMIndex := -1, lastM := 0, pts := shape.Points } :=
    ⟨rfl, fun _ _ => rfl, fun _ _ h _ => h, fun k hk => by omega, Or.inl rfl, fun h => by omega⟩
  obtain ⟨st, h1, hinv⟩ := unknownLoop_spec distP avgMeasure shape.Points
    (shape.Points.length + 1) 0 _ (by omega) hinit
  refine ⟨{ shape with Points := st.pts }, by simp only [remasureUnknown, h1, Option.map_some'],
    rfl, hinv.len, ?_, hinv.kept⟩
  intro p hp
  obtain ⟨k, hk⟩ := List.mem_iff_getElem?.1 hp
  have hkl : k < shape.Points.length := by
    rw [← hinv.len]
    exact (List.getElem?_eq_some_iff.1 hk).1
  rcases hinv.done k (by omega) hkl with ⟨q, hq, hm⟩ | h
  · simp only at hk
    rw [hk] at hq
    cases hq
    exact hm
  · have := hinv.closed rfl
    omega

theorem knownStep_spec {distP : ShapePoint → ShapePoint → Rat} (hd : CoordinatesOnly distP)
    (pts0 : List ShapePoint) (i : Nat) (st : KnownState) (hi : i < pts0.length)
    (hinv : KnownInv distP pts0 i st) :
    ∃ st1, knownStep distP i st = some st1 ∧ KnownInv distP pts0 (i + 1) st1 := by
  have hlen := hinv.len
  have hil : i < st.pts.length := by omega
  have hseg : addSegment distP st.pts i st.d = some (st.d + segment distP pts0 i) := by
    rw [addSegment_eq distP st.pts i st.d hil, segment_congr hd hinv.coords]
  have hpi : st.pts[i]? = some pts0[i] := by
    rw [hinv.ahead i (le_refl _), List.getElem?_eq_getElem hi]
  have hp0 : pts0[i]? = some pts0[i] := List.getElem?_eq_getElem hi
  -- the path length from the last measured point
  have hdnew : st.hasLast = true → ∀ q : Nat, st.lastMIndex = (q : Int) → q < i →
      st.d = pathLength distP pts0 q (i - 1) →
      st.d + segment distP pts0 i = pathLength distP pts0 q i := by
    intro _ q _ hq hd1
    have h1 := pathLength_succ_right distP pts0 q (i - 1) (by omega)
    have h2 : i - 1 + 1 = i := by omega
    rw [h2] at h1
    rw [h1, hd1]
  unfold knownStep
  simp only [hseg, hpi, ShapePoint.HasDistanceTraveled]
  by_cases hm : pts0[i].Has_dist = true
  · -- the point at index i is measured
    have hmi : Measured pts0 i := ⟨pts0[i], hp0, hm⟩
    simp only [hm, if_true]
    -- a pair that ends at `i` starts at the last measured point
    have hpair : ∀ p1 : Nat, UsablePair distP pts0 p1 i →
        ∃ q : Nat, p1 = q ∧ st.hasLast = true ∧ st.lastMIndex = (q : Int) ∧
          (∃ p0, pts0[q]? = some p0 ∧ st.lastM = p0.Dist_traveled) ∧
          st.d + segment distP pts0 i = pathLength distP pts0 q i := by
      intro p1 hu
      obtain ⟨hlt, hmp, _, hnone, _⟩ := hu
      have hhl : st.hasLast = true := by
        cases hh : st.hasLast with
        | true => rfl
        | false => exact absurd hmp (hinv.noLast hh p1 hlt)
      obtain ⟨q, hq1, hq2, hq3, hq4, hq5, hq6⟩ := hinv.last hhl
      have hpq : p1 = q := by
        apply le_antisymm
        · by_contra hcon
          exact hq4 p1 (by omega) hlt hmp
        · by_contra hcon
          exact hnone q (by omega) hq2 hq3
      exact ⟨q, hpq, hhl, hq1, hq5, hdnew hhl q hq1 hq2 hq6⟩
    by_cases hcond : st.hasLast = true ∧ st.d + segment distP pts0 i > 0
    · -- a usable pair ends at index i
      obtain ⟨q, hq1, hq2, hq3, hq4, ⟨mp, hmp1, hmp2⟩, hq6⟩ := hinv.last hcond.1
      have hdq := hdnew hcond.1 q hq1 hq2 hq6
      have husable : UsablePair distP pts0 q i :=
        ⟨hq2, hq3, hmi, hq4, by rw [← hdq]; exact hcond.2⟩
      have hbetween : ∃ pts1,
          (if (i : Int) - st.lastMIndex > 1 then
            remeasureBetween distP (st.lastMIndex + 1).toNat i
              ((pts0[i].Dist_traveled - st.lastM) / (st.d + segment distP pts0 i)) st.lastM
              st.pts
          else some st.pts) = some pts1 ∧
          pts1.length = st.pts.length ∧
          pts1.map ShapePoint.coords = st.pts.map ShapePoint.coords ∧
          (∀ k : Nat, k ≤ q ∨ i ≤ k → pts1[k]? = st.pts[k]?) ∧
          (∀ k : Nat, q < k → k < i → ∃ pt, pts1[k]? = some pt ∧ pt.Has_dist = true ∧
            pt.Dist_traveled = st.lastM + pathLength distP pts0 q k *
              ((pts0[i].Dist_traveled - st.lastM) / (st.d + segment distP pts0 i))) := by
        have htn : (st.lastMIndex + 1).toNat = q + 1 := by omega
        by_cases hgap : (i : Int) - st.lastMIndex > 1
        · rw [if_pos hgap, htn]
          obtain ⟨out, h1, h2, h3, h4, h5⟩ := remeasureBetween_spec distP (q + 1) i
            ((pts0[i].Dist_traveled - st.lastM) / (st.d + segment distP pts0 i)) st.lastM
            st.pts (by omega)
          refine ⟨out, h1, h2, h3, fun k hk => h4 k (by omega), ?_⟩
          intro k hk1 hk2
          obtain ⟨pt, hpt1, hpt2⟩ := h5 k (by omega) hk2
          obtain ⟨pt1, hpt3, hpt4⟩ := remeasureBetween_values hd (q + 1) i _ st.lastM st.pts out
            (by omega) (by omega) h1 k (by omega) hk2
          rw [hpt1] at hpt3
          cases hpt3
          refine ⟨pt, hpt1, hpt2, ?_⟩
          rw [hpt4, pathLength_congr hd hinv.coords]
          simp only [Nat.add_sub_cancel]
        · rw [if_neg hgap]
          exact ⟨st.pts, rfl, rfl, rfl, fun _ _ => rfl, fun k hk1 hk2 => by omega⟩
      obtain ⟨pts1, hb1, hb2, hb3, hb4, hb5⟩ := hbetween
      have hpi1 : pts1[i]? = some pts0[i] := by rw [hb4 i (Or.inr (le_refl _)), hpi]
      simp only [hcond, and_self, if_true, hb1, hpi1]
      refine ⟨_, rfl, by rw [hb2, hlen], by rw [hb3, hinv.coords], ?_, ?_, ?_, ?_, ?_, ?_⟩
      · intro k hk
        show pts1[k]? = pts0[k]?
        rw [hb4 k (Or.inr (by omega))]
        exact hinv.ahead k (by omega)
      · intro k p0 hk hp
        show pts1[k]? = some p0
        by_cases hin : q < k ∧ k < i
        · exact absurd ⟨p0, hk, hp⟩ (hq4 k hin.1 hin.2)
        · rw [hb4 k (by omega)]
          exact hinv.kept k p0 hk hp
      · intro hh
        simp only [hm] at hh
        cases hh
      · intro _
        refine ⟨i, rfl, by omega, hmi, fun k h1 h2 => by omega, ⟨pts0[i], hp0, rfl⟩, ?_⟩
        simp only [Nat.add_sub_cancel, pathLength_self]
      · constructor
        · intro _
          exact ⟨q, i, by omega, husable⟩
        · intro _
          show 0 < st.c + 1
          omega
      · intro p1 q1 k hq1i hu hpk hkq
        show ∃ pt mp1 mq, pts1[k]? = some pt ∧ _
        by_cases hqi : q1 = i
        · subst hqi
          obtain ⟨q2, hp1q, _, hq2, _, _⟩ := hpair p1 hu
          have hqq : q2 = q := by
            have : (q2 : Int) = (q : Int) := by rw [← hq2, hq1]
            exact_mod_cast this
          subst hqq
          subst hp1q
          obtain ⟨pt, hpt1, hpt2, hpt3⟩ := hb5 k hpk hkq
          refine ⟨pt, mp, pts0[q1], hpt1, hpt2, hmp1, hp0, ?_⟩
          rw [hpt3, hmp2, hdq]
        · have hq1lt : q1 < i := by omega
          have hq1q : q1 ≤ q := by
            by_contra hcon
            exact hq4 q1 (by omega) hq1lt hu.2.2.1
          obtain ⟨pt, mp1, mq, h1, h2, h3, h4, h5⟩ := hinv.interp p1 q1 k hq1lt hu hpk hkq
          exact ⟨pt, mp1, mq, by rw [hb4 k (Or.inl (by omega)), h1], h2, h3, h4, h5⟩
    · -- no usable pair ends at index i
      have hnopair : ∀ p1 : Nat, ¬ UsablePair distP pts0 p1 i := by
        intro p1 hu
        obtain ⟨q, hpq, hhl, _, _, hdq⟩ := hpair p1 hu
        subst hpq
        apply hcond
        refine ⟨hhl, ?_⟩
        rw [hdq]
        exact hu.2.2.2.2
      have hite : (if st.hasLast = true ∧ st.d + segment distP pts0 i > 0 then
          (match
            (if (i : Int) - st.lastMIndex > 1 then
              remeasureBetween distP (st.lastMIndex + 1).toNat i
                ((pts0[i].Dist_traveled - st.lastM) / (st.d + segment distP pts0 i)) st.lastM
                st.pts
            else some st.pts) with
          | none => none
          | some pts1 =>
            some (st.c + 1,
              st.m + (pts0[i].Dist_traveled - st.lastM) / (st.d + segment distP pts0 i), pts1))
          else some (st.c, st.m, st.pts)) = some (st.c, st.m, st.pts) := if_neg hcond
      simp only [hite, hpi]
      refine ⟨_, rfl, hlen, hinv.coords, fun k hk => hinv.ahead k (by omega), hinv.kept,
        ?_, ?_, ?_, ?_⟩
      · intro hh
        simp only [hm] at hh
        cases hh
      · intro _
        refine ⟨i, rfl, by omega, hmi, fun k h1 h2 => by omega, ⟨pts0[i], hp0, rfl⟩, ?_⟩
        simp only [Nat.add_sub_cancel, pathLength_self]
      · constructor
        · intro hc
          obtain ⟨p1, q1, hq1, hu⟩ := hinv.usable.1 hc
          exact ⟨p1, q1, by omega, hu⟩
        · rintro ⟨p1, q1, hq1, hu⟩
          by_cases hqi : q1 = i
          · subst hqi
            exact absurd hu (hnopair p1)
          · exact hinv.usable.2 ⟨p1, q1, by omega, hu⟩
      · intro p1 q1 k hq1i hu hpk hkq
        by_cases hqi : q1 = i
        · subst hqi
          exact absurd hu (hnopair p1)
        · exact hinv.interp p1 q1 k (by omega) hu hpk hkq
  · -- the point at index i is not measured
    have hnm : ¬ Measured pts0 i := by
      rintro ⟨p, hp, hpm⟩
      rw [hp0] at hp
      cases hp
      exact hm hpm
    simp only [hm, if_false]
    refine ⟨_, rfl, hlen, hinv.coords, fun k hk => hinv.ahead k (by omega), hinv.kept,
      ?_, ?_, ?_, ?_⟩
    · intro hh k hk
      by_cases hki : k < i
      · exact hinv.noLast hh k hki
      · have : k = i := by omega
        subst this
        exact hnm
    · intro hh
      obtain ⟨q, hq1, hq2, hq3, hq4, hq5, hq6⟩ := hinv.last hh
      refine ⟨q, hq1, by omega, hq3, ?_, hq5, ?_⟩
      · intro k h1 h2
        by_cases hki : k < i
        · exact hq4 k h1 hki
        · have : k = i := by omega
          subst this
          exact hnm
      · simp only [Nat.add_sub_cancel]
        exact hdnew hh q hq1 hq2 hq6
    · constructor
      · intro hc
        obtain ⟨p1, q1, hq1, hu⟩ := hinv.usable.1 hc
        exact ⟨p1, q1, by omega, hu⟩
      · rintro ⟨p1, q1, hq1, hu⟩
        by_cases hqi : q1 = i
        · subst hqi
          exact absurd hu.2.2.1 hnm
        · exact hinv.usable.2 ⟨p1, q1, by omega, hu⟩
    · intro p1 q1 k hq1i hu hpk hkq
      by_cases hqi : q1 = i
      · subst hqi
        exact absurd hu.2.2.1 hnm
      · exact hinv.interp p1 q1 k (by omega) hu hpk hkq

theorem knownLoop_spec {distP : ShapePoint → ShapePoint → Rat} (hd : CoordinatesOnly distP)
    (pts0 : List ShapePoint) :
    ∀ (n i : Nat) (st : KnownState), i + n = pts0.length → KnownInv distP pts0 i st →
      ∃ st1, knownLoop distP n i st = some st1 ∧ KnownInv distP pts0 pts0.length st1 := by
  intro n
  induction n with
  | zero =>
    intro i st hi hinv
    have : i = pts0.length := by omega
    subst this
    exact ⟨st, rfl, hinv⟩
  | succ n ih =>
    intro i st hi hinv
    obtain ⟨st1, h1, h2⟩ := knownStep_spec hd pts0 i st (by omega) hinv
    obtain ⟨st2, h3, h4⟩ := ih (i + 1) st1 (by omega) h2
    exact ⟨st2, by simp only [knownLoop, h1, h3], h4⟩

theorem measured_lt {pts : List ShapePoint} {k : Nat} (h : Measured pts k) : k < pts.length := by
  obtain ⟨p, hp, _⟩ := h
  exact (List.getElem?_eq_some_iff.1 hp).1

/-- What `remasureKnown` returns: `nulled` is false exactly when the shape has a
usable pair; the points strictly between the two points of a usable pair
are interpolated, and the measured points are as they were. -/
theorem remasureKnown_spec {distP : ShapePoint → ShapePoint → Rat} (hd : CoordinatesOnly distP)
    (shape : Shape) :
    ∃ avg nulled out, remasureKnown distP shape = some (avg, nulled, out) ∧
      out.Points.length = shape.Points.length ∧
      (nulled = false ↔ ∃ p q : Nat, UsablePair distP shape.Points p q) ∧
      (∀ (k : Nat) (p0 : ShapePoint), shape.Points[k]? = some p0 → p0.Has_dist = true →
        out.Points[k]? = some p0) ∧
      (∀ p q k : Nat, UsablePair distP shape.Points p q → p < k → k < q →
        ∃ pt mp mq, out.Points[k]? = some pt ∧ pt.Has_dist = true ∧
          shape.Points[p]? = some mp ∧ shape.Points[q]? = some mq ∧
          pt.Dist_traveled = mp.Dist_traveled +
            pathLength distP shape.Points p k *
              ((mq.Dist_traveled - mp.Dist_traveled) / pathLength distP shape.Points p q)) := by
  have hinit : KnownInv distP shape.Points 0
      { c := 0, m := 0, lastMIndex := -1, lastM := -1, hasLast := false, d := 0,
        pts := shape.Points } :=
    ⟨rfl, rfl, fun _ _ => rfl, fun _ _ h _ => h, fun _ k hk => (by omega),
      fun h => (by cases h),
      ⟨fun h => (by cases h), fun ⟨_, q, hq, _⟩ => (by omega)⟩,
      fun p q k hq => (by omega)⟩
  obtain ⟨st, h1, hinv⟩ := knownLoop_spec hd shape.Points shape.Points.length 0 _ (by omega) hinit
  have husable : 0 < st.c ↔ ∃ p q : Nat, UsablePair distP shape.Points p q := by
    rw [hinv.usable]
    constructor
    · rintro ⟨p, q, _, hu⟩
      exact ⟨p, q, hu⟩
    · rintro ⟨p, q, hu⟩
      exact ⟨p, q, measured_lt hu.2.2.1, hu⟩
  have hinterp : ∀ p q k : Nat, UsablePair distP shape.Points p q → p < k → k < q →
      ∃ pt mp mq, st.pts[k]? = some pt ∧ pt.Has_dist = true ∧
        shape.Points[p]? = some mp ∧ shape.Points[q]? = some mq ∧
        pt.Dist_traveled = mp.Dist_traveled +
          pathLength distP shape.Points p k *
            ((mq.Dist_traveled - mp.Dist_traveled) / pathLength distP shape.Points p q) :=
    fun p q k hu => hinv.interp p q k (measured_lt hu.2.2.1) hu
  unfold remasureKnown
  simp only [h1]
  by_cases hc : st.c = 0
  · rw [if_pos hc]
    refine ⟨_, _, _, rfl, hinv.len, ?_, hinv.kept, hinterp⟩
    constructor
    · intro h; cases h
    · intro h
      have := husable.2 h
      omega
  · rw [if_neg hc]
    refine ⟨_, _, _, rfl, hinv.len, ?_, hinv.kept, hinterp⟩
    constructor
    · intro _
      exact husable.1 (by omega)
    · intro _; rfl

/-- What `remeasure` does to a shape. -/
theorem remeasure_spec {distP : ShapePoint → ShapePoint → Rat} (hd : CoordinatesOnly distP)
    (shape : Shape) :
    ∃ out, remeasure distP shape = some out ∧
      out.Points.length = shape.Points.length ∧
      ((∃ p q : Nat, UsablePair distP shape.Points p q) →
        (∀ pt ∈ out.Points, pt.Has_dist = true) ∧
        ∀ p q k : Nat, UsablePair distP shape.Points p q → p < k → k < q →
          ∃ pt mp mq, out.Points[k]? = some pt ∧ pt.Has_dist = true ∧
            shape.Points[p]? = some mp ∧ shape.Points[q]? = some mq ∧
            pt.Dist_traveled = mp.Dist_traveled +
              pathLength distP shape.Points p k *
                ((mq.Dist_traveled - mp.Dist_traveled) /
                  pathLength distP shape.Points p q)) ∧
      ((¬ ∃ p q : Nat, UsablePair distP shape.Points p q) →
        ∀ pt ∈ out.Points, pt.Has_dist = false ∧ pt.Dist_traveled = 0) := by
  obtain ⟨avg, nulled, shape1, h1, h2, h3, _, h5⟩ := remasureKnown_spec hd shape
  unfold remeasure
  simp only [h1]
  cases hn : nulled with
  | false =>
    obtain ⟨out, g1, _, g3, g4, g5⟩ := remasureUnknown_spec distP shape1 avg
    simp only [Bool.not_false, if_true, g1]
    refine ⟨out, rfl, by rw [g3, h2], ?_, ?_⟩
    · intro _
      refine ⟨g4, ?_⟩
      intro p q k hu hpk hkq
      obtain ⟨pt, mp, mq, k1, k2, k3, k4, k5⟩ := h5 p q k hu hpk hkq
      exact ⟨pt, mp, mq, g5 k pt k1 k2, k2, k3, k4, k5⟩
    · intro hno
      exact absurd (h3.1 hn) hno
  | true =>
    simp only [Bool.not_true, Bool.false_eq_true, if_false]
    refine ⟨_, rfl, by simp [h2], ?_, ?_⟩
    · intro hu
      have := h3.2 hu
      rw [hn] at this
      cases this
    · intro _ pt hpt
      simp only [List.mem_map] at hpt
      obtain ⟨p0, _, hp0⟩ := hpt
      subst hp0
      exact ⟨rfl, rfl⟩

theorem coordinatesOnly_lineDist : CoordinatesOnly lineDist := by
  intro a b a1 b1 ha hb
  simp only [ShapePoint.coords, Prod.mk.injEq] at ha hb
  simp only [lineDist, ha.1, hb.1]

/-- C13, the claim fails at: a shape of two points of which the first has the
measurement 5 and the second has none.  One point had a known measurement
before the call, and `remeasure` clears both points. -/
theorem one_measured_point_is_cleared :
    Measured oneMeasuredShape.Points 0 ∧
    remeasure lineDist oneMeasuredShape =
      some { Id := "s", Points := [linePoint 0 none, linePoint 1 none] } := by
  refine ⟨⟨linePoint 0 (some 5), rfl, rfl⟩, ?_⟩
  decide

/-- C13, amended: when the distance function reads coordinates only,
`remeasure` returns for every shape and keeps the number of points; it
leaves every point with a known cumulative distance whenever some two
measured points with no measured point between them lie at a positive path
length from each other, and it clears all points to unknown (no distance,
value 0) exactly when the shape has no two such points, as when no point or
only one point has a known measurement. -/
theorem remeasure_known_or_cleared (distP : ShapePoint → ShapePoint → Rat)
    (hd : CoordinatesOnly distP) (shape : Shape) :
    ∃ out, remeasure distP shape = some out ∧
      out.Points.length = shape.Points.length ∧
      ((∃ p q : Nat, UsablePair distP shape.Points p q) →
        ∀ pt ∈ out.Points, pt.Has_dist = true) ∧
      ((¬ ∃ p q : Nat, UsablePair distP shape.Points p q) →
        ∀ pt ∈ out.Points, pt.Has_dist = false ∧ pt.Dist_traveled = 0) ∧
      ((∀ j k : Nat, Measured shape.Points j → Measured shape.Points k → j = k) →
        ¬ ∃ p q : Nat, UsablePair distP shape.Points p q) := by
  obtain ⟨out, h1, h2, h3, h4⟩ := remeasure_spec hd shape
  refine ⟨out, h1, h2, fun hu => (h3 hu).1, h4, ?_⟩
  rintro hone ⟨p, q, hlt, hp, hq, _⟩
  have := hone p q hp hq
  omega

/-- Witness of C13: the shape with the measurements 0 and 100 at the positions
0 and 10 has a usable pair, and every point has a known distance
afterwards; the shape with one measurement has none, and is cleared. -/
theorem remeasure_known_or_cleared_witness :
    CoordinatesOnly lineDist ∧
    UsablePair lineDist interpolationShape.Points 0 2 ∧
    (∃ out, remeasure lineDist interpolationShape = some out ∧
      ∀ pt ∈ out.Points, pt.Has_dist = true) ∧
    (∃ out, remeasure lineDist oneMeasuredShape = some out ∧
      ∀ pt ∈ out.Points, pt.Has_dist = false ∧ pt.Dist_traveled = 0) := by
  have hu : UsablePair lineDist interpolationShape.Points 0 2 := by
    refine ⟨by decide, ⟨_, rfl, rfl⟩, ⟨_, rfl, rfl⟩, ?_, ?_⟩
    swap
    · simp only [pathLength, segment, lineDist, interpolationShape, linePoint]
      simp only [List.range_succ, List.range_zero]
      norm_num
    intro k h1 h2
    have hk : k = 1 := by omega
    subst hk
    rintro ⟨p, hp, hm⟩
    simp only [interpolationShape, List.getElem?_cons_succ, List.getElem?_cons_zero,
      Option.some.injEq] at hp
    subst hp
    cases hm
  refine ⟨coordinatesOnly_lineDist, hu, ?_, ?_⟩
  · obtain ⟨out, h1, _, h3, _⟩ :=
      remeasure_known_or_cleared lineDist coordinatesOnly_lineDist interpolationShape
    exact ⟨out, h1, h3 ⟨0, 2, hu⟩⟩
  obtain ⟨out, h1, _, _, h4, h5⟩ :=
    remeasure_known_or_cleared lineDist coordinatesOnly_lineDist oneMeasuredShape
  refine ⟨out, h1, h4 (h5 ?_)⟩
  intro j k ⟨p, hp, hm⟩ ⟨q, hq, hn⟩
  have hj : j = 0 := by
    rcases j with _ | _ | j
    · rfl
    · simp only [oneMeasuredShape, List.getElem?_cons_succ, List.getElem?_cons_zero,
        Option.some.injEq] at hp
      subst hp
      cases hm
    · simp [oneMeasuredShape] at hp
  have hk : k = 0 := by
    rcases k with _ | _ | k
    · rfl
    · simp only [oneMeasuredShape, List.getElem?_cons_succ, List.getElem?_cons_zero,
        Option.some.injEq] at hq
      subst hq
      cases hn
    · simp [oneMeasuredShape] at hq
  rw [hj, hk]

/-- C14: when the distance function reads coordinates only: for every shape
and every two measured points at the positions `p < q`, with the
measurements `M_p` and `M_q`, with no measured point strictly between them
and a positive path length `D` from `p` to `q`, `remeasure` returns, and
afterwards every point `k` with `p < k < q` has the known distance
`M_p + L_k * (M_q - M_p) / D`, where `L_k` is the path length from `p` to
`k`. -/
theorem remeasure_interpolates (distP : ShapePoint → ShapePoint → Rat)
    (hd : CoordinatesOnly distP) (shape : Shape) (p q : Nat) (mp mq : ShapePoint)
    (hp : shape.Points[p]? = some mp) (hq : shape.Points[q]? = some mq)
    (hpm : mp.Has_dist = true) (hqm : mq.Has_dist = true) (hpq : p < q)
    (hnone : ∀ k : Nat, p < k → k < q → ¬ Measured shape.Points k)
    (hD : 0 < pathLength distP shape.Points p q) :
    ∃ out, remeasure distP shape = some out ∧
      ∀ k : Nat, p < k → k < q →
        ∃ pt, out.Points[k]? = some pt ∧ pt.Has_dist = true ∧
          pt.Dist_traveled = mp.Dist_traveled +
            pathLength distP shape.Points p k * (mq.Dist_traveled - mp.Dist_traveled) /
              pathLength distP shape.Points p q := by
  have hu : UsablePair distP shape.Points p q := ⟨hpq, ⟨mp, hp, hpm⟩, ⟨mq, hq, hqm⟩, hnone, hD⟩
  obtain ⟨out, h1, _, h3, _⟩ := remeasure_spec hd shape
  refine ⟨out, h1, ?_⟩
  intro k hpk hkq
  obtain ⟨pt, mp1, mq1, k1, k2, k3, k4, k5⟩ := (h3 ⟨p, q, hu⟩).2 p q k hu hpk hkq
  rw [hp] at k3
  rw [hq] at k4
  cases k3
  cases k4
  exact ⟨pt, k1, k2, by rw [k5, mul_div_assoc]⟩

/-- Witness of C14: the measurements 0 and 100 at the path positions 0 and 10
with an unmeasured point at the path position 4 give that point the
distance 40. -/
theorem remeasure_interpolates_witness :
    CoordinatesOnly lineDist ∧
    pathLength lineDist interpolationShape.Points 0 1 = 4 ∧
    pathLength lineDist interpolationShape.Points 0 2 = 10 ∧
    (∃ out, remeasure lineDist interpolationShape = some out ∧
      ∃ pt, out.Points[1]? = some pt ∧ pt.Has_dist = true ∧ pt.Dist_traveled = 40) := by
  have h01 : pathLength lineDist interpolationShape.Points 0 1 = 4 := by
    simp only [pathLength, segment, lineDist, interpolationShape, linePoint]
    simp only [List.range_succ, List.range_zero]
    norm_num
  have h02 : pathLength lineDist interpolationShape.Points 0 2 = 10 := by
    simp only [pathLength, segment, lineDist, interpolationShape, linePoint]
    simp only [List.range_succ, List.range_zero]
    norm_num
  refine ⟨coordinatesOnly_lineDist, h01, h02, ?_⟩
  obtain ⟨out, h1, h2⟩ := remeasure_interpolates lineDist coordinatesOnly_lineDist
    interpolationShape 0 2 (linePoint 0 (some 0)) (linePoint 10 (some 100)) rfl rfl rfl rfl
    (by decide)
    (by
      intro k hk1 hk2
      have hk : k = 1 := by omega
      subst hk
      rintro ⟨p, hp, hm⟩
      simp only [interpolationShape, List.getElem?_cons_succ, List.getElem?_cons_zero,
        Option.some.injEq] at hp
      subst hp
      cases hm)
    (by rw [h02]; norm_num)
  obtain ⟨pt, k1, k2, k3⟩ := h2 1 (by decide) (by decide)
  refine ⟨out, h1, pt, k1, k2, ?_⟩
  rw [k3, h01, h02]
  simp only [linePoint, Option.getD_some]
  norm_num


end GtfsTidy
